import Mathlib

/-!
# snapper: the snapshot file format (`snap_record.c`), the ignore list, the traversal and the sort

A shallow embedding of the writer (`hprintbuf`, `rprintbuf`,
`write_snap_record_to_file`), of the reader (`_getline`,
`read_snap_record_from_file`, `parse_snapper_file_line`) and of the
initialisation (`init_snap_record`, `parse_delimiter_string`) of
`snap_record.c`, of the ignore list of `snapper.c` (`add_to_ignore_array`,
`should_be_ignored`), of the traversal loop and the sort step of `main` and
of `qsort_compare`, of `init_config_file`,
`add_key_value_record_to_config_file` and `trim` of `configfile.c`, and of
`create_new_path` of `clop.c`, and theorems about them.

Conventions of the embedding.

* A C `char` is a `Char` whose code is the byte value.  A C string is the list
  of its characters before the terminator: the end of the list is the
  terminating NUL, and a `'\x00'` inside a list is read as a terminator too.
* Pointers into an output buffer are replaced by the list of the characters
  written so far (`dest_char - save_pos` is its length).
* Behaviour that C leaves undefined (reading past a terminator, reading an
  uninitialised buffer, printing a NULL string) is reported as a `Fault`.
* Integer typedefs of the system headers, `PATH_MAX`, `ctime` and the
  floating-point conversions of `printf` are parameters (`Platform`);
  `ieee_printf_f` is the conversion of a platform with IEEE 754 arithmetic.
* The hierarchy that `fts_read` walks is a forest (`fts_forest`); the order
  of the walk, the second visit of a directory and the effect of `FTS_SKIP`
  are those of fts(3).  `qsort` is a relation between the array before and
  after the call (`qsort_result`).
* The two counters of the store are `int`s in C (`snap_record.h`, lines 57
  and 58).  `add_record_to_snap` computes with their values;
  `add_record_to_snap_int` is the same function with the two `int` additions
  checked, an overflow being a `Fault`, and the two agree on every call in
  which no addition overflows.
* The block that `key_value_array` points to is known by its size in bytes
  (`allocated`); storing an entry past its end is a `config_fault`.
-/

namespace Snapper

/-! ## C strings and libc -/

/-- Undefined behaviour reached by the C code; the model stops there. -/
inductive Fault where
  /-- a scan pointer stepped past the terminator of its string and was read -/
  | overrun
  /-- `local_buffer` was read before anything was written to it -/
  | uninit
  /-- a NULL pointer was passed to a `%s` conversion -/
  | nullstr
  /-- a line buffer was read that holds no terminator -/
  | unterminated
  /-- an addition of two `int` values has a result that `int` cannot hold -/
  | int_overflow
deriving DecidableEq, Repr

deriving instance DecidableEq for Except

/-- The characters of a buffer up to its first NUL: the C string it holds. -/
def cstr (s : List Char) : List Char :=
  s.takeWhile (fun c => c ≠ '\x00')

/-- C `strlen`. -/
def strlen (s : List Char) : Nat :=
  (cstr s).length

/-- Content left by `snprintf(buf, n, "%s", s)`: at most `n - 1` characters. -/
def snprintf_s (n : Nat) (s : List Char) : List Char :=
  (cstr s).take (n - 1)

/-- Content left by `snprintf(buf, n, "%c", c)`, as a C string. -/
def snprintf_c (n : Nat) (c : Char) : List Char :=
  (cstr [c]).take (n - 1)

/-- Result of `strncmp(a, b, n) == 0`: the first `n` characters agree, the
comparison stopping at a common terminator. -/
def strncmp_eq : List Char → List Char → Nat → Bool
  | _, _, 0 => true
  | [], [], _ + 1 => true
  | [], b :: _, _ + 1 => b = '\x00'
  | a :: _, [], _ + 1 => a = '\x00'
  | a :: as, b :: bs, n + 1 =>
    if a = b then (if a = '\x00' then true else strncmp_eq as bs n) else false

/-- C `strncat(dst, src, n)`: appends at most `n` characters of `src`. -/
def strncat (dst src : List Char) (n : Nat) : List Char :=
  cstr dst ++ (cstr src).take n

/-- The macro `MAX` of `util_macros.h`. -/
def MAX (x y : Nat) : Nat :=
  if x > y then x else y

/-- An integer type of the C implementation. -/
structure CInt where
  signed : Bool
  bits : Nat
deriving DecidableEq, Repr

/-- Conversion of a mathematical integer to a C integer type (two's
complement wrap-around). -/
def CInt.conv (t : CInt) (x : Int) : Int :=
  if t.signed then (x + 2 ^ (t.bits - 1)) % 2 ^ t.bits - 2 ^ (t.bits - 1)
  else x % 2 ^ t.bits

/-- Largest value of a C integer type. -/
def CInt.max (t : CInt) : Int :=
  if t.signed then 2 ^ (t.bits - 1) - 1 else 2 ^ t.bits - 1

/-- Smallest value of a C integer type. -/
def CInt.min (t : CInt) : Int :=
  if t.signed then - 2 ^ (t.bits - 1) else 0

/-- What the source takes from the system headers and from libc. -/
structure Platform where
  /-- `PATH_MAX` of `<limits.h>` -/
  PATH_MAX : Nat
  /-- width of `long` and `unsigned long` -/
  long_bits : Nat
  /-- width of `int` -/
  int_bits : Nat
  time_t : CInt
  off_t : CInt
  ino_t : CInt
  uid_t : CInt
  gid_t : CInt
  mode_t : CInt
  /-- libc `ctime`: the date string of an epoch time -/
  ctime : Int → List Char
  /-- text of `printf("%.<prec>f", (float)num / den)` -/
  printf_f : Nat → Int → Nat → List Char

/-- The type `long`. -/
def Platform.long (P : Platform) : CInt := ⟨true, P.long_bits⟩

/-- The type `unsigned long`. -/
def Platform.ulong (P : Platform) : CInt := ⟨false, P.long_bits⟩

/-- The type `int`. -/
def Platform.int (P : Platform) : CInt := ⟨true, P.int_bits⟩

/-- The decimal digit character of a number below ten. -/
def digit_char (d : Nat) : Char :=
  Char.ofNat (48 + d)

/-- Digits of `n` in base `b`, most significant first, with fuel. -/
def utoa_fuel (b : Nat) : Nat → Nat → List Char
  | 0, _ => []
  | fuel + 1, n =>
    if n < b then [digit_char n]
    else utoa_fuel b fuel (n / b) ++ [digit_char (n % b)]

/-- Text of `printf("%lu", n)` for a natural number: its decimal digits. -/
def utoa (n : Nat) : List Char :=
  utoa_fuel 10 (n + 1) n

/-- Text of `printf("%ld", x)`: the decimal digits, after `-` when negative. -/
def itoa (x : Int) : List Char :=
  if x < 0 then '-' :: utoa x.natAbs else utoa x.natAbs

/-- Text of `printf("%.4lu", n)`: at least four digits, padded with zeros. -/
def utoa_pad4 (n : Nat) : List Char :=
  List.replicate (4 - (utoa n).length) '0' ++ utoa n

/-- The exponent that the conversion to `float` gives the last bit of its
24-bit significand: 0 below 2^24, one more for each further bit. -/
def float_shift : Nat → Nat → Nat
  | 0, _ => 0
  | fuel + 1, n => if n < 2 ^ 24 then 0 else float_shift fuel (n / 2) + 1

/-- The value of `(float)n` in IEEE 754 single precision: `n` rounded to 24
significant bits, to nearest, ties to the even significand. -/
def float_of_nat (n : Nat) : Nat :=
  let unit := 2 ^ float_shift n n
  let quotient := n / unit
  let rest := n % unit
  if 2 * rest > unit ∨ (2 * rest = unit ∧ quotient % 2 = 1) then (quotient + 1) * unit
  else quotient * unit

/-- Text of `printf("%.<prec>f", x)` for `x = num / den`, with a libc that
rounds correctly: `x` rounded to `prec` decimals, to nearest, ties to even;
the integer part, a point, and `prec` digits. -/
def printf_fixed (prec : Nat) (num den : Nat) : List Char :=
  let scaled := num * 10 ^ prec
  let quotient := scaled / den
  let rest := scaled % den
  let rounded :=
    if 2 * rest > den ∨ (2 * rest = den ∧ quotient % 2 = 1) then quotient + 1 else quotient
  let fraction := utoa (rounded % 10 ^ prec)
  utoa (rounded / 10 ^ prec) ++ '.' :: (List.replicate (prec - fraction.length) '0' ++ fraction)

/-- Text of `printf("%.<prec>f", (float)num / den)` for a divisor that is a
power of two, on a platform with IEEE 754 arithmetic: the conversion to
`float` rounds, the division is exact, and so is the promotion to `double`. -/
def ieee_printf_f (prec : Nat) (num : Int) (den : Nat) : List Char :=
  if num < 0 then '-' :: printf_fixed prec (float_of_nat num.natAbs) den
  else printf_fixed prec (float_of_nat num.natAbs) den

/-! ## Data types (`snap_record.h`) -/

/-- The constant `INITIAL_ARRAY_SIZE`. -/
def INITIAL_ARRAY_SIZE : Nat := 200000

/-- The constant `ARRAY_CHUNK_SIZE`. -/
def ARRAY_CHUNK_SIZE : Nat := 50000

/-- The constant `MAX_RECORD_LENGTH`. -/
def MAX_RECORD_LENGTH (P : Platform) : Nat := P.PATH_MAX + 100

/-- The type `struct file_record_t`.  A `char *` field is `none` when NULL; an integer
field holds the value of its C type. -/
structure file_record where
  re_path : Option (List Char)
  re_atime : Int
  re_atime_str : Option (List Char)
  re_mtime : Int
  re_mtime_str : Option (List Char)
  re_ctime : Int
  re_ctime_str : Option (List Char)
  re_size : Int
  re_ino : Int
  re_uid : Int
  re_gid : Int
  re_mode : Int
  re_type : Char
  re_selected : Char
deriving DecidableEq, Repr

/-- The type `struct snap_record_t`.  Its `master_array` is the list of the entries
`0 .. currentArraySize - 1` of the C array, the only ones ever written. -/
structure snap_t where
  column_string : List Char
  field_delimiter : List Char
  record_delimiter : List Char
  currentArraySize : Nat
  currentArrayCapacity : Nat
  master_array : List file_record
deriving DecidableEq, Repr

/-! ## The writer -/

/-- The constant `MAX_HEADER` of `hprintbuf`. -/
def MAX_HEADER : Nat := 256

/-- The guarded copy of `local_buffer` into the output buffer: done only when
`(dest_char - save_pos) + strlen(local_buffer) < maxlen`. -/
def copy_if_room (dest local_buffer : List Char) (maxlen : Nat) : List Char :=
  if dest.length + strlen local_buffer < maxlen then dest ++ cstr local_buffer
  else dest

/-- The `switch` of `hprintbuf`: the content of `local_buffer` after it
(`none` while the buffer is uninitialised). -/
def hprintbuf_switch (local_buffer : Option (List Char)) : Char → Option (List Char)
  | 'p' => some (snprintf_s MAX_HEADER "Path".toList)
  | 'a' => some (snprintf_s MAX_HEADER "Last Accessed".toList)
  | 'A' => some (snprintf_s MAX_HEADER "atime".toList)
  | 'm' => some (snprintf_s MAX_HEADER "Last Modified".toList)
  | 'M' => some (snprintf_s MAX_HEADER "mtime".toList)
  | 'c' => some (snprintf_s MAX_HEADER "Last Mode Change".toList)
  | 'C' => some (snprintf_s MAX_HEADER "ctime".toList)
  | 's' => some (snprintf_s MAX_HEADER "Size".toList)
  | 'S' => some (snprintf_s MAX_HEADER "Size (raw)".toList)
  | 'i' => some (snprintf_s MAX_HEADER "inode".toList)
  | 'o' => some (snprintf_s MAX_HEADER "Owner".toList)
  | 'g' => some (snprintf_s MAX_HEADER "Group".toList)
  | 't' => some (snprintf_s MAX_HEADER "Type".toList)
  | 'T' => some (snprintf_s MAX_HEADER "Type (raw)".toList)
  | 'P' => some (snprintf_s MAX_HEADER "Mode".toList)
  | 'e' => some (snprintf_s MAX_HEADER "Selected".toList)
  | '%' => local_buffer
  | '\x00' => local_buffer
  | ' ' => local_buffer
  | c => some (snprintf_c MAX_HEADER c)

/-- The `for` loop of `hprintbuf`, on the rest of the column string, the
content of `local_buffer` and the output written so far. -/
def hprintbuf_loop (field_delimiter : List Char) (maxlen : Nat) :
    List Char → Option (List Char) → List Char → Except Fault (List Char)
  | [], _, dest => .ok dest
  | c :: src, local_buffer, dest =>
    if c = '\x00' ∨ ¬ dest.length < maxlen then .ok dest
    else if c ≠ '%' then
      if c = ' ' then hprintbuf_loop field_delimiter maxlen src local_buffer dest
      else hprintbuf_loop field_delimiter maxlen src local_buffer (dest ++ [c])
    else
      match hprintbuf_switch local_buffer (src.headD '\x00') with
      | none => .error .uninit
      | some name =>
        let dest1 := copy_if_room dest name maxlen
        let delim := snprintf_s MAX_HEADER field_delimiter
        let dest2 := copy_if_room dest1 delim maxlen
        match src with
        | [] => .error .overrun
        | code :: src' =>
          if code = '\x00' then .error .overrun
          else hprintbuf_loop field_delimiter maxlen src' (some delim) dest2

/-- The function `hprintbuf`: the header line written to the buffer (the value returned by
the C function is its length). -/
def hprintbuf (snap : snap_t) (maxlen : Nat) : Except Fault (List Char) :=
  match hprintbuf_loop snap.field_delimiter maxlen snap.column_string none [] with
  | .error f => .error f
  | .ok dest => .ok (copy_if_room dest (snprintf_s MAX_HEADER snap.record_delimiter) maxlen)

/-- The macro `IS_SET(flag, bit)`: `flag & bit` is not zero. -/
def IS_SET (flag : Int) (bit : Nat) : Bool :=
  Int.land flag bit != 0

/-- The permission bits of `<sys/stat.h>`. -/
def S_ISUID : Nat := 0o4000
def S_ISGID : Nat := 0o2000
def S_ISVTX : Nat := 0o1000
def S_IRUSR : Nat := 0o400
def S_IWUSR : Nat := 0o200
def S_IXUSR : Nat := 0o100
def S_IRGRP : Nat := 0o40
def S_IWGRP : Nat := 0o20
def S_IXGRP : Nat := 0o10
def S_IROTH : Nat := 0o4
def S_IWOTH : Nat := 0o2
def S_IXOTH : Nat := 0o1

/-- The macro `ADD_OCTAL_VALUE(mode, bit, comp, value)`. -/
def ADD_OCTAL_VALUE (mode : Int) (bit : Nat) (comp value : Nat) : Nat :=
  if IS_SET mode bit then comp + value else comp

/-- The number `comp_octal` that case `'P'` of `rprintbuf` builds. -/
def comp_octal (mode : Int) : Nat :=
  let c := ADD_OCTAL_VALUE mode S_ISUID 0 4000
  let c := ADD_OCTAL_VALUE mode S_ISGID c 2000
  let c := ADD_OCTAL_VALUE mode S_ISVTX c 1000
  let c := ADD_OCTAL_VALUE mode S_IRUSR c 400
  let c := ADD_OCTAL_VALUE mode S_IWUSR c 200
  let c := ADD_OCTAL_VALUE mode S_IXUSR c 100
  let c := ADD_OCTAL_VALUE mode S_IRGRP c 40
  let c := ADD_OCTAL_VALUE mode S_IWGRP c 20
  let c := ADD_OCTAL_VALUE mode S_IXGRP c 10
  let c := ADD_OCTAL_VALUE mode S_IROTH c 4
  let c := ADD_OCTAL_VALUE mode S_IWOTH c 2
  ADD_OCTAL_VALUE mode S_IXOTH c 1

/-- Case `'s'` of `rprintbuf`: the text printed for a size. -/
def size_text (P : Platform) (re_size : Int) : List Char :=
  if re_size < 1024 then itoa (P.int.conv re_size) ++ " bytes".toList
  else if re_size < 1048576 then P.printf_f 1 re_size 1024 ++ " KB".toList
  else if re_size < 1073741824 then P.printf_f 2 re_size 1048576 ++ " MB".toList
  else if re_size < 1099511627776 then P.printf_f 2 re_size 1073741824 ++ " GB".toList
  else P.printf_f 3 re_size 1099511627776 ++ " TB".toList

/-- The `switch` of `rprintbuf`: the content of `local_buffer` after it. -/
def rprintbuf_switch (P : Platform) (record : file_record) :
    Char → Except Fault (List Char)
  | '%' => .ok (snprintf_c P.PATH_MAX '%')
  | '\x00' => .ok (snprintf_c P.PATH_MAX '%')
  | 'p' =>
    match record.re_path with
    | none => .error .nullstr
    | some path => .ok (snprintf_s P.PATH_MAX path)
  | 'a' => .ok (snprintf_s P.PATH_MAX (P.ctime record.re_atime))
  | 'A' => .ok (snprintf_s P.PATH_MAX (itoa (P.long.conv record.re_atime)))
  | 'm' => .ok (snprintf_s P.PATH_MAX (P.ctime record.re_mtime))
  | 'M' => .ok (snprintf_s P.PATH_MAX (itoa (P.long.conv record.re_mtime)))
  | 'c' => .ok (snprintf_s P.PATH_MAX (P.ctime record.re_ctime))
  | 'C' => .ok (snprintf_s P.PATH_MAX (itoa (P.long.conv record.re_ctime)))
  | 's' => .ok (snprintf_s P.PATH_MAX (size_text P record.re_size))
  | 'S' => .ok (snprintf_s P.PATH_MAX (itoa (CInt.conv ⟨true, 64⟩ record.re_size)))
  | 'i' => .ok (snprintf_s P.PATH_MAX (itoa (P.ulong.conv record.re_ino)))
  | 'o' => .ok (snprintf_s P.PATH_MAX (itoa (P.ulong.conv record.re_uid)))
  | 'g' => .ok (snprintf_s P.PATH_MAX (itoa (P.ulong.conv record.re_gid)))
  | 't' => .ok (snprintf_c P.PATH_MAX record.re_type)
  | 'T' => .ok (snprintf_s P.PATH_MAX (itoa (CInt.conv ⟨false, 16⟩ record.re_mode)))
  | 'e' => .ok (snprintf_c P.PATH_MAX record.re_selected)
  | 'P' => .ok (snprintf_s P.PATH_MAX (utoa_pad4 (comp_octal record.re_mode)))
  | c => .ok (snprintf_c P.PATH_MAX c)

/-- The characters of a rendered field that the copy loop of `rprintbuf`
keeps: newline, carriage return and tab are dropped unless the code is
`n`, `r` or `t` respectively. -/
def strip_special (code : Char) (local_buffer : List Char) : List Char :=
  local_buffer.filter (fun b =>
    !((code != 'n' && b == '\n') || (code != 'r' && b == '\r') ||
      (code != 't' && b == '\t')))

/-- The guarded, stripping copy of a rendered field into the output buffer. -/
def copy_field_if_room (code : Char) (dest local_buffer : List Char)
    (maxlen : Nat) : List Char :=
  if dest.length + strlen local_buffer < maxlen then
    dest ++ strip_special code (cstr local_buffer)
  else dest

/-- The `for` loop of `rprintbuf`, on the rest of the column string and the
output written so far. -/
def rprintbuf_loop (P : Platform) (field_delimiter : List Char)
    (record : file_record) (maxlen : Nat) :
    List Char → List Char → Except Fault (List Char)
  | [], dest => .ok dest
  | c :: src, dest =>
    if c = '\x00' ∨ ¬ dest.length < maxlen then .ok dest
    else if c ≠ '%' then
      if c = ' ' then rprintbuf_loop P field_delimiter record maxlen src dest
      else rprintbuf_loop P field_delimiter record maxlen src (dest ++ [c])
    else
      match rprintbuf_switch P record (src.headD '\x00') with
      | .error f => .error f
      | .ok field =>
        let dest1 := copy_field_if_room (src.headD '\x00') dest field maxlen
        let delim := snprintf_s P.PATH_MAX field_delimiter
        let dest2 := copy_if_room dest1 delim maxlen
        match src with
        | [] => .error .overrun
        | code :: src' =>
          if code = '\x00' then .error .overrun
          else rprintbuf_loop P field_delimiter record maxlen src' dest2

/-- The function `rprintbuf`: the record line written to the buffer (the value returned by
the C function is its length). -/
def rprintbuf (P : Platform) (snap : snap_t) (record : file_record)
    (maxlen : Nat) : Except Fault (List Char) :=
  match rprintbuf_loop P snap.field_delimiter record maxlen snap.column_string [] with
  | .error f => .error f
  | .ok dest =>
    .ok (copy_if_room dest (snprintf_s P.PATH_MAX snap.record_delimiter) maxlen)

/-- The loop of `write_snap_record_to_file` over the entries of the array:
the text printed for them. -/
def write_records (P : Platform) (snap : snap_t) :
    List (Option file_record) → Except Fault (List Char)
  | [] => .ok []
  | none :: _ => .error .uninit
  | some current_record :: rest =>
    match rprintbuf P snap current_record (MAX_RECORD_LENGTH P) with
    | .error f => .error f
    | .ok buffer =>
      match write_records P snap rest with
      | .error f => .error f
      | .ok text => .ok (buffer ++ text)

/-- The function `write_snap_record_to_file`: the text printed to the output stream, the
header line followed by the line of each `master_array[i]`,
`i < currentArraySize`. -/
def write_snap_record_to_file (P : Platform) (snap : snap_t) :
    Except Fault (List Char) :=
  match hprintbuf snap (MAX_RECORD_LENGTH P) with
  | .error f => .error f
  | .ok header =>
    match write_records P snap
        ((List.range snap.currentArraySize).map (fun i => snap.master_array.get? i)) with
    | .error f => .error f
    | .ok text => .ok (header ++ text)

/-! ## Initialisation and the record array -/

/-- The `for` loop of `parse_delimiter_string`; `maxlen` is
`strlen(string) + 1`. -/
def parse_delimiter_loop (maxlen : Nat) :
    List Char → List Char → Except Fault (List Char)
  | [], dest => .ok dest
  | c :: src, dest =>
    if c = '\x00' ∨ ¬ dest.length < maxlen - 1 then .ok dest
    else if c ≠ '%' then parse_delimiter_loop maxlen src (dest ++ [c])
    else
      match src with
      | [] => .error .overrun
      | code :: src' =>
        if code = '\x00' then .error .overrun
        else
          let out :=
            match code with
            | '%' => '%'
            | 't' => '\t'
            | 'r' => '\r'
            | 'n' => '\n'
            | x => x
          parse_delimiter_loop maxlen src' (dest ++ [out])

/-- The function `parse_delimiter_string`: the compiled delimiter. -/
def parse_delimiter_string (string : List Char) : Except Fault (List Char) :=
  parse_delimiter_loop (strlen string + 1) string []

/-- The function `init_snap_record`. -/
def init_snap_record : Except Fault snap_t :=
  match parse_delimiter_string "%t".toList with
  | .error f => .error f
  | .ok field_delimiter =>
    match parse_delimiter_string "%n".toList with
    | .error f => .error f
    | .ok record_delimiter =>
      .ok { column_string := "%p %m %c".toList
            field_delimiter := field_delimiter
            record_delimiter := record_delimiter
            currentArraySize := 0
            currentArrayCapacity := INITIAL_ARRAY_SIZE
            master_array := [] }

/-- The function `add_record_to_snap`: the capacity grows by a chunk when the array is
full, the record is stored at index `currentArraySize` (the entries below
it are kept) and the size is incremented.  The two counters are `int`s in
C: the sums are those of the source as long as `int` holds them, see
`add_record_to_snap_int`. -/
def add_record_to_snap (snap : snap_t) (file : file_record) : snap_t :=
  let capacity :=
    if snap.currentArraySize ≥ snap.currentArrayCapacity then
      snap.currentArrayCapacity + ARRAY_CHUNK_SIZE
    else snap.currentArrayCapacity
  { snap with
    currentArrayCapacity := capacity
    master_array := snap.master_array.take snap.currentArraySize ++ [file]
    currentArraySize := snap.currentArraySize + 1 }

/-- The function `add_record_to_snap` with its counters as the `int`s of
`snap_record.h`: `currentArrayCapacity + ARRAY_CHUNK_SIZE` is computed in `int` when the
array is full (it is the argument of `RECREATE` and the new capacity), and
`currentArraySize++` is an `int` increment.  A sum above `INT_MAX` is undefined
behaviour.  `realloc` is taken to succeed (`RECREATE` ends the process
otherwise). -/
def add_record_to_snap_int (P : Platform) (snap : snap_t) (file : file_record) :
    Except Fault snap_t :=
  let grown : Except Fault snap_t :=
    if snap.currentArraySize ≥ snap.currentArrayCapacity then
      if ((snap.currentArrayCapacity + ARRAY_CHUNK_SIZE : Nat) : Int) ≤ P.int.max then
        .ok { snap with
              currentArrayCapacity := snap.currentArrayCapacity + ARRAY_CHUNK_SIZE }
      else .error .int_overflow
    else .ok snap
  match grown with
  | .error f => .error f
  | .ok grown =>
    if ((grown.currentArraySize + 1 : Nat) : Int) ≤ P.int.max then
      .ok { grown with
            master_array := grown.master_array.take grown.currentArraySize ++ [file]
            currentArraySize := grown.currentArraySize + 1 }
    else .error .int_overflow

/-- Successive calls of `add_record_to_snap`, one for each record of the list,
the counters being `int`s. -/
def add_records_int (P : Platform) : List file_record → snap_t → Except Fault snap_t
  | [], snap => .ok snap
  | file :: rest, snap =>
    match add_record_to_snap_int P snap file with
    | .error f => .error f
    | .ok next => add_records_int P rest next

/-! ## The reader -/

/-- An input stream: the bytes not read yet, and whether the stream ends in
a read error (`ferror`) instead of an end of file (`feof`). -/
structure FILE where
  bytes : List Char
  read_error : Bool
deriving DecidableEq, Repr

/-- The byte 0xFF: stored in the `char c` of `_getline` it compares equal to
`EOF` (`char` is signed on the platforms the program is written for). -/
def EOF_char : Char := Char.ofNat 255

/-- The `while` loop of `_getline`, on the bytes of the stream and the
characters put in the buffer so far.  Result: the last value of `c` (`none`
when it compares equal to `EOF`), whether the stream was exhausted, the
characters written before any terminator, whether a terminator was written,
and the bytes left in the stream. -/
def getline_loop (buflen : Nat) :
    List Char → List Char → Option Char × Bool × List Char × Bool × List Char
  | [], acc => (none, true, acc, false, [])
  | c :: rest, acc =>
    if c = EOF_char then (none, false, acc, false, rest)
    else if ¬ acc.length < buflen then (some c, false, acc, false, rest)
    else if c = '\n' ∨ c = '\r' then (some c, false, acc, true, rest)
    else getline_loop buflen rest (acc ++ [c])

/-- The function `_getline`: the value returned, the characters left in the buffer before
its terminator, and the stream after the call.  When the value returned is
the length of the buffer content, the buffer holds no terminator (a line of
exactly `buflen` characters); otherwise a non-negative value is that length
plus one, the terminator being counted. -/
def _getline (file : FILE) (buflen : Nat) : Int × List Char × FILE :=
  match getline_loop buflen file.bytes [] with
  | (c, at_end, acc, terminated, rest) =>
    let count := if terminated then acc.length + 1 else acc.length
    if count = buflen ∧ c ≠ none ∧ c ≠ some '\n' ∧ c ≠ some '\r' then
      (-4, acc.take (buflen - 1), ⟨rest, file.read_error⟩)
    else if c = none then
      if at_end ∧ ¬ file.read_error then (-1, acc, ⟨rest, file.read_error⟩)
      else if at_end then (-2, acc, ⟨rest, file.read_error⟩)
      else (-3, acc, ⟨rest, file.read_error⟩)
    else ((count : Int), acc, ⟨rest, file.read_error⟩)

/-- Indices into `column_tracker`. -/
def MAX_COLUMNS : Nat := 16
def PATH_COLUMN : Nat := 0
def OWNER_COLUMN : Nat := 1
def GROUP_COLUMN : Nat := 2
def PERMS_COLUMN : Nat := 3
def ATIME_COLUMN : Nat := 4
def ACCESS_COLUMN : Nat := 5
def MTIME_COLUMN : Nat := 6
def MODIFY_COLUMN : Nat := 7
def CTIME_COLUMN : Nat := 8
def CHANGE_COLUMN : Nat := 9
def INODE_COLUMN : Nat := 10
def TYPE_COLUMN : Nat := 11
def MODE_T_COLUMN : Nat := 12
def SIZE_COLUMN : Nat := 13
def BYTES_COLUMN : Nat := 14
def SELECT_COLUMN : Nat := 15

/-- The array `column_tracker`, as the function from index to entry. -/
abbrev ColumnTracker := Nat → Int

/-- The tracker that `read_snap_record_from_file` starts from: every entry
is -1. -/
def initial_column_tracker : ColumnTracker := fun _ => -1

/-- The chain of `strncmp` tests on a header label, in source order: label,
index of the tracker entry that is set, column code appended. -/
def header_table : List (List Char × Nat × Char) :=
  [ ("Path".toList, PATH_COLUMN, 'p'),
    ("Owner".toList, OWNER_COLUMN, 'o'),
    ("Selected".toList, SELECT_COLUMN, 'e'),
    ("Group".toList, GROUP_COLUMN, 'g'),
    ("Mode".toList, PERMS_COLUMN, 'P'),
    ("Last Accessed".toList, ACCESS_COLUMN, 'a'),
    ("Last Modified".toList, MODIFY_COLUMN, 'm'),
    ("Last Mode Change".toList, CHANGE_COLUMN, 'c'),
    ("Size".toList, SIZE_COLUMN, 's'),
    ("inode".toList, INODE_COLUMN, 'i'),
    ("Type".toList, TYPE_COLUMN, 't'),
    ("atime".toList, ATIME_COLUMN, 'A'),
    ("ctime".toList, CTIME_COLUMN, 'C'),
    ("mtime".toList, MTIME_COLUMN, 'M'),
    ("Size (raw)".toList, BYTES_COLUMN, 'S'),
    ("Type (raw)".toList, MODE_T_COLUMN, 'T') ]

/-- The first entry of the chain whose test
`strncmp(label, header_buf, MAX(strlen(label), strlen(header_buf))) == 0`
succeeds. -/
def header_match (header_buf : List Char) : Option (List Char × Nat × Char) :=
  header_table.find? (fun e =>
    strncmp_eq e.1 header_buf (MAX (strlen e.1) (strlen header_buf)))

/-- What the header loop does with the label in `header_buf` at a tab, the
column counter being `i`. -/
def header_entry (header_buf : List Char) (i : Nat)
    (st : ColumnTracker × List Char) : ColumnTracker × List Char :=
  match header_match header_buf with
  | some (_, column, code) =>
    (Function.update st.1 column (i : Int),
      strncat st.2 ['%', code] (200 - strlen st.2))
  | none => st

/-- The `while` loop over the header line in `read_snap_record_from_file`:
rest of the buffer, `curr_pos - buffer`, content of `header_buf`, column
counter, and the tracker with the derived column string. -/
def header_loop (success : Int) :
    List Char → Nat → List Char → Nat → ColumnTracker × List Char →
    ColumnTracker × List Char
  | [], _, _, _, st => st
  | c :: buffer, pos, header_buf, i, st =>
    if c = '\x00' ∨ ¬ (pos : Int) < success ∨ ¬ header_buf.length < 64 then st
    else if c = '\t' then
      header_loop success buffer (pos + 1) [] (i + 1) (header_entry header_buf i st)
    else header_loop success buffer (pos + 1) (header_buf ++ [c]) i st

/-- C `isspace` in the "C" locale. -/
def isspace (c : Char) : Bool :=
  c = ' ' ∨ c = '\t' ∨ c = '\n' ∨ c = '\x0b' ∨ c = '\x0c' ∨ c = '\r'

/-- Value of a character as a digit of a base up to ten. -/
def digit_value (base : Nat) (c : Char) : Option Nat :=
  if '0'.toNat ≤ c.toNat ∧ c.toNat < '0'.toNat + base then some (c.toNat - '0'.toNat)
  else none

/-- The digits at the head of a string: their value on top of `acc`, how
many there are, and the rest of the string. -/
def strtol_digits (base : Nat) : List Char → Nat → Nat → Nat × Nat × List Char
  | [], acc, count => (acc, count, [])
  | c :: s, acc, count =>
    match digit_value base c with
    | some d => strtol_digits base s (acc * base + d) (count + 1)
    | none => (acc, count, c :: s)

/-- The sign step of `strtol`: whether a minus sign is there, and the string
after the sign if any. -/
def strtol_sign : List Char → Bool × List Char
  | '-' :: s => (true, s)
  | '+' :: s => (false, s)
  | s => (false, s)

/-- C `strtol(nptr, &endptr, base)` for a base up to ten: the value and the
string `endptr` points to.  White space is skipped, a sign is accepted, the
digits are converted; without a digit the value is 0 and `endptr` is `nptr`;
a value outside `long` is clamped. -/
def strtol (P : Platform) (nptr : List Char) (base : Nat) : Int × List Char :=
  let signed := strtol_sign ((cstr nptr).dropWhile isspace)
  match strtol_digits base signed.2 0 0 with
  | (value, count, endptr) =>
    if count = 0 then (0, cstr nptr)
    else
      let v : Int := if signed.1 then - (value : Int) else (value : Int)
      (if v > P.long.max then P.long.max
       else if v < P.long.min then P.long.min else v, endptr)

/-- The numeric column idiom of `parse_snapper_file_line`:
`field = strtol(entry_buf, &endptr, base); if (*endptr != 0) field = -1;`
for a field of type `t`. -/
def parse_numeric (P : Platform) (t : CInt) (entry_buf : List Char)
    (base : Nat) : Int :=
  let (value, endptr) := strtol P entry_buf base
  if endptr.headD '\x00' ≠ '\x00' then t.conv (-1) else t.conv value

/-- The chain of tests that `parse_snapper_file_line` runs at a tab, the
column counter being `i` and the column text being in `entry_buf`. -/
def store_entry (P : Platform) (column_tracker : ColumnTracker) (i : Nat)
    (entry_buf : List Char) (record : file_record) : file_record :=
  if (i : Int) = column_tracker PATH_COLUMN then
    { record with re_path := some (cstr entry_buf) }
  else if (i : Int) = column_tracker PERMS_COLUMN then
    { record with re_mode := parse_numeric P P.mode_t entry_buf 8 }
  else if (i : Int) = column_tracker OWNER_COLUMN then
    { record with re_uid := parse_numeric P P.uid_t entry_buf 10 }
  else if (i : Int) = column_tracker SELECT_COLUMN then
    { record with re_selected :=
        match entry_buf.headD '\x00' with
        | 'y' => 'y'
        | 'n' => 'n'
        | _ => 'u' }
  else if (i : Int) = column_tracker GROUP_COLUMN then
    { record with re_gid := parse_numeric P P.gid_t entry_buf 10 }
  else if (i : Int) = column_tracker INODE_COLUMN then
    { record with re_ino := parse_numeric P P.ino_t entry_buf 10 }
  else if (i : Int) = column_tracker ATIME_COLUMN then
    { record with re_atime := parse_numeric P P.time_t entry_buf 10 }
  else if (i : Int) = column_tracker ACCESS_COLUMN then
    if entry_buf.headD '\x00' ≠ '\x00' then
      { record with re_atime_str := some (cstr entry_buf) }
    else record
  else if (i : Int) = column_tracker MTIME_COLUMN then
    { record with re_mtime := parse_numeric P P.time_t entry_buf 10 }
  else if (i : Int) = column_tracker MODIFY_COLUMN then
    if entry_buf.headD '\x00' ≠ '\x00' then
      { record with re_mtime_str := some (cstr entry_buf) }
    else record
  else if (i : Int) = column_tracker CTIME_COLUMN then
    { record with re_ctime := parse_numeric P P.time_t entry_buf 10 }
  else if (i : Int) = column_tracker CHANGE_COLUMN then
    if entry_buf.headD '\x00' ≠ '\x00' then
      { record with re_ctime_str := some (cstr entry_buf) }
    else record
  else if (i : Int) = column_tracker SIZE_COLUMN then
    { record with re_size := parse_numeric P P.off_t entry_buf 10 }
  else if (i : Int) = column_tracker TYPE_COLUMN then
    { record with re_type := entry_buf.headD '\x00' }
  else record

/-- The record as `parse_snapper_file_line` sets it before its loop. -/
def blank_record (P : Platform) : file_record :=
  { re_path := none
    re_atime := P.time_t.conv (-1)
    re_atime_str := none
    re_mtime := P.time_t.conv (-1)
    re_mtime_str := none
    re_ctime := P.time_t.conv (-1)
    re_ctime_str := none
    re_size := P.off_t.conv (-1)
    re_ino := P.ino_t.conv (-1)
    re_uid := P.uid_t.conv (-1)
    re_gid := P.gid_t.conv (-1)
    re_mode := P.mode_t.conv (-1)
    re_type := '\x00'
    re_selected := 'u' }

/-- The `while` loop of `parse_snapper_file_line`: rest of the line, content
of `entry_buf`, column counter, record. -/
def parse_loop (P : Platform) (column_tracker : ColumnTracker) :
    List Char → List Char → Nat → file_record → file_record
  | [], _, _, record => record
  | c :: line, entry_buf, i, record =>
    if c = '\x00' ∨ ¬ entry_buf.length < P.PATH_MAX then record
    else if c = '\t' then
      parse_loop P column_tracker line [] (i + 1)
        (store_entry P column_tracker i entry_buf record)
    else parse_loop P column_tracker line (entry_buf ++ [c]) i record

/-- The function `parse_snapper_file_line`: the record it fills from a line. -/
def parse_snapper_file_line (P : Platform) (column_tracker : ColumnTracker)
    (line : List Char) : file_record :=
  parse_loop P column_tracker line [] 0 (blank_record P)

/-- How a call of `read_snap_record_from_file` ends. -/
inductive ReadResult where
  /-- the function returned this value, the store being as given -/
  | returned (code : Int) (snap : snap_t)
  /-- the assertion on the path column failed: the process was aborted -/
  | aborted
  /-- undefined behaviour was reached -/
  | fault (f : Fault)
deriving DecidableEq, Repr

/-- The `while` loop of `read_snap_record_from_file` over the record lines.
`fuel` bounds the number of iterations; each consumes a byte of the stream.
A line that fills the buffer without a terminator is reported as a fault
(`parse_snapper_file_line` is handed an unterminated buffer). -/
def read_loop (P : Platform) (column_tracker : ColumnTracker) :
    Nat → FILE → snap_t → ReadResult
  | 0, _, snap => .returned 0 snap
  | fuel + 1, snapper_file, snap =>
    match _getline snapper_file (P.PATH_MAX + 64) with
    | (ret, buffer, snapper_file') =>
      if ret ≥ 0 then
        if ret = (buffer.length : Int) then .fault .unterminated
        else
          read_loop P column_tracker fuel snapper_file'
            (add_record_to_snap snap (parse_snapper_file_line P column_tracker buffer))
      else .returned 0 snap

/-- The header phase of `read_snap_record_from_file`: the first line is read
and scanned.  `none` when `_getline` gives 0 or an error code ("Couldn't get
header line"); otherwise the tracker, the derived column string and the
stream after the header line. -/
def read_header (P : Platform) (snapper_file : FILE) :
    Option ((ColumnTracker × List Char) × FILE) :=
  match _getline snapper_file (P.PATH_MAX + 64) with
  | (success, buffer, snapper_file') =>
    if success = 0 ∨ success = -1 ∨ success = -2 ∨ success = -3 ∨ success = -4 then
      none
    else
      some (header_loop success buffer 0 [] 0 (initial_column_tracker, []), snapper_file')

/-- The function `read_snap_record_from_file`; `path` is the stream that `fopen` gives,
`none` when the file cannot be opened. -/
def read_snap_record_from_file (P : Platform) (snap : snap_t)
    (path : Option FILE) : ReadResult :=
  match path with
  | none => .returned 1 snap
  | some snapper_file =>
    match read_header P snapper_file with
    | none => .returned (-1) snap
    | some (st, snapper_file') =>
      if st.1 PATH_COLUMN = -1 then .aborted
      else
        read_loop P st.1 (snapper_file'.bytes.length + 1) snapper_file'
          { snap with column_string := st.2 }

/-! ## Vocabulary of the specification -/

/-- The sixteen column codes. -/
def recognized_codes : List Char :=
  "paAmMcCsSiogtTPe".toList

/-- The column template that consists of the given codes: `%x` for each. -/
def template_of_codes (codes : List Char) : List Char :=
  codes.flatMap (fun c => ['%', c])

/-- A column template without the spaces that the writer skips: the spaces
outside the `%x` codes are removed (a character after `%` is kept as it
is). -/
def unspaced : List Char → List Char
  | [] => []
  | c :: rest =>
    if c = '%' then
      match rest with
      | [] => ['%']
      | code :: rest' => '%' :: code :: unspaced rest'
    else if c = ' ' then unspaced rest
    else c :: unspaced rest

/-- The label that the format description gives to a column code. -/
def label_of (code : Char) : List Char :=
  if code = 'p' then "Path".toList
  else if code = 'a' then "Last Accessed".toList
  else if code = 'A' then "atime".toList
  else if code = 'm' then "Last Modified".toList
  else if code = 'M' then "mtime".toList
  else if code = 'c' then "Last Mode Change".toList
  else if code = 'C' then "ctime".toList
  else if code = 's' then "Size".toList
  else if code = 'S' then "Size (raw)".toList
  else if code = 'i' then "inode".toList
  else if code = 'o' then "Owner".toList
  else if code = 'g' then "Group".toList
  else if code = 't' then "Type".toList
  else if code = 'T' then "Type (raw)".toList
  else if code = 'P' then "Mode".toList
  else if code = 'e' then "Selected".toList
  else []

/-- A line made of columns, each immediately followed by the delimiter. -/
def delimited (delimiter : List Char) (columns : List (List Char)) : List Char :=
  columns.flatMap (fun column => column ++ delimiter)

/-- The columns of a line: the texts that end at each tab, in order (what
follows the last tab is no column), the first of them after `column`. -/
def tab_columns_from : List Char → List Char → List (List Char)
  | [], _ => []
  | c :: line, column =>
    if c = '\t' then column :: tab_columns_from line []
    else tab_columns_from line (column ++ [c])

/-- The columns of a line: the texts that end at each tab. -/
def tab_columns (line : List Char) : List (List Char) :=
  tab_columns_from line []

/-- A C string: a list of characters without NUL. -/
def is_cstring (s : List Char) : Prop :=
  ∀ c ∈ s, c ≠ '\x00'

instance (s : List Char) : Decidable (is_cstring s) := by
  unfold is_cstring; infer_instance

/-- The tracker entry that the header loop binds for the label of a
column code, from `header_table` (`MAX_COLUMNS` for any other character). -/
def column_of (code : Char) : Nat :=
  match header_table.find? (fun e => e.2.2 = code) with
  | some e => e.2.1
  | none => MAX_COLUMNS

/-- The store that a call of `read_snap_record_from_file` leaves when it
returns. -/
def ReadResult.store : ReadResult → Option snap_t
  | .returned _ snap => some snap
  | _ => none

/-- The tracker entries of the numeric columns Owner, Group, inode, atime,
mtime, ctime and Size. -/
def numeric_columns : List Nat :=
  [OWNER_COLUMN, GROUP_COLUMN, INODE_COLUMN, ATIME_COLUMN, MTIME_COLUMN, CTIME_COLUMN,
    SIZE_COLUMN]

/-- The record field that belongs to a numeric column. -/
def numeric_field (K : Nat) (record : file_record) : Int :=
  if K = OWNER_COLUMN then record.re_uid
  else if K = GROUP_COLUMN then record.re_gid
  else if K = INODE_COLUMN then record.re_ino
  else if K = ATIME_COLUMN then record.re_atime
  else if K = MTIME_COLUMN then record.re_mtime
  else if K = CTIME_COLUMN then record.re_ctime
  else record.re_size

/-- The C type of the record field that belongs to a numeric column. -/
def numeric_type (P : Platform) (K : Nat) : CInt :=
  if K = OWNER_COLUMN then P.uid_t
  else if K = GROUP_COLUMN then P.gid_t
  else if K = INODE_COLUMN then P.ino_t
  else if K = ATIME_COLUMN ∨ K = MTIME_COLUMN ∨ K = CTIME_COLUMN then P.time_t
  else P.off_t

/-- A decimal digit: one of the characters `0` to `9`. -/
def is_decimal_digit (c : Char) : Bool :=
  decide ('0'.toNat ≤ c.toNat) && decide (c.toNat ≤ '9'.toNat)

/-- A text read as an integer in the way of C: after leading white space,
whether a minus sign is there, and what follows the sign if any. -/
def c_integer_parts (text : List Char) : Bool × List Char :=
  match text.dropWhile isspace with
  | '-' :: digits => (true, digits)
  | '+' :: digits => (false, digits)
  | digits => (false, digits)

/-- A text is an integer for C when, after optional white space and an
optional sign, it consists of one or more decimal digits and nothing else. -/
def c_integer_text (text : List Char) : Bool :=
  !(c_integer_parts text).2.isEmpty && (c_integer_parts text).2.all is_decimal_digit

/-- The number that a string of decimal digits denotes. -/
def decimal_value (digits : List Char) : Nat :=
  digits.foldl (fun value c => value * 10 + (c.toNat - '0'.toNat)) 0

/-- The integer that a text denotes. -/
def integer_value (text : List Char) : Int :=
  if (c_integer_parts text).1 then - (decimal_value (c_integer_parts text).2 : Int)
  else (decimal_value (c_integer_parts text).2 : Int)

/-- An integer brought into the range of `long`, as `strtol` does. -/
def clamp_long (P : Platform) (v : Int) : Int :=
  if v > P.long.max then P.long.max else if v < P.long.min then P.long.min else v

/-- A value that a C integer type can hold. -/
def CInt.holds (t : CInt) (v : Int) : Prop :=
  t.min ≤ v ∧ v ≤ t.max

instance (t : CInt) (v : Int) : Decidable (t.holds v) := by
  unfold CInt.holds; infer_instance

/-- What the theorems on numeric round trips ask of a platform: `long` has
between 1 and 64 bits, `PATH_MAX` is at least 64 and no integer typedef is
empty. -/
def Platform.sound (P : Platform) : Prop :=
  0 < P.long_bits ∧ P.long_bits ≤ 64 ∧ 64 ≤ P.PATH_MAX ∧ 0 < P.time_t.bits ∧
    0 < P.ino_t.bits ∧ 0 < P.uid_t.bits ∧ 0 < P.gid_t.bits

instance (P : Platform) : Decidable P.sound := by
  unfold Platform.sound; infer_instance

/-- The times of a record are values of `time_t` within the range of `long`;
its inode, owner and group are non-negative values of their types within the
range of `long`. -/
def numeric_in_range (P : Platform) (r : file_record) : Prop :=
  (P.time_t.holds r.re_atime ∧ P.long.holds r.re_atime) ∧
  (P.time_t.holds r.re_mtime ∧ P.long.holds r.re_mtime) ∧
  (P.time_t.holds r.re_ctime ∧ P.long.holds r.re_ctime) ∧
  (0 ≤ r.re_ino ∧ P.ino_t.holds r.re_ino ∧ P.long.holds r.re_ino) ∧
  (0 ≤ r.re_uid ∧ P.uid_t.holds r.re_uid ∧ P.long.holds r.re_uid) ∧
  (0 ≤ r.re_gid ∧ P.gid_t.holds r.re_gid ∧ P.long.holds r.re_gid)

instance (P : Platform) (r : file_record) : Decidable (numeric_in_range P r) := by
  unfold numeric_in_range; infer_instance

/-- The fields of a record that a template lets the reader recover: the
record read back has the path of the original record and, for each of the
codes `A`, `M`, `C`, `i`, `o`, `g`, `t` of the template, its access, modify
and change time, inode, owner, group and type. -/
def recovers (codes : List Char) (original parsed : file_record) : Prop :=
  parsed.re_path = original.re_path ∧
  ('A' ∈ codes → parsed.re_atime = original.re_atime) ∧
  ('M' ∈ codes → parsed.re_mtime = original.re_mtime) ∧
  ('C' ∈ codes → parsed.re_ctime = original.re_ctime) ∧
  ('i' ∈ codes → parsed.re_ino = original.re_ino) ∧
  ('o' ∈ codes → parsed.re_uid = original.re_uid) ∧
  ('g' ∈ codes → parsed.re_gid = original.re_gid) ∧
  ('t' ∈ codes → parsed.re_type = original.re_type)

/-- The labels that the header loop tests for. -/
def known_labels : List (List Char) :=
  header_table.map (fun e => e.1)

/-- The column code of a header label, when the label is a known one. -/
def code_of_label (label : List Char) : Option Char :=
  (header_table.find? (fun e => e.1 = label)).map (fun e => e.2.2)

/-- The position of the last column that holds a given label (0 when there
is none): the header loop binds a label each time it meets it, so the last
occurrence is the one that stays. -/
def column_index (label : List Char) : List (List Char) → Nat
  | [] => 0
  | _ :: labels => if label ∈ labels then column_index label labels + 1 else 0

/-- The record that a line gives when its path is read from column `ip`, its
size from column `is` and nothing else is read: every other field is as
`parse_snapper_file_line` initialises it. -/
def path_size_record (P : Platform) (ip is : Nat) (columns : List (List Char)) :
    file_record :=
  { blank_record P with
    re_path := columns[ip]?
    re_size :=
      match columns[is]? with
      | some text => parse_numeric P P.off_t text 10
      | none => P.off_t.conv (-1) }

/-- A character that ends neither a column, nor a line, nor the stream for
the reader: not NUL, tab, newline, carriage return or the byte 0xFF. -/
def plain_char (c : Char) : Bool :=
  c != '\x00' && c != '\t' && c != '\n' && c != '\r' && c != EOF_char

/-- A text made of plain characters. -/
def plain_text (s : List Char) : Prop :=
  ∀ c ∈ s, plain_char c = true

instance (s : List Char) : Decidable (plain_text s) := by
  unfold plain_text; infer_instance

/-- A line for `_getline`: a text without newline, carriage return or the
byte 0xFF. -/
def line_text (s : List Char) : Prop :=
  ∀ c ∈ s, c ≠ '\n' ∧ c ≠ '\r' ∧ c ≠ EOF_char

instance (s : List Char) : Decidable (line_text s) := by
  unfold line_text; infer_instance

/-- The net effect of the header loop on the labels of a header line, the
first of them being column `i`. -/
def header_entries :
    List (List Char) → Nat → ColumnTracker × List Char → ColumnTracker × List Char
  | [], _, st => st
  | label :: labels, i, st => header_entries labels (i + 1) (header_entry label i st)

/-- The net effect of the loop of `parse_snapper_file_line` on the columns of
a line, the first of them being column `i`. -/
def store_entries (P : Platform) (column_tracker : ColumnTracker) :
    List (List Char) → Nat → file_record → file_record
  | [], _, record => record
  | column :: columns, i, record =>
    store_entries P column_tracker columns (i + 1)
      (store_entry P column_tracker i column record)

/-- The text of a file made of the given lines, each ended by a newline. -/
def lines_text (lines : List (List Char)) : List Char :=
  lines.flatMap (fun line => line ++ ['\n'])

/-- The content of `local_buffer` after the `switch` of `rprintbuf` for a
code (empty when the switch faults). -/
def raw_field (P : Platform) (record : file_record) (code : Char) : List Char :=
  match rprintbuf_switch P record code with
  | .ok field => field
  | .error _ => []

/-- The rendered field of a code: what the copy loop of `rprintbuf` puts in
the output for it. -/
def field_text (P : Platform) (record : file_record) (code : Char) : List Char :=
  strip_special code (raw_field P record code)

/-- The room that the guards of `rprintbuf` ask for a line: each field is
measured before newline, carriage return and tab are dropped from it. -/
def line_room (P : Platform) (record : file_record) (fd rd : List Char)
    (codes : List Char) : Nat :=
  (codes.map (fun c => (raw_field P record c).length + fd.length)).sum + rd.length

/-- A concrete platform: 64-bit `long`, the typedefs of Darwin, `PATH_MAX`
1024, IEEE 754 arithmetic and a `ctime` stub that prints the epoch. -/
def darwin64 : Platform :=
  { PATH_MAX := 1024
    long_bits := 64
    int_bits := 32
    time_t := ⟨true, 64⟩
    off_t := ⟨true, 64⟩
    ino_t := ⟨false, 64⟩
    uid_t := ⟨false, 32⟩
    gid_t := ⟨false, 32⟩
    mode_t := ⟨false, 16⟩
    ctime := fun _ => "Thu Jan  1 00:00:00 1970\n".toList
    printf_f := ieee_printf_f }

/-- A store with the default delimiters and a given column template. -/
def store_with (column_string : List Char) (records : List file_record) : snap_t :=
  { column_string := column_string
    field_delimiter := ['\t']
    record_delimiter := ['\n']
    currentArraySize := records.length
    currentArrayCapacity := INITIAL_ARRAY_SIZE
    master_array := records }

/-- A record of a regular file. -/
def sample_record : file_record :=
  { re_path := some "/a/b".toList
    re_atime := 5
    re_atime_str := none
    re_mtime := 6
    re_mtime_str := none
    re_ctime := 7
    re_ctime_str := none
    re_size := 1023
    re_ino := 42
    re_uid := 501
    re_gid := 20
    re_mode := 0o104755
    re_type := 'F'
    re_selected := 'u' }

/-- A record whose path is 200 letters followed by 823 newlines (1023
characters). -/
def newline_path_record : file_record :=
  { sample_record with
    re_path := some (List.replicate 200 'a' ++ List.replicate 823 '\n') }

/-- A header line whose first label is 64 letters long and unknown to the
reader, followed by the labels "Path" and "Size". -/
def long_label_header : List Char :=
  delimited ['\t'] [List.replicate 64 'x', "Path".toList, "Size".toList]

/-- The path of a record is not NULL, is made of plain characters and is
shorter than `PATH_MAX`. -/
def plain_path (P : Platform) (r : file_record) : Prop :=
  match r.re_path with
  | some path => plain_text path ∧ path.length < P.PATH_MAX
  | none => False

instance (P : Platform) (r : file_record) : Decidable (plain_path P r) := by
  unfold plain_path; split <;> infer_instance

/-- What the round trip asks of a record: a plain path; numeric fields in
range; a type character that is not tab, newline or carriage return; no byte
0xFF in the fields rendered for the template; a line that fits the buffer of
the reader. -/
def round_trip_record (P : Platform) (codes : List Char) (r : file_record) : Prop :=
  plain_path P r ∧
  numeric_in_range P r ∧
  (r.re_type ≠ '\t' ∧ r.re_type ≠ '\n' ∧ r.re_type ≠ '\r') ∧
  (∀ code ∈ codes, ∀ c ∈ field_text P r code, c ≠ EOF_char) ∧
  line_room P r ['\t'] ['\n'] codes < P.PATH_MAX + 64

instance (P : Platform) (codes : List Char) (r : file_record) :
    Decidable (round_trip_record P codes r) := by
  unfold round_trip_record; infer_instance

/-- A record of a directory. -/
def sample_directory : file_record :=
  { re_path := some "/a".toList
    re_atime := 1243000000
    re_atime_str := none
    re_mtime := 1242000000
    re_mtime_str := none
    re_ctime := 1241000000
    re_ctime_str := none
    re_size := 4096
    re_ino := 2
    re_uid := 0
    re_gid := 0
    re_mode := 0o40755
    re_type := 'D'
    re_selected := 'u' }

/-- A store whose field delimiter is 256 bars. -/
def long_delimiter_store : snap_t :=
  { store_with "%p".toList [] with field_delimiter := List.replicate 256 '|' }

/-! ## Items of a column template -/

/-- An item of a column template, as `hprintbuf` and `rprintbuf` scan it: a
character that is copied as it is, or a code, the character after a `%`. -/
inductive template_item where
  | literal (c : Char)
  | code (c : Char)
deriving DecidableEq, Repr

/-- The items of a column template, in order: a `%` takes the character after
it as its code (the terminator, when the `%` ends the template), a space
outside a code is skipped, any other character is a literal. -/
def template_items : List Char → List template_item
  | [] => []
  | c :: rest =>
    if c = '%' then
      match rest with
      | [] => [.code '\x00']
      | code :: rest' => .code code :: template_items rest'
    else if c = ' ' then template_items rest
    else .literal c :: template_items rest

/-- The text of a code in a header line: its label for a column code, the
character itself otherwise. -/
def header_text (code : Char) : List Char :=
  if code ∈ recognized_codes then label_of code else [code]

/-- The text of an item in a header line: a code is followed by the field
delimiter. -/
def header_item (fd : List Char) : template_item → List Char
  | .literal c => [c]
  | .code c => header_text c ++ fd

/-- The text of an item in the line of a record: a code is followed by the
field delimiter. -/
def record_item (P : Platform) (record : file_record) (fd : List Char) :
    template_item → List Char
  | .literal c => [c]
  | .code c => field_text P record c ++ fd

/-- The room that `rprintbuf` asks for an item: a field is measured as the
`switch` leaves it. -/
def item_room (P : Platform) (record : file_record) (fd : List Char) :
    template_item → Nat
  | .literal _ => 1
  | .code c => (raw_field P record c).length + fd.length

/-- The room that `rprintbuf` asks for the line of a template. -/
def items_room (P : Platform) (record : file_record) (fd rd : List Char)
    (items : List template_item) : Nat :=
  (items.map (item_room P record fd)).sum + rd.length

/-- An item that `hprintbuf` renders from the template alone: no NUL, and no
code `%`, NUL or space, for which the `switch` leaves `local_buffer` as it
was. -/
def header_item_ok : template_item → Prop
  | .literal c => c ≠ '\x00'
  | .code c => c ≠ '%' ∧ c ≠ '\x00' ∧ c ≠ ' '

instance (item : template_item) : Decidable (header_item_ok item) := by
  cases item <;> (unfold header_item_ok; infer_instance)

/-- An item that `rprintbuf` renders for a record: no NUL, and a path that is
not NULL for the code `p`. -/
def record_item_ok (record : file_record) : template_item → Prop
  | .literal c => c ≠ '\x00'
  | .code c => c ≠ '\x00' ∧ (c = 'p' → record.re_path ≠ none)

instance (record : file_record) (item : template_item) :
    Decidable (record_item_ok record item) := by
  cases item <;> (unfold record_item_ok; infer_instance)

/-- A record whose path has 1021 characters and whose times are the epoch. -/
def long_path_record : file_record :=
  { sample_record with
    re_path := some (List.replicate 1021 'a')
    re_atime := 0
    re_mtime := 0
    re_ctime := 0 }

/-! ## The ignore list (`snapper.c`) -/

/-- The type `struct ignore_record_t`. -/
structure ignore_record_t where
  ig_path : List Char
  ig_len : Nat
deriving DecidableEq, Repr

/-- The fields of `struct globals_t` that hold the ignore list.  Its
`ignore_array` is the list of the entries `0 .. currentIgnoreSize - 1` of the
C array. -/
structure globals_t where
  ignore_array : List ignore_record_t
  currentIgnoreSize : Nat
  currentIgnoreCapacity : Nat
deriving DecidableEq, Repr

/-- The ignore list as `main` initialises it: empty, with room for ten
entries. -/
def initial_globals : globals_t :=
  { ignore_array := []
    currentIgnoreSize := 0
    currentIgnoreCapacity := 10 }

/-- The function `add_to_ignore_array`: the record holds a copy of the string and its
length; the capacity grows by 5 when the array is full. -/
def add_to_ignore_array (globals : globals_t) (path : List Char) : globals_t :=
  let newRecord : ignore_record_t := { ig_path := cstr path, ig_len := strlen path }
  let capacity :=
    if globals.currentIgnoreSize ≥ globals.currentIgnoreCapacity then
      globals.currentIgnoreCapacity + 5
    else globals.currentIgnoreCapacity
  { ignore_array := globals.ignore_array.take globals.currentIgnoreSize ++ [newRecord]
    currentIgnoreSize := globals.currentIgnoreSize + 1
    currentIgnoreCapacity := capacity }

/-- The `for` loop of `should_be_ignored` over the entries of the array. -/
def should_be_ignored_loop (path : List Char) (pathlen : Nat) (name : List Char)
    (namelen : Nat) : List ignore_record_t → Bool
  | [] => false
  | entry :: rest =>
    if entry.ig_path.headD '\x00' = '/' then
      if strncmp_eq path entry.ig_path (MAX pathlen entry.ig_len) then true
      else should_be_ignored_loop path pathlen name namelen rest
    else
      if strncmp_eq name entry.ig_path (MAX namelen entry.ig_len) then true
      else should_be_ignored_loop path pathlen name namelen rest

/-- The function `should_be_ignored`. -/
def should_be_ignored (globals : globals_t) (path : List Char) (pathlen : Nat)
    (name : List Char) (namelen : Nat) : Bool :=
  should_be_ignored_loop path pathlen name namelen
    (globals.ignore_array.take globals.currentIgnoreSize)

/-- The ignore list that `main` builds from the rules given to it, in
order. -/
def ignore_list (rules : List (List Char)) : globals_t :=
  rules.foldl add_to_ignore_array initial_globals

/-! ## Octal digits -/

/-- The four octal digits of a number below 8^4, most significant first. -/
def octal_digits4 (n : Nat) : List Char :=
  [digit_char (n / 512 % 8), digit_char (n / 64 % 8), digit_char (n / 8 % 8),
    digit_char (n % 8)]

/-- The twelve permission bits of a mode: `mode & 07777`. -/
def permission_bits (mode : Int) : Nat :=
  (Int.land mode 0o7777).toNat

/-- The sample record with a given size. -/
def sized_record (s : Int) : file_record :=
  { sample_record with re_size := s }

/-! ## Items of a delimiter string -/

/-- An item of a delimiter string, as `parse_delimiter_string` scans it: a
character that is copied, or an escape, the character after a `%`. -/
inductive delimiter_item where
  | plain (c : Char)
  | escape (c : Char)
deriving DecidableEq, Repr

/-- The items of a delimiter string, in order: a `%` takes the character
after it as its escape (the terminator, when the `%` ends the string), any
other character, a space included, is plain. -/
def delimiter_items : List Char → List delimiter_item
  | [] => []
  | c :: rest =>
    if c = '%' then
      match rest with
      | [] => [.escape '\x00']
      | code :: rest' => .escape code :: delimiter_items rest'
    else .plain c :: delimiter_items rest

/-- The character that an item of a delimiter string stands for: tab,
carriage return and newline for the escapes `t`, `r` and `n`, the character
itself for a plain character and for any other escape (`%%` is a `%`). -/
def delimiter_char : delimiter_item → Char
  | .plain c => c
  | .escape c => if c = 't' then '\t' else if c = 'r' then '\r' else if c = 'n' then '\n' else c

/-- An item that `parse_delimiter_string` compiles: no NUL (no `%` at the end
of the string). -/
def delimiter_item_ok : delimiter_item → Prop
  | .plain c => c ≠ '\x00'
  | .escape c => c ≠ '\x00'

instance (item : delimiter_item) : Decidable (delimiter_item_ok item) := by
  cases item <;> (unfold delimiter_item_ok; infer_instance)

/-! ## The traversal loop of `main` (`snapper.c`) -/

/-- The values of `fts_info` (`<fts.h>`). -/
inductive fts_info_t where
  | FTS_D
  | FTS_DC
  | FTS_DEFAULT
  | FTS_DNR
  | FTS_DOT
  | FTS_DP
  | FTS_ERR
  | FTS_F
  | FTS_INIT
  | FTS_NS
  | FTS_NSOK
  | FTS_SL
  | FTS_SLNONE
  | FTS_W
deriving DecidableEq, Repr

/-- The fields of `struct stat` that the loop reads. -/
structure stat where
  st_mode : Int
  st_size : Int
  st_atime : Int
  st_mtime : Int
  st_ctime : Int
  st_ino : Int
  st_uid : Int
  st_gid : Int
deriving DecidableEq, Repr

/-- The fields of `FTSENT` that the loop reads. -/
structure FTSENT where
  fts_info : fts_info_t
  fts_path : List Char
  fts_pathlen : Nat
  fts_name : List Char
  fts_namelen : Nat
  fts_statp : stat
deriving DecidableEq, Repr

/-- A file hierarchy as `fts_read` walks it: the entries of one level in the
order of the walk, each with the entries below it. -/
inductive fts_forest where
  | nil
  | cons (entry : FTSENT) (children : fts_forest) (siblings : fts_forest)
deriving DecidableEq, Repr

/-- The file type bits of `<sys/stat.h>`. -/
def S_IFMT : Nat := 0o170000
def S_IFIFO : Nat := 0o010000
def S_IFCHR : Nat := 0o020000
def S_IFDIR : Nat := 0o040000
def S_IFBLK : Nat := 0o060000
def S_IFREG : Nat := 0o100000
def S_IFLNK : Nat := 0o120000
def S_IFSOCK : Nat := 0o140000

/-- The macros `S_ISDIR` ... `S_ISREG`: `(m & S_IFMT) == S_IFxxx`. -/
def S_ISDIR (m : Int) : Bool := Int.land m S_IFMT == (S_IFDIR : Int)
def S_ISLNK (m : Int) : Bool := Int.land m S_IFMT == (S_IFLNK : Int)
def S_ISSOCK (m : Int) : Bool := Int.land m S_IFMT == (S_IFSOCK : Int)
def S_ISFIFO (m : Int) : Bool := Int.land m S_IFMT == (S_IFIFO : Int)
def S_ISBLK (m : Int) : Bool := Int.land m S_IFMT == (S_IFBLK : Int)
def S_ISCHR (m : Int) : Bool := Int.land m S_IFMT == (S_IFCHR : Int)
def S_ISREG (m : Int) : Bool := Int.land m S_IFMT == (S_IFREG : Int)

/-- The chain of tests that gives a record its type in the traversal loop. -/
def type_tag (re_mode : Int) : Char :=
  if S_ISDIR re_mode then 'D'
  else if S_ISLNK re_mode then 'L'
  else if S_ISSOCK re_mode then 'S'
  else if S_ISFIFO re_mode then 'U'
  else if S_ISBLK re_mode then 'B'
  else if S_ISCHR re_mode then 'C'
  else if S_ISREG re_mode then 'F'
  else 'X'

/-- The record that the traversal loop creates for an entry: the memory comes
zeroed from `calloc`, every field but `re_selected` is then assigned. -/
def traversal_record (p : FTSENT) : file_record :=
  { re_path := some (cstr p.fts_path)
    re_atime := p.fts_statp.st_atime
    re_atime_str := none
    re_mtime := p.fts_statp.st_mtime
    re_mtime_str := none
    re_ctime := p.fts_statp.st_ctime
    re_ctime_str := none
    re_size := p.fts_statp.st_size
    re_ino := p.fts_statp.st_ino
    re_uid := p.fts_statp.st_uid
    re_gid := p.fts_statp.st_gid
    re_mode := p.fts_statp.st_mode
    re_type := type_tag p.fts_statp.st_mode
    re_selected := '\x00' }

/-- What the traversal loop of `main` works on: the store and the two
counters. -/
structure scan_state where
  snap : snap_t
  filesVisited : Nat
  filesSkipped : Nat
deriving DecidableEq, Repr

/-- The entries that the `switch` on `fts_info` leaves with `continue`. -/
def fts_info_passed (info : fts_info_t) : Bool :=
  info = .FTS_DP || info = .FTS_ERR || info = .FTS_NS

/-- One iteration of the traversal loop of `main` on the entry `p`, with the
ignore list of `globals` and the option `globals->skipDirs`: the state it
leaves, and whether it called `fts_set(ftsp, p, FTS_SKIP)`. -/
def traversal_step (globals : globals_t) (skipDirs : Bool) (p : FTSENT)
    (st : scan_state) : scan_state × Bool :=
  if fts_info_passed p.fts_info then (st, false)
  else if should_be_ignored globals p.fts_path p.fts_pathlen p.fts_name p.fts_namelen then
    ({ st with
        filesVisited := st.filesVisited + 1
        filesSkipped := st.filesSkipped + 1 }, true)
  else if skipDirs && S_ISDIR p.fts_statp.st_mode then
    ({ st with
        filesVisited := st.filesVisited + 1
        filesSkipped := st.filesSkipped + 1 }, false)
  else
    ({ st with
        filesVisited := st.filesVisited + 1
        snap := add_record_to_snap st.snap (traversal_record p) }, false)

/-- The traversal loop of `main` over a hierarchy.  Modelled from fts(3):
`fts_read` returns an entry before the entries below it; a directory
(`FTS_D`) is returned a second time after them, as `FTS_DP`; and after
`FTS_SKIP` none of the entries below a directory is returned. -/
def traversal_loop (globals : globals_t) (skipDirs : Bool) :
    fts_forest → scan_state → scan_state
  | .nil, st => st
  | .cons p children siblings, st =>
    let first := traversal_step globals skipDirs p st
    let after :=
      if p.fts_info = .FTS_D then
        let below :=
          if first.2 then first.1 else traversal_loop globals skipDirs children first.1
        (traversal_step globals skipDirs { p with fts_info := .FTS_DP } below).1
      else first.1
    traversal_loop globals skipDirs siblings after

/-- The state in which `main` enters the traversal loop: the store of
`init_snap_record`, the counters at 0. -/
def initial_scan_state : scan_state :=
  { snap := store_with "%p %m %c".toList []
    filesVisited := 0
    filesSkipped := 0 }

/-- The entries of a hierarchy, in the order of the walk. -/
def fts_forest.entries : fts_forest → List FTSENT
  | .nil => []
  | .cons p children siblings => p :: (children.entries ++ siblings.entries)

/-- An entry of a hierarchy, with the entries above it, outermost first. -/
inductive fts_forest.reaches : fts_forest → List FTSENT → FTSENT → Prop
  | here (p : FTSENT) (children siblings : fts_forest) :
    fts_forest.reaches (.cons p children siblings) [] p
  | under (p : FTSENT) (children siblings : fts_forest) (above : List FTSENT) (e : FTSENT) :
    fts_forest.reaches children above e →
    fts_forest.reaches (.cons p children siblings) (p :: above) e
  | next (p : FTSENT) (children siblings : fts_forest) (above : List FTSENT) (e : FTSENT) :
    fts_forest.reaches siblings above e →
    fts_forest.reaches (.cons p children siblings) above e

/-- What fts(3) promises of the lengths of an entry: `fts_pathlen` and
`fts_namelen` are `strlen(fts_path)` and `strlen(fts_name)`. -/
def fts_lengths (e : FTSENT) : Prop :=
  e.fts_pathlen = strlen e.fts_path ∧ e.fts_namelen = strlen e.fts_name

instance (e : FTSENT) : Decidable (fts_lengths e) :=
  inferInstanceAs
    (Decidable (e.fts_pathlen = strlen e.fts_path ∧ e.fts_namelen = strlen e.fts_name))

/-- The entry is on the ignore list: `should_be_ignored` is true of it. -/
def ignored (globals : globals_t) (e : FTSENT) : Prop :=
  should_be_ignored globals e.fts_path e.fts_pathlen e.fts_name e.fts_namelen = true

instance (globals : globals_t) (e : FTSENT) : Decidable (ignored globals e) :=
  inferInstanceAs
    (Decidable
      (should_be_ignored globals e.fts_path e.fts_pathlen e.fts_name e.fts_namelen = true))

/-- The three tests of an iteration that an entry passes to reach
`add_record_to_snap`. -/
def entry_recorded (globals : globals_t) (skipDirs : Bool) (p : FTSENT) : Bool :=
  !fts_info_passed p.fts_info &&
  !should_be_ignored globals p.fts_path p.fts_pathlen p.fts_name p.fts_namelen &&
  !(skipDirs && S_ISDIR p.fts_statp.st_mode)

/-- The entries of a hierarchy for which the traversal loop appends a record,
in the order of the walk. -/
def recorded_entries (globals : globals_t) (skipDirs : Bool) : fts_forest → List FTSENT
  | .nil => []
  | .cons p children siblings =>
    (if entry_recorded globals skipDirs p then [p] else []) ++
    (if p.fts_info = .FTS_D ∧ ¬ ignored globals p then
      recorded_entries globals skipDirs children
    else []) ++
    recorded_entries globals skipDirs siblings

/-- The last component of a path: what follows its last `/`. -/
def base_name_from : List Char → List Char → List Char
  | [], name => name
  | c :: path, name =>
    if c = '/' then base_name_from path [] else base_name_from path (name ++ [c])

/-- The base name of a path. -/
def base_name (path : List Char) : List Char :=
  base_name_from path []

/-- What fts(3) gives as the name of an entry: the last component of its
path, when the path does not end with `/`. -/
def fts_name_of_path (e : FTSENT) : Prop :=
  base_name (cstr e.fts_path) ≠ [] → cstr e.fts_name = base_name (cstr e.fts_path)

instance (e : FTSENT) : Decidable (fts_name_of_path e) :=
  inferInstanceAs
    (Decidable (base_name (cstr e.fts_path) ≠ [] → cstr e.fts_name = base_name (cstr e.fts_path)))

/-- A regular file entry, a directory entry, with the lengths that fts(3)
gives them. -/
def file_entry (path name : List Char) : FTSENT :=
  { fts_info := .FTS_F
    fts_path := path
    fts_pathlen := strlen path
    fts_name := name
    fts_namelen := strlen name
    fts_statp :=
      { st_mode := 0o100644, st_size := 12, st_atime := 5, st_mtime := 6, st_ctime := 7
        st_ino := 42, st_uid := 501, st_gid := 20 } }

def directory_entry (path name : List Char) : FTSENT :=
  { fts_info := .FTS_D
    fts_path := path
    fts_pathlen := strlen path
    fts_name := name
    fts_namelen := strlen name
    fts_statp :=
      { st_mode := 0o040755, st_size := 4096, st_atime := 5, st_mtime := 6, st_ctime := 7
        st_ino := 2, st_uid := 0, st_gid := 0 } }

/-- The hierarchy `/`, `/a`, `/a/b`, `/a/b/c`, `/a/bc`, `/a/.svn`,
`/a/.svn/entries`. -/
def sample_forest : fts_forest :=
  .cons (directory_entry "/".toList "/".toList)
    (.cons (directory_entry "/a".toList "a".toList)
      (.cons (directory_entry "/a/b".toList "b".toList)
        (.cons (file_entry "/a/b/c".toList "c".toList) .nil .nil)
        (.cons (file_entry "/a/bc".toList "bc".toList) .nil
          (.cons (directory_entry "/a/.svn".toList ".svn".toList)
            (.cons (file_entry "/a/.svn/entries".toList "entries".toList) .nil .nil)
            .nil)))
      .nil)
    .nil

/-! ## The sort step of `main` (`snapper.c`) -/

/-- The macro `COMPARE` of `qsort_compare`, on the two members. -/
def COMPARE (left right : Int) : Int :=
  if left > right then 1 else if left < right then -1 else 0

/-- The function `qsort_compare`, with the string `globals->sortToken`. -/
def qsort_compare (sortToken : List Char) (left right : file_record) : Int :=
  match sortToken.headD '\x00' with
  | 's' => COMPARE left.re_size right.re_size
  | 'S' => COMPARE right.re_size left.re_size
  | 'a' => COMPARE left.re_atime right.re_atime
  | 'A' => COMPARE right.re_atime left.re_atime
  | 'm' => COMPARE left.re_mtime right.re_mtime
  | 'M' => COMPARE right.re_mtime left.re_mtime
  | 'c' => COMPARE left.re_ctime right.re_ctime
  | 'C' => COMPARE right.re_ctime left.re_ctime
  | 'i' => COMPARE left.re_ino right.re_ino
  | 'I' => COMPARE right.re_ino left.re_ino
  | 'o' => COMPARE left.re_uid right.re_uid
  | 'O' => COMPARE right.re_uid left.re_uid
  | 'g' => COMPARE left.re_gid right.re_gid
  | 'G' => COMPARE right.re_gid left.re_gid
  | _ => 0

/-- No element of the array compares greater than the one after it. -/
def in_order (compar : file_record → file_record → Int) : List file_record → Bool
  | [] => true
  | [_] => true
  | x :: y :: rest => decide (compar x y ≤ 0) && in_order compar (y :: rest)

/-- What C promises of `qsort(base, nel, width, compar)`: the array is left
a rearrangement of its elements in which no element compares greater than
the one after it. -/
def qsort_result (compar : file_record → file_record → Int)
    (base sorted : List file_record) : Prop :=
  sorted.isPerm base = true ∧ in_order compar sorted = true

instance (compar : file_record → file_record → Int) (base sorted : List file_record) :
    Decidable (qsort_result compar base sorted) :=
  inferInstanceAs (Decidable (sorted.isPerm base = true ∧ in_order compar sorted = true))

/-- The test of the sort step of `main`: a token is there and its first
character is neither `p` nor `P`. -/
def sort_wanted (sortToken : Option (List Char)) : Bool :=
  match sortToken with
  | none => false
  | some token => !(token.headD '\x00' = 'p' || token.headD '\x00' = 'P')

/-- The sort step of `main`, as a relation between the store before and
after it: when the test holds, `qsort` is called on the entries
`0 .. currentArraySize - 1` of the array; otherwise nothing is done. -/
def sort_step (sortToken : Option (List Char)) (snap after : snap_t) : Prop :=
  if sort_wanted sortToken then
    ∃ sorted,
      qsort_result (qsort_compare (sortToken.getD []))
        (snap.master_array.take snap.currentArraySize) sorted ∧
      after = { snap with
        master_array := sorted ++ snap.master_array.drop snap.currentArraySize }
  else after = snap

/-- The field that each lower-case sort token stands for (the tokens are the
column codes of the template): size, access time, modification time, change
time, inode, owner, group. -/
def sort_field (token : Char) : Option (file_record → Int) :=
  if token = 's' then some (fun r => r.re_size)
  else if token = 'a' then some (fun r => r.re_atime)
  else if token = 'm' then some (fun r => r.re_mtime)
  else if token = 'c' then some (fun r => r.re_ctime)
  else if token = 'i' then some (fun r => r.re_ino)
  else if token = 'o' then some (fun r => r.re_uid)
  else if token = 'g' then some (fun r => r.re_gid)
  else none

/-! ## The configuration file (`configfile.c`) -/

/-- The type `struct key_value_record`. -/
structure key_value_record where
  key : List Char
  value : List Char
deriving DecidableEq, Repr

/-- The type `struct config_file_record`.  Its `key_value_array` is the list of the entries
`0 .. array_size - 1` of the C array; `allocated` is the size in bytes of the
block that `key_value_array` points to, as `calloc` or `realloc` was last
asked for it. -/
structure config_file_t where
  path : Option (List Char)
  read : Int
  valid : Int
  key_value_array : List key_value_record
  array_size : Nat
  array_capacity : Nat
  allocated : Nat
deriving DecidableEq, Repr

/-- How a call on a configuration record fails: an `assert` aborts the
process, or an entry is stored past the end of the allocated block. -/
inductive config_fault where
  | assertion
  | heap_overflow
deriving DecidableEq, Repr

/-- The value of `sizeof(struct key_value_record)`: two pointers, a pointer being as wide
as `long` (ILP32 and LP64 platforms). -/
def sizeof_key_value_record (P : Platform) : Nat :=
  2 * (P.long_bits / 8)

/-- The function `init_config_file`. -/
def init_config_file (P : Platform) : config_file_t :=
  { path := none
    read := 0
    valid := 1
    key_value_array := []
    array_size := 0
    array_capacity := 30
    allocated := sizeof_key_value_record P * 30 }

/-- The number of bytes that `add_key_value_record_to_config_file` passes to `RECREATE`:
`file_record->array_capacity + sizeof(struct key_value_record) * 10`,
computed in `size_t`. -/
def grow_request (P : Platform) (array_capacity : Nat) : Nat :=
  (array_capacity + sizeof_key_value_record P * 10) % 2 ^ P.long_bits

/-- The function `add_key_value_record_to_config_file`.  `RECREATE` calls `realloc` when
the number of bytes is positive; the entry is stored at index `array_size`,
which lies in the block when `(array_size + 1) * sizeof(struct
key_value_record)` bytes are allocated. -/
def add_key_value_record_to_config_file (P : Platform) (key_rec : key_value_record)
    (file_record : config_file_t) : Except config_fault config_file_t :=
  if file_record.read ≠ 0 ∨ file_record.valid ≠ 1 then .error .assertion
  else
    let grown : config_file_t :=
      if ¬ file_record.array_size < file_record.array_capacity then
        { file_record with
          allocated :=
            if grow_request P file_record.array_capacity > 0 then
              grow_request P file_record.array_capacity
            else file_record.allocated
          array_capacity := (file_record.array_capacity + 10) % 2 ^ P.int_bits }
      else file_record
    if (grown.array_size + 1) * sizeof_key_value_record P ≤ grown.allocated then
      .ok { grown with
        key_value_array :=
          grown.key_value_array.take grown.array_size
            ++ [{ key := cstr key_rec.key, value := cstr key_rec.value }]
        array_size := (grown.array_size + 1) % 2 ^ P.int_bits }
    else .error .heap_overflow

/-- Successive calls of `add_key_value_record_to_config_file`, as `parse_config_line`
makes them for the lines of a file. -/
def add_key_value_records (P : Platform) :
    List key_value_record → config_file_t → Except config_fault config_file_t
  | [], file_record => .ok file_record
  | key_rec :: rest, file_record =>
    match add_key_value_record_to_config_file P key_rec file_record with
    | .error f => .error f
    | .ok next => add_key_value_records P rest next

/-- The first loop of `trim`, on the characters from index `i` and the count
`length - i`: the number of steps it makes before it meets a character that
is not a space (the terminator is one). -/
def trim_leading : List Char → Nat → Nat
  | c :: string, n + 1 => if c = ' ' then trim_leading string n + 1 else 0
  | _, _ => 0

/-- The last loop of `trim`, started at index `i`: the value of `i` (and of
`p - string`) after it.  The loop goes down while `i > 0` and the character
at `i` is a space. -/
def trim_trailing (string : List Char) : Nat → Nat
  | 0 => 0
  | i + 1 => if string.getD (i + 1) '\x00' = ' ' then trim_trailing string i else i + 1

/-- The function `trim`: the C string left in `string`, and the value returned. -/
def trim (string : List Char) (length : Nat) : List Char × Int :=
  if length < 1 then (cstr string, 0)
  else
    let found := trim_leading string length
    let local_length := length - found
    let moved := if found > 0 then (string.drop found).take local_length else string
    let i := trim_trailing moved (local_length - 1)
    let found := (local_length - 1) - i
    if found > 0 then (cstr (moved.take (i + 1)), 0) else (cstr moved, 0)

/-! ## The destination path of `clop.c` -/

/-- The `for` loop of `create_new_path`, with `pointer - source_path` and `i`:
the value of `pointer - source_path` after it.  The loop goes down while
`pointer > source_path`, `*pointer` is not the terminator and `i < level`;
a `pointer` beyond the terminator is a fault. -/
def create_new_path_loop (source_path : List Char) (level : Int) :
    Nat → Int → Except Fault Nat
  | 0, _ => .ok 0
  | pointer + 1, i =>
    if strlen source_path < pointer + 1 then .error .overrun
    else if (cstr source_path).getD (pointer + 1) '\x00' = '\x00' ∨ ¬ i < level then
      .ok (pointer + 1)
    else
      create_new_path_loop source_path level pointer
        (if (cstr source_path).getD (pointer + 1) '\x00' = '/' then i + 1 else i)

/-- The function `create_new_path`: the C string that `snprintf` leaves in a buffer of
`buffer_size` bytes.  With `source_path_size` 0 the loop is not entered
(`pointer` is `source_path - 1`). -/
def create_new_path (source_path : List Char) (source_path_size : Nat)
    ( destination_path_prefix : List Char) (level : Int) (buffer_size : Nat) :
    Except Fault (List Char) :=
  let scanned : Except Fault Nat :=
    if source_path_size = 0 then .ok 0
    else
      match create_new_path_loop source_path level (source_path_size - 1) 0 with
      | .error f => .error f
      | .ok pointer => .ok (pointer + 1)
  match scanned with
  | .error f => .error f
  | .ok pointer =>
    if strlen source_path < pointer then .error .overrun
    else
      .ok ((cstr destination_path_prefix ++ (cstr source_path).drop pointer).take
        (buffer_size - 1))

/-! ## Vocabulary of the specification, continued -/

/-- The capacity of a store of `init_snap_record` after `n` appends, by the
growth policy of the specification: 200000, and from there as many chunks of
50000 as it takes to hold `n` records. -/
def capacity_after (n : Nat) : Nat :=
  if n ≤ INITIAL_ARRAY_SIZE then INITIAL_ARRAY_SIZE
  else INITIAL_ARRAY_SIZE
    + ARRAY_CHUNK_SIZE * ((n - INITIAL_ARRAY_SIZE + (ARRAY_CHUNK_SIZE - 1)) / ARRAY_CHUNK_SIZE)

/-- Every `%` of a string, read from the left, is followed by a character
that it takes as its escape: the string does not end with a `%` that is not
itself an escape. -/
def escapes_complete : List Char → Bool
  | [] => true
  | c :: rest =>
    if c = '%' then
      match rest with
      | [] => false
      | _ :: rest' => escapes_complete rest'
    else escapes_complete rest

/-- A string with its escapes replaced: `%t`, `%r`, `%n` by tab, carriage
return and newline, `%` followed by any other character (`%%` included) by
that character; every other character is kept. -/
def replace_escapes : List Char → List Char
  | [] => []
  | c :: rest =>
    if c = '%' then
      match rest with
      | [] => []
      | x :: rest' =>
        (if x = 't' then '\t' else if x = 'r' then '\r' else if x = 'n' then '\n' else x)
          :: replace_escapes rest'
    else c :: replace_escapes rest

/-- The path that consists of a scan root followed by further components,
each with its leading `/`. -/
def path_below (root : List Char) (components : List (List Char)) : List Char :=
  root ++ components.flatMap (fun component => '/' :: component)

/-- A configuration record that is full: the thirty entries that
`init_config_file` makes room for are in use. -/
def full_config_file (P : Platform) : Except config_fault config_file_t :=
  add_key_value_records P (List.replicate 30 { key := "k".toList, value := "v".toList })
    (init_config_file P)


/-! # Theorems -/


/-! ## C strings -/

theorem cstr_of_cstring {s : List Char} (h : is_cstring s) : cstr s = s := by
  unfold cstr
  rw [List.takeWhile_eq_self_iff]
  intro c hc
  simpa using h c hc

theorem strlen_of_cstring {s : List Char} (h : is_cstring s) : strlen s = s.length := by
  unfold strlen; rw [cstr_of_cstring h]

theorem snprintf_s_of_cstring {n : Nat} {s : List Char} (h : is_cstring s)
    (hn : s.length < n) : snprintf_s n s = s := by
  unfold snprintf_s
  rw [cstr_of_cstring h]
  exact List.take_of_length_le (by omega)

theorem is_cstring_append {s t : List Char} (hs : is_cstring s) (ht : is_cstring t) :
    is_cstring (s ++ t) := by
  intro c hc
  rcases List.mem_append.mp hc with h | h
  · exact hs c h
  · exact ht c h

theorem copy_if_room_of_room {dest lb : List Char} {maxlen : Nat} (h : is_cstring lb)
    (hroom : dest.length + lb.length < maxlen) :
    copy_if_room dest lb maxlen = dest ++ lb := by
  unfold copy_if_room
  rw [strlen_of_cstring h, cstr_of_cstring h, if_pos hroom]

/-! ## Spaces in a column template -/

theorem unspaced_percent_cons (code : Char) (rest : List Char) :
    unspaced ('%' :: code :: rest) = '%' :: code :: unspaced rest := by
  rw [unspaced.eq_def]
  simp

theorem unspaced_space (rest : List Char) : unspaced (' ' :: rest) = unspaced rest := by
  rw [unspaced.eq_def]
  simp

theorem unspaced_other {c : Char} (h1 : c ≠ '%') (h2 : c ≠ ' ') (rest : List Char) :
    unspaced (c :: rest) = c :: unspaced rest := by
  rw [unspaced.eq_def]
  simp [h1, h2]

theorem hprintbuf_loop_full (fd : List Char) (maxlen : Nat) (T : List Char)
    (lb : Option (List Char)) (dest : List Char) (h : ¬ dest.length < maxlen) :
    hprintbuf_loop fd maxlen T lb dest = .ok dest := by
  cases T with
  | nil => rfl
  | cons c cs => rw [hprintbuf_loop, if_pos (Or.inr h)]

theorem hprintbuf_loop_percent (fd : List Char) (maxlen : Nat) (code : Char)
    (rest : List Char) (lb : Option (List Char)) (dest : List Char) :
    hprintbuf_loop fd maxlen ('%' :: code :: rest) lb dest
      = if ¬ dest.length < maxlen then .ok dest
        else
          match hprintbuf_switch lb code with
          | none => .error .uninit
          | some name =>
            if code = '\x00' then .error .overrun
            else
              hprintbuf_loop fd maxlen rest (some (snprintf_s MAX_HEADER fd))
                (copy_if_room (copy_if_room dest name maxlen) (snprintf_s MAX_HEADER fd) maxlen) := by
  rw [hprintbuf_loop]
  by_cases h : dest.length < maxlen
  · simp only [h, not_true_eq_false, or_false, Char.reduceEq, if_false, ne_eq,
      List.headD_cons]
  · simp [h]

theorem hprintbuf_loop_other (fd : List Char) (maxlen : Nat) {c : Char} (h1 : c ≠ '%')
    (h2 : c ≠ ' ') (rest : List Char) (lb : Option (List Char)) (dest : List Char) :
    hprintbuf_loop fd maxlen (c :: rest) lb dest
      = if c = '\x00' ∨ ¬ dest.length < maxlen then .ok dest
        else hprintbuf_loop fd maxlen rest lb (dest ++ [c]) := by
  rw [hprintbuf_loop]
  simp [h1, h2]

theorem hprintbuf_loop_unspaced (fd : List Char) (maxlen : Nat) (T : List Char) :
    ∀ (lb : Option (List Char)) (dest : List Char),
      hprintbuf_loop fd maxlen (unspaced T) lb dest = hprintbuf_loop fd maxlen T lb dest := by
  induction T using unspaced.induct with
  | case1 => intro lb dest; rfl
  | case2 => intro lb dest; rfl
  | case3 code rest ih =>
    intro lb dest
    rw [unspaced_percent_cons, hprintbuf_loop_percent, hprintbuf_loop_percent]
    simp only [ih]
  | case4 rest _ ih =>
    intro lb dest
    rw [unspaced_space, ih, hprintbuf_loop]
    by_cases hfull : dest.length < maxlen
    · rw [if_neg (by simp [hfull]), if_pos (by decide), if_pos rfl]
    · rw [if_pos (Or.inr hfull), hprintbuf_loop_full _ _ _ _ _ hfull]
  | case5 c rest h1 h2 ih =>
    intro lb dest
    rw [unspaced_other h1 h2, hprintbuf_loop_other _ _ h1 h2, hprintbuf_loop_other _ _ h1 h2, ih]

theorem rprintbuf_loop_full (P : Platform) (fd : List Char) (record : file_record)
    (maxlen : Nat) (T : List Char) (dest : List Char) (h : ¬ dest.length < maxlen) :
    rprintbuf_loop P fd record maxlen T dest = .ok dest := by
  cases T with
  | nil => rfl
  | cons c cs => rw [rprintbuf_loop, if_pos (Or.inr h)]

theorem rprintbuf_loop_percent (P : Platform) (fd : List Char) (record : file_record)
    (maxlen : Nat) (code : Char) (rest : List Char) (dest : List Char) :
    rprintbuf_loop P fd record maxlen ('%' :: code :: rest) dest
      = if ¬ dest.length < maxlen then .ok dest
        else
          match rprintbuf_switch P record code with
          | .error f => .error f
          | .ok field =>
            if code = '\x00' then .error .overrun
            else
              rprintbuf_loop P fd record maxlen rest
                (copy_if_room (copy_field_if_room code dest field maxlen)
                  (snprintf_s P.PATH_MAX fd) maxlen) := by
  rw [rprintbuf_loop]
  by_cases h : dest.length < maxlen
  · simp only [h, not_true_eq_false, or_false, Char.reduceEq, if_false, ne_eq,
      List.headD_cons]
  · simp [h]

theorem rprintbuf_loop_other (P : Platform) (fd : List Char) (record : file_record)
    (maxlen : Nat) {c : Char} (h1 : c ≠ '%') (h2 : c ≠ ' ') (rest : List Char)
    (dest : List Char) :
    rprintbuf_loop P fd record maxlen (c :: rest) dest
      = if c = '\x00' ∨ ¬ dest.length < maxlen then .ok dest
        else rprintbuf_loop P fd record maxlen rest (dest ++ [c]) := by
  rw [rprintbuf_loop]
  simp [h1, h2]

theorem rprintbuf_loop_unspaced (P : Platform) (fd : List Char) (record : file_record)
    (maxlen : Nat) (T : List Char) :
    ∀ (dest : List Char),
      rprintbuf_loop P fd record maxlen (unspaced T) dest
        = rprintbuf_loop P fd record maxlen T dest := by
  induction T using unspaced.induct with
  | case1 => intro dest; rfl
  | case2 => intro dest; rfl
  | case3 code rest ih =>
    intro dest
    rw [unspaced_percent_cons, rprintbuf_loop_percent, rprintbuf_loop_percent]
    simp only [ih]
  | case4 rest _ ih =>
    intro dest
    rw [unspaced_space, ih, rprintbuf_loop]
    by_cases hfull : dest.length < maxlen
    · rw [if_neg (by simp [hfull]), if_pos (by decide), if_pos rfl]
    · rw [if_pos (Or.inr hfull), rprintbuf_loop_full _ _ _ _ _ _ hfull]
  | case5 c rest h1 h2 ih =>
    intro dest
    rw [unspaced_other h1 h2, rprintbuf_loop_other _ _ _ _ h1 h2,
      rprintbuf_loop_other _ _ _ _ h1 h2, ih]

/-! ## The header line -/

theorem hprintbuf_switch_recognized (lb : Option (List Char)) {c : Char}
    (h : c ∈ recognized_codes) : hprintbuf_switch lb c = some (label_of c) := by
  simp only [recognized_codes, String.toList, List.mem_cons, List.mem_singleton,
    List.not_mem_nil, or_false] at h
  rcases h with rfl | rfl | rfl | rfl | rfl | rfl | rfl | rfl | rfl | rfl | rfl | rfl |
    rfl | rfl | rfl | rfl <;> rfl

theorem label_of_unrecognized {c : Char} (h : c ∉ recognized_codes) : label_of c = [] := by
  simp only [recognized_codes, String.toList, List.mem_cons, List.mem_singleton,
    List.not_mem_nil, or_false, not_or] at h
  obtain ⟨h1, h2, h3, h4, h5, h6, h7, h8, h9, h10, h11, h12, h13, h14, h15, h16⟩ := h
  unfold label_of
  rw [if_neg h1, if_neg h2, if_neg h3, if_neg h4, if_neg h5, if_neg h6, if_neg h7, if_neg h8,
    if_neg h9, if_neg h10, if_neg h11, if_neg h12, if_neg h13, if_neg h14, if_neg h15,
    if_neg h16]

theorem recognized_cases {c : Char} (h : c ∈ recognized_codes) :
    c = 'p' ∨ c = 'a' ∨ c = 'A' ∨ c = 'm' ∨ c = 'M' ∨ c = 'c' ∨ c = 'C' ∨ c = 's' ∨
    c = 'S' ∨ c = 'i' ∨ c = 'o' ∨ c = 'g' ∨ c = 't' ∨ c = 'T' ∨ c = 'P' ∨ c = 'e' := by
  simpa only [recognized_codes, String.toList, List.mem_cons, List.mem_singleton,
    List.not_mem_nil, or_false] using h

theorem label_of_cstring (c : Char) : is_cstring (label_of c) := by
  by_cases h : c ∈ recognized_codes
  · rcases recognized_cases h with rfl | rfl | rfl | rfl | rfl | rfl | rfl | rfl | rfl | rfl |
      rfl | rfl | rfl | rfl | rfl | rfl <;> decide
  · rw [label_of_unrecognized h]; decide

theorem label_of_length (c : Char) : (label_of c).length < 64 := by
  by_cases h : c ∈ recognized_codes
  · rcases recognized_cases h with rfl | rfl | rfl | rfl | rfl | rfl | rfl | rfl | rfl | rfl |
      rfl | rfl | rfl | rfl | rfl | rfl <;> decide
  · rw [label_of_unrecognized h]; decide

theorem recognized_ne_nul {c : Char} (h : c ∈ recognized_codes) : c ≠ '\x00' := by
  rintro rfl
  revert h
  decide

theorem delimited_cons (d : List Char) (x : List Char) (xs : List (List Char)) :
    delimited d (x :: xs) = x ++ d ++ delimited d xs := by
  simp [delimited]

theorem delimited_nil (d : List Char) : delimited d [] = [] := rfl

theorem hprintbuf_loop_codes (fd : List Char) (maxlen : Nat) (hfd : is_cstring fd)
    (hfdlen : fd.length < MAX_HEADER) :
    ∀ (codes : List Char) (lb : Option (List Char)) (dest : List Char),
      (∀ c ∈ codes, c ∈ recognized_codes) →
      dest.length + (delimited fd (codes.map label_of)).length < maxlen →
      hprintbuf_loop fd maxlen (template_of_codes codes) lb dest
        = .ok (dest ++ delimited fd (codes.map label_of)) := by
  intro codes
  induction codes with
  | nil => intro lb dest _ _; simp [template_of_codes, hprintbuf_loop, delimited]
  | cons c cs ih =>
    intro lb dest hrec hroom
    have hc : c ∈ recognized_codes := hrec c (List.mem_cons_self _ _)
    have hcs : ∀ x ∈ cs, x ∈ recognized_codes := fun x hx => hrec x (List.mem_cons_of_mem _ hx)
    have htpl : template_of_codes (c :: cs) = '%' :: c :: template_of_codes cs := by
      simp [template_of_codes]
    rw [List.map_cons, delimited_cons] at hroom ⊢
    simp only [List.length_append] at hroom
    have hlbl := label_of_cstring c
    have hdelim : snprintf_s MAX_HEADER fd = fd := snprintf_s_of_cstring hfd hfdlen
    rw [htpl, hprintbuf_loop]
    have h1 : ¬ (('%' : Char) = '\x00' ∨ ¬ dest.length < maxlen) := by
      simp; omega
    rw [if_neg h1]
    simp only [ne_eq, not_true_eq_false, ↓reduceIte, List.headD_cons]
    rw [hprintbuf_switch_recognized lb hc]
    simp only [hdelim]
    rw [copy_if_room_of_room hlbl (by omega)]
    rw [copy_if_room_of_room hfd (by simp only [List.length_append]; omega)]
    rw [if_neg (recognized_ne_nul hc)]
    rw [ih (some fd) _ hcs (by simp only [List.length_append]; omega)]
    simp [List.append_assoc]

theorem hprintbuf_codes (snap : snap_t) (codes : List Char) (maxlen : Nat)
    (hcodes : ∀ c ∈ codes, c ∈ recognized_codes)
    (htemplate : unspaced snap.column_string = template_of_codes codes)
    (hfd : is_cstring snap.field_delimiter) (hrd : is_cstring snap.record_delimiter)
    (hfdlen : snap.field_delimiter.length < MAX_HEADER)
    (hrdlen : snap.record_delimiter.length < MAX_HEADER)
    (hroom : (delimited snap.field_delimiter (codes.map label_of)
      ++ snap.record_delimiter).length < maxlen) :
    hprintbuf snap maxlen
      = .ok (delimited snap.field_delimiter (codes.map label_of) ++ snap.record_delimiter) := by
  simp only [List.length_append] at hroom
  unfold hprintbuf
  rw [← hprintbuf_loop_unspaced, htemplate, hprintbuf_loop_codes _ maxlen hfd hfdlen codes none [] hcodes
    (by simp only [List.length_nil]; omega)]
  simp only [List.nil_append]
  rw [snprintf_s_of_cstring hrd hrdlen, copy_if_room_of_room hrd hroom]

/-- C8 (amended): for a column template made only of recognized codes
(spaces between the codes apart), delimiters shorter than the scratch buffer
of 256 bytes and a buffer large enough for the line, `hprintbuf` writes, in
template order, the fixed label of each code immediately followed by the
field delimiter, and then the record delimiter. -/
theorem hprintbuf_header_labels (snap : snap_t) (codes : List Char) (maxlen : Nat)
    (hcodes : ∀ c ∈ codes, c ∈ recognized_codes)
    (htemplate : unspaced snap.column_string = template_of_codes codes)
    (hfd : is_cstring snap.field_delimiter) (hrd : is_cstring snap.record_delimiter)
    (hfdlen : snap.field_delimiter.length < MAX_HEADER)
    (hrdlen : snap.record_delimiter.length < MAX_HEADER)
    (hroom : (delimited snap.field_delimiter (codes.map label_of)
      ++ snap.record_delimiter).length < maxlen) :
    hprintbuf snap maxlen
      = .ok (delimited snap.field_delimiter (codes.map label_of) ++ snap.record_delimiter) :=
  hprintbuf_codes snap codes maxlen hcodes htemplate hfd hrd hfdlen hrdlen hroom

set_option maxRecDepth 100000 in
theorem hprintbuf_header_labels_witness :
    hprintbuf (store_with "%p %S%P  %e ".toList []) 1124
      = .ok "Path\tSize (raw)\tMode\tSelected\t\n".toList :=
  hprintbuf_header_labels (store_with "%p %S%P  %e ".toList []) "pSPe".toList 1124
    (by decide) (by decide) (by decide) (by decide) (by decide) (by decide) (by decide)

/-! ## The record line -/

theorem is_cstring_cstr (s : List Char) : is_cstring (cstr s) := by
  intro c hc
  have := List.mem_takeWhile_imp hc
  simpa using this

theorem is_cstring_take {s : List Char} (h : is_cstring s) (n : Nat) :
    is_cstring (s.take n) :=
  fun c hc => h c (List.mem_of_mem_take hc)

theorem is_cstring_snprintf_s (n : Nat) (s : List Char) : is_cstring (snprintf_s n s) :=
  is_cstring_take (is_cstring_cstr s) _

theorem is_cstring_snprintf_c (n : Nat) (c : Char) : is_cstring (snprintf_c n c) :=
  is_cstring_take (is_cstring_cstr _) _

theorem rprintbuf_switch_path (P : Platform) (record : file_record) :
    rprintbuf_switch P record 'p' =
      (match record.re_path with
      | none => Except.error Fault.nullstr
      | some path => Except.ok (snprintf_s P.PATH_MAX path)) := rfl

theorem rprintbuf_switch_ok (P : Platform) (record : file_record) {c : Char}
    (h : c ∈ recognized_codes) (hpath : c = 'p' → record.re_path ≠ none) :
    rprintbuf_switch P record c = .ok (raw_field P record c) := by
  rcases recognized_cases h with rfl | rfl | rfl | rfl | rfl | rfl | rfl | rfl | rfl | rfl |
      rfl | rfl | rfl | rfl | rfl | rfl
  case inl =>
    have hp := hpath rfl
    unfold raw_field
    rw [rprintbuf_switch_path]
    cases hr : record.re_path with
    | none => exact absurd hr hp
    | some path => rfl
  all_goals rfl

theorem raw_field_cstring (P : Platform) (record : file_record) {c : Char}
    (h : c ∈ recognized_codes) : is_cstring (raw_field P record c) := by
  rcases recognized_cases h with rfl | rfl | rfl | rfl | rfl | rfl | rfl | rfl | rfl | rfl |
      rfl | rfl | rfl | rfl | rfl | rfl
  case inl =>
    unfold raw_field
    rw [rprintbuf_switch_path]
    cases record.re_path with
    | none => intro c hc; simp at hc
    | some path => exact is_cstring_snprintf_s _ _
  all_goals exact is_cstring_snprintf_s _ _

theorem copy_field_if_room_of_room (code : Char) {dest lb : List Char} {maxlen : Nat}
    (h : is_cstring lb) (hroom : dest.length + lb.length < maxlen) :
    copy_field_if_room code dest lb maxlen = dest ++ strip_special code lb := by
  unfold copy_field_if_room
  rw [strlen_of_cstring h, cstr_of_cstring h, if_pos hroom]

theorem strip_special_length_le (code : Char) (s : List Char) :
    (strip_special code s).length ≤ s.length :=
  List.length_filter_le _ _

theorem line_room_cons (P : Platform) (record : file_record) (fd rd : List Char)
    (c : Char) (cs : List Char) :
    line_room P record fd rd (c :: cs)
      = (raw_field P record c).length + fd.length + line_room P record fd rd cs := by
  simp [line_room]; omega

theorem rprintbuf_loop_codes (P : Platform) (record : file_record) (fd rd : List Char)
    (maxlen : Nat) (hfd : is_cstring fd) (hfdlen : fd.length < P.PATH_MAX) :
    ∀ (codes : List Char) (dest : List Char),
      (∀ c ∈ codes, c ∈ recognized_codes) →
      ('p' ∈ codes → record.re_path ≠ none) →
      dest.length + line_room P record fd rd codes < maxlen →
      rprintbuf_loop P fd record maxlen (template_of_codes codes) dest
        = .ok (dest ++ delimited fd (codes.map (field_text P record))) := by
  intro codes
  induction codes with
  | nil => intro dest _ _ _; simp [template_of_codes, rprintbuf_loop, delimited]
  | cons c cs ih =>
    intro dest hrec hpath hroom
    have hc : c ∈ recognized_codes := hrec c (List.mem_cons_self _ _)
    have hcs : ∀ x ∈ cs, x ∈ recognized_codes := fun x hx => hrec x (List.mem_cons_of_mem _ hx)
    have hpc : c = 'p' → record.re_path ≠ none := fun e => hpath (e ▸ List.mem_cons_self _ _)
    have hpcs : 'p' ∈ cs → record.re_path ≠ none := fun e => hpath (List.mem_cons_of_mem _ e)
    have htpl : template_of_codes (c :: cs) = '%' :: c :: template_of_codes cs := by
      simp [template_of_codes]
    rw [line_room_cons] at hroom
    rw [List.map_cons, delimited_cons]
    have hraw := raw_field_cstring P record hc
    have hdelim : snprintf_s P.PATH_MAX fd = fd := snprintf_s_of_cstring hfd hfdlen
    have hstrip := strip_special_length_le c (raw_field P record c)
    rw [htpl, rprintbuf_loop]
    have h1 : ¬ (('%' : Char) = '\x00' ∨ ¬ dest.length < maxlen) := by
      simp; omega
    rw [if_neg h1]
    simp only [ne_eq, not_true_eq_false, ↓reduceIte, List.headD_cons]
    rw [rprintbuf_switch_ok P record hc hpc]
    simp only [hdelim]
    rw [copy_field_if_room_of_room c hraw (by omega)]
    rw [copy_if_room_of_room hfd (by simp only [List.length_append]; omega)]
    rw [if_neg (recognized_ne_nul hc)]
    rw [ih _ hcs hpcs (by simp only [List.length_append]; omega)]
    simp [List.append_assoc, field_text]

theorem rprintbuf_codes (P : Platform) (snap : snap_t) (record : file_record)
    (codes : List Char) (maxlen : Nat)
    (hcodes : ∀ c ∈ codes, c ∈ recognized_codes)
    (htemplate : unspaced snap.column_string = template_of_codes codes)
    (hpath : 'p' ∈ codes → record.re_path ≠ none)
    (hfd : is_cstring snap.field_delimiter) (hrd : is_cstring snap.record_delimiter)
    (hfdlen : snap.field_delimiter.length < P.PATH_MAX)
    (hrdlen : snap.record_delimiter.length < P.PATH_MAX)
    (hroom : line_room P record snap.field_delimiter snap.record_delimiter codes < maxlen) :
    rprintbuf P snap record maxlen
      = .ok (delimited snap.field_delimiter (codes.map (field_text P record))
          ++ snap.record_delimiter) := by
  unfold rprintbuf
  rw [← rprintbuf_loop_unspaced, htemplate, rprintbuf_loop_codes P record _ snap.record_delimiter maxlen hfd hfdlen codes []
    hcodes hpath (by simp only [List.length_nil]; omega)]
  simp only [List.nil_append]
  rw [snprintf_s_of_cstring hrd hrdlen]
  have h1 : ∀ (cs : List Char) ,
      (delimited snap.field_delimiter (cs.map (field_text P record))).length + snap.record_delimiter.length
        ≤ line_room P record snap.field_delimiter snap.record_delimiter cs := by
    intro cs
    induction cs with
    | nil => simp [delimited, line_room]
    | cons c cs ih =>
      rw [line_room_cons, List.map_cons, delimited_cons]
      have := strip_special_length_le c (raw_field P record c)
      simp only [List.length_append, field_text]
      omega
  rw [copy_if_room_of_room hrd (by have := h1 codes; omega)]

theorem plain_char_iff (c : Char) : plain_char c = true ↔
    c ≠ '\x00' ∧ c ≠ '\t' ∧ c ≠ '\n' ∧ c ≠ '\r' ∧ c ≠ EOF_char := by
  simp [plain_char, and_assoc]

theorem plain_text_cstring {s : List Char} (h : plain_text s) : is_cstring s :=
  fun c hc => ((plain_char_iff c).mp (h c hc)).1

theorem plain_text_no_tab {s : List Char} (h : plain_text s) : ∀ c ∈ s, c ≠ '\t' :=
  fun c hc => ((plain_char_iff c).mp (h c hc)).2.1

theorem getline_loop_line (buflen : Nat) (rest : List Char) :
    ∀ (line acc : List Char), line_text line → (acc ++ line).length < buflen →
      getline_loop buflen (line ++ '\n' :: rest) acc
        = (some '\n', false, acc ++ line, true, rest) := by
  intro line
  induction line with
  | nil =>
    intro acc _ hlen
    simp only [List.append_nil] at hlen
    simp [getline_loop, hlen, EOF_char]
  | cons c cs ih =>
    intro acc hl hlen
    have hc := hl c (List.mem_cons_self _ _)
    have hcs : line_text cs := fun x hx => hl x (List.mem_cons_of_mem _ hx)
    simp only [List.length_append, List.length_cons] at hlen
    rw [List.cons_append, getline_loop]
    rw [if_neg hc.2.2, if_neg (by omega), if_neg (by simp [hc.1, hc.2.1])]
    rw [ih (acc ++ [c]) hcs (by simp only [List.length_append, List.length_cons, List.length_nil]; omega)]
    simp

theorem getline_line (file_error : Bool) (buflen : Nat) (line rest : List Char)
    (hl : line_text line) (hlen : line.length < buflen) :
    _getline ⟨line ++ '\n' :: rest, file_error⟩ buflen
      = ((line.length : Int) + 1, line, ⟨rest, file_error⟩) := by
  unfold _getline
  simp only []
  rw [getline_loop_line buflen rest line [] hl (by simpa using hlen)]
  simp

theorem getline_end (file_error : Bool) (buflen : Nat) :
    (_getline ⟨[], file_error⟩ buflen).1 < 0 := by
  unfold _getline
  simp only [getline_loop]
  by_cases h : buflen = 0 <;> cases file_error <;> simp [h]

/-! ## Columns of a line -/

theorem header_loop_label (success : Int) (rest : List Char) (i : Nat)
    (st : ColumnTracker × List Char) :
    ∀ (label header_buf : List Char) (pos : Nat),
      is_cstring label → (∀ c ∈ label, c ≠ '\t') →
      (header_buf ++ label).length < 64 → ((pos + label.length : Nat) : Int) < success →
      header_loop success (label ++ '\t' :: rest) pos header_buf i st
        = header_loop success rest (pos + label.length + 1) [] (i + 1)
            (header_entry (header_buf ++ label) i st) := by
  intro label
  induction label with
  | nil =>
    intro hb pos _ _ hlen hpos
    simp only [List.append_nil, List.length_nil, Nat.add_zero] at hlen hpos ⊢
    rw [List.nil_append, header_loop]
    rw [if_neg (by simp; omega)]
    simp
  | cons c cs ih =>
    intro hb pos hc ht hlen hpos
    have hc0 : c ≠ '\x00' := hc c (List.mem_cons_self _ _)
    have hct : c ≠ '\t' := ht c (List.mem_cons_self _ _)
    simp only [List.length_append, List.length_cons] at hlen hpos
    rw [List.cons_append, header_loop]
    rw [if_neg (by simp [hc0]; omega), if_neg hct]
    rw [ih (hb ++ [c]) (pos + 1) (fun x hx => hc x (List.mem_cons_of_mem _ hx))
      (fun x hx => ht x (List.mem_cons_of_mem _ hx))
      (by simp only [List.length_append, List.length_cons, List.length_nil]; omega)
      (by push_cast at hpos ⊢; omega)]
    simp only [List.append_assoc, List.singleton_append, List.length_cons]
    congr 1
    omega

theorem header_loop_labels (success : Int) :
    ∀ (labels : List (List Char)) (pos i : Nat) (st : ColumnTracker × List Char),
      (∀ l ∈ labels, is_cstring l ∧ (∀ c ∈ l, c ≠ '\t') ∧ l.length < 64) →
      ((pos + (delimited ['\t'] labels).length : Nat) : Int) ≤ success →
      header_loop success (delimited ['\t'] labels) pos [] i st
        = header_entries labels i st := by
  intro labels
  induction labels with
  | nil => intro pos i st _ _; simp [delimited, header_loop, header_entries]
  | cons l ls ih =>
    intro pos i st hl hpos
    obtain ⟨h1, h2, h3⟩ := hl l (List.mem_cons_self _ _)
    rw [delimited_cons] at hpos ⊢
    simp only [List.length_append, List.length_cons, List.length_nil] at hpos
    rw [List.append_assoc, List.singleton_append,
      header_loop_label success _ i st l [] pos h1 h2 (by simpa using h3)
        (by push_cast at hpos ⊢; omega)]
    rw [List.nil_append, header_entries]
    exact ih _ _ _ (fun x hx => hl x (List.mem_cons_of_mem _ hx))
      (by push_cast at hpos ⊢; omega)

theorem parse_loop_column (P : Platform) (ct : ColumnTracker) (rest : List Char) (i : Nat)
    (record : file_record) :
    ∀ (column entry_buf : List Char),
      is_cstring column → (∀ c ∈ column, c ≠ '\t') →
      (entry_buf ++ column).length < P.PATH_MAX →
      parse_loop P ct (column ++ '\t' :: rest) entry_buf i record
        = parse_loop P ct rest [] (i + 1) (store_entry P ct i (entry_buf ++ column) record) := by
  intro column
  induction column with
  | nil =>
    intro eb _ _ hlen
    simp only [List.append_nil] at hlen ⊢
    rw [List.nil_append, parse_loop]
    rw [if_neg (by simp; omega)]
    simp
  | cons c cs ih =>
    intro eb hc ht hlen
    have hc0 : c ≠ '\x00' := hc c (List.mem_cons_self _ _)
    have hct : c ≠ '\t' := ht c (List.mem_cons_self _ _)
    simp only [List.length_append, List.length_cons] at hlen
    rw [List.cons_append, parse_loop]
    rw [if_neg (by simp [hc0]; omega), if_neg hct]
    rw [ih (eb ++ [c]) (fun x hx => hc x (List.mem_cons_of_mem _ hx))
      (fun x hx => ht x (List.mem_cons_of_mem _ hx))
      (by simp only [List.length_append, List.length_cons, List.length_nil]; omega)]
    simp only [List.append_assoc, List.singleton_append]

theorem parse_loop_columns (P : Platform) (ct : ColumnTracker) :
    ∀ (columns : List (List Char)) (i : Nat) (record : file_record),
      (∀ l ∈ columns, is_cstring l ∧ (∀ c ∈ l, c ≠ '\t') ∧ l.length < P.PATH_MAX) →
      parse_loop P ct (delimited ['\t'] columns) [] i record
        = store_entries P ct columns i record := by
  intro columns
  induction columns with
  | nil => intro i r _; simp [delimited, parse_loop, store_entries]
  | cons l ls ih =>
    intro i r hl
    obtain ⟨h1, h2, h3⟩ := hl l (List.mem_cons_self _ _)
    rw [delimited_cons, List.append_assoc, List.singleton_append,
      parse_loop_column P ct _ i r l [] h1 h2 (by simpa using h3)]
    rw [List.nil_append, store_entries]
    exact ih _ _ (fun x hx => hl x (List.mem_cons_of_mem _ hx))

theorem parse_line_columns (P : Platform) (ct : ColumnTracker) (columns : List (List Char))
    (h : ∀ l ∈ columns, is_cstring l ∧ (∀ c ∈ l, c ≠ '\t') ∧ l.length < P.PATH_MAX) :
    parse_snapper_file_line P ct (delimited ['\t'] columns)
      = store_entries P ct columns 0 (blank_record P) :=
  parse_loop_columns P ct columns 0 _ h


/-! ## The record loop -/

theorem read_loop_lines (P : Platform) (ct : ColumnTracker) (file_error : Bool) :
    ∀ (lines : List (List Char)) (fuel : Nat) (snap : snap_t),
      (∀ l ∈ lines, line_text l ∧ l.length < P.PATH_MAX + 64) →
      lines.length < fuel →
      read_loop P ct fuel ⟨lines_text lines, file_error⟩ snap
        = .returned 0 (lines.foldl
            (fun s l => add_record_to_snap s (parse_snapper_file_line P ct l)) snap) := by
  intro lines
  induction lines with
  | nil =>
    intro fuel snap _ hfuel
    obtain ⟨f, rfl⟩ : ∃ f, fuel = f + 1 := ⟨fuel - 1, by simp at hfuel; omega⟩
    have h := getline_end file_error (P.PATH_MAX + 64)
    simp only [lines_text, List.flatMap_nil, read_loop, List.foldl_nil]
    rw [if_neg (by omega)]
  | cons l ls ih =>
    intro fuel snap hl hfuel
    obtain ⟨f, rfl⟩ : ∃ f, fuel = f + 1 := ⟨fuel - 1, by simp at hfuel; omega⟩
    obtain ⟨h1, h2⟩ := hl l (List.mem_cons_self _ _)
    have htext : lines_text (l :: ls) = l ++ '\n' :: lines_text ls := by
      simp [lines_text]
    rw [htext, read_loop, getline_line file_error _ l _ h1 h2]
    simp only []
    rw [if_pos (by omega), if_neg (by omega)]
    rw [ih f _ (fun x hx => hl x (List.mem_cons_of_mem _ hx))
      (by simp only [List.length_cons] at hfuel; omega)]
    simp

theorem add_records_size (snap : snap_t) (records : List file_record) :
    (records.foldl add_record_to_snap snap).currentArraySize
      = snap.currentArraySize + records.length := by
  induction records generalizing snap with
  | nil => simp
  | cons r rs ih =>
    rw [List.foldl_cons, ih]
    simp [add_record_to_snap]
    omega

theorem add_records_array (snap : snap_t) (records : List file_record) :
    (records.foldl add_record_to_snap snap).master_array
      = if records = [] then snap.master_array
        else snap.master_array.take snap.currentArraySize ++ records := by
  induction records generalizing snap with
  | nil => simp
  | cons r rs ih =>
    rw [List.foldl_cons, ih]
    by_cases hrs : rs = []
    · subst hrs; simp [add_record_to_snap]
    · rw [if_neg hrs, if_neg (by simp)]
      simp only [add_record_to_snap]
      rw [List.take_of_length_le (by
        simp only [List.length_append, List.length_take, List.length_cons, List.length_nil]
        omega)]
      simp

theorem foldl_add_parse (P : Platform) (ct : ColumnTracker) (lines : List (List Char))
    (snap : snap_t) :
    lines.foldl (fun s l => add_record_to_snap s (parse_snapper_file_line P ct l)) snap
      = (lines.map (parse_snapper_file_line P ct)).foldl add_record_to_snap snap := by
  rw [List.foldl_map]

/-! ## Header labels -/

theorem strncmp_eq_iff : ∀ (a b : List Char) (n : Nat), is_cstring a → is_cstring b →
    a.length ≤ n → b.length ≤ n → (strncmp_eq a b n = true ↔ a = b) := by
  intro a
  induction a with
  | nil =>
    intro b n _ hb _ hbn
    cases b with
    | nil => cases n <;> simp [strncmp_eq]
    | cons y bs =>
      obtain ⟨m, rfl⟩ : ∃ m, n = m + 1 := ⟨n - 1, by simp at hbn; omega⟩
      have := hb y (List.mem_cons_self _ _)
      simp [strncmp_eq, this]
  | cons x as ih =>
    intro b n ha hb han hbn
    obtain ⟨m, rfl⟩ : ∃ m, n = m + 1 := ⟨n - 1, by simp at han; omega⟩
    have hx := ha x (List.mem_cons_self _ _)
    cases b with
    | nil => simp [strncmp_eq, hx]
    | cons y bs =>
      simp only [strncmp_eq]
      by_cases hxy : x = y
      · subst hxy
        simp only [↓reduceIte, if_neg hx, List.cons.injEq, true_and]
        exact ih bs m (fun c hc => ha c (List.mem_cons_of_mem _ hc))
          (fun c hc => hb c (List.mem_cons_of_mem _ hc))
          (by simp at han; omega) (by simp at hbn; omega)
      · simp [hxy]

theorem strncmp_max_iff (a b : List Char) (ha : is_cstring a) (hb : is_cstring b) :
    strncmp_eq a b (MAX (strlen a) (strlen b)) = true ↔ a = b := by
  rw [strlen_of_cstring ha, strlen_of_cstring hb]
  apply strncmp_eq_iff a b _ ha hb <;> unfold MAX <;> split <;> omega

theorem find_congr {α : Type} (p q : α → Bool) :
    ∀ (l : List α), (∀ x ∈ l, p x = q x) → l.find? p = l.find? q := by
  intro l
  induction l with
  | nil => intro _; rfl
  | cons x xs ih =>
    intro h
    rw [List.find?_cons, List.find?_cons, h x (List.mem_cons_self _ _),
      ih (fun y hy => h y (List.mem_cons_of_mem _ hy))]

theorem header_table_cstring : ∀ e ∈ header_table, is_cstring e.1 := by decide

theorem header_match_eq (header_buf : List Char) (h : is_cstring header_buf) :
    header_match header_buf = header_table.find? (fun e => decide (e.1 = header_buf)) := by
  unfold header_match
  apply find_congr
  intro e he
  have := strncmp_max_iff e.1 header_buf (header_table_cstring e he) h
  by_cases h1 : e.1 = header_buf
  · rw [this.mpr h1]; simp [h1]
  · have h2 : strncmp_eq e.1 header_buf (MAX (strlen e.1) (strlen header_buf)) ≠ true :=
      fun h3 => h1 (this.mp h3)
    simp [h1, h2]


theorem label_of_plain (c : Char) : plain_text (label_of c) := by
  by_cases h : c ∈ recognized_codes
  · rcases recognized_cases h with rfl | rfl | rfl | rfl | rfl | rfl | rfl | rfl | rfl | rfl |
      rfl | rfl | rfl | rfl | rfl | rfl <;> decide
  · rw [label_of_unrecognized h]; decide

theorem header_match_label {c : Char} (h : c ∈ recognized_codes) :
    header_match (label_of c) = some (label_of c, column_of c, c) := by
  rcases recognized_cases h with rfl | rfl | rfl | rfl | rfl | rfl | rfl | rfl | rfl | rfl |
      rfl | rfl | rfl | rfl | rfl | rfl <;> decide

theorem header_entry_label {c : Char} (h : c ∈ recognized_codes) (i : Nat)
    (st : ColumnTracker × List Char) :
    header_entry (label_of c) i st
      = (Function.update st.1 (column_of c) (i : Int),
          strncat st.2 ['%', c] (200 - strlen st.2)) := by
  unfold header_entry
  rw [header_match_label h]

theorem strncat_code {dst : List Char} (hd : is_cstring dst) {c : Char}
    (hc : c ≠ '\x00') (hlen : dst.length + 2 ≤ 200) :
    strncat dst ['%', c] (200 - strlen dst) = dst ++ ['%', c] := by
  unfold strncat
  rw [strlen_of_cstring hd, cstr_of_cstring hd]
  have h2 : is_cstring ['%', c] := by
    intro x hx
    simp only [List.mem_cons, List.mem_singleton, List.not_mem_nil, or_false] at hx
    rcases hx with rfl | rfl
    · decide
    · exact hc
  rw [cstr_of_cstring h2, List.take_of_length_le (by simp; omega)]

theorem header_entries_codes :
    ∀ (codes : List Char) (i : Nat) (st : ColumnTracker × List Char),
      (∀ c ∈ codes, c ∈ recognized_codes) → is_cstring st.2 →
      st.2.length + 2 * codes.length ≤ 200 →
      (header_entries (codes.map label_of) i st).2 = st.2 ++ template_of_codes codes := by
  intro codes
  induction codes with
  | nil => intro i st _ _ _; simp [header_entries, template_of_codes]
  | cons c cs ih =>
    intro i st hrec hst hlen
    have hc : c ∈ recognized_codes := hrec c (List.mem_cons_self _ _)
    simp only [List.length_cons] at hlen
    rw [List.map_cons, header_entries, header_entry_label hc,
      strncat_code hst (recognized_ne_nul hc) (by omega)]
    rw [ih _ _ (fun x hx => hrec x (List.mem_cons_of_mem _ hx))]
    · simp [template_of_codes]
    · intro x hx
      simp only [List.mem_append, List.mem_cons, List.mem_singleton, List.not_mem_nil,
        or_false] at hx
      rcases hx with hx | rfl | rfl
      · exact hst x hx
      · decide
      · exact recognized_ne_nul hc
    · simp only [List.length_append, List.length_cons, List.length_nil]; omega

theorem line_text_delimited {columns : List (List Char)}
    (h : ∀ l ∈ columns, line_text l) : line_text (delimited ['\t'] columns) := by
  induction columns with
  | nil => intro c hc; simp [delimited] at hc
  | cons l ls ih =>
    rw [delimited_cons]
    intro c hc
    simp only [List.mem_append, List.mem_singleton] at hc
    rcases hc with (hc | rfl) | hc
    · exact h l (List.mem_cons_self _ _) c hc
    · decide
    · exact ih (fun x hx => h x (List.mem_cons_of_mem _ hx)) c hc

theorem plain_text_line {s : List Char} (h : plain_text s) : line_text s :=
  fun c hc => let p := (plain_char_iff c).mp (h c hc); ⟨p.2.2.1, p.2.2.2.1, p.2.2.2.2⟩

theorem read_header_labels (P : Platform) (labels : List (List Char)) (rest : List Char)
    (file_error : Bool)
    (hl : ∀ l ∈ labels, plain_text l ∧ l.length < 64)
    (hfit : (delimited ['\t'] labels).length < P.PATH_MAX + 64) :
    read_header P ⟨delimited ['\t'] labels ++ '\n' :: rest, file_error⟩
      = some (header_entries labels 0 (initial_column_tracker, []), ⟨rest, file_error⟩) := by
  unfold read_header
  rw [getline_line file_error _ _ rest
    (line_text_delimited (fun l h => plain_text_line (hl l h).1)) hfit]
  simp only []
  rw [if_neg (by omega)]
  rw [header_loop_labels _ labels 0 0 _
    (fun l h => ⟨plain_text_cstring (hl l h).1, plain_text_no_tab (hl l h).1, (hl l h).2⟩)
    (by push_cast; omega)]


theorem codes_labels_ok {codes : List Char} :
    ∀ l ∈ codes.map label_of, plain_text l ∧ l.length < 64 := by
  intro l hl
  obtain ⟨c, _, rfl⟩ := List.mem_map.mp hl
  exact ⟨label_of_plain c, label_of_length c⟩

/-- C2 (amended): for every list of at most 100 recognized codes whose header
fits the reader's line buffer, the header line that `hprintbuf` writes with
the default delimiters is read back by `read_snap_record_from_file` into a
derived column string that holds exactly the same codes in the same order. -/
theorem header_round_trip (P : Platform) (snap : snap_t) (codes rest : List Char)
    (file_error : Bool)
    (hcodes : ∀ c ∈ codes, c ∈ recognized_codes)
    (hcount : codes.length ≤ 100)
    (htemplate : unspaced snap.column_string = template_of_codes codes)
    (hfd : snap.field_delimiter = ['\t']) (hrd : snap.record_delimiter = ['\n'])
    (hfit : (delimited ['\t'] (codes.map label_of)).length < P.PATH_MAX + 64) :
    hprintbuf snap (MAX_RECORD_LENGTH P)
        = .ok (delimited ['\t'] (codes.map label_of) ++ ['\n']) ∧
      (read_header P ⟨(delimited ['\t'] (codes.map label_of) ++ ['\n']) ++ rest, file_error⟩).map
          (fun r => r.1.2)
        = some (template_of_codes codes) := by
  constructor
  · have h := hprintbuf_codes snap codes (MAX_RECORD_LENGTH P) hcodes htemplate
      (by rw [hfd]; decide) (by rw [hrd]; decide) (by rw [hfd]; decide) (by rw [hrd]; decide)
      (by
        rw [hfd, hrd]
        simp only [List.length_append, List.length_cons, List.length_nil, MAX_RECORD_LENGTH]
        omega)
    rw [h, hfd, hrd]
  · rw [List.append_assoc, List.singleton_append,
      read_header_labels P _ rest file_error codes_labels_ok hfit]
    simp only [Option.map_some']
    rw [header_entries_codes codes 0 _ hcodes (by intro c hc; simp at hc)
      (by simp only [List.length_nil]; omega)]
    simp

set_option maxRecDepth 100000 in
theorem header_round_trip_witness :
    hprintbuf (store_with "%p%S%P%e".toList []) (MAX_RECORD_LENGTH darwin64)
        = .ok "Path\tSize (raw)\tMode\tSelected\t\n".toList ∧
      (read_header darwin64 ⟨"Path\tSize (raw)\tMode\tSelected\t\n".toList ++ "/a\t1\t".toList,
          false⟩).map (fun r => r.1.2)
        = some "%p%S%P%e".toList :=
  header_round_trip darwin64 (store_with "%p%S%P%e".toList []) "pSPe".toList "/a\t1\t".toList
    false (by decide) (by decide) (by decide) (by decide) (by decide) (by decide)

set_option maxRecDepth 1000000 in
set_option maxHeartbeats 4000000 in
/-- C2 as stated fails: the header of 101 codes `p` (505 characters and a
newline) fits the line buffer of 1088 bytes, and the column string derived
from it holds 100 codes only, the buffer `column_string` being 201 bytes. -/
theorem derived_column_string_limit :
    hprintbuf (store_with (template_of_codes (List.replicate 101 'p')) [])
        (MAX_RECORD_LENGTH darwin64)
        = .ok (delimited ['\t'] (List.replicate 101 "Path".toList) ++ ['\n']) ∧
      (delimited ['\t'] (List.replicate 101 "Path".toList) ++ ['\n']).length
        < darwin64.PATH_MAX + 64 ∧
      (read_header darwin64
          ⟨delimited ['\t'] (List.replicate 101 "Path".toList) ++ ['\n'], false⟩).map
          (fun r => r.1.2)
        = some (template_of_codes (List.replicate 100 'p')) ∧
      template_of_codes (List.replicate 100 'p') ≠ template_of_codes (List.replicate 101 'p') := by
  refine ⟨by decide, by decide, by decide, by decide⟩


/-! ## A header without the path column -/

theorem header_table_path : ∀ e ∈ header_table, e.2.1 = PATH_COLUMN → e.1 = "Path".toList := by
  decide

theorem header_match_some {header_buf : List Char} (h : is_cstring header_buf)
    {e : List Char × Nat × Char} (hm : header_match header_buf = some e) :
    e ∈ header_table ∧ e.1 = header_buf := by
  rw [header_match_eq header_buf h] at hm
  refine ⟨List.mem_of_find?_eq_some hm, ?_⟩
  have := List.find?_some hm
  simpa using this

theorem header_entry_not_path {header_buf : List Char} (h : is_cstring header_buf)
    (hne : header_buf ≠ "Path".toList) (i : Nat) (st : ColumnTracker × List Char) :
    (header_entry header_buf i st).1 PATH_COLUMN = st.1 PATH_COLUMN := by
  unfold header_entry
  cases hm : header_match header_buf with
  | none => rfl
  | some e =>
    obtain ⟨l, col, code⟩ := e
    obtain ⟨hmem, heq⟩ := header_match_some h hm
    simp only []
    have hcol : PATH_COLUMN ≠ col := by
      intro hc
      exact hne (heq ▸ header_table_path _ hmem hc.symm)
    exact Function.update_noteq hcol _ _

theorem header_loop_no_path (success : Int) :
    ∀ (buffer : List Char) (pos : Nat) (header_buf : List Char) (i : Nat)
      (st : ColumnTracker × List Char),
      is_cstring header_buf → st.1 PATH_COLUMN = -1 →
      (∀ l ∈ tab_columns_from buffer header_buf, l ≠ "Path".toList) →
      (header_loop success buffer pos header_buf i st).1 PATH_COLUMN = -1 := by
  intro buffer
  induction buffer with
  | nil => intro pos hb i st _ hst _; simpa [header_loop] using hst
  | cons c cs ih =>
    intro pos hb i st hhb hst hno
    rw [header_loop]
    split
    · exact hst
    · rename_i hstop
      have hc0 : c ≠ '\x00' := fun h => hstop (Or.inl h)
      split
      · rename_i hct
        simp only [tab_columns_from, hct, ↓reduceIte, List.mem_cons, forall_eq_or_imp] at hno
        apply ih
        · intro x hx; simp at hx
        · rw [header_entry_not_path hhb hno.1]; exact hst
        · exact hno.2
      · rename_i hct
        simp only [tab_columns_from, hct, ↓reduceIte] at hno
        apply ih _ _ _ _ _ hst hno
        intro x hx
        simp only [List.mem_append, List.mem_singleton] at hx
        rcases hx with hx | rfl
        · exact hhb x hx
        · exact hc0

theorem getline_code_cases (file : FILE) (buflen : Nat) :
    0 ≤ (_getline file buflen).1 ∨ (_getline file buflen).1 = -1 ∨
      (_getline file buflen).1 = -2 ∨ (_getline file buflen).1 = -3 ∨
      (_getline file buflen).1 = -4 := by
  unfold _getline
  simp only []
  split_ifs <;> first | (left; positivity) | simp

/-- When `_getline` gives no positive value for the header line, the function
returns -1 and the store is as it was: no label is looked at. -/
theorem unread_header_code (P : Platform) (snap : snap_t) (snapper_file : FILE)
    (h : (_getline snapper_file (P.PATH_MAX + 64)).1 ≤ 0) :
    read_snap_record_from_file P snap (some snapper_file) = .returned (-1) snap := by
  unfold read_snap_record_from_file read_header
  simp only []
  rw [if_pos]
  rcases getline_code_cases snapper_file (P.PATH_MAX + 64) with h0 | h1 | h2 | h3 | h4
  · left; omega
  · right; left; exact h1
  · right; right; left; exact h2
  · right; right; right; left; exact h3
  · right; right; right; right; exact h4

/-- C4 (amended): for every file whose header line is read by `_getline` (the
value returned is positive) and has no column label equal to "Path",
`read_snap_record_from_file` ends in the failure of the assertion on the path
column: the process is aborted and no store is returned. -/
theorem missing_path_aborts (P : Platform) (snap : snap_t) (snapper_file : FILE)
    (hread : 0 < (_getline snapper_file (P.PATH_MAX + 64)).1)
    (hnone : ∀ l ∈ tab_columns (_getline snapper_file (P.PATH_MAX + 64)).2.1,
      l ≠ "Path".toList) :
    read_snap_record_from_file P snap (some snapper_file) = .aborted := by
  unfold read_snap_record_from_file read_header
  simp only []
  rw [if_neg (by omega)]
  simp only []
  rw [if_pos]
  exact header_loop_no_path _ _ 0 [] 0 _ (by intro x hx; simp at hx) rfl hnone

set_option maxRecDepth 100000 in
theorem missing_path_aborts_witness :
    read_snap_record_from_file darwin64 (store_with "%p".toList [])
      (some ⟨"Size\tOwner\t\n/a\t12\t\n".toList, false⟩) = .aborted :=
  missing_path_aborts darwin64 (store_with "%p".toList [])
    ⟨"Size\tOwner\t\n/a\t12\t\n".toList, false⟩ (by decide) (by decide)


/-! ## Headers with unknown labels -/

theorem header_match_unknown {l : List Char} (h : is_cstring l) (hu : l ∉ known_labels) :
    header_match l = none := by
  rw [header_match_eq l h, List.find?_eq_none]
  intro e he
  simp only [decide_eq_true_eq]
  intro heq
  exact hu (List.mem_map.mpr ⟨e, he, heq⟩)

theorem header_entry_unknown {l : List Char} (h : is_cstring l) (hu : l ∉ known_labels)
    (i : Nat) (st : ColumnTracker × List Char) : header_entry l i st = st := by
  unfold header_entry
  rw [header_match_unknown h hu]

theorem header_entry_other_column {header_buf label : List Char} {col : Nat}
    (htable : ∀ e ∈ header_table, e.2.1 = col → e.1 = label)
    (h : is_cstring header_buf) (hne : header_buf ≠ label) (i : Nat)
    (st : ColumnTracker × List Char) :
    (header_entry header_buf i st).1 col = st.1 col := by
  unfold header_entry
  cases hm : header_match header_buf with
  | none => rfl
  | some e =>
    obtain ⟨l, c, code⟩ := e
    obtain ⟨hmem, heq⟩ := header_match_some h hm
    simp only []
    have hcol : col ≠ c := by
      intro hc
      exact hne (heq ▸ htable _ hmem hc.symm)
    exact Function.update_noteq hcol _ _

theorem header_entries_absent {label : List Char} {col : Nat}
    (htable : ∀ e ∈ header_table, e.2.1 = col → e.1 = label) :
    ∀ (labels : List (List Char)) (i : Nat) (st : ColumnTracker × List Char),
      (∀ l ∈ labels, is_cstring l) → label ∉ labels →
      (header_entries labels i st).1 col = st.1 col := by
  intro labels
  induction labels with
  | nil => intro i st _ _; rfl
  | cons l ls ih =>
    intro i st hc hno
    rw [header_entries, ih _ _ (fun x hx => hc x (List.mem_cons_of_mem _ hx))
      (fun hx => hno (List.mem_cons_of_mem _ hx))]
    exact header_entry_other_column htable (hc l (List.mem_cons_self _ _))
      (fun e => hno (e ▸ List.mem_cons_self _ _)) i st

theorem header_entries_index {label : List Char} {col : Nat}
    (htable : ∀ e ∈ header_table, e.2.1 = col → e.1 = label)
    (hset : ∀ i st, (header_entry label i st).1 col = (i : Int)) :
    ∀ (labels : List (List Char)) (i : Nat) (st : ColumnTracker × List Char),
      (∀ l ∈ labels, is_cstring l) → label ∈ labels →
      (header_entries labels i st).1 col = ((i + column_index label labels : Nat) : Int) := by
  intro labels
  induction labels with
  | nil => intro i st _ h; simp at h
  | cons l ls ih =>
    intro i st hc hmem
    have hcs : ∀ x ∈ ls, is_cstring x := fun x hx => hc x (List.mem_cons_of_mem _ hx)
    rw [header_entries]
    by_cases hl : label ∈ ls
    · rw [ih _ _ hcs hl, column_index, if_pos hl]
      congr 1
      omega
    · have hl1 : l = label := by
        rcases List.mem_cons.mp hmem with h | h
        · exact h.symm
        · exact absurd h hl
      subst hl1
      rw [header_entries_absent htable ls _ _ hcs hl, hset, column_index, if_neg hl]
      simp

theorem header_entries_unbound {col : Nat} (hp : col ≠ PATH_COLUMN) (hs : col ≠ SIZE_COLUMN) :
    ∀ (labels : List (List Char)) (i : Nat) (st : ColumnTracker × List Char),
      (∀ l ∈ labels, is_cstring l ∧
        (l = "Path".toList ∨ l = "Size".toList ∨ l ∉ known_labels)) →
      (header_entries labels i st).1 col = st.1 col := by
  intro labels
  induction labels with
  | nil => intro i st _; rfl
  | cons l ls ih =>
    intro i st h
    rw [header_entries, ih _ _ (fun x hx => h x (List.mem_cons_of_mem _ hx))]
    obtain ⟨hc, hl | hl | hl⟩ := h l (List.mem_cons_self _ _)
    · subst hl
      rw [show "Path".toList = label_of 'p' from rfl, header_entry_label (by decide)]
      exact Function.update_noteq hp _ _
    · subst hl
      rw [show "Size".toList = label_of 's' from rfl, header_entry_label (by decide)]
      exact Function.update_noteq hs _ _
    · rw [header_entry_unknown hc hl]

theorem code_of_label_eq {l : List Char} (h : is_cstring l) :
    code_of_label l = (header_match l).map (fun e => e.2.2) := by
  rw [header_match_eq l h]
  rfl

theorem header_entries_column_string :
    ∀ (labels : List (List Char)) (i : Nat) (st : ColumnTracker × List Char),
      (∀ l ∈ labels, is_cstring l) → is_cstring st.2 →
      st.2.length + 2 * (labels.filterMap code_of_label).length ≤ 200 →
      (header_entries labels i st).2
        = st.2 ++ template_of_codes (labels.filterMap code_of_label) := by
  intro labels
  induction labels with
  | nil => intro i st _ _ _; simp [header_entries, template_of_codes]
  | cons l ls ih =>
    intro i st hc hst hlen
    have hl := hc l (List.mem_cons_self _ _)
    have hcs : ∀ x ∈ ls, is_cstring x := fun x hx => hc x (List.mem_cons_of_mem _ hx)
    rw [header_entries]
    have hcode := code_of_label_eq hl
    cases hm : header_match l with
    | none =>
      rw [hm] at hcode
      have he : header_entry l i st = st := by unfold header_entry; rw [hm]
      rw [he]
      rw [List.filterMap_cons, hcode] at hlen ⊢
      exact ih _ _ hcs hst hlen
    | some e =>
      obtain ⟨lbl, col, code⟩ := e
      rw [hm] at hcode
      simp only [Option.map_some'] at hcode
      rw [List.filterMap_cons, hcode] at hlen ⊢
      simp only [List.length_cons] at hlen
      have hcode0 : code ≠ '\x00' := by
        have hmem := (header_match_some hl hm).1
        have : ∀ e ∈ header_table, e.2.2 ≠ '\x00' := by decide
        exact this _ hmem
      have he : header_entry l i st
          = (Function.update st.1 col (i : Int), st.2 ++ ['%', code]) := by
        unfold header_entry
        rw [hm]
        simp only []
        rw [strncat_code hst hcode0 (by omega)]
      rw [he, ih _ _ hcs]
      · simp [template_of_codes]
      · intro x hx
        simp only [List.mem_append, List.mem_cons, List.mem_singleton, List.not_mem_nil,
          or_false] at hx
        rcases hx with hx | rfl | rfl
        · exact hst x hx
        · decide
        · exact hcode0
      · simp only [List.length_append, List.length_cons, List.length_nil]; omega


/-! ## A tracker that binds the path and the size only -/

theorem store_entry_path_size (P : Platform) (ct : ColumnTracker) (ip is : Nat)
    (hp : ct PATH_COLUMN = (ip : Int)) (hs : ct SIZE_COLUMN = (is : Int))
    (hother : ∀ K, K ≠ PATH_COLUMN → K ≠ SIZE_COLUMN → ct K = -1)
    (i : Nat) (e : List Char) (r : file_record) :
    store_entry P ct i e r
      = if i = ip then { r with re_path := some (cstr e) }
        else if i = is then { r with re_size := parse_numeric P P.off_t e 10 }
        else r := by
  have hneg : ((i : Int) = -1) = False := by
    apply eq_false; omega
  have h1 := hother PERMS_COLUMN (by decide) (by decide)
  have h2 := hother OWNER_COLUMN (by decide) (by decide)
  have h3 := hother SELECT_COLUMN (by decide) (by decide)
  have h4 := hother GROUP_COLUMN (by decide) (by decide)
  have h5 := hother INODE_COLUMN (by decide) (by decide)
  have h6 := hother ATIME_COLUMN (by decide) (by decide)
  have h7 := hother ACCESS_COLUMN (by decide) (by decide)
  have h8 := hother MTIME_COLUMN (by decide) (by decide)
  have h9 := hother MODIFY_COLUMN (by decide) (by decide)
  have h10 := hother CTIME_COLUMN (by decide) (by decide)
  have h11 := hother CHANGE_COLUMN (by decide) (by decide)
  have h12 := hother TYPE_COLUMN (by decide) (by decide)
  unfold store_entry
  simp only [hp, hs, h1, h2, h3, h4, h5, h6, h7, h8, h9, h10, h11, h12, hneg, if_false,
    Nat.cast_inj]

theorem store_entries_path_size (P : Platform) (ct : ColumnTracker) (ip is : Nat)
    (hp : ct PATH_COLUMN = (ip : Int)) (hs : ct SIZE_COLUMN = (is : Int))
    (hother : ∀ K, K ≠ PATH_COLUMN → K ≠ SIZE_COLUMN → ct K = -1) (hne : ip ≠ is) :
    ∀ (columns : List (List Char)) (i : Nat) (r : file_record),
      (∀ l ∈ columns, is_cstring l) →
      store_entries P ct columns i r
        = { r with
            re_path :=
              if i ≤ ip then
                (match columns[ip - i]? with
                | some text => some text
                | none => r.re_path)
              else r.re_path
            re_size :=
              if i ≤ is then
                (match columns[is - i]? with
                | some text => parse_numeric P P.off_t text 10
                | none => r.re_size)
              else r.re_size } := by
  intro columns
  induction columns with
  | nil => intro i r _; simp [store_entries]
  | cons e es ih =>
    intro i r hc
    have he := hc e (List.mem_cons_self _ _)
    rw [store_entries, ih _ _ (fun x hx => hc x (List.mem_cons_of_mem _ hx)),
      store_entry_path_size P ct ip is hp hs hother, cstr_of_cstring he]
    by_cases h1 : i = ip
    · subst h1
      have h2 : ¬ i = is := hne
      have h3 : ¬ i + 1 ≤ i := by omega
      by_cases h4 : i + 1 ≤ is
      · have h5 : i ≤ is := by omega
        have h6 : is - i = (is - (i + 1)) + 1 := by omega
        simp only [if_true, h3, if_false, h4, h5, Nat.sub_self, List.getElem?_cons_zero, h6,
          List.getElem?_cons_succ, le_refl]
      · have h5 : ¬ i ≤ is := by omega
        simp only [if_true, h3, if_false, h4, h5, Nat.sub_self, List.getElem?_cons_zero,
          le_refl]
    · by_cases h2 : i = is
      · subst h2
        have h3 : ¬ i + 1 ≤ i := by omega
        by_cases h4 : i + 1 ≤ ip
        · have h5 : i ≤ ip := by omega
          have h6 : ip - i = (ip - (i + 1)) + 1 := by omega
          simp only [h1, if_true, h3, if_false, h4, h5, Nat.sub_self, List.getElem?_cons_zero,
            h6, List.getElem?_cons_succ, le_refl]
        · have h5 : ¬ i ≤ ip := by omega
          simp only [h1, if_true, h3, if_false, h4, h5, Nat.sub_self, List.getElem?_cons_zero,
            le_refl]
      · simp only [h1, h2, if_false]
        have hpath : (if i + 1 ≤ ip then
              (match es[ip - (i + 1)]? with
              | some text => some text
              | none => r.re_path)
            else r.re_path)
            = (if i ≤ ip then
              (match (e :: es)[ip - i]? with
              | some text => some text
              | none => r.re_path)
            else r.re_path) := by
          by_cases h4 : i + 1 ≤ ip
          · have h5 : i ≤ ip := by omega
            have h6 : ip - i = (ip - (i + 1)) + 1 := by omega
            simp only [h4, h5, if_true, h6, List.getElem?_cons_succ]
          · have h5 : ¬ i ≤ ip := by omega
            simp only [h4, h5, if_false]
        have hsize : (if i + 1 ≤ is then
              (match es[is - (i + 1)]? with
              | some text => parse_numeric P P.off_t text 10
              | none => r.re_size)
            else r.re_size)
            = (if i ≤ is then
              (match (e :: es)[is - i]? with
              | some text => parse_numeric P P.off_t text 10
              | none => r.re_size)
            else r.re_size) := by
          by_cases h4 : i + 1 ≤ is
          · have h5 : i ≤ is := by omega
            have h6 : is - i = (is - (i + 1)) + 1 := by omega
            simp only [h4, h5, if_true, h6, List.getElem?_cons_succ]
          · have h5 : ¬ i ≤ is := by omega
            simp only [h4, h5, if_false]
        rw [hpath, hsize]

theorem store_entries_path_size_record (P : Platform) (ct : ColumnTracker) (ip is : Nat)
    (hp : ct PATH_COLUMN = (ip : Int)) (hs : ct SIZE_COLUMN = (is : Int))
    (hother : ∀ K, K ≠ PATH_COLUMN → K ≠ SIZE_COLUMN → ct K = -1) (hne : ip ≠ is)
    (columns : List (List Char)) (hc : ∀ l ∈ columns, is_cstring l) :
    store_entries P ct columns 0 (blank_record P) = path_size_record P ip is columns := by
  rw [store_entries_path_size P ct ip is hp hs hother hne columns 0 _ hc]
  unfold path_size_record
  simp only [Nat.zero_le, if_true, Nat.sub_zero]
  cases columns[ip]? <;> cases columns[is]? <;> rfl


/-! ## Reading a file -/

theorem lines_text_cons (l : List Char) (ls : List (List Char)) :
    lines_text (l :: ls) = l ++ '\n' :: lines_text ls := by
  simp [lines_text]

theorem lines_text_length (lines : List (List Char)) :
    lines.length ≤ (lines_text lines).length := by
  induction lines with
  | nil => simp
  | cons l ls ih =>
    rw [lines_text_cons]
    simp only [List.length_cons, List.length_append]
    omega

theorem read_file_lines (P : Platform) (snap : snap_t) (labels lines : List (List Char))
    (file_error : Bool)
    (hlabels : ∀ l ∈ labels, plain_text l ∧ l.length < 64)
    (hfit : (delimited ['\t'] labels).length < P.PATH_MAX + 64)
    (hpath : (header_entries labels 0 (initial_column_tracker, [])).1 PATH_COLUMN ≠ -1)
    (hlines : ∀ l ∈ lines, line_text l ∧ l.length < P.PATH_MAX + 64) :
    read_snap_record_from_file P snap
        (some ⟨lines_text (delimited ['\t'] labels :: lines), file_error⟩)
      = .returned 0 ((lines.map (parse_snapper_file_line P
            (header_entries labels 0 (initial_column_tracker, [])).1)).foldl
          add_record_to_snap
          { snap with
            column_string := (header_entries labels 0 (initial_column_tracker, [])).2 }) := by
  unfold read_snap_record_from_file
  simp only []
  rw [lines_text_cons, read_header_labels P labels _ file_error hlabels hfit]
  simp only []
  rw [if_neg hpath, read_loop_lines P _ file_error lines _ _ hlines
    (by have := lines_text_length lines; omega), foldl_add_parse]

theorem header_entries_bound {label : List Char} {col : Nat}
    (htable : ∀ e ∈ header_table, e.2.1 = col → e.1 = label)
    (hset : ∀ i st, (header_entry label i st).1 col = (i : Int)) :
    ∀ (labels : List (List Char)) (i : Nat) (st : ColumnTracker × List Char),
      (∀ l ∈ labels, is_cstring l) → label ∈ labels →
      ∃ j : Nat, (header_entries labels i st).1 col = (j : Int) := by
  intro labels
  induction labels with
  | nil => intro i st _ h; simp at h
  | cons l ls ih =>
    intro i st hc hmem
    have hcs : ∀ x ∈ ls, is_cstring x := fun x hx => hc x (List.mem_cons_of_mem _ hx)
    rw [header_entries]
    by_cases hl : label ∈ ls
    · exact ih _ _ hcs hl
    · have hl' : l = label := by
        rcases List.mem_cons.mp hmem with h | h
        · exact h.symm
        · exact absurd h hl
      subst hl'
      exact ⟨i, by rw [header_entries_absent htable ls _ _ hcs hl, hset]⟩

theorem header_table_size : ∀ e ∈ header_table, e.2.1 = SIZE_COLUMN → e.1 = "Size".toList := by
  decide

theorem header_entry_path (i : Nat) (st : ColumnTracker × List Char) :
    (header_entry "Path".toList i st).1 PATH_COLUMN = (i : Int) := by
  rw [show "Path".toList = label_of 'p' from rfl, header_entry_label (by decide),
    show column_of 'p' = PATH_COLUMN from rfl]
  simp [Function.update]

theorem header_entry_size (i : Nat) (st : ColumnTracker × List Char) :
    (header_entry "Size".toList i st).1 SIZE_COLUMN = (i : Int) := by
  rw [show "Size".toList = label_of 's' from rfl, header_entry_label (by decide),
    show column_of 's' = SIZE_COLUMN from rfl]
  simp [Function.update]

theorem add_records_invariant (snap : snap_t) (records : List file_record)
    (h : snap.master_array.length = snap.currentArraySize) :
    (records.foldl add_record_to_snap snap).master_array = snap.master_array ++ records := by
  rw [add_records_array]
  split
  · rename_i h1; simp [h1]
  · rw [List.take_of_length_le (by omega)]

theorem column_index_get (label : List Char) :
    ∀ (labels : List (List Char)), label ∈ labels →
      labels[column_index label labels]? = some label := by
  intro labels
  induction labels with
  | nil => intro h; simp at h
  | cons l ls ih =>
    intro h
    unfold column_index
    by_cases hl : label ∈ ls
    · rw [if_pos hl]
      simpa using ih hl
    · rw [if_neg hl]
      rcases List.mem_cons.mp h with h1 | h1
      · simp [h1]
      · exact absurd h1 hl

theorem digit_value_decimal (c : Char) :
    digit_value 10 c = if is_decimal_digit c then some (c.toNat - '0'.toNat) else none := by
  unfold digit_value is_decimal_digit
  have h0 : ('0' : Char).toNat = 48 := rfl
  have h9 : ('9' : Char).toNat = 57 := rfl
  rw [h0, h9]
  by_cases h1 : 48 ≤ c.toNat <;> by_cases h2 : c.toNat ≤ 57
  · rw [if_pos ⟨h1, by omega⟩]; simp [h1, h2]
  · rw [if_neg (by omega)]; simp [h2]
  · rw [if_neg (by omega)]; simp [h1]
  · rw [if_neg (by omega)]; simp [h1]

theorem strtol_digits_span :
    ∀ (s : List Char) (acc count : Nat),
      strtol_digits 10 s acc count
        = ((s.takeWhile is_decimal_digit).foldl
              (fun value c => value * 10 + (c.toNat - '0'.toNat)) acc,
            count + (s.takeWhile is_decimal_digit).length,
            s.dropWhile is_decimal_digit) := by
  intro s
  induction s with
  | nil => intro acc count; simp [strtol_digits]
  | cons c cs ih =>
    intro acc count
    rw [strtol_digits, digit_value_decimal]
    by_cases h : is_decimal_digit c = true
    · simp only [h, if_true, List.takeWhile_cons_of_pos, List.dropWhile_cons_of_pos,
        List.foldl_cons, List.length_cons]
      rw [ih]
      simp only [Prod.mk.injEq, true_and, and_true]
      omega
    · simp only [h]
      simp [List.takeWhile_cons_of_neg h, List.dropWhile_cons_of_neg h]

theorem takeWhile_all {p : Char → Bool} {s : List Char} (h : s.all p = true) :
    s.takeWhile p = s := by
  rw [List.takeWhile_eq_self_iff]
  simpa using h

theorem dropWhile_all {p : Char → Bool} {s : List Char} (h : s.all p = true) :
    s.dropWhile p = [] := by
  rw [List.dropWhile_eq_nil_iff]
  simpa using h

theorem dropWhile_head {p : Char → Bool} (s : List Char) :
    ∀ c ∈ (s.dropWhile p).head?, p c = false := by
  induction s with
  | nil => intro c h; simp at h
  | cons x xs ih =>
    intro c h
    by_cases hx : p x = true
    · rw [List.dropWhile_cons_of_pos hx] at h
      exact ih c h
    · rw [List.dropWhile_cons_of_neg hx] at h
      simp only [List.head?_cons, Option.mem_def, Option.some.injEq] at h
      simpa [← h] using hx

theorem dropWhile_suffix_mem {p : Char → Bool} (s : List Char) :
    ∀ c ∈ s.dropWhile p, c ∈ s :=
  fun _ h => (List.dropWhile_suffix p).subset h

theorem c_integer_parts_mem (text : List Char) :
    ∀ c ∈ (c_integer_parts text).2, c ∈ text := by
  intro c hc
  unfold c_integer_parts at hc
  have hsub := @dropWhile_suffix_mem isspace text
  split at hc
  · rename_i d heq
    exact hsub c (heq ▸ List.mem_cons_of_mem _ hc)
  · rename_i d heq
    exact hsub c (heq ▸ List.mem_cons_of_mem _ hc)
  · exact hsub c hc

theorem c_integer_parts_eq (text : List Char) :
    c_integer_parts text = strtol_sign (text.dropWhile isspace) := by
  unfold c_integer_parts
  cases text.dropWhile isspace with
  | nil => rfl
  | cons x xs =>
    by_cases h1 : x = '-'
    · subst h1; rfl
    · by_cases h2 : x = '+'
      · subst h2; rfl
      · unfold strtol_sign
        split <;> simp_all

theorem strtol_eq (P : Platform) (text : List Char) (h : is_cstring text) :
    strtol P text 10 =
      if ((c_integer_parts text).2.takeWhile is_decimal_digit).length = 0 then (0, text)
      else (clamp_long P
          (if (c_integer_parts text).1 then
            - (decimal_value ((c_integer_parts text).2.takeWhile is_decimal_digit) : Int)
          else (decimal_value ((c_integer_parts text).2.takeWhile is_decimal_digit) : Int)),
        (c_integer_parts text).2.dropWhile is_decimal_digit) := by
  unfold strtol
  rw [cstr_of_cstring h, c_integer_parts_eq]
  simp only [strtol_digits_span, Nat.zero_add, clamp_long, decimal_value]

/-- The value that the numeric column idiom gives to a field, for a text
that is not empty. -/
theorem parse_numeric_eq (P : Platform) (t : CInt) (text : List Char)
    (h : is_cstring text) (hne : text ≠ []) :
    parse_numeric P t text 10 =
      if c_integer_text text then t.conv (clamp_long P (integer_value text))
      else t.conv (-1) := by
  unfold parse_numeric
  rw [strtol_eq P text h]
  by_cases hc : c_integer_text text = true
  · rw [if_pos hc]
    unfold c_integer_text at hc
    simp only [Bool.and_eq_true, Bool.not_eq_true', List.isEmpty_eq_false] at hc
    obtain ⟨hne2, hall⟩ := hc
    rw [takeWhile_all hall, dropWhile_all hall]
    have hlen : (c_integer_parts text).2.length ≠ 0 := by
      intro h0
      exact hne2 (List.length_eq_zero.mp h0)
    rw [if_neg hlen]
    simp [integer_value]
  · rw [if_neg hc]
    by_cases h0 : ((c_integer_parts text).2.takeWhile is_decimal_digit).length = 0
    · rw [if_pos h0]
      cases text with
      | nil => exact absurd rfl hne
      | cons x xs =>
        have := h x (List.mem_cons_self _ _)
        simp [this]
    · rw [if_neg h0]
      have hdrop : (c_integer_parts text).2.dropWhile is_decimal_digit ≠ [] := by
        intro hnil
        apply hc
        unfold c_integer_text
        have hall : (c_integer_parts text).2.all is_decimal_digit = true := by
          rw [List.dropWhile_eq_nil_iff] at hnil
          simpa using hnil
        rw [hall]
        have : (c_integer_parts text).2 ≠ [] := by
          intro e
          rw [e] at h0
          simp at h0
        simp [this]
      cases hd : (c_integer_parts text).2.dropWhile is_decimal_digit with
      | nil => exact absurd hd hdrop
      | cons x xs =>
        have hx : x ∈ text := c_integer_parts_mem text x
          (dropWhile_suffix_mem _ x (hd ▸ List.mem_cons_self _ _))
        have := h x hx
        simp [this]


theorem numeric_columns_cases {K : Nat} (h : K ∈ numeric_columns) :
    K = OWNER_COLUMN ∨ K = GROUP_COLUMN ∨ K = INODE_COLUMN ∨ K = ATIME_COLUMN ∨
      K = MTIME_COLUMN ∨ K = CTIME_COLUMN ∨ K = SIZE_COLUMN := by
  simpa [numeric_columns] using h

theorem store_entry_path (P : Platform) (ct : ColumnTracker) (i : Nat) (e : List Char)
    (r : file_record) :
    (store_entry P ct i e r).re_path
      = if (i : Int) = ct PATH_COLUMN then some (cstr e) else r.re_path := by
  by_cases h : (i : Int) = ct PATH_COLUMN
  · simp only [store_entry, eq_true h, if_true]
  · simp only [store_entry, apply_ite file_record.re_path, h, if_false, ite_self]

theorem numeric_field_miss (P : Platform) (ct : ColumnTracker) {K : Nat}
    (hK : K ∈ numeric_columns) (i : Nat) (e : List Char) (r : file_record)
    (hi : (i : Int) ≠ ct K) :
    numeric_field K (store_entry P ct i e r) = numeric_field K r := by
  rcases numeric_columns_cases hK with rfl | rfl | rfl | rfl | rfl | rfl | rfl
  · show (store_entry P ct i e r).re_uid = r.re_uid
    simp only [store_entry, apply_ite file_record.re_uid, hi, if_false, ite_self]
  · show (store_entry P ct i e r).re_gid = r.re_gid
    simp only [store_entry, apply_ite file_record.re_gid, hi, if_false, ite_self]
  · show (store_entry P ct i e r).re_ino = r.re_ino
    simp only [store_entry, apply_ite file_record.re_ino, hi, if_false, ite_self]
  · show (store_entry P ct i e r).re_atime = r.re_atime
    simp only [store_entry, apply_ite file_record.re_atime, hi, if_false, ite_self]
  · show (store_entry P ct i e r).re_mtime = r.re_mtime
    simp only [store_entry, apply_ite file_record.re_mtime, hi, if_false, ite_self]
  · show (store_entry P ct i e r).re_ctime = r.re_ctime
    simp only [store_entry, apply_ite file_record.re_ctime, hi, if_false, ite_self]
  · show (store_entry P ct i e r).re_size = r.re_size
    simp only [store_entry, apply_ite file_record.re_size, hi, if_false, ite_self]

theorem numeric_field_hit (P : Platform) (ct : ColumnTracker) {K : Nat}
    (hK : K ∈ numeric_columns) (i : Nat) (e : List Char) (r : file_record)
    (hi : (i : Int) = ct K)
    (hexcl : ∀ K', K' < MAX_COLUMNS → K' ≠ K → ct K' ≠ (i : Int)) :
    numeric_field K (store_entry P ct i e r) = parse_numeric P (numeric_type P K) e 10 := by
  have ex : ∀ K', K' < MAX_COLUMNS → K' ≠ K → ¬ ((i : Int) = ct K') :=
    fun K' h1 h2 h3 => hexcl K' h1 h2 h3.symm
  rcases numeric_columns_cases hK with rfl | rfl | rfl | rfl | rfl | rfl | rfl
  · show (store_entry P ct i e r).re_uid = parse_numeric P P.uid_t e 10
    simp only [store_entry, apply_ite file_record.re_uid, ex PATH_COLUMN (by decide) (by decide), ex PERMS_COLUMN (by decide) (by decide), eq_true hi,
      if_false, if_true]
  · show (store_entry P ct i e r).re_gid = parse_numeric P P.gid_t e 10
    simp only [store_entry, apply_ite file_record.re_gid, ex PATH_COLUMN (by decide) (by decide), ex PERMS_COLUMN (by decide) (by decide), ex OWNER_COLUMN (by decide) (by decide), ex SELECT_COLUMN (by decide) (by decide), eq_true hi,
      if_false, if_true]
  · show (store_entry P ct i e r).re_ino = parse_numeric P P.ino_t e 10
    simp only [store_entry, apply_ite file_record.re_ino, ex PATH_COLUMN (by decide) (by decide), ex PERMS_COLUMN (by decide) (by decide), ex OWNER_COLUMN (by decide) (by decide), ex SELECT_COLUMN (by decide) (by decide), ex GROUP_COLUMN (by decide) (by decide), eq_true hi,
      if_false, if_true]
  · show (store_entry P ct i e r).re_atime = parse_numeric P P.time_t e 10
    simp only [store_entry, apply_ite file_record.re_atime, ex PATH_COLUMN (by decide) (by decide), ex PERMS_COLUMN (by decide) (by decide), ex OWNER_COLUMN (by decide) (by decide), ex SELECT_COLUMN (by decide) (by decide), ex GROUP_COLUMN (by decide) (by decide), ex INODE_COLUMN (by decide) (by decide), eq_true hi,
      if_false, if_true]
  · show (store_entry P ct i e r).re_mtime = parse_numeric P P.time_t e 10
    simp only [store_entry, apply_ite file_record.re_mtime, ex PATH_COLUMN (by decide) (by decide), ex PERMS_COLUMN (by decide) (by decide), ex OWNER_COLUMN (by decide) (by decide), ex SELECT_COLUMN (by decide) (by decide), ex GROUP_COLUMN (by decide) (by decide), ex INODE_COLUMN (by decide) (by decide), ex ATIME_COLUMN (by decide) (by decide), ex ACCESS_COLUMN (by decide) (by decide), eq_true hi,
      if_false, if_true]
  · show (store_entry P ct i e r).re_ctime = parse_numeric P P.time_t e 10
    simp only [store_entry, apply_ite file_record.re_ctime, ex PATH_COLUMN (by decide) (by decide), ex PERMS_COLUMN (by decide) (by decide), ex OWNER_COLUMN (by decide) (by decide), ex SELECT_COLUMN (by decide) (by decide), ex GROUP_COLUMN (by decide) (by decide), ex INODE_COLUMN (by decide) (by decide), ex ATIME_COLUMN (by decide) (by decide), ex ACCESS_COLUMN (by decide) (by decide), ex MTIME_COLUMN (by decide) (by decide), ex MODIFY_COLUMN (by decide) (by decide), eq_true hi,
      if_false, if_true]
  · show (store_entry P ct i e r).re_size = parse_numeric P P.off_t e 10
    simp only [store_entry, apply_ite file_record.re_size, ex PATH_COLUMN (by decide) (by decide), ex PERMS_COLUMN (by decide) (by decide), ex OWNER_COLUMN (by decide) (by decide), ex SELECT_COLUMN (by decide) (by decide), ex GROUP_COLUMN (by decide) (by decide), ex INODE_COLUMN (by decide) (by decide), ex ATIME_COLUMN (by decide) (by decide), ex ACCESS_COLUMN (by decide) (by decide), ex MTIME_COLUMN (by decide) (by decide), ex MODIFY_COLUMN (by decide) (by decide), ex CTIME_COLUMN (by decide) (by decide), ex CHANGE_COLUMN (by decide) (by decide), eq_true hi,
      if_false, if_true]


theorem store_entries_numeric (P : Platform) (ct : ColumnTracker) {K : Nat}
    (hK : K ∈ numeric_columns) (j : Nat) (hbound : ct K = (j : Int))
    (hexcl : ∀ K', K' < MAX_COLUMNS → K' ≠ K → ct K' ≠ (j : Int)) :
    ∀ (columns : List (List Char)) (i : Nat) (r : file_record),
      numeric_field K (store_entries P ct columns i r)
        = if i ≤ j then
            (match columns[j - i]? with
            | some text => parse_numeric P (numeric_type P K) text 10
            | none => numeric_field K r)
          else numeric_field K r := by
  intro columns
  induction columns with
  | nil => intro i r; simp [store_entries]
  | cons e es ih =>
    intro i r
    rw [store_entries, ih]
    rcases Nat.lt_trichotomy i j with h | h | h
    · have h1 : i + 1 ≤ j := by omega
      have h2 : i ≤ j := by omega
      have h3 : j - i = (j - (i + 1)) + 1 := by omega
      have h4 : (i : Int) ≠ ct K := by rw [hbound]; omega
      rw [if_pos h1, if_pos h2, h3, List.getElem?_cons_succ, numeric_field_miss P ct hK i e r h4]
    · subst h
      have h1 : ¬ i + 1 ≤ i := by omega
      rw [if_neg h1, if_pos (le_refl _), Nat.sub_self, List.getElem?_cons_zero]
      exact numeric_field_hit P ct hK i e r hbound.symm hexcl
    · have h1 : ¬ i + 1 ≤ j := by omega
      have h2 : ¬ i ≤ j := by omega
      have h4 : (i : Int) ≠ ct K := by rw [hbound]; omega
      rw [if_neg h1, if_neg h2, numeric_field_miss P ct hK i e r h4]

/-- C5 (amended): for every record line made of tab-terminated columns and
every numeric column (Owner, Group, inode, atime, mtime, ctime, Size) that the
tracker binds to a position of the line where the text is not empty,
`parse_snapper_file_line` sets the field to the integer the text denotes
(brought into the range of `long` and converted to the type of the field)
when the text is an integer for `strtol` (optional white space, optional
sign, decimal digits and nothing else), and to -1 (converted to the type of
the field) for every other text; the record is produced in both cases. -/
theorem numeric_column_value (P : Platform) (ct : ColumnTracker)
    (columns : List (List Char)) (K j : Nat) (text : List Char)
    (hK : K ∈ numeric_columns)
    (hcols : ∀ l ∈ columns, is_cstring l ∧ (∀ c ∈ l, c ≠ '\t') ∧ l.length < P.PATH_MAX)
    (hbound : ct K = (j : Int))
    (hexcl : ∀ K', K' < MAX_COLUMNS → K' ≠ K → ct K' ≠ (j : Int))
    (htext : columns[j]? = some text) (hne : text ≠ []) :
    numeric_field K (parse_snapper_file_line P ct (delimited ['\t'] columns))
      = if c_integer_text text then
          (numeric_type P K).conv (clamp_long P (integer_value text))
        else (numeric_type P K).conv (-1) := by
  rw [parse_line_columns P ct columns hcols,
    store_entries_numeric P ct hK j hbound hexcl columns 0 _]
  simp only [Nat.zero_le, if_true, Nat.sub_zero, htext]
  exact parse_numeric_eq P _ text (hcols text (List.getElem?_mem htext)).1 hne

set_option maxRecDepth 100000 in
theorem numeric_column_value_witness :
    numeric_field SIZE_COLUMN (parse_snapper_file_line darwin64
        (header_entries ["Path".toList, "Size".toList, "Owner".toList] 0
          (initial_column_tracker, [])).1
        (delimited ['\t'] ["/a".toList, "-12".toList, "12 bytes".toList]))
      = if c_integer_text "-12".toList then
          (numeric_type darwin64 SIZE_COLUMN).conv
            (clamp_long darwin64 (integer_value "-12".toList))
        else (numeric_type darwin64 SIZE_COLUMN).conv (-1) :=
  numeric_column_value darwin64
    (header_entries ["Path".toList, "Size".toList, "Owner".toList] 0
      (initial_column_tracker, [])).1
    ["/a".toList, "-12".toList, "12 bytes".toList] SIZE_COLUMN 1 "-12".toList
    (by decide) (by decide) (by decide) (by decide) (by decide) (by decide)

set_option maxRecDepth 100000 in
/-- C5 as stated fails: in the Size column the text ` 7`, which begins with
a space and so is not entirely a decimal integer, gives the size 7 and not
the sentinel -1, `strtol` skipping leading white space. -/
theorem numeric_column_leading_space :
    (read_snap_record_from_file darwin64 (store_with "%p".toList [])
        (some ⟨"Path\tSize\t\n/a\t 7\t\n".toList, false⟩)).store.map
        (fun s => s.master_array.map (fun r => r.re_size))
      = some [7] := by
  decide


set_option maxRecDepth 100000 in
/-- C6 fails on the code: under the header "Path", "Size (raw)", "Type (raw)"
the header loop binds the entries `BYTES_COLUMN` and `MODE_T_COLUMN` of the
tracker to columns 1 and 2, and `parse_snapper_file_line`, which has no branch
for these entries, leaves the size and the mode of the record at -1 (65535 in
the 16-bit `mode_t`). -/
theorem raw_columns_not_parsed :
    (read_header darwin64
        ⟨"Path\tSize (raw)\tType (raw)\t\n/a\t12\t33188\t\n".toList, false⟩).map
        (fun r => (r.1.1 PATH_COLUMN, r.1.1 BYTES_COLUMN, r.1.1 MODE_T_COLUMN))
      = some (0, 1, 2) ∧
    (read_snap_record_from_file darwin64 (store_with "%p".toList [])
        (some ⟨"Path\tSize (raw)\tType (raw)\t\n/a\t12\t33188\t\n".toList, false⟩)).store.map
        (fun s => s.master_array.map (fun r => (r.re_path, r.re_size, r.re_mode)))
      = some [(some "/a".toList, -1, 65535)] := by
  decide

set_option maxRecDepth 100000 in
/-- C10 as stated fails: with the configured field delimiter `,` the header
line and the record line hold no tab, their columns end with the comma, and
`read_snap_record_from_file`, which cuts the header at tabs, finds no "Path"
column in the text so written. -/
theorem configured_delimiter_not_tab :
    hprintbuf { store_with "%p%S".toList [] with field_delimiter := [','] } 1124
      = .ok "Path,Size (raw),\n".toList ∧
    rprintbuf darwin64 { store_with "%p%S".toList [] with field_delimiter := [','] }
        sample_record 1124
      = .ok "/a/b,1023,\n".toList ∧
    read_snap_record_from_file darwin64 (store_with "%p".toList [])
        (some ⟨"Path,Size (raw),\n/a/b,1023,\n".toList, false⟩) = .aborted := by
  decide

set_option maxRecDepth 1000000 in
set_option maxHeartbeats 4000000 in
/-- C8 as stated fails: with a field delimiter of 256 characters and a buffer
of 10000 characters, the label "Path" is followed by the first 255 characters
of the delimiter only, the scratch buffer of `hprintbuf` holding no more. -/
theorem long_delimiter_truncated :
    hprintbuf long_delimiter_store 10000
      = .ok ("Path".toList ++ List.replicate 255 '|' ++ ['\n']) ∧
    long_delimiter_store.field_delimiter.length = 256 := by
  decide


/-! ## Tab-terminated columns -/

theorem tab_columns_from_plain :
    ∀ (rest acc : List Char), (∀ c ∈ rest, c ≠ '\t') → tab_columns_from rest acc = [] := by
  intro rest
  induction rest with
  | nil => intro acc _; rfl
  | cons c cs ih =>
    intro acc h
    rw [tab_columns_from, if_neg (h c (List.mem_cons_self _ _))]
    exact ih _ (fun x hx => h x (List.mem_cons_of_mem _ hx))

theorem tab_columns_from_column (rest : List Char) :
    ∀ (column acc : List Char), (∀ c ∈ column, c ≠ '\t') →
      tab_columns_from (column ++ '\t' :: rest) acc
        = (acc ++ column) :: tab_columns_from rest [] := by
  intro column
  induction column with
  | nil => intro acc _; simp [tab_columns_from]
  | cons c cs ih =>
    intro acc h
    rw [List.cons_append, tab_columns_from, if_neg (h c (List.mem_cons_self _ _)),
      ih _ (fun x hx => h x (List.mem_cons_of_mem _ hx))]
    simp

theorem tab_columns_delimited (rest : List Char) (hrest : ∀ c ∈ rest, c ≠ '\t') :
    ∀ (columns : List (List Char)), (∀ l ∈ columns, ∀ c ∈ l, c ≠ '\t') →
      tab_columns (delimited ['\t'] columns ++ rest) = columns := by
  intro columns
  unfold tab_columns
  induction columns with
  | nil => intro _; simpa [delimited] using tab_columns_from_plain rest [] hrest
  | cons l ls ih =>
    intro h
    rw [delimited_cons, List.append_assoc, List.append_assoc, List.singleton_append,
      tab_columns_from_column _ l [] (h l (List.mem_cons_self _ _)), List.nil_append,
      ih (fun x hx => h x (List.mem_cons_of_mem _ hx))]

theorem strip_special_no_tab {code : Char} (h : code ≠ 't') (s : List Char) :
    ∀ c ∈ strip_special code s, c ≠ '\t' := by
  intro c hc
  unfold strip_special at hc
  rw [List.mem_filter] at hc
  rintro rfl
  simp [h] at hc

theorem strip_special_no_newline {code : Char} (h : code ≠ 'n') (s : List Char) :
    ∀ c ∈ strip_special code s, c ≠ '\n' := by
  intro c hc
  unfold strip_special at hc
  rw [List.mem_filter] at hc
  rintro rfl
  simp [h] at hc

theorem strip_special_no_return {code : Char} (h : code ≠ 'r') (s : List Char) :
    ∀ c ∈ strip_special code s, c ≠ '\r' := by
  intro c hc
  unfold strip_special at hc
  rw [List.mem_filter] at hc
  rintro rfl
  simp [h] at hc

theorem strip_special_subset (code : Char) (s : List Char) :
    ∀ c ∈ strip_special code s, c ∈ s :=
  fun _ hc => List.mem_of_mem_filter hc

theorem snprintf_c_mem (n : Nat) (x : Char) : ∀ c ∈ snprintf_c n x, c = x := by
  intro c hc
  unfold snprintf_c cstr at hc
  have h1 := List.mem_of_mem_take hc
  have h2 := (List.takeWhile_sublist _).subset h1
  simpa using h2

theorem raw_field_type (P : Platform) (record : file_record) :
    raw_field P record 't' = snprintf_c P.PATH_MAX record.re_type := rfl

theorem field_text_no_tab (P : Platform) (record : file_record) (code : Char)
    (htype : code = 't' → record.re_type ≠ '\t') :
    ∀ c ∈ field_text P record code, c ≠ '\t' := by
  by_cases h : code = 't'
  · subst h
    intro c hc
    have h1 := strip_special_subset _ _ c hc
    rw [raw_field_type] at h1
    rw [snprintf_c_mem _ _ c h1]
    exact htype rfl
  · exact strip_special_no_tab h _

/-- C10 (amended): when the field delimiter of the store is the tab (the
default), `hprintbuf` and `rprintbuf` end every column of the header line and
of the record line with the literal tab: cut at the tabs, as the reader cuts
them, the header line gives back the labels of the template and the record
line its rendered fields.  (With another configured delimiter the columns end
with that delimiter instead.) -/
theorem tab_delimited_columns (P : Platform) (snap : snap_t) (record : file_record)
    (codes : List Char) (maxlen : Nat)
    (hcodes : ∀ c ∈ codes, c ∈ recognized_codes)
    (htemplate : unspaced snap.column_string = template_of_codes codes)
    (hpath : 'p' ∈ codes → record.re_path ≠ none)
    (htype : 't' ∈ codes → record.re_type ≠ '\t')
    (hfd : snap.field_delimiter = ['\t'])
    (hrd : is_cstring snap.record_delimiter) (hrdtab : ∀ c ∈ snap.record_delimiter, c ≠ '\t')
    (hrdlen : snap.record_delimiter.length < MAX_HEADER)
    (hrdlen' : snap.record_delimiter.length < P.PATH_MAX)
    (hpm : 1 < P.PATH_MAX)
    (hroomh : (delimited ['\t'] (codes.map label_of) ++ snap.record_delimiter).length < maxlen)
    (hroomr : line_room P record ['\t'] snap.record_delimiter codes < maxlen) :
    ∃ header line,
      hprintbuf snap maxlen = .ok header ∧ rprintbuf P snap record maxlen = .ok line ∧
      tab_columns header = codes.map label_of ∧
      tab_columns line = codes.map (field_text P record) := by
  have hfdc : is_cstring snap.field_delimiter := by rw [hfd]; decide
  refine ⟨_, _,
    hprintbuf_codes snap codes maxlen hcodes htemplate hfdc hrd
      (by rw [hfd]; decide) hrdlen (by rw [hfd]; exact hroomh),
    rprintbuf_codes P snap record codes maxlen hcodes htemplate hpath hfdc hrd
      (by rw [hfd]; simpa using hpm) hrdlen' (by rw [hfd]; exact hroomr), ?_, ?_⟩
  · rw [hfd]
    apply tab_columns_delimited _ hrdtab
    intro l hl
    obtain ⟨c, _, rfl⟩ := List.mem_map.mp hl
    exact plain_text_no_tab (label_of_plain c)
  · rw [hfd]
    apply tab_columns_delimited _ hrdtab
    intro l hl
    obtain ⟨c, hc, rfl⟩ := List.mem_map.mp hl
    exact field_text_no_tab P record c (fun e => htype (e ▸ hc))

set_option maxRecDepth 100000 in
theorem tab_delimited_columns_witness :
    ∃ header line,
      hprintbuf (store_with "%p%c%t%S".toList []) 1124 = .ok header ∧
      rprintbuf darwin64 (store_with "%p%c%t%S".toList []) sample_record 1124 = .ok line ∧
      tab_columns header = "pctS".toList.map label_of ∧
      tab_columns line = "pctS".toList.map (field_text darwin64 sample_record) :=
  tab_delimited_columns darwin64 (store_with "%p%c%t%S".toList []) sample_record
    "pctS".toList 1124 (by decide) (by decide) (by decide) (by decide) (by decide) (by decide)
    (by decide) (by decide) (by decide) (by decide) (by decide) (by decide)


/-! ## Decimal text of an integer -/

theorem digit_char_toNat {d : Nat} (h : d < 10) : (digit_char d).toNat = 48 + d := by
  interval_cases d <;> rfl

theorem digit_char_decimal {d : Nat} (h : d < 10) : is_decimal_digit (digit_char d) = true := by
  interval_cases d <;> rfl

theorem decimal_value_append (s : List Char) (c : Char) :
    decimal_value (s ++ [c]) = decimal_value s * 10 + (c.toNat - '0'.toNat) := by
  simp [decimal_value, List.foldl_append]

theorem utoa_fuel_spec : ∀ (fuel n : Nat), n < fuel →
    utoa_fuel 10 fuel n ≠ [] ∧ (utoa_fuel 10 fuel n).all is_decimal_digit = true ∧
      decimal_value (utoa_fuel 10 fuel n) = n := by
  intro fuel
  induction fuel with
  | zero => intro n h; omega
  | succ f ih =>
    intro n hn
    rw [utoa_fuel]
    by_cases h : n < 10
    · rw [if_pos h]
      refine ⟨by simp, by simp [digit_char_decimal h], ?_⟩
      simp [decimal_value, digit_char_toNat h]
    · rw [if_neg h]
      have hdiv : n / 10 < f := by omega
      obtain ⟨h1, h2, h3⟩ := ih (n / 10) hdiv
      have hmod : n % 10 < 10 := Nat.mod_lt _ (by decide)
      refine ⟨by simp, ?_, ?_⟩
      · rw [List.all_append, h2]
        simp [digit_char_decimal hmod]
      · rw [decimal_value_append, h3, digit_char_toNat hmod]
        have : ('0' : Char).toNat = 48 := rfl
        rw [this]
        omega

theorem utoa_fuel_length : ∀ (fuel n k : Nat), n < fuel → n < 10 ^ k → 1 ≤ k →
    (utoa_fuel 10 fuel n).length ≤ k := by
  intro fuel
  induction fuel with
  | zero => intro n k h; omega
  | succ f ih =>
    intro n k hn hk h1
    rw [utoa_fuel]
    by_cases h : n < 10
    · rw [if_pos h]; simpa using h1
    · rw [if_neg h]
      have hk2 : 2 ≤ k := by
        by_contra hlt
        have : k = 1 := by omega
        subst this
        simp at hk
        omega
      obtain ⟨k', rfl⟩ : ∃ k', k = k' + 1 := ⟨k - 1, by omega⟩
      have hdiv : n / 10 < 10 ^ k' := by
        rw [Nat.div_lt_iff_lt_mul (by decide)]
        rw [pow_succ] at hk
        exact hk
      have := ih (n / 10) k' (by omega) hdiv (by omega)
      simp only [List.length_append, List.length_cons, List.length_nil]
      omega

theorem utoa_spec (n : Nat) :
    utoa n ≠ [] ∧ (utoa n).all is_decimal_digit = true ∧ decimal_value (utoa n) = n :=
  utoa_fuel_spec (n + 1) n (Nat.lt_succ_self n)

theorem utoa_length (n k : Nat) (hk : n < 10 ^ k) (h1 : 1 ≤ k) : (utoa n).length ≤ k :=
  utoa_fuel_length (n + 1) n k (Nat.lt_succ_self n) hk h1

theorem decimal_digit_not_special {c : Char} (h : is_decimal_digit c = true) :
    isspace c = false ∧ c ≠ '-' ∧ c ≠ '+' ∧ c ≠ '\x00' ∧ c ≠ '\t' ∧ c ≠ '\n' ∧ c ≠ '\r' ∧
      c ≠ EOF_char := by
  unfold is_decimal_digit at h
  simp only [Bool.and_eq_true, decide_eq_true_eq] at h
  have h0 : ('0' : Char).toNat = 48 := rfl
  have h9 : ('9' : Char).toNat = 57 := rfl
  rw [h0, h9] at h
  have key : ∀ x : Char, ¬ (48 ≤ x.toNat ∧ x.toNat ≤ 57) → c ≠ x := by
    rintro x hx rfl
    exact hx h
  refine ⟨?_, key _ (by decide), key _ (by decide), key _ (by decide), key _ (by decide),
    key _ (by decide), key _ (by decide), key _ (by decide)⟩
  unfold isspace
  simp only [Bool.decide_or, Bool.or_eq_false_iff, decide_eq_false_iff_not]
  exact ⟨key _ (by decide), key _ (by decide), key _ (by decide), key _ (by decide),
    key _ (by decide), key _ (by decide)⟩

theorem strtol_sign_digit {c : Char} (h : is_decimal_digit c = true) (cs : List Char) :
    strtol_sign (c :: cs) = (false, c :: cs) := by
  obtain ⟨_, h1, h2, _⟩ := decimal_digit_not_special h
  unfold strtol_sign
  split <;> simp_all

theorem c_integer_parts_utoa (n : Nat) : c_integer_parts (utoa n) = (false, utoa n) := by
  obtain ⟨h1, h2, _⟩ := utoa_spec n
  rw [c_integer_parts_eq]
  cases hs : utoa n with
  | nil => exact absurd hs h1
  | cons c cs =>
    rw [hs] at h2
    simp only [List.all_cons, Bool.and_eq_true] at h2
    have hsp := (decimal_digit_not_special h2.1).1
    rw [List.dropWhile_cons_of_neg (by simp [hsp])]
    exact strtol_sign_digit h2.1 cs

theorem c_integer_parts_neg (n : Nat) :
    c_integer_parts ('-' :: utoa n) = (true, utoa n) := by
  rw [c_integer_parts_eq, List.dropWhile_cons_of_neg (by decide)]
  rfl

theorem c_integer_text_itoa (x : Int) : c_integer_text (itoa x) = true := by
  obtain ⟨h1, h2, _⟩ := utoa_spec x.natAbs
  unfold c_integer_text itoa
  split
  · rw [c_integer_parts_neg]
    simp [h1, h2]
  · rw [c_integer_parts_utoa]
    simp [h1, h2]

theorem integer_value_itoa (x : Int) : integer_value (itoa x) = x := by
  obtain ⟨_, _, h3⟩ := utoa_spec x.natAbs
  unfold integer_value itoa
  split
  · rw [c_integer_parts_neg]
    simp only [if_true, h3]
    omega
  · rw [c_integer_parts_utoa]
    simp only [Bool.false_eq_true, if_false, h3]
    omega

theorem itoa_chars (x : Int) : ∀ c ∈ itoa x, c = '-' ∨ is_decimal_digit c = true := by
  obtain ⟨_, h2, _⟩ := utoa_spec x.natAbs
  rw [List.all_eq_true] at h2
  intro c hc
  unfold itoa at hc
  split at hc
  · rcases List.mem_cons.mp hc with h | h
    · exact Or.inl h
    · exact Or.inr (h2 c h)
  · exact Or.inr (h2 c hc)

theorem itoa_plain (x : Int) : plain_text (itoa x) := by
  intro c hc
  rw [plain_char_iff]
  rcases itoa_chars x c hc with rfl | h
  · decide
  · obtain ⟨_, _, _, h1, h2, h3, h4, h5⟩ := decimal_digit_not_special h
    exact ⟨h1, h2, h3, h4, h5⟩

theorem itoa_ne_nil (x : Int) : itoa x ≠ [] := by
  obtain ⟨h1, _, _⟩ := utoa_spec x.natAbs
  unfold itoa
  split
  · simp
  · exact h1

theorem itoa_length (x : Int) (k : Nat) (hk : x.natAbs < 10 ^ k) (h1 : 1 ≤ k) :
    (itoa x).length ≤ k + 1 := by
  have := utoa_length x.natAbs k hk h1
  unfold itoa
  split
  · simp only [List.length_cons]; omega
  · omega


/-! ## Values in range -/

theorem conv_of_holds (t : CInt) (v : Int) (hb : 0 < t.bits) (h : t.holds v) :
    t.conv v = v := by
  obtain ⟨h1, h2⟩ := h
  unfold CInt.conv
  unfold CInt.min at h1
  unfold CInt.max at h2
  by_cases hs : t.signed = true
  · rw [if_pos hs] at h1 h2 ⊢
    have hpow : (2 : Int) ^ t.bits = 2 * 2 ^ (t.bits - 1) := by
      rw [← pow_succ']
      congr 1
      omega
    have hpos : (0 : Int) < 2 ^ (t.bits - 1) := by positivity
    rw [hpow, Int.emod_eq_of_lt (by omega) (by omega)]
    omega
  · rw [if_neg hs] at h1 h2 ⊢
    exact Int.emod_eq_of_lt h1 (by omega)

theorem clamp_long_of_holds (P : Platform) (v : Int) (h : P.long.holds v) :
    clamp_long P v = v := by
  obtain ⟨h1, h2⟩ := h
  unfold clamp_long
  rw [if_neg (by omega), if_neg (by omega)]

theorem long_conv_of_holds (P : Platform) (hP : P.sound) (v : Int) (h : P.long.holds v) :
    P.long.conv v = v :=
  conv_of_holds _ v hP.1 h

theorem ulong_conv_of_holds (P : Platform) (hP : P.sound) (v : Int) (h0 : 0 ≤ v)
    (h : P.long.holds v) : P.ulong.conv v = v := by
  obtain ⟨_, h2⟩ := h
  unfold CInt.max Platform.long at h2
  simp only [if_true] at h2
  unfold CInt.conv Platform.ulong
  simp only [Bool.false_eq_true, if_false]
  have hpow : (2 : Int) ^ P.long_bits = 2 * 2 ^ (P.long_bits - 1) := by
    rw [← pow_succ']
    congr 1
    have := hP.1
    omega
  have hpos : (0 : Int) < 2 ^ (P.long_bits - 1) := by positivity
  exact Int.emod_eq_of_lt h0 (by omega)

theorem long_holds_natAbs (P : Platform) (hP : P.sound) (v : Int) (h : P.long.holds v) :
    v.natAbs < 10 ^ 19 := by
  obtain ⟨h1, h2⟩ := h
  unfold CInt.min Platform.long at h1
  unfold CInt.max Platform.long at h2
  simp only [if_true] at h1 h2
  have hle : (2 : Int) ^ (P.long_bits - 1) ≤ 2 ^ 63 :=
    pow_le_pow_right₀ (by norm_num) (by have := hP.2.1; omega)
  have : (v.natAbs : Int) < 10 ^ 19 := by
    have h3 : (2 : Int) ^ 63 < 10 ^ 19 := by norm_num
    omega
  exact_mod_cast this

theorem itoa_short (P : Platform) (hP : P.sound) (v : Int) (h : P.long.holds v) :
    (itoa v).length < P.PATH_MAX := by
  have h1 := itoa_length v 19 (long_holds_natAbs P hP v h) (by decide)
  have := hP.2.2.1
  omega

/-! ## Rendered fields -/

theorem strip_special_plain (code : Char) {s : List Char} (h : plain_text s) :
    strip_special code s = s := by
  unfold strip_special
  rw [List.filter_eq_self]
  intro c hc
  obtain ⟨_, h1, h2, h3, _⟩ := (plain_char_iff c).mp (h c hc)
  simp [h1, h2, h3]

theorem field_of_plain (P : Platform) (code : Char) {s : List Char} (h : plain_text s)
    (hlen : s.length < P.PATH_MAX) :
    strip_special code (snprintf_s P.PATH_MAX s) = s := by
  rw [snprintf_s_of_cstring (plain_text_cstring h) hlen, strip_special_plain code h]

theorem field_text_path (P : Platform) (r : file_record) (path : List Char)
    (hr : r.re_path = some path) (h : plain_text path) (hlen : path.length < P.PATH_MAX) :
    field_text P r 'p' = path := by
  unfold field_text raw_field
  rw [rprintbuf_switch_path, hr]
  exact field_of_plain P 'p' h hlen

theorem field_text_atime (P : Platform) (hP : P.sound) (r : file_record)
    (h : P.long.holds r.re_atime) : field_text P r 'A' = itoa r.re_atime := by
  show strip_special 'A' (snprintf_s P.PATH_MAX (itoa (P.long.conv r.re_atime))) = _
  rw [long_conv_of_holds P hP _ h]
  exact field_of_plain P 'A' (itoa_plain _) (itoa_short P hP _ h)

theorem field_text_mtime (P : Platform) (hP : P.sound) (r : file_record)
    (h : P.long.holds r.re_mtime) : field_text P r 'M' = itoa r.re_mtime := by
  show strip_special 'M' (snprintf_s P.PATH_MAX (itoa (P.long.conv r.re_mtime))) = _
  rw [long_conv_of_holds P hP _ h]
  exact field_of_plain P 'M' (itoa_plain _) (itoa_short P hP _ h)

theorem field_text_ctime (P : Platform) (hP : P.sound) (r : file_record)
    (h : P.long.holds r.re_ctime) : field_text P r 'C' = itoa r.re_ctime := by
  show strip_special 'C' (snprintf_s P.PATH_MAX (itoa (P.long.conv r.re_ctime))) = _
  rw [long_conv_of_holds P hP _ h]
  exact field_of_plain P 'C' (itoa_plain _) (itoa_short P hP _ h)

theorem field_text_ino (P : Platform) (hP : P.sound) (r : file_record)
    (h0 : 0 ≤ r.re_ino) (h : P.long.holds r.re_ino) : field_text P r 'i' = itoa r.re_ino := by
  show strip_special 'i' (snprintf_s P.PATH_MAX (itoa (P.ulong.conv r.re_ino))) = _
  rw [ulong_conv_of_holds P hP _ h0 h]
  exact field_of_plain P 'i' (itoa_plain _) (itoa_short P hP _ h)

theorem field_text_uid (P : Platform) (hP : P.sound) (r : file_record)
    (h0 : 0 ≤ r.re_uid) (h : P.long.holds r.re_uid) : field_text P r 'o' = itoa r.re_uid := by
  show strip_special 'o' (snprintf_s P.PATH_MAX (itoa (P.ulong.conv r.re_uid))) = _
  rw [ulong_conv_of_holds P hP _ h0 h]
  exact field_of_plain P 'o' (itoa_plain _) (itoa_short P hP _ h)

theorem field_text_gid (P : Platform) (hP : P.sound) (r : file_record)
    (h0 : 0 ≤ r.re_gid) (h : P.long.holds r.re_gid) : field_text P r 'g' = itoa r.re_gid := by
  show strip_special 'g' (snprintf_s P.PATH_MAX (itoa (P.ulong.conv r.re_gid))) = _
  rw [ulong_conv_of_holds P hP _ h0 h]
  exact field_of_plain P 'g' (itoa_plain _) (itoa_short P hP _ h)

theorem parse_numeric_itoa (P : Platform) (t : CInt) (v : Int) (hb : 0 < t.bits)
    (ht : t.holds v) (hl : P.long.holds v) : parse_numeric P t (itoa v) 10 = v := by
  rw [parse_numeric_eq P t _ (plain_text_cstring (itoa_plain v)) (itoa_ne_nil v),
    c_integer_text_itoa, if_pos rfl, integer_value_itoa, clamp_long_of_holds P v hl,
    conv_of_holds t v hb ht]

theorem field_text_type_head (P : Platform) (hP : P.sound) (r : file_record)
    (h : r.re_type ≠ '\n' ∧ r.re_type ≠ '\r') :
    (field_text P r 't').headD '\x00' = r.re_type := by
  show (strip_special 't' (snprintf_c P.PATH_MAX r.re_type)).headD '\x00' = _
  have hpm : 1 ≤ P.PATH_MAX - 1 := by have := hP.2.2.1; omega
  unfold snprintf_c cstr
  by_cases h0 : r.re_type = '\x00'
  · rw [h0, List.takeWhile_cons_of_neg (by simp), List.take_nil]
    rfl
  · rw [List.takeWhile_cons_of_pos (by simpa using h0)]
    simp only [List.takeWhile_nil]
    rw [List.take_of_length_le (by simpa using hpm)]
    unfold strip_special
    rw [List.filter_cons_of_pos (by simp [h.1, h.2])]
    rfl


/-! ## The tracker of a written header -/

theorem tracker_of_codes :
    ∀ (codes : List Char) (i : Nat) (st : ColumnTracker × List Char) (K j : Nat),
      (∀ c ∈ codes, c ∈ recognized_codes) →
      (header_entries (codes.map label_of) i st).1 K = (j : Int) →
      st.1 K = (j : Int) ∨ (i ≤ j ∧ ∃ c, codes[j - i]? = some c ∧ column_of c = K) := by
  intro codes
  induction codes with
  | nil => intro i st K j _ h; exact Or.inl h
  | cons c cs ih =>
    intro i st K j hrec h
    have hc : c ∈ recognized_codes := hrec c (List.mem_cons_self _ _)
    rw [List.map_cons, header_entries, header_entry_label hc] at h
    rcases ih _ _ K j (fun x hx => hrec x (List.mem_cons_of_mem _ hx)) h with h1 | ⟨h1, c', h2, h3⟩
    · simp only at h1
      by_cases hK : K = column_of c
      · subst hK
        rw [Function.update_same] at h1
        have hij : i = j := by exact_mod_cast h1
        subst hij
        exact Or.inr ⟨le_refl _, c, by simp, rfl⟩
      · rw [Function.update_noteq hK] at h1
        exact Or.inl h1
    · refine Or.inr ⟨by omega, c', ?_, h3⟩
      have : j - i = (j - (i + 1)) + 1 := by omega
      rw [this, List.getElem?_cons_succ]
      exact h2

theorem header_table_column_of {c : Char} (h : c ∈ recognized_codes) :
    ∀ e ∈ header_table, e.2.1 = column_of c → e.1 = label_of c := by
  rcases recognized_cases h with rfl | rfl | rfl | rfl | rfl | rfl | rfl | rfl | rfl | rfl |
    rfl | rfl | rfl | rfl | rfl | rfl <;> decide

theorem column_of_injective : ∀ c ∈ recognized_codes, ∀ c' ∈ recognized_codes,
    column_of c = column_of c' → c = c' := by
  decide

theorem column_of_lt : ∀ c ∈ recognized_codes, column_of c < MAX_COLUMNS := by
  decide

theorem tracker_code {codes : List Char} (hrec : ∀ c ∈ codes, c ∈ recognized_codes)
    {c : Char} (hc : c ∈ codes) :
    ∃ j : Nat,
      (header_entries (codes.map label_of) 0 (initial_column_tracker, [])).1 (column_of c)
        = (j : Int) ∧
      codes[j]? = some c ∧
      ∀ K', K' < MAX_COLUMNS → K' ≠ column_of c →
        (header_entries (codes.map label_of) 0 (initial_column_tracker, [])).1 K' ≠ (j : Int) := by
  have hcr := hrec c hc
  obtain ⟨j, hj⟩ := header_entries_bound (header_table_column_of hcr)
    (fun i st => by rw [header_entry_label hcr]; simp [Function.update])
    (codes.map label_of) 0 (initial_column_tracker, [])
    (fun l hl => by
      obtain ⟨x, _, rfl⟩ := List.mem_map.mp hl
      exact label_of_cstring x)
    (List.mem_map.mpr ⟨c, hc, rfl⟩)
  have hinit : ∀ K (j : Nat), (initial_column_tracker, ([] : List Char)).1 K ≠ (j : Int) := by
    intro K j h
    simp only [initial_column_tracker] at h
    omega
  have hat : ∀ K, (header_entries (codes.map label_of) 0 (initial_column_tracker, [])).1 K
      = (j : Int) → ∃ c', codes[j]? = some c' ∧ column_of c' = K := by
    intro K hK
    rcases tracker_of_codes codes 0 _ K j hrec hK with h | ⟨_, c', h1, h2⟩
    · exact absurd h (hinit K j)
    · exact ⟨c', by simpa using h1, h2⟩
  obtain ⟨c', h1, h2⟩ := hat _ hj
  have hc' : c' ∈ codes := List.getElem?_mem h1
  have heq : c' = c := column_of_injective c' (hrec c' hc') c hcr h2
  subst heq
  refine ⟨j, hj, h1, ?_⟩
  intro K' _ hne hK'
  obtain ⟨c'', h3, h4⟩ := hat _ hK'
  rw [h1] at h3
  cases h3
  exact hne h4.symm

/-! ## A field along the columns of a line -/

theorem store_entries_field {α : Type} (P : Platform) (ct : ColumnTracker)
    (f : file_record → α) (g : List Char → α) (j : Nat)
    (hstep : ∀ i e r, f (store_entry P ct i e r) = if i = j then g e else f r) :
    ∀ (columns : List (List Char)) (i : Nat) (r : file_record),
      f (store_entries P ct columns i r)
        = if i ≤ j then
            (match columns[j - i]? with
            | some text => g text
            | none => f r)
          else f r := by
  intro columns
  induction columns with
  | nil => intro i r; simp [store_entries]
  | cons e es ih =>
    intro i r
    rw [store_entries, ih, hstep]
    rcases Nat.lt_trichotomy i j with h | h | h
    · have h1 : i + 1 ≤ j := by omega
      have h2 : i ≤ j := by omega
      have h3 : j - i = (j - (i + 1)) + 1 := by omega
      rw [if_pos h1, if_pos h2, h3, List.getElem?_cons_succ, if_neg (by omega)]
    · subst h
      rw [if_neg (by omega), if_pos (le_refl _), Nat.sub_self, List.getElem?_cons_zero,
        if_pos rfl]
    · rw [if_neg (by omega), if_neg (by omega), if_neg (by omega)]

theorem store_entries_at {α : Type} (P : Platform) (ct : ColumnTracker)
    (f : file_record → α) (g : List Char → α) (j : Nat)
    (hstep : ∀ i e r, f (store_entry P ct i e r) = if i = j then g e else f r)
    (columns : List (List Char)) (text : List Char) (h : columns[j]? = some text)
    (r : file_record) :
    f (store_entries P ct columns 0 r) = g text := by
  rw [store_entries_field P ct f g j hstep columns 0 r]
  simp [h]

theorem path_step (P : Platform) (ct : ColumnTracker) (j : Nat)
    (hj : ct PATH_COLUMN = (j : Int)) (i : Nat) (e : List Char) (r : file_record) :
    (store_entry P ct i e r).re_path = if i = j then some (cstr e) else r.re_path := by
  rw [store_entry_path, hj]
  by_cases h : i = j
  · simp [h]
  · rw [if_neg h, if_neg (by exact_mod_cast h)]

theorem numeric_step (P : Platform) (ct : ColumnTracker) {K : Nat}
    (hK : K ∈ numeric_columns) (j : Nat) (hj : ct K = (j : Int))
    (hexcl : ∀ K', K' < MAX_COLUMNS → K' ≠ K → ct K' ≠ (j : Int))
    (i : Nat) (e : List Char) (r : file_record) :
    numeric_field K (store_entry P ct i e r)
      = if i = j then parse_numeric P (numeric_type P K) e 10 else numeric_field K r := by
  by_cases h : i = j
  · subst h
    rw [if_pos rfl]
    exact numeric_field_hit P ct hK i e r hj.symm hexcl
  · rw [if_neg h]
    exact numeric_field_miss P ct hK i e r (by rw [hj]; exact_mod_cast h)

theorem type_step (P : Platform) (ct : ColumnTracker) (j : Nat)
    (hj : ct TYPE_COLUMN = (j : Int))
    (hexcl : ∀ K', K' < MAX_COLUMNS → K' ≠ TYPE_COLUMN → ct K' ≠ (j : Int))
    (i : Nat) (e : List Char) (r : file_record) :
    (store_entry P ct i e r).re_type = if i = j then e.headD '\x00' else r.re_type := by
  by_cases h : i = j
  · subst h
    have ex : ∀ K', K' < MAX_COLUMNS → K' ≠ TYPE_COLUMN → ¬ ((i : Int) = ct K') :=
      fun K' h1 h2 h3 => hexcl K' h1 h2 h3.symm
    simp only [store_entry, apply_ite file_record.re_type,
      ex PATH_COLUMN (by decide) (by decide), ex PERMS_COLUMN (by decide) (by decide),
      ex OWNER_COLUMN (by decide) (by decide), ex SELECT_COLUMN (by decide) (by decide),
      ex GROUP_COLUMN (by decide) (by decide), ex INODE_COLUMN (by decide) (by decide),
      ex ATIME_COLUMN (by decide) (by decide), ex ACCESS_COLUMN (by decide) (by decide),
      ex MTIME_COLUMN (by decide) (by decide), ex MODIFY_COLUMN (by decide) (by decide),
      ex CTIME_COLUMN (by decide) (by decide), ex CHANGE_COLUMN (by decide) (by decide),
      ex SIZE_COLUMN (by decide) (by decide), eq_true hj.symm, if_false, if_true]
  · have hi : ¬ ((i : Int) = ct TYPE_COLUMN) := by rw [hj]; exact_mod_cast h
    simp only [store_entry, apply_ite file_record.re_type, hi, if_false, ite_self, if_neg h]


/-! ## The round trip of a record -/

theorem raw_field_length (P : Platform) (record : file_record) {c : Char}
    (h : c ∈ recognized_codes) : (raw_field P record c).length ≤ P.PATH_MAX - 1 := by
  have hs : ∀ s, (snprintf_s P.PATH_MAX s).length ≤ P.PATH_MAX - 1 := by
    intro s
    unfold snprintf_s
    rw [List.length_take]
    exact Nat.min_le_left _ _
  rcases recognized_cases h with rfl | rfl | rfl | rfl | rfl | rfl | rfl | rfl | rfl | rfl |
      rfl | rfl | rfl | rfl | rfl | rfl
  case inl =>
    unfold raw_field
    rw [rprintbuf_switch_path]
    cases record.re_path with
    | none => simp
    | some path => exact hs _
  all_goals exact hs _

theorem field_text_ok (P : Platform) (hP : P.sound) {codes : List Char}
    (hrec : ∀ c ∈ codes, c ∈ recognized_codes) {r : file_record}
    (hr : round_trip_record P codes r) {c : Char} (hc : c ∈ codes) :
    plain_text (field_text P r c) ∧ (field_text P r c).length < P.PATH_MAX := by
  have hcr := hrec c hc
  obtain ⟨_, _, htype, heof, _⟩ := hr
  constructor
  · intro x hx
    rw [plain_char_iff]
    refine ⟨?_, ?_, ?_, ?_, heof c hc x hx⟩
    · exact raw_field_cstring P r hcr x (strip_special_subset _ _ x hx)
    · exact field_text_no_tab P r c (fun _ => htype.1) x hx
    · exact strip_special_no_newline (by rintro rfl; revert hcr; decide) _ x hx
    · exact strip_special_no_return (by rintro rfl; revert hcr; decide) _ x hx
  · have h1 := strip_special_length_le c (raw_field P r c)
    have h2 := raw_field_length P r hcr
    have := hP.2.2.1
    unfold field_text
    omega

theorem record_round_trip (P : Platform) (hP : P.sound) (codes : List Char)
    (hrec : ∀ c ∈ codes, c ∈ recognized_codes) (hp : 'p' ∈ codes) (r : file_record)
    (hr : round_trip_record P codes r) :
    recovers codes r
      (parse_snapper_file_line P
        (header_entries (codes.map label_of) 0 (initial_column_tracker, [])).1
        (delimited ['\t'] (codes.map (field_text P r)))) := by
  have hcols : ∀ l ∈ codes.map (field_text P r),
      is_cstring l ∧ (∀ c ∈ l, c ≠ '\t') ∧ l.length < P.PATH_MAX := by
    intro l hl
    obtain ⟨c, hc, rfl⟩ := List.mem_map.mp hl
    obtain ⟨h1, h2⟩ := field_text_ok P hP hrec hr hc
    exact ⟨plain_text_cstring h1, plain_text_no_tab h1, h2⟩
  rw [parse_line_columns P _ _ hcols]
  have hcol : ∀ {c : Char} {j : Nat}, codes[j]? = some c →
      (codes.map (field_text P r))[j]? = some (field_text P r c) := by
    intro c j h
    rw [List.getElem?_map, h]
    rfl
  obtain ⟨hpp, hnum, htype, _, _⟩ := hr
  obtain ⟨path, hpath, hplain, hlen⟩ : ∃ path, r.re_path = some path ∧ plain_text path ∧
      path.length < P.PATH_MAX := by
    unfold plain_path at hpp
    cases hq : r.re_path with
    | none => rw [hq] at hpp; exact absurd hpp id
    | some path => rw [hq] at hpp; exact ⟨path, rfl, hpp.1, hpp.2⟩
  obtain ⟨⟨ha1, ha2⟩, ⟨hm1, hm2⟩, ⟨hc1, hc2⟩, ⟨hi0, hi1, hi2⟩, ⟨ho0, ho1, ho2⟩,
    ⟨hg0, hg1, hg2⟩⟩ := hnum
  refine ⟨?_, ?_, ?_, ?_, ?_, ?_, ?_, ?_⟩
  · obtain ⟨j, hj, hcj, _⟩ := tracker_code hrec hp
    rw [store_entries_at P _ (fun r => r.re_path) (fun e => some (cstr e)) j
      (path_step P _ j hj) _ _ (hcol hcj), field_text_path P r path hpath hplain hlen,
      cstr_of_cstring (plain_text_cstring hplain), hpath]
  · intro hc
    obtain ⟨j, hj, hcj, hex⟩ := tracker_code hrec hc
    have := store_entries_at P _ (numeric_field ATIME_COLUMN) _ j
      (numeric_step P _ (by decide) j hj hex) _ _ (hcol hcj) (blank_record P)
    rw [field_text_atime P hP r ha2] at this
    exact this.trans (parse_numeric_itoa P _ _ hP.2.2.2.1 ha1 ha2)
  · intro hc
    obtain ⟨j, hj, hcj, hex⟩ := tracker_code hrec hc
    have := store_entries_at P _ (numeric_field MTIME_COLUMN) _ j
      (numeric_step P _ (by decide) j hj hex) _ _ (hcol hcj) (blank_record P)
    rw [field_text_mtime P hP r hm2] at this
    exact this.trans (parse_numeric_itoa P _ _ hP.2.2.2.1 hm1 hm2)
  · intro hc
    obtain ⟨j, hj, hcj, hex⟩ := tracker_code hrec hc
    have := store_entries_at P _ (numeric_field CTIME_COLUMN) _ j
      (numeric_step P _ (by decide) j hj hex) _ _ (hcol hcj) (blank_record P)
    rw [field_text_ctime P hP r hc2] at this
    exact this.trans (parse_numeric_itoa P _ _ hP.2.2.2.1 hc1 hc2)
  · intro hc
    obtain ⟨j, hj, hcj, hex⟩ := tracker_code hrec hc
    have := store_entries_at P _ (numeric_field INODE_COLUMN) _ j
      (numeric_step P _ (by decide) j hj hex) _ _ (hcol hcj) (blank_record P)
    rw [field_text_ino P hP r hi0 hi2] at this
    exact this.trans (parse_numeric_itoa P _ _ hP.2.2.2.2.1 hi1 hi2)
  · intro hc
    obtain ⟨j, hj, hcj, hex⟩ := tracker_code hrec hc
    have := store_entries_at P _ (numeric_field OWNER_COLUMN) _ j
      (numeric_step P _ (by decide) j hj hex) _ _ (hcol hcj) (blank_record P)
    rw [field_text_uid P hP r ho0 ho2] at this
    exact this.trans (parse_numeric_itoa P _ _ hP.2.2.2.2.2.1 ho1 ho2)
  · intro hc
    obtain ⟨j, hj, hcj, hex⟩ := tracker_code hrec hc
    have := store_entries_at P _ (numeric_field GROUP_COLUMN) _ j
      (numeric_step P _ (by decide) j hj hex) _ _ (hcol hcj) (blank_record P)
    rw [field_text_gid P hP r hg0 hg2] at this
    exact this.trans (parse_numeric_itoa P _ _ hP.2.2.2.2.2.2 hg1 hg2)
  · intro hc
    obtain ⟨j, hj, hcj, hex⟩ := tracker_code hrec hc
    rw [store_entries_at P _ (fun r => r.re_type) (fun e => e.headD '\x00') j
      (type_step P _ j hj hex) _ _ (hcol hcj)]
    exact field_text_type_head P hP r htype.2

/-! ## The round trip of a store -/

theorem range_map_get (l : List file_record) :
    (List.range l.length).map (fun i => l.get? i) = l.map some := by
  apply List.ext_getElem
  · simp
  · intro i h1 h2
    simp

theorem write_records_ok (P : Platform) (snap : snap_t) (line : file_record → List Char) :
    ∀ (records : List file_record),
      (∀ r ∈ records, rprintbuf P snap r (MAX_RECORD_LENGTH P) = .ok (line r)) →
      write_records P snap (records.map some) = .ok (records.flatMap line) := by
  intro records
  induction records with
  | nil => intro _; rfl
  | cons r rs ih =>
    intro h
    rw [List.map_cons, write_records, h r (List.mem_cons_self _ _),
      ih (fun x hx => h x (List.mem_cons_of_mem _ hx))]
    simp

theorem delimited_length_le_room (P : Platform) (r : file_record) (codes : List Char) :
    (delimited ['\t'] (codes.map (field_text P r))).length + 1
      ≤ line_room P r ['\t'] ['\n'] codes := by
  induction codes with
  | nil => simp [delimited, line_room]
  | cons c cs ih =>
    rw [line_room_cons, List.map_cons, delimited_cons]
    have := strip_special_length_le c (raw_field P r c)
    simp only [List.length_append, List.length_cons, List.length_nil, field_text] at ih ⊢
    omega

theorem template_items_percent_cons (code : Char) (rest : List Char) :
    template_items ('%' :: code :: rest) = .code code :: template_items rest := by
  rw [template_items.eq_def]
  simp

theorem template_items_space (rest : List Char) :
    template_items (' ' :: rest) = template_items rest := by
  rw [template_items.eq_def]
  simp

theorem template_items_other {c : Char} (h1 : c ≠ '%') (h2 : c ≠ ' ') (rest : List Char) :
    template_items (c :: rest) = .literal c :: template_items rest := by
  rw [template_items.eq_def]
  simp [h1, h2]

theorem template_items_lone_percent : template_items ['%'] = [.code '\x00'] := rfl

theorem template_items_unspaced (T : List Char) :
    template_items (unspaced T) = template_items T := by
  induction T using unspaced.induct with
  | case1 => rfl
  | case2 => rfl
  | case3 code rest ih =>
    rw [unspaced_percent_cons, template_items_percent_cons, template_items_percent_cons, ih]
  | case4 rest _ ih => rw [unspaced_space, template_items_space, ih]
  | case5 c rest h1 h2 ih =>
    rw [unspaced_other h1 h2, template_items_other h1 h2, template_items_other h1 h2, ih]

theorem template_items_of_codes (codes : List Char) :
    template_items (template_of_codes codes) = codes.map .code := by
  induction codes with
  | nil => rfl
  | cons c cs ih =>
    have htpl : template_of_codes (c :: cs) = '%' :: c :: template_of_codes cs := by
      simp [template_of_codes]
    rw [htpl, template_items_percent_cons, ih, List.map_cons]

theorem snprintf_c_char {n : Nat} {c : Char} (hn : 1 < n) (hc : c ≠ '\x00') :
    snprintf_c n c = [c] := by
  unfold snprintf_c cstr
  rw [List.takeWhile_cons_of_pos (by simpa using hc), List.takeWhile_nil]
  exact List.take_of_length_le (by simp only [List.length_singleton]; omega)

/-! ## The header line of any template -/

theorem hprintbuf_switch_other (lb : Option (List Char)) {c : Char}
    (h : c ∉ recognized_codes) (h1 : c ≠ '%') (h2 : c ≠ '\x00') (h3 : c ≠ ' ') :
    hprintbuf_switch lb c = some (snprintf_c MAX_HEADER c) := by
  simp only [recognized_codes, String.toList, List.mem_cons, List.mem_singleton,
    List.not_mem_nil, or_false, not_or] at h
  obtain ⟨g1, g2, g3, g4, g5, g6, g7, g8, g9, g10, g11, g12, g13, g14, g15, g16⟩ := h
  unfold hprintbuf_switch
  split <;> first | rfl | contradiction

theorem header_text_recognized {c : Char} (h : c ∈ recognized_codes) :
    header_text c = label_of c := by
  unfold header_text; rw [if_pos h]

theorem header_text_other {c : Char} (h : c ∉ recognized_codes) : header_text c = [c] := by
  unfold header_text; rw [if_neg h]

theorem hprintbuf_switch_item (lb : Option (List Char)) {c : Char}
    (h : header_item_ok (.code c)) : hprintbuf_switch lb c = some (header_text c) := by
  obtain ⟨h1, h2, h3⟩ := h
  by_cases hc : c ∈ recognized_codes
  · rw [hprintbuf_switch_recognized lb hc, header_text_recognized hc]
  · rw [hprintbuf_switch_other lb hc h1 h2 h3, header_text_other hc,
      snprintf_c_char (by decide) h2]

theorem header_text_cstring {c : Char} (h : c ≠ '\x00') : is_cstring (header_text c) := by
  by_cases hc : c ∈ recognized_codes
  · rw [header_text_recognized hc]; exact label_of_cstring c
  · rw [header_text_other hc]
    intro x hx
    rw [List.mem_singleton] at hx
    rw [hx]; exact h

theorem hprintbuf_loop_items (fd : List Char) (maxlen : Nat) (hfd : is_cstring fd)
    (hfdlen : fd.length < MAX_HEADER) (T : List Char) :
    ∀ (lb : Option (List Char)) (dest : List Char),
      (∀ item ∈ template_items T, header_item_ok item) →
      dest.length + ((template_items T).flatMap (header_item fd)).length < maxlen →
      hprintbuf_loop fd maxlen T lb dest
        = .ok (dest ++ (template_items T).flatMap (header_item fd)) := by
  have hdelim : snprintf_s MAX_HEADER fd = fd := snprintf_s_of_cstring hfd hfdlen
  induction T using template_items.induct with
  | case1 => intro lb dest _ _; simp [template_items, hprintbuf_loop]
  | case2 =>
    intro lb dest hok _
    have := hok (.code '\x00') (by rw [template_items_lone_percent]; exact List.mem_singleton_self _)
    exact absurd rfl this.2.1
  | case3 code rest ih =>
    intro lb dest hok hroom
    rw [template_items_percent_cons] at hok hroom ⊢
    have hcode := hok (.code code) (List.mem_cons_self _ _)
    have hrest : ∀ item ∈ template_items rest, header_item_ok item :=
      fun item hi => hok item (List.mem_cons_of_mem _ hi)
    rw [List.flatMap_cons] at hroom ⊢
    simp only [header_item, List.length_append] at hroom
    rw [hprintbuf_loop_percent, if_neg (by omega), hprintbuf_switch_item lb hcode]
    simp only [hdelim]
    rw [if_neg hcode.2.1, copy_if_room_of_room (header_text_cstring hcode.2.1) (by omega),
      copy_if_room_of_room hfd (by simp only [List.length_append]; omega),
      ih _ _ hrest (by simp only [List.length_append]; omega)]
    simp [header_item, List.append_assoc]
  | case4 rest _ ih =>
    intro lb dest hok hroom
    rw [template_items_space] at hok hroom ⊢
    rw [hprintbuf_loop]
    by_cases hfull : dest.length < maxlen
    · rw [if_neg (by simp [hfull]), if_pos (by decide), if_pos rfl]
      exact ih lb dest hok hroom
    · omega
  | case5 c rest h1 h2 ih =>
    intro lb dest hok hroom
    rw [template_items_other h1 h2] at hok hroom ⊢
    have hc : c ≠ '\x00' := hok (.literal c) (List.mem_cons_self _ _)
    have hrest : ∀ item ∈ template_items rest, header_item_ok item :=
      fun item hi => hok item (List.mem_cons_of_mem _ hi)
    rw [List.flatMap_cons] at hroom ⊢
    simp only [header_item, List.length_append, List.length_singleton] at hroom
    rw [hprintbuf_loop_other _ _ h1 h2, if_neg (by simp [hc]; omega),
      ih _ _ hrest (by simp only [List.length_append, List.length_singleton]; omega)]
    simp [header_item, List.append_assoc]

theorem hprintbuf_items (snap : snap_t) (maxlen : Nat)
    (hok : ∀ item ∈ template_items snap.column_string, header_item_ok item)
    (hfd : is_cstring snap.field_delimiter) (hrd : is_cstring snap.record_delimiter)
    (hfdlen : snap.field_delimiter.length < MAX_HEADER)
    (hrdlen : snap.record_delimiter.length < MAX_HEADER)
    (hroom : ((template_items snap.column_string).flatMap (header_item snap.field_delimiter)
      ++ snap.record_delimiter).length < maxlen) :
    hprintbuf snap maxlen
      = .ok ((template_items snap.column_string).flatMap (header_item snap.field_delimiter)
          ++ snap.record_delimiter) := by
  simp only [List.length_append] at hroom
  unfold hprintbuf
  rw [hprintbuf_loop_items _ maxlen hfd hfdlen _ none [] hok
    (by simp only [List.length_nil]; omega)]
  simp only [List.nil_append]
  rw [snprintf_s_of_cstring hrd hrdlen, copy_if_room_of_room hrd hroom]

/-! ## The record line of any template -/

theorem rprintbuf_switch_is_cstring (P : Platform) (record : file_record) (c : Char)
    {field : List Char} (h : rprintbuf_switch P record c = .ok field) : is_cstring field := by
  unfold rprintbuf_switch at h
  split at h
  case h_3 =>
    split at h
    · cases h
    · cases h; exact is_cstring_snprintf_s _ _
  all_goals
    cases h
    exact is_cstring_snprintf_s _ _

theorem rprintbuf_switch_error (P : Platform) (record : file_record) (c : Char)
    {f : Fault} (h : rprintbuf_switch P record c = .error f) :
    c = 'p' ∧ record.re_path = none := by
  unfold rprintbuf_switch at h
  split at h
  case h_3 =>
    split at h
    · rename_i hp; exact ⟨rfl, hp⟩
    · cases h
  all_goals cases h

theorem rprintbuf_switch_item (P : Platform) (record : file_record) {c : Char}
    (h : record_item_ok record (.code c)) :
    rprintbuf_switch P record c = .ok (raw_field P record c) := by
  cases hs : rprintbuf_switch P record c with
  | error f => exact absurd (rprintbuf_switch_error P record c hs).2 (h.2 (rprintbuf_switch_error P record c hs).1)
  | ok field => unfold raw_field; rw [hs]

theorem raw_field_is_cstring (P : Platform) (record : file_record) (c : Char) :
    is_cstring (raw_field P record c) := by
  unfold raw_field
  cases hs : rprintbuf_switch P record c with
  | error f => intro x hx; simp at hx
  | ok field => exact rprintbuf_switch_is_cstring P record c hs

theorem items_room_cons (P : Platform) (record : file_record) (fd rd : List Char)
    (item : template_item) (items : List template_item) :
    items_room P record fd rd (item :: items)
      = item_room P record fd item + items_room P record fd rd items := by
  simp [items_room]; omega

theorem rprintbuf_loop_items (P : Platform) (record : file_record) (fd rd : List Char)
    (maxlen : Nat) (hfd : is_cstring fd) (hfdlen : fd.length < P.PATH_MAX) (T : List Char) :
    ∀ (dest : List Char),
      (∀ item ∈ template_items T, record_item_ok record item) →
      dest.length + items_room P record fd rd (template_items T) < maxlen →
      rprintbuf_loop P fd record maxlen T dest
        = .ok (dest ++ (template_items T).flatMap (record_item P record fd)) := by
  have hdelim : snprintf_s P.PATH_MAX fd = fd := snprintf_s_of_cstring hfd hfdlen
  induction T using template_items.induct with
  | case1 => intro dest _ _; simp [template_items, rprintbuf_loop]
  | case2 =>
    intro dest hok _
    have := hok (.code '\x00') (by rw [template_items_lone_percent]; exact List.mem_singleton_self _)
    exact absurd rfl this.1
  | case3 code rest ih =>
    intro dest hok hroom
    rw [template_items_percent_cons] at hok hroom ⊢
    have hcode := hok (.code code) (List.mem_cons_self _ _)
    have hrest : ∀ item ∈ template_items rest, record_item_ok record item :=
      fun item hi => hok item (List.mem_cons_of_mem _ hi)
    rw [items_room_cons] at hroom
    rw [List.flatMap_cons]
    simp only [item_room] at hroom
    have hstrip := strip_special_length_le code (raw_field P record code)
    rw [rprintbuf_loop_percent, if_neg (by omega), rprintbuf_switch_item P record hcode]
    simp only [hdelim]
    rw [if_neg hcode.1,
      copy_field_if_room_of_room code (raw_field_is_cstring P record code) (by omega),
      copy_if_room_of_room hfd (by simp only [List.length_append]; omega),
      ih _ hrest (by simp only [List.length_append]; omega)]
    simp [record_item, field_text, List.append_assoc]
  | case4 rest _ ih =>
    intro dest hok hroom
    rw [template_items_space] at hok hroom ⊢
    rw [rprintbuf_loop]
    by_cases hfull : dest.length < maxlen
    · rw [if_neg (by simp [hfull]), if_pos (by decide), if_pos rfl]
      exact ih dest hok hroom
    · omega
  | case5 c rest h1 h2 ih =>
    intro dest hok hroom
    rw [template_items_other h1 h2] at hok hroom ⊢
    have hc : c ≠ '\x00' := hok (.literal c) (List.mem_cons_self _ _)
    have hrest : ∀ item ∈ template_items rest, record_item_ok record item :=
      fun item hi => hok item (List.mem_cons_of_mem _ hi)
    rw [items_room_cons] at hroom
    rw [List.flatMap_cons]
    simp only [item_room] at hroom
    rw [rprintbuf_loop_other _ _ _ _ h1 h2, if_neg (by simp [hc]; omega),
      ih _ hrest (by simp only [List.length_append, List.length_singleton]; omega)]
    simp [record_item, List.append_assoc]

theorem record_items_length_le (P : Platform) (record : file_record) (fd rd : List Char)
    (items : List template_item) :
    (items.flatMap (record_item P record fd)).length + rd.length
      ≤ items_room P record fd rd items := by
  induction items with
  | nil => simp [items_room]
  | cons item items ih =>
    rw [items_room_cons, List.flatMap_cons, List.length_append]
    cases item with
    | literal c => simp only [record_item, item_room, List.length_singleton]; omega
    | code c =>
      have := strip_special_length_le c (raw_field P record c)
      simp only [record_item, item_room, field_text, List.length_append]
      omega

theorem rprintbuf_items (P : Platform) (snap : snap_t) (record : file_record) (maxlen : Nat)
    (hok : ∀ item ∈ template_items snap.column_string, record_item_ok record item)
    (hfd : is_cstring snap.field_delimiter) (hrd : is_cstring snap.record_delimiter)
    (hfdlen : snap.field_delimiter.length < P.PATH_MAX)
    (hrdlen : snap.record_delimiter.length < P.PATH_MAX)
    (hroom : items_room P record snap.field_delimiter snap.record_delimiter
      (template_items snap.column_string) < maxlen) :
    rprintbuf P snap record maxlen
      = .ok ((template_items snap.column_string).flatMap
            (record_item P record snap.field_delimiter)
          ++ snap.record_delimiter) := by
  unfold rprintbuf
  rw [rprintbuf_loop_items P record _ snap.record_delimiter maxlen hfd hfdlen _ [] hok
    (by simp only [List.length_nil]; omega)]
  simp only [List.nil_append]
  rw [snprintf_s_of_cstring hrd hrdlen]
  have := record_items_length_le P record snap.field_delimiter snap.record_delimiter
    (template_items snap.column_string)
  rw [copy_if_room_of_room hrd (by omega)]


/-! ## Spaces of a template -/

theorem unspaced_eq_filter (T : List Char) :
    template_item.code ' ' ∉ template_items T →
    unspaced T = T.filter (fun c => c != ' ') := by
  induction T using unspaced.induct with
  | case1 => intro _; rfl
  | case2 => intro _; rfl
  | case3 code rest ih =>
    intro h
    rw [template_items_percent_cons] at h
    have hcode : code ≠ ' ' := fun e => h (e ▸ List.mem_cons_self _ _)
    have hrest := ih (fun hm => h (List.mem_cons_of_mem _ hm))
    rw [unspaced_percent_cons, hrest, List.filter_cons_of_pos (by decide),
      List.filter_cons_of_pos (by simpa using hcode)]
  | case4 rest _ ih =>
    intro h
    rw [template_items_space] at h
    rw [unspaced_space, ih h, List.filter_cons_of_neg (by decide)]
  | case5 c rest h1 h2 ih =>
    intro h
    rw [template_items_other h1 h2] at h
    have hrest := ih (fun hm => h (List.mem_cons_of_mem _ hm))
    rw [unspaced_other h1 h2, hrest, List.filter_cons_of_pos (by simpa using h2)]

/-- C14 (amended): for every column template in which no `%` has a space for
its code, every record and every buffer length, `hprintbuf` and `rprintbuf`
give the same result for the template as for the template with all of its
space characters removed. -/
theorem template_spaces_skipped (P : Platform) (snap : snap_t) (record : file_record)
    (maxlen : Nat)
    (hcode : template_item.code ' ' ∉ template_items snap.column_string) :
    hprintbuf snap maxlen
      = hprintbuf
          { snap with column_string := snap.column_string.filter (fun c => c != ' ') } maxlen ∧
    rprintbuf P snap record maxlen
      = rprintbuf P
          { snap with column_string := snap.column_string.filter (fun c => c != ' ') }
          record maxlen := by
  rw [← unspaced_eq_filter _ hcode]
  constructor
  · unfold hprintbuf
    simp only []
    rw [hprintbuf_loop_unspaced]
  · unfold rprintbuf
    simp only []
    rw [rprintbuf_loop_unspaced]

set_option maxRecDepth 100000 in
theorem template_spaces_skipped_witness :
    hprintbuf (store_with " %p  %m x %c ".toList []) 1124
      = hprintbuf
          { store_with " %p  %m x %c ".toList [] with
            column_string :=
              (store_with " %p  %m x %c ".toList []).column_string.filter
                (fun c => c != ' ') } 1124 ∧
    rprintbuf darwin64 (store_with " %p  %m x %c ".toList []) sample_record 1124
      = rprintbuf darwin64
          { store_with " %p  %m x %c ".toList [] with
            column_string :=
              (store_with " %p  %m x %c ".toList []).column_string.filter
                (fun c => c != ' ') }
          sample_record 1124 :=
  template_spaces_skipped darwin64 (store_with " %p  %m x %c ".toList []) sample_record 1124
    (by decide)

set_option maxRecDepth 100000 in
/-- C14 as stated fails: in the template `% p` the space is the code of the
`%`; `rprintbuf` echoes it (a space reaches the output, followed by the field
delimiter, and `p` is copied as a literal), where the template without its
space, `%p`, gives the path.  `hprintbuf` reads its scratch buffer before
anything was written to it. -/
theorem space_code_reaches_output :
    "% p".toList.filter (fun c => c != ' ') = "%p".toList ∧
    rprintbuf darwin64 (store_with "% p".toList []) sample_record 1124
      = .ok " \tp\n".toList ∧
    rprintbuf darwin64 (store_with "%p".toList []) sample_record 1124
      = .ok "/a/b\t\n".toList ∧
    hprintbuf (store_with "% p".toList []) 1124 = .error .uninit ∧
    hprintbuf (store_with "%p".toList []) 1124 = .ok "Path\t\n".toList := by
  decide

/-! ## Codes that are echoed -/

theorem rprintbuf_switch_other (P : Platform) (record : file_record) {c : Char}
    (h : c ∉ recognized_codes) (h1 : c ≠ '%') (h2 : c ≠ '\x00') :
    rprintbuf_switch P record c = .ok (snprintf_c P.PATH_MAX c) := by
  simp only [recognized_codes, String.toList, List.mem_cons, List.mem_singleton,
    List.not_mem_nil, or_false, not_or] at h
  obtain ⟨g1, g2, g3, g4, g5, g6, g7, g8, g9, g10, g11, g12, g13, g14, g15, g16⟩ := h
  unfold rprintbuf_switch
  split <;> first | rfl | contradiction

theorem field_text_percent (P : Platform) (record : file_record) (hpm : 1 < P.PATH_MAX) :
    field_text P record '%' = ['%'] := by
  have h : raw_field P record '%' = snprintf_c P.PATH_MAX '%' := rfl
  unfold field_text
  rw [h, snprintf_c_char hpm (by decide)]
  rfl

theorem field_text_other (P : Platform) (record : file_record) (hpm : 1 < P.PATH_MAX)
    {x : Char} (h : x ∉ recognized_codes) (h1 : x ≠ '%') (h2 : x ≠ '\x00')
    (h3 : x ≠ '\t') (h4 : x ≠ '\n') (h5 : x ≠ '\r') :
    field_text P record x = [x] := by
  unfold field_text raw_field
  rw [rprintbuf_switch_other P record h h1 h2]
  simp only []
  rw [snprintf_c_char hpm h2]
  have e3 : (x == '\t') = false := by simpa using h3
  have e4 : (x == '\n') = false := by simpa using h4
  have e5 : (x == '\r') = false := by simpa using h5
  unfold strip_special
  rw [List.filter_cons_of_pos (by simp [e3, e4, e5]), List.filter_nil]

theorem items_ok_insert {ok : template_item → Prop} {before after : List template_item}
    {item : template_item} (h : ∀ i ∈ before ++ after, ok i) (hitem : ok item) :
    ∀ i ∈ before ++ item :: after, ok i := by
  intro i hi
  rcases List.mem_append.mp hi with h1 | h1
  · exact h i (List.mem_append_left _ h1)
  · rcases List.mem_cons.mp h1 with h2 | h2
    · rw [h2]; exact hitem
    · exact h i (List.mem_append_right _ h2)

theorem tab_columns_from_length (line : List Char) :
    ∀ (column : List Char), (tab_columns_from line column).length = line.count '\t' := by
  induction line with
  | nil => intro _; rfl
  | cons c cs ih =>
    intro column
    rw [tab_columns_from]
    by_cases h : c = '\t'
    · rw [if_pos h, h, List.length_cons, ih, List.count_cons_self]
    · rw [if_neg h, ih, List.count_cons_of_ne (fun e => h e.symm)]

theorem tab_columns_length (line : List Char) :
    (tab_columns line).length = line.count '\t' :=
  tab_columns_from_length line []

theorem flatMap_count_congr {f g : template_item → List Char} (c : Char) :
    ∀ (items : List template_item), (∀ item ∈ items, (f item).count c = (g item).count c) →
      (items.flatMap f).count c = (items.flatMap g).count c := by
  intro items
  induction items with
  | nil => intro _; rfl
  | cons item items ih =>
    intro h
    rw [List.flatMap_cons, List.flatMap_cons, List.count_append, List.count_append,
      h item (List.mem_cons_self _ _), ih (fun i hi => h i (List.mem_cons_of_mem _ hi))]

theorem header_text_no_tab {c : Char} (h : c ≠ '\t') : (header_text c).count '\t' = 0 := by
  rw [List.count_eq_zero]
  by_cases hc : c ∈ recognized_codes
  · rw [header_text_recognized hc]
    intro hm
    exact plain_text_no_tab (label_of_plain c) _ hm rfl
  · rw [header_text_other hc, List.mem_singleton]
    exact fun e => h e.symm

theorem float_shift_small {n : Nat} (h : n < 2 ^ 24) (fuel : Nat) : float_shift fuel n = 0 := by
  cases fuel with
  | zero => rfl
  | succ f => rw [float_shift, if_pos h]

theorem float_of_nat_exact {n : Nat} (h : n < 2 ^ 24) : float_of_nat n = n := by
  unfold float_of_nat
  rw [float_shift_small h]
  simp [Nat.mod_one]

theorem float_unit_le : ∀ (fuel n : Nat), 2 ^ float_shift fuel n ≤ max n 1 := by
  intro fuel
  induction fuel with
  | zero => intro n; simp [float_shift]
  | succ f ih =>
    intro n
    rw [float_shift]
    by_cases h : n < 2 ^ 24
    · rw [if_pos h]; simp
    · rw [if_neg h, pow_succ]
      have h1 := ih (n / 2)
      have h2 : 2 ^ 24 ≤ n := by omega
      have h3 : (16777216 : Nat) = 2 ^ 24 := by norm_num
      have h4 : max (n / 2) 1 = n / 2 := by
        apply max_eq_left
        omega
      rw [h4] at h1
      have h5 : max n 1 = n := by
        apply max_eq_left
        omega
      rw [h5]
      omega

theorem float_of_nat_le (n : Nat) : float_of_nat n ≤ 2 * n + 1 := by
  unfold float_of_nat
  have h1 := float_unit_le n n
  have h2 : n / 2 ^ float_shift n n * 2 ^ float_shift n n ≤ n := Nat.div_mul_le_self _ _
  have h3 : max n 1 ≤ n + 1 := by
    rcases Nat.lt_or_ge n 1 with h | h
    · rw [max_eq_right (by omega)]; omega
    · rw [max_eq_left h]; omega
  simp only []
  split
  · rw [Nat.add_mul, Nat.one_mul]; omega
  · omega

theorem utoa_plain (n : Nat) : plain_text (utoa n) := by
  have h := itoa_plain (n : Int)
  unfold itoa at h
  rw [if_neg (by omega)] at h
  simpa using h

theorem plain_text_append {s t : List Char} (hs : plain_text s) (ht : plain_text t) :
    plain_text (s ++ t) := by
  intro c hc
  rcases List.mem_append.mp hc with h | h
  · exact hs c h
  · exact ht c h

theorem printf_fixed_plain (prec num den : Nat) : plain_text (printf_fixed prec num den) := by
  unfold printf_fixed
  simp only []
  apply plain_text_append (utoa_plain _)
  intro c hc
  rcases List.mem_cons.mp hc with h | h
  · rw [h]; decide
  · rcases List.mem_append.mp h with h1 | h1
    · rw [(List.mem_replicate.mp h1).2]; decide
    · exact utoa_plain _ c h1

theorem printf_fixed_length (prec num den : Nat) (hp : 1 ≤ prec)
    (h : num * 10 ^ prec + 1 < 10 ^ 30) :
    (printf_fixed prec num den).length ≤ 31 + prec := by
  unfold printf_fixed
  simp only []
  generalize hr : (if 2 * (num * 10 ^ prec % den) > den ∨
      2 * (num * 10 ^ prec % den) = den ∧ num * 10 ^ prec / den % 2 = 1 then
      num * 10 ^ prec / den + 1 else num * 10 ^ prec / den) = rounded
  have hq : num * 10 ^ prec / den ≤ num * 10 ^ prec := Nat.div_le_self _ _
  have hrounded : rounded < 10 ^ 30 := by
    rw [← hr]
    split <;> omega
  have h1 : (utoa (rounded / 10 ^ prec)).length ≤ 30 :=
    utoa_length _ 30 (lt_of_le_of_lt (Nat.div_le_self _ _) hrounded) (by decide)
  have h2 : (utoa (rounded % 10 ^ prec)).length ≤ prec :=
    utoa_length _ prec (Nat.mod_lt _ (Nat.pow_pos (by decide))) hp
  simp only [List.length_append, List.length_cons, List.length_replicate]
  omega

theorem bytes_conv (P : Platform) (hint : 16 ≤ P.int_bits) {s : Int} (h : s < 1024)
    (hlow : P.int.min ≤ s) : P.int.conv s = s := by
  apply conv_of_holds
  · show 0 < P.int_bits
    omega
  · have hpow : (2 : Int) ^ 15 ≤ 2 ^ (P.int_bits - 1) :=
      pow_le_pow_right₀ (by norm_num) (by omega)
    have h15 : (2 : Int) ^ 15 = 32768 := by norm_num
    refine ⟨hlow, ?_⟩
    unfold CInt.max Platform.int
    simp only [if_true]
    omega

theorem bytes_natAbs (P : Platform) (hint : P.int_bits ≤ 64) {s : Int} (h : s < 1024)
    (hlow : P.int.min ≤ s) : s.natAbs < 10 ^ 19 := by
  have hpow : (2 : Int) ^ (P.int_bits - 1) ≤ 2 ^ 63 :=
    pow_le_pow_right₀ (by norm_num) (by omega)
  have h63 : (2 : Int) ^ 63 = 9223372036854775808 := by norm_num
  have h19 : (10 : Nat) ^ 19 = 10000000000000000000 := by norm_num
  unfold CInt.min Platform.int at hlow
  simp only [if_true] at hlow
  omega

/-- C12 (amended): on a platform with IEEE 754 arithmetic and a `printf` that
rounds correctly, for every size `s` from `INT_MIN` to 2^63 - 1 the `s` code
of `rprintbuf` renders the decimal integer `s` followed by " bytes" when
`s < 1024`; `s / 1024` rounded to one decimal and " KB" when `s < 1024^2`; and
otherwise the value of `(float)s`, that is `s` rounded to 24 significant bits,
divided by 1024^2, 1024^3 or 1024^4 and rounded to two, two or three decimals,
with " MB", " GB" or " TB", the unit being the first whose upper threshold
(1024^3, 1024^4, none) `s` is below.  Roundings are to nearest, ties to
even. -/
theorem size_code_rendering (P : Platform) (record : file_record) (s : Int)
    (hsize : record.re_size = s) (hlow : P.int.min ≤ s) (hs : s < 2 ^ 63)
    (hfloat : P.printf_f = ieee_printf_f) (hint : 16 ≤ P.int_bits)
    (hint' : P.int_bits ≤ 64) (hpm : 64 ≤ P.PATH_MAX) :
    field_text P record 's' =
      if s < 1024 then itoa s ++ " bytes".toList
      else if s < 1024 ^ 2 then printf_fixed 1 s.toNat 1024 ++ " KB".toList
      else if s < 1024 ^ 3 then
        printf_fixed 2 (float_of_nat s.toNat) (1024 ^ 2) ++ " MB".toList
      else if s < 1024 ^ 4 then
        printf_fixed 2 (float_of_nat s.toNat) (1024 ^ 3) ++ " GB".toList
      else printf_fixed 3 (float_of_nat s.toNat) (1024 ^ 4) ++ " TB".toList := by
  have hraw : raw_field P record 's' = snprintf_s P.PATH_MAX (size_text P record.re_size) := rfl
  unfold field_text
  rw [hraw, hsize]
  unfold size_text
  by_cases h1 : s < 1024
  · rw [if_pos h1, if_pos h1, bytes_conv P hint h1 hlow]
    apply field_of_plain P 's' (plain_text_append (itoa_plain _) (by decide))
    have := itoa_length s 19 (bytes_natAbs P hint' h1 hlow) (by decide)
    rw [List.length_append]
    have : " bytes".toList.length = 6 := rfl
    omega
  · obtain ⟨n, rfl⟩ : ∃ n : Nat, s = (n : Int) := ⟨s.toNat, (Int.toNat_of_nonneg (by omega)).symm⟩
    rw [Int.toNat_ofNat]
    have hieee : ∀ prec den, P.printf_f prec (n : Int) den
        = printf_fixed prec (float_of_nat n) den := by
      intro prec den
      rw [hfloat]
      unfold ieee_printf_f
      rw [if_neg (by omega), Int.natAbs_ofNat]
    have hfl := float_of_nat_le n
    have h63 : (2 : Int) ^ 63 = 9223372036854775808 := by norm_num
    have hfixed : ∀ prec den, 1 ≤ prec → prec ≤ 3 → ∀ suffix : List Char, plain_text suffix →
        suffix.length ≤ 3 →
        strip_special 's'
            (snprintf_s P.PATH_MAX (printf_fixed prec (float_of_nat n) den ++ suffix))
          = printf_fixed prec (float_of_nat n) den ++ suffix := by
      intro prec den hp1 hp3 suffix hsuf hlen
      apply field_of_plain P 's' (plain_text_append (printf_fixed_plain _ _ _) hsuf)
      have hpow : 10 ^ prec ≤ 10 ^ 3 := Nat.pow_le_pow_right (by decide) hp3
      have hmul : float_of_nat n * 10 ^ prec ≤ float_of_nat n * 10 ^ 3 :=
        Nat.mul_le_mul_left _ hpow
      have := printf_fixed_length prec (float_of_nat n) den hp1 (by
        have h30 : (10 : Nat) ^ 30 = 1000000000000000000000000000000 := by norm_num
        have h3 : (10 : Nat) ^ 3 = 1000 := by norm_num
        omega)
      rw [List.length_append]
      omega
    rw [if_neg h1, if_neg h1]
    by_cases h2 : (n : Int) < 1024 ^ 2
    · rw [if_pos (by omega), if_pos h2, hieee]
      have := hfixed 1 1024 (by decide) (by decide) " KB".toList (by decide) (by decide)
      have hexact : float_of_nat n = n := float_of_nat_exact (by omega)
      rw [hexact] at this ⊢
      exact this
    · rw [if_neg (by omega), if_neg h2]
      by_cases h3 : (n : Int) < 1024 ^ 3
      · rw [if_pos (by omega), if_pos h3, hieee]
        exact hfixed 2 _ (by decide) (by decide) " MB".toList (by decide) (by decide)
      · rw [if_neg (by omega), if_neg h3]
        by_cases h4 : (n : Int) < 1024 ^ 4
        · rw [if_pos (by omega), if_pos h4, hieee]
          exact hfixed 2 _ (by decide) (by decide) " GB".toList (by decide) (by decide)
        · rw [if_neg (by omega), if_neg h4, hieee]
          exact hfixed 3 _ (by decide) (by decide) " TB".toList (by decide) (by decide)

set_option maxRecDepth 100000 in
theorem size_code_rendering_witness :
    field_text darwin64 (sized_record 1023) 's' = "1023 bytes".toList ∧
    field_text darwin64 (sized_record 1024) 's' = "1.0 KB".toList ∧
    field_text darwin64 (sized_record 1048576) 's' = "1.00 MB".toList ∧
    field_text darwin64 (sized_record 1073741824) 's' = "1.00 GB".toList ∧
    field_text darwin64 (sized_record 1099511627776) 's' = "1.000 TB".toList ∧
    field_text darwin64 (sized_record (-1)) 's' = "-1 bytes".toList :=
  ⟨(size_code_rendering darwin64 (sized_record 1023) 1023 rfl (by decide) (by decide) rfl
      (by decide) (by decide) (by decide)).trans (by decide),
    (size_code_rendering darwin64 (sized_record 1024) 1024 rfl (by decide) (by decide) rfl
      (by decide) (by decide) (by decide)).trans (by decide),
    (size_code_rendering darwin64 (sized_record 1048576) 1048576 rfl (by decide) (by decide)
      rfl (by decide) (by decide) (by decide)).trans (by decide),
    (size_code_rendering darwin64 (sized_record 1073741824) 1073741824 rfl (by decide)
      (by decide) rfl (by decide) (by decide) (by decide)).trans (by decide),
    (size_code_rendering darwin64 (sized_record 1099511627776) 1099511627776 rfl (by decide)
      (by decide) rfl (by decide) (by decide) (by decide)).trans (by decide),
    (size_code_rendering darwin64 (sized_record (-1)) (-1) rfl (by decide) (by decide) rfl
      (by decide) (by decide) (by decide)).trans (by decide)⟩

set_option maxRecDepth 100000 in
/-- C12 as stated fails: for the size 16834887 the quotient `s / 1024^2` lies
between 16.05 and 16.055, so that with two decimals it is 16.05, and the `s`
code renders "16.06 MB": the conversion `(float)s` rounds the size to 24
significant bits, 16834888, whose quotient is above 16.055. -/
theorem size_float_rounding :
    field_text darwin64 (sized_record 16834887) 's' = "16.06 MB".toList ∧
    float_of_nat 16834887 = 16834888 ∧
    16050 * 1024 ^ 2 ≤ 16834887 * 1000 ∧ 16834887 * 1000 < 16055 * 1024 ^ 2 ∧
    16055 * 1024 ^ 2 < 16834888 * 1000 := by
  decide


/-! ## The permissions in octal -/

theorem land_nonneg_of_nat (mode : Int) (bit : Nat) : 0 ≤ Int.land mode (bit : Int) := by
  cases mode <;> exact Int.ofNat_nonneg _

theorem permission_bits_cast (mode : Int) :
    ((permission_bits mode : Nat) : Int) = Int.land mode 0o7777 :=
  Int.toNat_of_nonneg (land_nonneg_of_nat mode 0o7777)

theorem int_testBit_cast (n k : Nat) : Int.testBit (n : Int) k = Nat.testBit n k := rfl

theorem permission_bits_testBit (mode : Int) (k : Nat) :
    (permission_bits mode).testBit k = (Int.testBit mode k && Nat.testBit 0o7777 k) := by
  rw [← int_testBit_cast, permission_bits_cast]
  exact Int.testBit_land mode _ k

theorem permission_bits_lt (mode : Int) : permission_bits mode < 8 ^ 4 := by
  have h : permission_bits mode < 2 ^ 12 := by
    apply Nat.lt_pow_two_of_testBit
    intro i hi
    rw [permission_bits_testBit]
    have : Nat.testBit 0o7777 i = false := by
      apply Nat.testBit_lt_two_pow
      calc 0o7777 < 2 ^ 12 := by norm_num
        _ ≤ 2 ^ i := Nat.pow_le_pow_right (by decide) hi
    rw [this, Bool.and_false]
  simpa using h

theorem nat_ne_zero_of_testBit {x k : Nat} (h : x.testBit k = true) : x ≠ 0 := by
  rintro rfl
  simp at h

theorem is_set_testBit (mode : Int) {k : Nat} (hk : k < 12) :
    IS_SET mode (2 ^ k) = (permission_bits mode).testBit k := by
  have hmask : Nat.testBit 0o7777 k = true := by
    interval_cases k <;> rfl
  rw [permission_bits_testBit, hmask, Bool.and_true]
  unfold IS_SET
  obtain ⟨x, hx⟩ : ∃ x : Nat, Int.land mode ((2 ^ k : Nat) : Int) = (x : Int) :=
    ⟨(Int.land mode ((2 ^ k : Nat) : Int)).toNat,
      (Int.toNat_of_nonneg (land_nonneg_of_nat mode _)).symm⟩
  have hbits : ∀ j, x.testBit j = (Int.testBit mode j && decide (k = j)) := by
    intro j
    rw [← int_testBit_cast, ← hx, Int.testBit_land, int_testBit_cast, Nat.testBit_two_pow]
  rw [hx]
  cases hm : Int.testBit mode k with
  | true =>
    have : x ≠ 0 := @nat_ne_zero_of_testBit x k (by rw [hbits, hm]; simp)
    simpa using this
  | false =>
    have : x = 0 := by
      apply Nat.eq_of_testBit_eq
      intro j
      rw [hbits, Nat.zero_testBit]
      by_cases hj : k = j
      · rw [← hj, hm]; rfl
      · simp [hj]
    simp [this]

theorem testBit_toNat (b k : Nat) : (b.testBit k).toNat = b / 2 ^ k % 2 := by
  rw [Nat.testBit_to_div_mod]
  rcases Nat.mod_two_eq_zero_or_one (b / 2 ^ k) with h | h <;> simp [h]

theorem testBit_group (b k : Nat) :
    4 * (b.testBit (k + 2)).toNat + 2 * (b.testBit (k + 1)).toNat + (b.testBit k).toNat
      = b / 2 ^ k % 8 := by
  rw [testBit_toNat, testBit_toNat, testBit_toNat]
  have h1 : b / 2 ^ (k + 1) = b / 2 ^ k / 2 := by
    rw [pow_succ, Nat.div_div_eq_div_mul]
  have h2 : b / 2 ^ (k + 2) = b / 2 ^ k / 4 := by
    rw [pow_add, Nat.div_div_eq_div_mul]
    norm_num
  rw [h1, h2]
  generalize b / 2 ^ k = q
  omega

theorem add_octal_value_eq (mode : Int) (bit comp value : Nat) :
    ADD_OCTAL_VALUE mode bit comp value = comp + value * (IS_SET mode bit).toNat := by
  unfold ADD_OCTAL_VALUE
  cases IS_SET mode bit <;> simp

theorem comp_octal_digits (mode : Int) :
    comp_octal mode
      = 1000 * (permission_bits mode / 512 % 8) + 100 * (permission_bits mode / 64 % 8)
        + 10 * (permission_bits mode / 8 % 8) + permission_bits mode % 8 := by
  have g3 := testBit_group (permission_bits mode) 9
  have g2 := testBit_group (permission_bits mode) 6
  have g1 := testBit_group (permission_bits mode) 3
  have g0 := testBit_group (permission_bits mode) 0
  simp only [Nat.reduceAdd, Nat.reducePow, Nat.div_one] at g3 g2 g1 g0
  have b11 : IS_SET mode S_ISUID = (permission_bits mode).testBit 11 :=
    @is_set_testBit mode 11 (by decide)
  have b10 : IS_SET mode S_ISGID = (permission_bits mode).testBit 10 :=
    @is_set_testBit mode 10 (by decide)
  have b9 : IS_SET mode S_ISVTX = (permission_bits mode).testBit 9 :=
    @is_set_testBit mode 9 (by decide)
  have b8 : IS_SET mode S_IRUSR = (permission_bits mode).testBit 8 :=
    @is_set_testBit mode 8 (by decide)
  have b7 : IS_SET mode S_IWUSR = (permission_bits mode).testBit 7 :=
    @is_set_testBit mode 7 (by decide)
  have b6 : IS_SET mode S_IXUSR = (permission_bits mode).testBit 6 :=
    @is_set_testBit mode 6 (by decide)
  have b5 : IS_SET mode S_IRGRP = (permission_bits mode).testBit 5 :=
    @is_set_testBit mode 5 (by decide)
  have b4 : IS_SET mode S_IWGRP = (permission_bits mode).testBit 4 :=
    @is_set_testBit mode 4 (by decide)
  have b3 : IS_SET mode S_IXGRP = (permission_bits mode).testBit 3 :=
    @is_set_testBit mode 3 (by decide)
  have b2 : IS_SET mode S_IROTH = (permission_bits mode).testBit 2 :=
    @is_set_testBit mode 2 (by decide)
  have b1 : IS_SET mode S_IWOTH = (permission_bits mode).testBit 1 :=
    @is_set_testBit mode 1 (by decide)
  have b0 : IS_SET mode S_IXOTH = (permission_bits mode).testBit 0 :=
    @is_set_testBit mode 0 (by decide)
  unfold comp_octal
  simp only [add_octal_value_eq, b11, b10, b9, b8, b7, b6, b5, b4, b3, b2, b1, b0]
  omega

theorem utoa_fuel_small {fuel n : Nat} (hf : 0 < fuel) (h : n < 10) :
    utoa_fuel 10 fuel n = [digit_char n] := by
  obtain ⟨f, rfl⟩ : ∃ f, fuel = f + 1 := ⟨fuel - 1, by omega⟩
  rw [utoa_fuel, if_pos h]

theorem utoa_fuel_big {fuel n : Nat} (hf : 0 < fuel) (h : 10 ≤ n) :
    utoa_fuel 10 fuel n = utoa_fuel 10 (fuel - 1) (n / 10) ++ [digit_char (n % 10)] := by
  obtain ⟨f, rfl⟩ : ∃ f, fuel = f + 1 := ⟨fuel - 1, by omega⟩
  rw [utoa_fuel, if_neg (by omega)]
  rfl

theorem utoa_pad4_digits {n : Nat} (h : n < 10000) :
    utoa_pad4 n
      = [digit_char (n / 1000), digit_char (n / 100 % 10), digit_char (n / 10 % 10),
          digit_char (n % 10)] := by
  unfold utoa_pad4 utoa
  by_cases h1 : n < 10
  · rw [utoa_fuel_small (by omega) h1]
    have e1 : n / 1000 = 0 := by omega
    have e2 : n / 100 % 10 = 0 := by omega
    have e3 : n / 10 % 10 = 0 := by omega
    have e4 : n % 10 = n := by omega
    rw [e1, e2, e3, e4]
    rfl
  · rw [utoa_fuel_big (by omega) (by omega)]
    by_cases h2 : n < 100
    · rw [utoa_fuel_small (by omega) (by omega)]
      have e1 : n / 1000 = 0 := by omega
      have e2 : n / 100 % 10 = 0 := by omega
      have e3 : n / 10 % 10 = n / 10 := by omega
      rw [e1, e2, e3]
      rfl
    · rw [utoa_fuel_big (by omega) (by omega)]
      by_cases h3 : n < 1000
      · rw [utoa_fuel_small (by omega) (by omega)]
        have e1 : n / 1000 = 0 := by omega
        have e2 : n / 100 % 10 = n / 10 / 10 := by omega
        rw [e1, e2]
        rfl
      · rw [utoa_fuel_big (by omega) (by omega), utoa_fuel_small (by omega) (by omega)]
        have e1 : n / 1000 = n / 10 / 10 / 10 := by omega
        have e2 : n / 100 % 10 = n / 10 / 10 % 10 := by omega
        rw [e1, e2]
        rfl

theorem digit_char_plain {d : Nat} (h : d < 10) : plain_char (digit_char d) = true := by
  rw [plain_char_iff]
  obtain ⟨_, _, _, h1, h2, h3, h4, h5⟩ := decimal_digit_not_special (digit_char_decimal h)
  exact ⟨h1, h2, h3, h4, h5⟩

/-- The field of the code `P`: the four octal digits of the permission bits. -/
theorem field_text_permissions (P : Platform) (record : file_record)
    (hpm : 4 < P.PATH_MAX) :
    field_text P record 'P' = octal_digits4 (permission_bits record.re_mode) := by
  have hraw : raw_field P record 'P'
      = snprintf_s P.PATH_MAX (utoa_pad4 (comp_octal record.re_mode)) := rfl
  unfold field_text
  rw [hraw, comp_octal_digits]
  generalize permission_bits record.re_mode = b
  have d3 : b / 512 % 8 < 8 := Nat.mod_lt _ (by decide)
  have d2 : b / 64 % 8 < 8 := Nat.mod_lt _ (by decide)
  have d1 : b / 8 % 8 < 8 := Nat.mod_lt _ (by decide)
  have d0 : b % 8 < 8 := Nat.mod_lt _ (by decide)
  rw [utoa_pad4_digits (by omega)]
  have e3 : (1000 * (b / 512 % 8) + 100 * (b / 64 % 8) + 10 * (b / 8 % 8) + b % 8) / 1000
      = b / 512 % 8 := by omega
  have e2 : (1000 * (b / 512 % 8) + 100 * (b / 64 % 8) + 10 * (b / 8 % 8) + b % 8) / 100 % 10
      = b / 64 % 8 := by omega
  have e1 : (1000 * (b / 512 % 8) + 100 * (b / 64 % 8) + 10 * (b / 8 % 8) + b % 8) / 10 % 10
      = b / 8 % 8 := by omega
  have e0 : (1000 * (b / 512 % 8) + 100 * (b / 64 % 8) + 10 * (b / 8 % 8) + b % 8) % 10
      = b % 8 := by omega
  rw [e3, e2, e1, e0]
  apply field_of_plain P 'P' _ (by simpa using hpm)
  intro c hc
  simp only [List.mem_cons, List.mem_singleton, List.not_mem_nil, or_false] at hc
  rcases hc with rfl | rfl | rfl | rfl <;> exact digit_char_plain (by omega)

/-- C13: for every mode value, the `P` code of `rprintbuf` renders exactly
four digits, the zero-padded octal representation of the twelve permission
bits of the mode (`mode & 07777`): the number that the code builds by adding
4000, 2000, 1000 for setuid, setgid, sticky and 400, 200, 100, 40, 20, 10, 4,
2, 1 for the read, write and execute bits of owner, group and others has the
octal digits of these bits for its decimal digits. -/
theorem permission_code_octal (P : Platform) (record : file_record)
    (hpm : 4 < P.PATH_MAX) :
    field_text P record 'P' = octal_digits4 (permission_bits record.re_mode) ∧
    permission_bits record.re_mode < 8 ^ 4 ∧
    comp_octal record.re_mode
      = 1000 * (permission_bits record.re_mode / 512 % 8)
        + 100 * (permission_bits record.re_mode / 64 % 8)
        + 10 * (permission_bits record.re_mode / 8 % 8)
        + permission_bits record.re_mode % 8 :=
  ⟨field_text_permissions P record hpm, permission_bits_lt _, comp_octal_digits _⟩

set_option maxRecDepth 100000 in
theorem permission_code_octal_witness :
    sample_record.re_mode = (S_ISUID + 0o755 + 0o100000 : Nat) ∧
    field_text darwin64 sample_record 'P' = "4755".toList :=
  ⟨by decide, (permission_code_octal darwin64 sample_record (by decide)).1.trans (by decide)⟩


/-! ## Delimiter strings -/

theorem delimiter_items_percent_cons (code : Char) (rest : List Char) :
    delimiter_items ('%' :: code :: rest) = .escape code :: delimiter_items rest := by
  rw [delimiter_items.eq_def]
  simp

theorem delimiter_items_plain {c : Char} (h : c ≠ '%') (rest : List Char) :
    delimiter_items (c :: rest) = .plain c :: delimiter_items rest := by
  rw [delimiter_items.eq_def]
  simp [h]

theorem delimiter_items_cstring (string : List Char) :
    (∀ item ∈ delimiter_items string, delimiter_item_ok item) → is_cstring string := by
  induction string using delimiter_items.induct with
  | case1 => intro _ c hc; simp at hc
  | case2 =>
    intro h
    exact absurd rfl (h (.escape '\x00') (List.mem_singleton_self _))
  | case3 code rest ih =>
    intro h
    rw [delimiter_items_percent_cons] at h
    have hcode : code ≠ '\x00' := h (.escape code) (List.mem_cons_self _ _)
    have hrest := ih (fun i hi => h i (List.mem_cons_of_mem _ hi))
    intro c hc
    rcases List.mem_cons.mp hc with h1 | h1
    · rw [h1]; decide
    · rcases List.mem_cons.mp h1 with h2 | h2
      · rw [h2]; exact hcode
      · exact hrest c h2
  | case4 c rest h1 ih =>
    intro h
    rw [delimiter_items_plain h1] at h
    have hc : c ≠ '\x00' := h (.plain c) (List.mem_cons_self _ _)
    have hrest := ih (fun i hi => h i (List.mem_cons_of_mem _ hi))
    intro x hx
    rcases List.mem_cons.mp hx with h2 | h2
    · rw [h2]; exact hc
    · exact hrest x h2

theorem parse_delimiter_loop_percent (maxlen : Nat) (code : Char) (rest dest : List Char) :
    parse_delimiter_loop maxlen ('%' :: code :: rest) dest
      = if ¬ dest.length < maxlen - 1 then .ok dest
        else if code = '\x00' then .error .overrun
        else parse_delimiter_loop maxlen rest (dest ++ [delimiter_char (.escape code)]) := by
  rw [parse_delimiter_loop.eq_def]
  simp only [Char.reduceEq, false_or, ne_eq, not_true_eq_false, if_false]
  by_cases h1 : dest.length < maxlen - 1
  · by_cases h2 : code = '\x00'
    · simp [h1, h2]
    · simp only [h1, h2, not_true_eq_false, if_false]
      congr 3
      unfold delimiter_char
      split <;> simp_all
  · simp [h1]

theorem parse_delimiter_loop_plain (maxlen : Nat) {c : Char} (h : c ≠ '%')
    (rest dest : List Char) :
    parse_delimiter_loop maxlen (c :: rest) dest
      = if c = '\x00' ∨ ¬ dest.length < maxlen - 1 then .ok dest
        else parse_delimiter_loop maxlen rest (dest ++ [c]) := by
  rw [parse_delimiter_loop.eq_def]
  simp only [ne_eq, h, not_false_eq_true, if_true]

theorem parse_delimiter_loop_items (maxlen : Nat) (string : List Char) :
    ∀ (dest : List Char),
      (∀ item ∈ delimiter_items string, delimiter_item_ok item) →
      dest.length + string.length ≤ maxlen - 1 →
      parse_delimiter_loop maxlen string dest
        = .ok (dest ++ (delimiter_items string).map delimiter_char) := by
  induction string using delimiter_items.induct with
  | case1 => intro dest _ _; simp [delimiter_items, parse_delimiter_loop]
  | case2 =>
    intro dest h _
    exact absurd rfl (h (.escape '\x00') (List.mem_singleton_self _))
  | case3 code rest ih =>
    intro dest h hlen
    rw [delimiter_items_percent_cons] at h ⊢
    have hcode : code ≠ '\x00' := h (.escape code) (List.mem_cons_self _ _)
    simp only [List.length_cons] at hlen
    rw [parse_delimiter_loop_percent, if_neg (by omega), if_neg hcode,
      ih _ (fun i hi => h i (List.mem_cons_of_mem _ hi))
        (by simp only [List.length_append, List.length_cons, List.length_nil]; omega)]
    simp
  | case4 c rest h1 ih =>
    intro dest h hlen
    rw [delimiter_items_plain h1] at h ⊢
    have hc : c ≠ '\x00' := h (.plain c) (List.mem_cons_self _ _)
    simp only [List.length_cons] at hlen
    rw [parse_delimiter_loop_plain _ h1, if_neg (by simp [hc]; omega),
      ih _ (fun i hi => h i (List.mem_cons_of_mem _ hi))
        (by simp only [List.length_append, List.length_cons, List.length_nil]; omega)]
    simp [delimiter_char]

/-- C17 (amended): for every delimiter string (that does not end with a lone
`%`), `parse_delimiter_string` compiles each escape `%t`, `%r` and `%n`, a
percent sign followed by the letter, into the single tab, carriage-return and
newline character respectively, `%` followed by any other character into that
character (`%%` into `%`), and copies every other character literally, spaces
included. -/
theorem delimiter_percent_escapes (string : List Char)
    (hok : ∀ item ∈ delimiter_items string, delimiter_item_ok item) :
    parse_delimiter_string string = .ok ((delimiter_items string).map delimiter_char) := by
  unfold parse_delimiter_string
  rw [strlen_of_cstring (delimiter_items_cstring string hok),
    parse_delimiter_loop_items _ string [] hok (by simp)]
  simp

set_option maxRecDepth 100000 in
theorem delimiter_percent_escapes_witness :
    parse_delimiter_string "a%t %n|%%%r%x\\t".toList = .ok "a\t \n|%\rx\\t".toList :=
  (delimiter_percent_escapes "a%t %n|%%%r%x\\t".toList (by decide)).trans (by decide)

set_option maxRecDepth 100000 in
/-- C17 as stated fails: a backslash followed by `t` is copied as two
characters, not compiled into a tab; the escape character of
`parse_delimiter_string` is the percent sign. -/
theorem backslash_not_an_escape :
    parse_delimiter_string ['\\', 't'] = .ok ['\\', 't'] ∧
    parse_delimiter_string ['\\', 'r'] = .ok ['\\', 'r'] ∧
    parse_delimiter_string ['\\', 'n'] = .ok ['\\', 'n'] ∧
    parse_delimiter_string ['%', 't'] = .ok ['\t'] := by
  decide

/-! ## The initial store -/

/-- C18: after `init_snap_record` the field delimiter of the store is the
one-character string tab and its record delimiter the one-character string
newline (the delimiter strings `%t` and `%n`, compiled). -/
theorem init_default_delimiters :
    ∃ snap, init_snap_record = .ok snap ∧ snap.field_delimiter = ['\t'] ∧
      snap.record_delimiter = ['\n'] :=
  ⟨store_with "%p %m %c".toList [], by decide, rfl, rfl⟩

/-- C19 (amended): after `init_snap_record` the column template of the store
is `%p %m %c`: three codes that designate, in this order, the path, the
modification time in human-readable form (`ctime` of `re_mtime`) and the
status-change time in human-readable form (`ctime` of `re_ctime`), so that the
default header has the labels "Path", "Last Modified" and "Last Mode
Change". -/
theorem default_column_template (P : Platform) (record : file_record) :
    ∃ snap, init_snap_record = .ok snap ∧
      snap.column_string = "%p %m %c".toList ∧
      template_items snap.column_string = [.code 'p', .code 'm', .code 'c'] ∧
      hprintbuf snap (MAX_RECORD_LENGTH P)
        = .ok "Path\tLast Modified\tLast Mode Change\t\n".toList ∧
      rprintbuf_switch P record 'p'
        = (match record.re_path with
          | none => .error .nullstr
          | some path => .ok (snprintf_s P.PATH_MAX path)) ∧
      rprintbuf_switch P record 'm' = .ok (snprintf_s P.PATH_MAX (P.ctime record.re_mtime)) ∧
      rprintbuf_switch P record 'c' = .ok (snprintf_s P.PATH_MAX (P.ctime record.re_ctime)) := by
  refine ⟨store_with "%p %m %c".toList [], by decide, rfl, by decide, ?_, rfl, rfl, rfl⟩
  have h := hprintbuf_codes (store_with "%p %m %c".toList []) "pmc".toList
    (MAX_RECORD_LENGTH P) (by decide) (by decide) (by decide) (by decide) (by decide)
    (by decide) (by
      have : (delimited (store_with "%p %m %c".toList []).field_delimiter
          ("pmc".toList.map label_of)
          ++ (store_with "%p %m %c".toList []).record_delimiter).length = 37 := by decide
      rw [this]
      unfold MAX_RECORD_LENGTH
      omega)
  rw [h]
  decide

set_option maxRecDepth 100000 in
/-- C19 as stated fails: the second code of the default template is `m`, whose
column is the modification time, labelled "Last Modified"; the mode has the
codes `P` and `T`, labelled "Mode" and "Type (raw)", and neither is in the
default template. -/
theorem default_template_has_no_mode :
    init_snap_record = .ok (store_with "%p %m %c".toList []) ∧
    hprintbuf (store_with "%p %m %c".toList []) 1124
      = .ok "Path\tLast Modified\tLast Mode Change\t\n".toList ∧
    rprintbuf darwin64 (store_with "%p %m %c".toList []) sample_record 1124
      = rprintbuf darwin64 (store_with "%p %m %c".toList [])
          { sample_record with re_mode := 0 } 1124 ∧
    template_item.code 'P' ∉ template_items "%p %m %c".toList ∧
    template_item.code 'T' ∉ template_items "%p %m %c".toList ∧
    label_of 'P' = "Mode".toList ∧ label_of 'T' = "Type (raw)".toList := by
  decide


/-! ## The ignore list -/

theorem cstr_nil : cstr [] = [] := rfl

theorem cstr_cons_nul (s : List Char) : cstr ('\x00' :: s) = [] := rfl

theorem cstr_cons {c : Char} (h : c ≠ '\x00') (s : List Char) : cstr (c :: s) = c :: cstr s := by
  unfold cstr
  rw [List.takeWhile_cons_of_pos (by simpa using h)]

theorem strncmp_eq_zero (a b : List Char) : strncmp_eq a b 0 = true := by
  cases a <;> cases b <;> rfl

theorem strncmp_eq_cstr : ∀ (a b : List Char) (n : Nat),
    strncmp_eq a b n = strncmp_eq (cstr a) (cstr b) n := by
  intro a
  induction a with
  | nil =>
    intro b n
    cases n with
    | zero => rw [strncmp_eq_zero, strncmp_eq_zero]
    | succ m =>
      cases b with
      | nil => rfl
      | cons y bs =>
        by_cases hy : y = '\x00'
        · subst hy; rfl
        · rw [cstr_nil, cstr_cons hy]
          simp [strncmp_eq, hy]
  | cons x as ih =>
    intro b n
    cases n with
    | zero => rw [strncmp_eq_zero, strncmp_eq_zero]
    | succ m =>
      cases b with
      | nil =>
        by_cases hx : x = '\x00'
        · subst hx; rfl
        · rw [cstr_nil, cstr_cons hx]
          simp [strncmp_eq, hx]
      | cons y bs =>
        by_cases hx : x = '\x00'
        · subst hx
          by_cases hy : y = '\x00'
          · subst hy; rfl
          · rw [cstr_cons_nul, cstr_cons hy]
            simp [strncmp_eq, hy, Ne.symm hy]
        · by_cases hy : y = '\x00'
          · subst hy
            rw [cstr_cons_nul, cstr_cons hx]
            simp [strncmp_eq, hx]
          · rw [cstr_cons hx, cstr_cons hy]
            simp only [strncmp_eq, if_neg hx]
            rw [ih bs m]

theorem strlen_cstr (s : List Char) : strlen (cstr s) = strlen s := by
  unfold strlen
  rw [cstr_of_cstring (is_cstring_cstr s)]

theorem strncmp_exact (a b : List Char) :
    strncmp_eq a b (MAX (strlen a) (strlen b)) = true ↔ cstr a = cstr b := by
  rw [strncmp_eq_cstr, ← strlen_cstr a, ← strlen_cstr b]
  exact strncmp_max_iff (cstr a) (cstr b) (is_cstring_cstr a) (is_cstring_cstr b)

theorem add_rules_entries (rules : List (List Char)) :
    ∀ (globals : globals_t), globals.ignore_array.length = globals.currentIgnoreSize →
      (rules.foldl add_to_ignore_array globals).ignore_array
          = globals.ignore_array
            ++ rules.map (fun rule => ({ ig_path := cstr rule, ig_len := strlen rule } :
              ignore_record_t)) ∧
      (rules.foldl add_to_ignore_array globals).currentIgnoreSize
          = globals.currentIgnoreSize + rules.length := by
  induction rules with
  | nil => intro globals _; simp
  | cons rule rules ih =>
    intro globals h
    have hstep : (add_to_ignore_array globals rule).ignore_array.length
        = (add_to_ignore_array globals rule).currentIgnoreSize := by
      simp [add_to_ignore_array, h]
    obtain ⟨h1, h2⟩ := ih (add_to_ignore_array globals rule) hstep
    rw [List.foldl_cons, h1, h2]
    constructor
    · simp only [add_to_ignore_array, List.map_cons]
      rw [List.take_of_length_le (by omega)]
      simp
    · simp only [add_to_ignore_array, List.length_cons]
      omega

theorem ignore_list_entries (rules : List (List Char)) :
    (ignore_list rules).ignore_array.take (ignore_list rules).currentIgnoreSize
      = rules.map (fun rule => ({ ig_path := cstr rule, ig_len := strlen rule } :
          ignore_record_t)) := by
  obtain ⟨h1, h2⟩ := add_rules_entries rules initial_globals rfl
  unfold ignore_list
  rw [h1, h2]
  simp [initial_globals]

theorem headD_slash (s : List Char) : s.headD '\x00' = '/' ↔ s.head? = some '/' := by
  cases s with
  | nil => simp
  | cons c cs => simp

/-- The function `should_be_ignored`, on an entry whose lengths are those of its strings: a
rule that begins with `/` is compared with the whole path, any other rule
with the name, and the comparison is an equality of C strings. -/
theorem should_be_ignored_iff (rules : List (List Char)) (path name : List Char) :
    should_be_ignored (ignore_list rules) path (strlen path) name (strlen name) = true ↔
      ∃ rule ∈ rules,
        ((cstr rule).head? = some '/' ∧ cstr rule = cstr path) ∨
        ((cstr rule).head? ≠ some '/' ∧ cstr rule = cstr name) := by
  unfold should_be_ignored
  rw [ignore_list_entries]
  induction rules with
  | nil => simp [should_be_ignored_loop]
  | cons rule rules ih =>
    rw [List.map_cons, should_be_ignored_loop]
    simp only [List.mem_cons, exists_eq_or_imp]
    have hcc : cstr (cstr rule) = cstr rule := cstr_of_cstring (is_cstring_cstr rule)
    have hp := strncmp_exact path (cstr rule)
    have hn := strncmp_exact name (cstr rule)
    rw [strlen_cstr, hcc] at hp hn
    by_cases hslash : (cstr rule).headD '\x00' = '/'
    · have hhead := (headD_slash _).mp hslash
      rw [if_pos hslash]
      by_cases hm : strncmp_eq path (cstr rule) (MAX (strlen path) (strlen rule)) = true
      · rw [if_pos hm]
        simp only [true_iff]
        exact Or.inl (Or.inl ⟨hhead, (hp.mp hm).symm⟩)
      · rw [if_neg hm, ih]
        have hne : ¬ cstr rule = cstr path := fun e => hm (hp.mpr e.symm)
        simp [hhead, hne]
    · have hhead : ¬ (cstr rule).head? = some '/' := fun e => hslash ((headD_slash _).mpr e)
      rw [if_neg hslash]
      by_cases hm : strncmp_eq name (cstr rule) (MAX (strlen name) (strlen rule)) = true
      · rw [if_pos hm]
        simp only [true_iff]
        exact Or.inl (Or.inr ⟨hhead, (hn.mp hm).symm⟩)
      · rw [if_neg hm, ih]
        have hne : ¬ cstr rule = cstr name := fun e => hm (hn.mpr e.symm)
        simp [hhead, hne]

/-- C20: for every ignore list, path and name, `pathlen` and `namelen` being
their lengths, `should_be_ignored` returns true if and only if some rule that
begins with `/` is equal to the full path, or some rule that does not begin
with `/` is equal to the name: the comparison runs over the longer of the two
lengths, so that a rule that is a proper prefix or a proper extension of the
compared string does not match.  (Strings are compared as C strings, up to
their terminator.) -/
theorem ignore_rule_exact_match (rules : List (List Char)) (path name : List Char) :
    should_be_ignored (ignore_list rules) path (strlen path) name (strlen name) = true ↔
      ∃ rule ∈ rules,
        ((cstr rule).head? = some '/' ∧ cstr rule = cstr path) ∨
        ((cstr rule).head? ≠ some '/' ∧ cstr rule = cstr name) :=
  should_be_ignored_iff rules path name


theorem init_snap_record_eq : init_snap_record = .ok (store_with "%p %m %c".toList []) := by
  decide

theorem add_records_capacity (snap : snap_t) (records : List file_record)
    (h : snap.currentArraySize ≤ snap.currentArrayCapacity) :
    (records.foldl add_record_to_snap snap).currentArraySize
      ≤ (records.foldl add_record_to_snap snap).currentArrayCapacity := by
  induction records generalizing snap with
  | nil => simpa using h
  | cons r rs ih =>
    rw [List.foldl_cons]
    apply ih
    simp only [add_record_to_snap, ARRAY_CHUNK_SIZE]
    split <;> omega

/-! ## The counters of the store as `int`s -/

/-- The checked function gives the store of `add_record_to_snap` when neither
sum is above `INT_MAX`, and a fault otherwise. -/
theorem add_record_to_snap_int_eq (P : Platform) (snap : snap_t) (file : file_record) :
    add_record_to_snap_int P snap file
      = if (snap.currentArraySize ≥ snap.currentArrayCapacity →
              ((snap.currentArrayCapacity + ARRAY_CHUNK_SIZE : Nat) : Int) ≤ P.int.max) ∧
            ((snap.currentArraySize + 1 : Nat) : Int) ≤ P.int.max
        then .ok (add_record_to_snap snap file) else .error .int_overflow := by
  unfold add_record_to_snap_int add_record_to_snap
  by_cases hfull : snap.currentArraySize ≥ snap.currentArrayCapacity
  · by_cases hcap : ((snap.currentArrayCapacity + ARRAY_CHUNK_SIZE : Nat) : Int) ≤ P.int.max
    · by_cases hsize : ((snap.currentArraySize + 1 : Nat) : Int) ≤ P.int.max
      · simp only [hfull, hcap, hsize, if_true, forall_const, and_self]
      · simp only [hfull, hcap, hsize, if_true, forall_const, and_false, if_false]
    · simp only [hfull, hcap, if_true, if_false, forall_const, false_and]
  · by_cases hsize : ((snap.currentArraySize + 1 : Nat) : Int) ≤ P.int.max
    · simp only [hfull, hsize, if_false, if_true, false_implies, and_self]
    · simp only [hfull, hsize, if_false, false_implies, and_false]

/-- A call that returns gives the store of `add_record_to_snap`. -/
theorem add_record_to_snap_int_ok (P : Platform) (snap next : snap_t) (file : file_record)
    (h : add_record_to_snap_int P snap file = .ok next) :
    next = add_record_to_snap snap file := by
  rw [add_record_to_snap_int_eq] at h
  split at h
  · exact (Except.ok.inj h).symm
  · exact absurd h (by simp)

theorem add_records_int_append (P : Platform) (records rest : List file_record)
    (snap : snap_t) :
    add_records_int P (records ++ rest) snap
      = match add_records_int P records snap with
        | .error f => .error f
        | .ok next => add_records_int P rest next := by
  induction records generalizing snap with
  | nil => simp [add_records_int]
  | cons r rs ih =>
    simp only [List.cons_append, add_records_int]
    cases add_record_to_snap_int P snap r with
    | error f => rfl
    | ok next => exact ih next

theorem capacity_after_ge (n : Nat) : n ≤ capacity_after n ∧ 200000 ≤ capacity_after n := by
  simp only [capacity_after, INITIAL_ARRAY_SIZE, ARRAY_CHUNK_SIZE]
  split <;> omega

theorem capacity_after_succ (n : Nat) :
    capacity_after (n + 1)
      = if n = capacity_after n then capacity_after n + 50000 else capacity_after n := by
  simp only [capacity_after, INITIAL_ARRAY_SIZE, ARRAY_CHUNK_SIZE]
  split <;> split <;> split <;> omega

/-- The store after the appends of a list to the store of `init_snap_record`: the
calls return as long as the capacity that the list takes is an `int`, and
the call that would grow the capacity past `INT_MAX` is a fault. -/
theorem add_records_int_eq (P : Platform) (hinit : ((INITIAL_ARRAY_SIZE : Nat) : Int) ≤ P.int.max)
    (records : List file_record) :
    add_records_int P records (store_with "%p %m %c".toList [])
      = if ((capacity_after records.length : Nat) : Int) ≤ P.int.max then
          .ok { store_with "%p %m %c".toList [] with
                currentArraySize := records.length
                currentArrayCapacity := capacity_after records.length
                master_array := records }
        else .error .int_overflow := by
  induction records using List.reverseRecOn with
  | nil =>
    have h0 : capacity_after 0 = INITIAL_ARRAY_SIZE := by simp [capacity_after]
    simp only [List.length_nil, h0, if_pos hinit, add_records_int]
    rfl
  | append_singleton rs r ih =>
    rw [add_records_int_append, ih]
    have hge := capacity_after_ge rs.length
    have hsucc := capacity_after_succ rs.length
    simp only [List.length_append, List.length_singleton]
    by_cases hrs : ((capacity_after rs.length : Nat) : Int) ≤ P.int.max
    · rw [if_pos hrs]
      simp only [add_records_int]
      rw [add_record_to_snap_int_eq]
      simp only [add_record_to_snap, ARRAY_CHUNK_SIZE, ge_iff_le]
      by_cases hfull : rs.length = capacity_after rs.length
      · rw [if_pos hfull] at hsucc
        by_cases hnext : ((capacity_after (rs.length + 1) : Nat) : Int) ≤ P.int.max
        · rw [if_pos hnext, if_pos]
          · simp only [hsucc]
            rw [if_pos (le_of_eq hfull.symm)]
            simp [store_with]
          · constructor
            · intro _; rw [hsucc] at hnext; exact hnext
            · have h1 := (capacity_after_ge (rs.length + 1)).1
              omega
        · rw [if_neg hnext, if_neg]
          intro hc
          apply hnext
          rw [hsucc]
          exact hc.1 (le_of_eq hfull.symm)
      · rw [if_neg hfull] at hsucc
        have hlt : rs.length < capacity_after rs.length := by omega
        rw [hsucc, if_pos hrs, if_pos]
        · rw [if_neg (by omega)]
          simp [store_with]
        · constructor
          · intro hc; omega
          · omega
    · rw [if_neg hrs, if_neg]
      intro hc
      apply hrs
      rw [hsucc] at hc
      split at hc <;> omega

theorem capacity_after_int32 (n : Nat) :
    ((capacity_after n : Nat) : Int) ≤ darwin64.int.max ↔ n ≤ 2147450000 := by
  have hmax : darwin64.int.max = 2147483647 := by decide
  rw [hmax]
  simp only [capacity_after, INITIAL_ARRAY_SIZE, ARRAY_CHUNK_SIZE]
  split <;> omega

/-- C28 (amended): the store of `init_snap_record` has size 0 and capacity
200000; after any sequence of `add_record_to_snap` calls on it whose capacity
(200000 and as many chunks of 50000 as the records take) is a value of
`int`, every call has returned and the size is at most the capacity; one
more call leaves the capacity as it is when the size is below it and adds
exactly 50000 to it when the store is full; that call returns unless the
store is full and the new capacity is above `INT_MAX`, where the addition
overflows. -/
theorem store_size_within_capacity (P : Platform) (records : List file_record)
    (hint : ((capacity_after records.length : Nat) : Int) ≤ P.int.max) :
    ∃ snap0 snap, init_snap_record = .ok snap0 ∧
      snap0.currentArraySize = 0 ∧ snap0.currentArrayCapacity = 200000 ∧
      add_records_int P records snap0 = .ok snap ∧
      snap.currentArraySize ≤ snap.currentArrayCapacity ∧
      ∀ file : file_record,
        (∀ next, add_record_to_snap_int P snap file = .ok next →
          next.currentArrayCapacity
            = if snap.currentArraySize = snap.currentArrayCapacity
              then snap.currentArrayCapacity + 50000 else snap.currentArrayCapacity) ∧
        ((snap.currentArraySize < snap.currentArrayCapacity ∨
            ((snap.currentArrayCapacity + 50000 : Nat) : Int) ≤ P.int.max) →
          ∃ next, add_record_to_snap_int P snap file = .ok next) ∧
        (snap.currentArraySize = snap.currentArrayCapacity →
          P.int.max < ((snap.currentArrayCapacity + 50000 : Nat) : Int) →
          add_record_to_snap_int P snap file = .error .int_overflow) := by
  have hge := capacity_after_ge records.length
  have hinit : ((INITIAL_ARRAY_SIZE : Nat) : Int) ≤ P.int.max := by
    simp only [INITIAL_ARRAY_SIZE]; omega
  refine ⟨_, { store_with "%p %m %c".toList [] with
            currentArraySize := records.length
            currentArrayCapacity := capacity_after records.length
            master_array := records },
    init_snap_record_eq, rfl, rfl, ?_, ?_, ?_⟩
  · rw [add_records_int_eq P hinit, if_pos hint]
  · exact hge.1
  · intro file
    simp only [add_record_to_snap_int_eq, add_record_to_snap, ARRAY_CHUNK_SIZE, ge_iff_le]
    refine ⟨?_, ?_, ?_⟩
    · intro next hnext
      split at hnext
      · have hn := (Except.ok.inj hnext).symm
        subst hn
        simp only []
        split <;> split <;> first | rfl | omega
      · exact absurd hnext (by simp)
    · intro hroom
      rw [if_pos]
      · exact ⟨_, rfl⟩
      · constructor
        · intro hfull
          rcases hroom with hlt | hcap
          · omega
          · exact hcap
        · rcases hroom with hlt | hcap
          · omega
          · omega
    · intro hfull hover
      rw [if_neg]
      intro hc
      have := hc.1 (le_of_eq hfull.symm)
      omega

/-- C28, on two records and 32-bit `int`s. -/
theorem store_size_within_capacity_witness :
    ((capacity_after [sample_record, sample_record].length : Nat) : Int) ≤ darwin64.int.max ∧
    ∃ snap0 snap, init_snap_record = .ok snap0 ∧
      add_records_int darwin64 [sample_record, sample_record] snap0 = .ok snap ∧
      snap.currentArraySize ≤ snap.currentArrayCapacity := by
  refine ⟨by decide, ?_⟩
  obtain ⟨snap0, snap, h0, -, -, h, hle, -⟩ :=
    store_size_within_capacity darwin64 [sample_record, sample_record] (by decide)
  exact ⟨snap0, snap, h0, h, hle⟩

theorem add_records_int_counters (P : Platform)
    (hinit : ((INITIAL_ARRAY_SIZE : Nat) : Int) ≤ P.int.max)
    (records : List file_record) (n : Nat) (hlen : records.length = n)
    (hcap : ((capacity_after n : Nat) : Int) ≤ P.int.max) :
    (add_records_int P records (store_with "%p %m %c".toList [])).map
      (fun snap => (snap.currentArraySize, snap.currentArrayCapacity))
      = .ok (n, capacity_after n) := by
  subst hlen
  rw [add_records_int_eq P hinit, if_pos hcap]
  rfl

theorem add_records_int_overflow (P : Platform)
    (hinit : ((INITIAL_ARRAY_SIZE : Nat) : Int) ≤ P.int.max)
    (records : List file_record) (n : Nat) (hlen : records.length = n)
    (hcap : ¬ ((capacity_after n : Nat) : Int) ≤ P.int.max) :
    add_records_int P records (store_with "%p %m %c".toList []) = .error .int_overflow := by
  subst hlen
  rw [add_records_int_eq P hinit, if_neg hcap]

theorem darwin64_int_max : darwin64.int.max = 2147483647 := by decide

theorem darwin64_initial : ((INITIAL_ARRAY_SIZE : Nat) : Int) ≤ darwin64.int.max := by decide

theorem capacity_after_full : capacity_after 2147450000 = 2147450000 := by
  decide

/-- C28 as stated fails on the code: with the 32-bit `int` of the platform,
2147450000 appends to the store of `init_snap_record` leave the size and the
capacity at 2147450000, and the next call computes
`currentArrayCapacity + ARRAY_CHUNK_SIZE` = 2147500000, above `INT_MAX`: the addition
overflows and nothing holds of the counters after it. -/
theorem capacity_past_int_max :
    init_snap_record = .ok (store_with "%p %m %c".toList []) ∧
    darwin64.int.max = 2147483647 ∧
    (add_records_int darwin64 (List.replicate 2147450000 sample_record)
        (store_with "%p %m %c".toList [])).map
      (fun snap => (snap.currentArraySize, snap.currentArrayCapacity))
      = .ok (2147450000, 2147450000) ∧
    ∀ (snap : snap_t) (file : file_record),
      snap.currentArraySize = 2147450000 → snap.currentArrayCapacity = 2147450000 →
      add_record_to_snap_int darwin64 snap file = .error .int_overflow := by
  refine ⟨init_snap_record_eq, darwin64_int_max, ?_, ?_⟩
  · exact (add_records_int_counters darwin64 darwin64_initial _ 2147450000
      (List.length_replicate _ _) ((capacity_after_int32 _).mpr (le_refl _))).trans
      (congrArg (fun c => Except.ok (2147450000, c)) capacity_after_full)
  · intro snap file hsize hcap
    rw [add_record_to_snap_int_eq, if_neg]
    intro hc
    have := hc.1 (by omega)
    rw [darwin64_int_max, hcap] at this
    simp only [ARRAY_CHUNK_SIZE] at this
    omega

/-- C29 (amended): for every sequence of records appended with `add_record_to_snap`
to the store of `init_snap_record`, the capacity that the records take being a
value of `int`, every call returns, the size is the number of records and the
array is the sequence itself, in the order of the calls (a record whose path
was appended before is stored again); one more call that returns increases
the size by one, stores the record at the index of the previous size and
leaves the entries below it as they were, and it returns when the capacity
that one more record takes is a value of `int`. -/
theorem appended_records_kept (P : Platform) (records : List file_record)
    (hint : ((capacity_after records.length : Nat) : Int) ≤ P.int.max) :
    ∃ snap0 snap, init_snap_record = .ok snap0 ∧
      add_records_int P records snap0 = .ok snap ∧
      snap.currentArraySize = records.length ∧
      snap.master_array = records ∧
      ∀ file : file_record,
        (∀ next, add_record_to_snap_int P snap file = .ok next →
          next.currentArraySize = snap.currentArraySize + 1 ∧
          next.master_array[snap.currentArraySize]? = some file ∧
          ∀ i, i < snap.currentArraySize →
            next.master_array[i]? = snap.master_array[i]?) ∧
        (((capacity_after (records.length + 1) : Nat) : Int) ≤ P.int.max →
          ∃ next, add_record_to_snap_int P snap file = .ok next) := by
  have hge := capacity_after_ge records.length
  have hinit : ((INITIAL_ARRAY_SIZE : Nat) : Int) ≤ P.int.max := by
    simp only [INITIAL_ARRAY_SIZE]; omega
  refine ⟨_, { store_with "%p %m %c".toList [] with
            currentArraySize := records.length
            currentArrayCapacity := capacity_after records.length
            master_array := records },
    init_snap_record_eq, ?_, rfl, rfl, ?_⟩
  · rw [add_records_int_eq P hinit, if_pos hint]
  · intro file
    refine ⟨?_, ?_⟩
    · intro next hnext
      have hn := add_record_to_snap_int_ok P _ _ _ hnext
      subst hn
      simp only [add_record_to_snap, List.take_length]
      refine ⟨trivial, ?_, ?_⟩
      · simp
      · intro i hi
        rw [List.getElem?_append_left hi]
    · intro hnext
      have h := add_records_int_eq P hinit (records ++ [file])
      rw [add_records_int_append, add_records_int_eq P hinit, if_pos hint] at h
      simp only [add_records_int, List.length_append, List.length_singleton,
        if_pos hnext] at h
      cases hcall : add_record_to_snap_int P
          { store_with "%p %m %c".toList [] with
            currentArraySize := records.length
            currentArrayCapacity := capacity_after records.length
            master_array := records } file with
      | ok next => exact ⟨next, rfl⟩
      | error f => rw [hcall] at h; exact absurd h (by simp)

/-- C29, on two records with the same path and 32-bit `int`s. -/
theorem appended_records_kept_witness :
    ((capacity_after [sample_record, sample_record].length : Nat) : Int) ≤ darwin64.int.max ∧
    ∃ snap0 snap, init_snap_record = .ok snap0 ∧
      add_records_int darwin64 [sample_record, sample_record] snap0 = .ok snap ∧
      snap.currentArraySize = 2 ∧
      snap.master_array = [sample_record, sample_record] := by
  refine ⟨by decide, ?_⟩
  obtain ⟨snap0, snap, h0, h, hsize, harr, -⟩ :=
    appended_records_kept darwin64 [sample_record, sample_record] (by decide)
  exact ⟨snap0, snap, h0, h, hsize, harr⟩

/-- C29 as stated fails on the code: with the 32-bit `int` of the platform, a
sequence of more than 2147450000 records is not appended; the call on the
full store of capacity 2147450000 overflows `int`, so the size is not the
number of records. -/
theorem records_past_int_max :
    (List.replicate 2147450001 sample_record).length = 2147450001 ∧
    add_records_int darwin64 (List.replicate 2147450001 sample_record)
        (store_with "%p %m %c".toList []) = .error .int_overflow ∧
    ∀ records : List file_record, 2147450000 < records.length →
      add_records_int darwin64 records (store_with "%p %m %c".toList [])
        = .error .int_overflow :=
  ⟨List.length_replicate _ _,
    add_records_int_overflow darwin64 darwin64_initial _ 2147450001
      (List.length_replicate _ _) (fun h => absurd ((capacity_after_int32 _).mp h) (by omega)),
    fun records hlen => add_records_int_overflow darwin64 darwin64_initial records _ rfl
      (fun h => absurd ((capacity_after_int32 _).mp h) (by omega))⟩


theorem compare_three_way (left right : Int) :
    COMPARE left right = if left > right then 1 else if left = right then 0 else -1 := by
  unfold COMPARE
  split_ifs <;> first | rfl | omega

theorem qsort_compare_head (sortToken : List Char) (left right : file_record) :
    qsort_compare sortToken left right
      = qsort_compare [sortToken.headD '\x00'] left right := rfl

/-- C24: the record that the traversal loop builds for an entry keeps the mode
of the entry, and its type tag is decided by the file type bits of the mode
(`mode & S_IFMT`) alone: `D` exactly for a directory, `L` for a symbolic
link, `S` for a socket, `U` for a fifo, `B` for a block device, `C` for a
character device, `F` for a regular file and `X` exactly when none of the
seven applies; so the tag is always one of the eight, and two modes that
differ only outside the file type bits (in the permission bits) get the same
tag. -/
theorem type_tag_by_file_type (p : FTSENT) :
    (traversal_record p).re_mode = p.fts_statp.st_mode ∧
    ((traversal_record p).re_type = 'D' ↔ Int.land p.fts_statp.st_mode 0o170000 = 0o040000) ∧
    ((traversal_record p).re_type = 'L' ↔ Int.land p.fts_statp.st_mode 0o170000 = 0o120000) ∧
    ((traversal_record p).re_type = 'S' ↔ Int.land p.fts_statp.st_mode 0o170000 = 0o140000) ∧
    ((traversal_record p).re_type = 'U' ↔ Int.land p.fts_statp.st_mode 0o170000 = 0o010000) ∧
    ((traversal_record p).re_type = 'B' ↔ Int.land p.fts_statp.st_mode 0o170000 = 0o060000) ∧
    ((traversal_record p).re_type = 'C' ↔ Int.land p.fts_statp.st_mode 0o170000 = 0o020000) ∧
    ((traversal_record p).re_type = 'F' ↔ Int.land p.fts_statp.st_mode 0o170000 = 0o100000) ∧
    ((traversal_record p).re_type = 'X' ↔
      Int.land p.fts_statp.st_mode 0o170000 ∉
        ([0o040000, 0o120000, 0o140000, 0o010000, 0o060000, 0o020000, 0o100000] : List Int)) ∧
    (traversal_record p).re_type ∈ ['D', 'L', 'S', 'U', 'B', 'C', 'F', 'X'] ∧
    ∀ q : FTSENT,
      Int.land q.fts_statp.st_mode 0o170000 = Int.land p.fts_statp.st_mode 0o170000 →
      (traversal_record q).re_type = (traversal_record p).re_type := by
  have hq : ∀ q : FTSENT,
      Int.land q.fts_statp.st_mode 0o170000 = Int.land p.fts_statp.st_mode 0o170000 →
      (traversal_record q).re_type = (traversal_record p).re_type := by
    intro q h
    simp only [traversal_record, type_tag, S_ISDIR, S_ISLNK, S_ISSOCK, S_ISFIFO, S_ISBLK,
      S_ISCHR, S_ISREG, S_IFMT, S_IFDIR, S_IFLNK, S_IFSOCK, S_IFIFO, S_IFBLK, S_IFCHR, S_IFREG,
      Nat.cast_ofNat, h]
  refine ⟨rfl, ?_, ?_, ?_, ?_, ?_, ?_, ?_, ?_, ?_, hq⟩ <;>
    simp only [traversal_record, type_tag, S_ISDIR, S_ISLNK, S_ISSOCK, S_ISFIFO, S_ISBLK,
      S_ISCHR, S_ISREG, S_IFMT, S_IFDIR, S_IFLNK, S_IFSOCK, S_IFIFO, S_IFBLK, S_IFCHR, S_IFREG,
      Nat.cast_ofNat, beq_iff_eq] <;>
    generalize Int.land p.fts_statp.st_mode 0o170000 = fmt <;>
    split_ifs <;> simp_all

/-- C24, on the modes 0100644 and 0100755 of two regular files. -/
theorem type_tag_by_file_type_witness :
    (traversal_record (file_entry "/a".toList "a".toList)).re_type = 'F' ∧
    (traversal_record
      { file_entry "/a".toList "a".toList with
        fts_statp := { (file_entry "/a".toList "a".toList).fts_statp with
          st_mode := 0o100755 } }).re_type = 'F' :=
  ⟨by decide,
    ((type_tag_by_file_type (file_entry "/a".toList "a".toList)).2.2.2.2.2.2.2.2.2.2 _
      (by decide)).trans (by decide)⟩

/-- C26: for every sort token and pair of records, when the first character of
the token is one of `s a m c i o g`, `qsort_compare` returns 1, 0 or -1
according to whether the field of the left record that the character stands
for (size, access time, modification time, change time, inode, owner, group)
is greater than, equal to or less than that of the right record; with the
upper-case character in its place it returns the result for the two records
exchanged; and when the first character is none of these fourteen (or the
token is empty) it returns 0. -/
theorem qsort_compare_by_token (sortToken : List Char) (left right : file_record) :
    (∀ field, sort_field (sortToken.headD '\x00') = some field →
      qsort_compare sortToken left right
        = (if field left > field right then 1 else if field left = field right then 0 else -1) ∧
      qsort_compare ((sortToken.headD '\x00').toUpper :: sortToken.tail) left right
        = qsort_compare sortToken right left) ∧
    (sortToken.headD '\x00' ∉ "sSaAmMcCiIoOgG".toList →
      qsort_compare sortToken left right = 0) := by
  constructor
  · intro field hfield
    rw [qsort_compare_head sortToken, qsort_compare_head (_ :: _), qsort_compare_head sortToken]
    simp only [List.headD_cons]
    generalize sortToken.headD '\x00' = tok at hfield ⊢
    unfold sort_field at hfield
    split_ifs at hfield with h1 h2 h3 h4 h5 h6 h7 <;> subst tok <;>
      simp only [Option.some.injEq] at hfield <;> subst hfield <;>
      exact ⟨compare_three_way _ _, rfl⟩
  · intro hnone
    rw [qsort_compare_head sortToken]
    generalize sortToken.headD '\x00' = tok at hnone ⊢
    unfold qsort_compare
    simp only [List.headD_cons]
    split <;> first | rfl | (exfalso; revert hnone; decide)

/-- C26, on the token `mtime` and its upper-case counterpart, with two records
whose modification times are 6 and 9. -/
theorem qsort_compare_by_token_witness :
    qsort_compare "mtime".toList sample_record { sample_record with re_mtime := 9 } = -1 ∧
    qsort_compare "Mtime".toList sample_record { sample_record with re_mtime := 9 } = 1 ∧
    qsort_compare "x".toList sample_record { sample_record with re_mtime := 9 } = 0 :=
  ⟨((qsort_compare_by_token "mtime".toList sample_record
      { sample_record with re_mtime := 9 }).1 _ rfl).1.trans (by decide),
    by decide,
    (qsort_compare_by_token "x".toList sample_record
      { sample_record with re_mtime := 9 }).2 (by decide)⟩


theorem chain_successive {α : Type} {R : α → α → Prop} :
    ∀ (l : List α), l.Chain' R → ∀ (i : Nat) (x y : α),
      l[i]? = some x → l[i + 1]? = some y → R x y
  | [], _, i, x, y, hx, _ => by simp at hx
  | [a], _, i, x, y, _, hy => by simp at hy
  | a :: b :: l, h, 0, x, y, hx, hy => by
    simp only [List.getElem?_cons_zero, Option.some.injEq, zero_add,
      List.getElem?_cons_succ] at hx hy
    subst hx; subst hy
    exact (List.chain'_cons.mp h).1
  | a :: b :: l, h, i + 1, x, y, hx, hy => by
    simp only [List.getElem?_cons_succ] at hx hy
    exact chain_successive (b :: l) (List.chain'_cons.mp h).2 i x y hx
      (by simpa only [List.getElem?_cons_succ] using hy)

theorem compare_le_zero (left right : Int) : COMPARE left right ≤ 0 ↔ left ≤ right := by
  unfold COMPARE
  split_ifs <;> simp <;> omega

theorem sort_exists (f : file_record → Int) (base : List file_record) :
    ∃ sorted : List file_record, sorted.Perm base ∧ sorted.Chain' (fun x y => f x ≤ f y) := by
  induction base with
  | nil => exact ⟨[], List.Perm.refl _, List.chain'_nil⟩
  | cons a base ih =>
    obtain ⟨sorted, hperm, hchain⟩ := ih
    have hins : ∀ l : List file_record, l.Chain' (fun x y => f x ≤ f y) →
        ∃ l2 : List file_record, l2.Perm (a :: l) ∧ l2.Chain' (fun x y => f x ≤ f y) ∧
          ∀ b, l2.head? = some b → b = a ∨ l.head? = some b := by
      intro l
      induction l with
      | nil => intro _; exact ⟨[a], List.Perm.refl _, List.chain'_singleton a, by simp⟩
      | cons c l ihl =>
        intro hc
        by_cases hac : f a ≤ f c
        · exact ⟨a :: c :: l, List.Perm.refl _, List.chain'_cons.mpr ⟨hac, hc⟩, by simp⟩
        · obtain ⟨l2, hp2, hc2, hh2⟩ := ihl (List.Chain'.tail hc)
          refine ⟨c :: l2, ?_, ?_, by simp⟩
          · exact (List.Perm.cons c hp2).trans (List.Perm.swap a c l)
          · cases l2 with
            | nil => exact List.chain'_singleton c
            | cons d l2 =>
              refine List.chain'_cons.mpr ⟨?_, hc2⟩
              rcases hh2 d rfl with hd | hd
              · rw [hd]; omega
              · cases l with
                | nil => simp at hd
                | cons e l =>
                  simp only [List.head?_cons, Option.some.injEq] at hd
                  rw [← hd]
                  exact (List.chain'_cons.mp hc).1
    obtain ⟨l2, hp2, hc2, -⟩ := hins sorted hchain
    exact ⟨l2, hp2.trans (List.Perm.cons a hperm), hc2⟩

theorem in_order_chain (compar : file_record → file_record → Int) :
    ∀ l : List file_record, in_order compar l = true ↔ l.Chain' (fun x y => compar x y ≤ 0)
  | [] => by simp [in_order]
  | [_] => by simp [in_order]
  | x :: y :: rest => by
    rw [in_order, Bool.and_eq_true, decide_eq_true_iff, in_order_chain compar (y :: rest),
      List.chain'_cons]

theorem sort_step_sorted (token : List Char) (snap after : snap_t)
    (hwanted : sort_wanted (some token) = true)
    (h : sort_step (some token) snap after) :
    after.currentArraySize = snap.currentArraySize ∧
    (after.master_array.take after.currentArraySize).Perm
      (snap.master_array.take snap.currentArraySize) ∧
    (after.master_array.take after.currentArraySize).Chain'
      (fun x y => qsort_compare token x y ≤ 0) := by
  unfold sort_step at h
  rw [if_pos hwanted] at h
  obtain ⟨sorted, ⟨hperm, hchain⟩, hafter⟩ := h
  rw [List.isPerm_iff] at hperm
  rw [in_order_chain] at hchain
  have hlen : sorted.length ≤ snap.currentArraySize := by
    rw [hperm.length_eq, List.length_take]; omega
  have htake : after.master_array.take after.currentArraySize = sorted := by
    subst hafter
    simp only [List.take_append_eq_append_take]
    have hlen2 := hperm.length_eq
    rw [List.length_take] at hlen2
    rw [List.take_of_length_le hlen]
    by_cases hs : snap.currentArraySize ≤ snap.master_array.length
    · rw [show snap.currentArraySize - sorted.length = 0 by omega]
      simp
    · rw [List.drop_of_length_le (by omega)]
      simp
  rw [htake]
  subst hafter
  exact ⟨rfl, hperm, hchain⟩

theorem sort_step_exists (token : List Char) (snap : snap_t) (f : file_record → Int)
    (hf : ∀ x y, qsort_compare token x y ≤ 0 ↔ f x ≤ f y) :
    ∃ after, sort_step (some token) snap after := by
  by_cases hwanted : sort_wanted (some token) = true
  · obtain ⟨sorted, hperm, hchain⟩ := sort_exists f (snap.master_array.take snap.currentArraySize)
    refine ⟨{ snap with
      master_array := sorted ++ snap.master_array.drop snap.currentArraySize }, ?_⟩
    unfold sort_step
    rw [if_pos hwanted]
    refine ⟨sorted, ⟨List.isPerm_iff.mpr hperm, ?_⟩, rfl⟩
    rw [in_order_chain]
    simpa only [Option.getD_some, hf] using hchain
  · refine ⟨snap, ?_⟩
    unfold sort_step
    rw [if_neg hwanted]

/-- C25: for every store and every sort token whose first character is `s`,
the sort step of `main` can be carried out (a `qsort` that orders the array
according to `qsort_compare` exists), and after any such sort step every two
successive records below the size satisfy size[i] <= size[i+1]; with a
token whose first character is `S` they satisfy size[i] >= size[i+1].  In
both cases the size of the store is unchanged and the records below it are a
rearrangement of those before the step. -/
theorem sort_by_size_orders (snap : snap_t) (rest : List Char) :
    ((∃ after, sort_step (some ('s' :: rest)) snap after) ∧
      ∀ after, sort_step (some ('s' :: rest)) snap after →
        after.currentArraySize = snap.currentArraySize ∧
        (after.master_array.take after.currentArraySize).Perm
          (snap.master_array.take snap.currentArraySize) ∧
        ∀ i x y, i + 1 < after.currentArraySize →
          after.master_array[i]? = some x → after.master_array[i + 1]? = some y →
          x.re_size ≤ y.re_size) ∧
    ((∃ after, sort_step (some ('S' :: rest)) snap after) ∧
      ∀ after, sort_step (some ('S' :: rest)) snap after →
        after.currentArraySize = snap.currentArraySize ∧
        (after.master_array.take after.currentArraySize).Perm
          (snap.master_array.take snap.currentArraySize) ∧
        ∀ i x y, i + 1 < after.currentArraySize →
          after.master_array[i]? = some x → after.master_array[i + 1]? = some y →
          x.re_size ≥ y.re_size) := by
  have hs : ∀ x y, qsort_compare ('s' :: rest) x y ≤ 0 ↔ x.re_size ≤ y.re_size :=
    fun x y => compare_le_zero _ _
  have hS : ∀ x y, qsort_compare ('S' :: rest) x y ≤ 0 ↔ (-x.re_size) ≤ (-y.re_size) :=
    fun x y => (compare_le_zero _ _).trans (by omega)
  refine ⟨⟨sort_step_exists _ snap _ hs, ?_⟩, ⟨sort_step_exists _ snap _ hS, ?_⟩⟩
  · intro after h
    obtain ⟨h1, h2, h3⟩ := sort_step_sorted ('s' :: rest) snap after rfl h
    refine ⟨h1, h2, ?_⟩
    intro i x y hi hx hy
    have := chain_successive _ h3 i x y
      (by rw [List.getElem?_take_of_lt (by omega)]; exact hx)
      (by rw [List.getElem?_take_of_lt (by omega)]; exact hy)
    exact (hs x y).mp this
  · intro after h
    obtain ⟨h1, h2, h3⟩ := sort_step_sorted ('S' :: rest) snap after rfl h
    refine ⟨h1, h2, ?_⟩
    intro i x y hi hx hy
    have := chain_successive _ h3 i x y
      (by rw [List.getElem?_take_of_lt (by omega)]; exact hx)
      (by rw [List.getElem?_take_of_lt (by omega)]; exact hy)
    have := (hS x y).mp this
    omega

/-- C25, on the store of the three records of sizes 30, 10, 20 and the token
`s`: the array 10, 20, 30 is a result of the sort step, and its first two
records are in the order of their sizes. -/
theorem sort_by_size_orders_witness :
    sort_step (some "s".toList)
      (store_with "%p".toList [sized_record 30, sized_record 10, sized_record 20])
      (store_with "%p".toList [sized_record 10, sized_record 20, sized_record 30]) ∧
    (sized_record 10).re_size ≤ (sized_record 20).re_size :=
  have h : sort_step (some "s".toList)
      (store_with "%p".toList [sized_record 30, sized_record 10, sized_record 20])
      (store_with "%p".toList [sized_record 10, sized_record 20, sized_record 30]) := by
    unfold sort_step
    rw [if_pos (by decide)]
    exact ⟨[sized_record 10, sized_record 20, sized_record 30], by decide, by decide⟩
  ⟨h, ((sort_by_size_orders
      (store_with "%p".toList [sized_record 30, sized_record 10, sized_record 20]) []).1.2
      _ h).2.2 0 _ _ (by decide) rfl rfl⟩

/-- C27: when the sort token is absent, or its first character is `p` or `P`,
the test of the sort step fails, `qsort` is not called, and the store after
the step is the store before it: the records stay in the order in which
`add_record_to_snap` appended them. -/
theorem path_order_keeps_store (sortToken : Option (List Char)) (snap after : snap_t)
    (h : sortToken = none ∨
      ∃ token, sortToken = some token ∧ (token.head? = some 'p' ∨ token.head? = some 'P')) :
    sort_wanted sortToken = false ∧ (sort_step sortToken snap after ↔ after = snap) := by
  have hw : sort_wanted sortToken = false := by
    rcases h with h | ⟨token, h, hp | hp⟩
    · subst h; rfl
    · subst h
      cases token with
      | nil => simp at hp
      | cons c cs =>
        simp only [List.head?_cons, Option.some.injEq] at hp
        subst hp; rfl
    · subst h
      cases token with
      | nil => simp at hp
      | cons c cs =>
        simp only [List.head?_cons, Option.some.injEq] at hp
        subst hp; rfl
  refine ⟨hw, ?_⟩
  unfold sort_step
  rw [hw]
  simp

/-- C27, on the token `path` and the store of the three records of sizes 30,
10, 20. -/
theorem path_order_keeps_store_witness :
    sort_step (some "path".toList)
      (store_with "%p".toList [sized_record 30, sized_record 10, sized_record 20])
      (store_with "%p".toList [sized_record 30, sized_record 10, sized_record 20]) :=
  ((path_order_keeps_store (some "path".toList)
    (store_with "%p".toList [sized_record 30, sized_record 10, sized_record 20])
    (store_with "%p".toList [sized_record 30, sized_record 10, sized_record 20])
    (Or.inr ⟨"path".toList, rfl, Or.inl rfl⟩)).2).mpr rfl


theorem traversal_step_passed (globals : globals_t) (skipDirs : Bool) (p : FTSENT)
    (st : scan_state) (h : fts_info_passed p.fts_info = true) :
    traversal_step globals skipDirs p st = (st, false) := by
  unfold traversal_step
  rw [if_pos h]

theorem traversal_step_snap (globals : globals_t) (skipDirs : Bool) (p : FTSENT)
    (st : scan_state) :
    (traversal_step globals skipDirs p st).1.snap
      = if entry_recorded globals skipDirs p then
          add_record_to_snap st.snap (traversal_record p)
        else st.snap := by
  unfold traversal_step entry_recorded
  by_cases h1 : fts_info_passed p.fts_info = true
  · simp [h1]
  · by_cases h2 : should_be_ignored globals p.fts_path p.fts_pathlen p.fts_name p.fts_namelen
        = true
    · simp [h1, h2]
    · by_cases h3 : (skipDirs && S_ISDIR p.fts_statp.st_mode) = true
      · simp only [h1, h2, h3]; simp
      · simp only [h1, h2, h3]; simp

theorem traversal_step_skip (globals : globals_t) (skipDirs : Bool) (p : FTSENT)
    (st : scan_state) :
    (traversal_step globals skipDirs p st).2
      = (!fts_info_passed p.fts_info && decide (ignored globals p)) := by
  unfold traversal_step ignored
  by_cases h1 : fts_info_passed p.fts_info = true
  · simp [h1]
  · by_cases h2 : should_be_ignored globals p.fts_path p.fts_pathlen p.fts_name p.fts_namelen
        = true
    · simp [h1, h2]
    · by_cases h3 : (skipDirs && S_ISDIR p.fts_statp.st_mode) = true
      · simp only [h1, h2, h3]; simp
      · simp only [h1, h2, h3]; simp

theorem traversal_loop_cons (globals : globals_t) (skipDirs : Bool) (p : FTSENT)
    (children siblings : fts_forest) (st : scan_state) :
    traversal_loop globals skipDirs (.cons p children siblings) st
      = traversal_loop globals skipDirs siblings
          (if p.fts_info = .FTS_D then
            if (traversal_step globals skipDirs p st).2 then
              (traversal_step globals skipDirs p st).1
            else traversal_loop globals skipDirs children (traversal_step globals skipDirs p st).1
          else (traversal_step globals skipDirs p st).1) := by
  rw [traversal_loop]
  simp only []
  by_cases h : p.fts_info = .FTS_D
  · rw [if_pos h, if_pos h,
      traversal_step_passed globals skipDirs { p with fts_info := .FTS_DP } _ rfl]
  · rw [if_neg h, if_neg h]

theorem traversal_loop_snap (globals : globals_t) (skipDirs : Bool) (forest : fts_forest) :
    ∀ st : scan_state,
      (traversal_loop globals skipDirs forest st).snap
        = ((recorded_entries globals skipDirs forest).map traversal_record).foldl
            add_record_to_snap st.snap := by
  induction forest with
  | nil => intro st; rfl
  | cons p children siblings ihc ihs =>
    intro st
    rw [traversal_loop_cons, ihs, recorded_entries, List.map_append, List.map_append,
      List.foldl_append, List.foldl_append]
    congr 1
    by_cases hd : p.fts_info = .FTS_D
    · have hpass : fts_info_passed p.fts_info = false := by rw [hd]; rfl
      rw [if_pos hd, traversal_step_skip, hpass]
      by_cases hi : ignored globals p
      · rw [if_pos (by simp [hi]),
          if_neg (fun h : p.fts_info = .FTS_D ∧ ¬ ignored globals p => h.2 hi),
          traversal_step_snap]
        split <;> rfl
      · rw [if_neg (by simp [hi]),
          if_pos (show p.fts_info = .FTS_D ∧ ¬ ignored globals p from ⟨hd, hi⟩),
          ihc, traversal_step_snap]
        split <;> rfl
    · rw [if_neg hd, if_neg (fun h : p.fts_info = .FTS_D ∧ ¬ ignored globals p => hd h.1),
        traversal_step_snap]
      split <;> rfl

theorem traversal_records (globals : globals_t) (skipDirs : Bool) (forest : fts_forest) :
    (traversal_loop globals skipDirs forest initial_scan_state).snap.master_array
      = (recorded_entries globals skipDirs forest).map traversal_record := by
  rw [traversal_loop_snap, add_records_invariant _ _ rfl]
  rfl

theorem reaches_entries {forest : fts_forest} {above : List FTSENT} {e : FTSENT}
    (h : forest.reaches above e) : e ∈ forest.entries ∧ ∀ a ∈ above, a ∈ forest.entries := by
  induction h with
  | here p children siblings => simp [fts_forest.entries]
  | under p children siblings above e _ ih =>
    refine ⟨by simp [fts_forest.entries, ih.1], ?_⟩
    intro a ha
    rcases List.mem_cons.mp ha with ha | ha
    · simp [fts_forest.entries, ha]
    · simp [fts_forest.entries, ih.2 a ha]
  | next p children siblings above e _ ih =>
    refine ⟨by simp [fts_forest.entries, ih.1], ?_⟩
    intro a ha
    simp [fts_forest.entries, ih.2 a ha]

theorem mem_recorded_entries (globals : globals_t) (skipDirs : Bool) (forest : fts_forest)
    (e : FTSENT) :
    e ∈ recorded_entries globals skipDirs forest ↔
      ∃ above, forest.reaches above e ∧
        (∀ a ∈ above, a.fts_info = .FTS_D ∧ ¬ ignored globals a) ∧
        entry_recorded globals skipDirs e = true := by
  induction forest with
  | nil =>
    simp only [recorded_entries, List.not_mem_nil, false_iff]
    rintro ⟨above, h, -⟩
    cases h
  | cons p children siblings ihc ihs =>
    rw [recorded_entries, List.mem_append, List.mem_append]
    constructor
    · rintro ((h | h) | h)
      · split at h
        · rename_i hp
          rw [List.mem_singleton] at h
          subst h
          exact ⟨[], .here _ _ _, by simp, hp⟩
        · simp at h
      · split at h
        · rename_i hp
          obtain ⟨above, hr, ha, he⟩ := ihc.mp h
          refine ⟨p :: above, .under _ _ _ _ _ hr, ?_, he⟩
          intro a hmem
          rcases List.mem_cons.mp hmem with hmem | hmem
          · subst hmem; exact hp
          · exact ha a hmem
        · simp at h
      · obtain ⟨above, hr, ha, he⟩ := ihs.mp h
        exact ⟨above, .next _ _ _ _ _ hr, ha, he⟩
    · rintro ⟨above, hr, ha, he⟩
      cases hr with
      | here => left; left; rw [if_pos he]; exact List.mem_singleton.mpr rfl
      | under _ _ _ above _ hr =>
        left; right
        rw [if_pos (ha p (List.mem_cons_self _ _))]
        exact ihc.mpr ⟨above, hr, fun a hmem => ha a (List.mem_cons_of_mem _ hmem), he⟩
      | next _ _ _ _ _ hr =>
        right
        exact ihs.mpr ⟨above, hr, ha, he⟩

theorem mem_traversal_records (globals : globals_t) (skipDirs : Bool) (forest : fts_forest)
    (r : file_record) :
    r ∈ (traversal_loop globals skipDirs forest initial_scan_state).snap.master_array ↔
      ∃ above e, forest.reaches above e ∧ r = traversal_record e ∧
        (∀ a ∈ above, a.fts_info = .FTS_D ∧ ¬ ignored globals a) ∧
        entry_recorded globals skipDirs e = true := by
  rw [traversal_records, List.mem_map]
  constructor
  · rintro ⟨e, he, rfl⟩
    obtain ⟨above, h1, h2, h3⟩ := (mem_recorded_entries _ _ _ _).mp he
    exact ⟨above, e, h1, rfl, h2, h3⟩
  · rintro ⟨above, e, h1, rfl, h2, h3⟩
    exact ⟨e, (mem_recorded_entries _ _ _ _).mpr ⟨above, h1, h2, h3⟩, rfl⟩

theorem entry_recorded_not_ignored {globals : globals_t} {skipDirs : Bool} {e : FTSENT}
    (h : entry_recorded globals skipDirs e = true) : ¬ ignored globals e := by
  unfold entry_recorded at h
  unfold ignored
  simp only [Bool.and_eq_true, Bool.not_eq_true'] at h
  rw [h.1.2]
  simp


theorem not_ignored_rules {rules : List (List Char)} {e : FTSENT} (hlen : fts_lengths e)
    (h : ¬ ignored (ignore_list rules) e) (rule : List Char) (hrule : rule ∈ rules) :
    ((cstr rule).head? = some '/' → cstr e.fts_path ≠ cstr rule) ∧
    ((cstr rule).head? ≠ some '/' → cstr e.fts_name ≠ cstr rule) := by
  unfold ignored at h
  rw [hlen.1, hlen.2, should_be_ignored_iff] at h
  constructor
  · intro hs he
    exact h ⟨rule, hrule, Or.inl ⟨hs, he.symm⟩⟩
  · intro hs he
    exact h ⟨rule, hrule, Or.inr ⟨hs, he.symm⟩⟩

theorem type_tag_directory (mode : Int) : type_tag mode = 'D' ↔ S_ISDIR mode = true := by
  unfold type_tag
  split_ifs <;> simp_all

theorem store_entry_selected (P : Platform) (column_tracker : ColumnTracker) (i : Nat)
    (entry_buf : List Char) (record : file_record)
    (h : record.re_selected ∈ ['y', 'n', 'u']) :
    (store_entry P column_tracker i entry_buf record).re_selected ∈ ['y', 'n', 'u'] := by
  simp only [store_entry, apply_ite file_record.re_selected, ite_self]
  by_cases h1 : (i : Int) = column_tracker PATH_COLUMN
  · rw [if_pos h1]; exact h
  rw [if_neg h1]
  by_cases h2 : (i : Int) = column_tracker PERMS_COLUMN
  · rw [if_pos h2]; exact h
  rw [if_neg h2]
  by_cases h3 : (i : Int) = column_tracker OWNER_COLUMN
  · rw [if_pos h3]; exact h
  rw [if_neg h3]
  by_cases h4 : (i : Int) = column_tracker SELECT_COLUMN
  · rw [if_pos h4]; split <;> simp
  · rw [if_neg h4]; exact h

theorem parse_loop_selected (P : Platform) (column_tracker : ColumnTracker) :
    ∀ (line entry_buf : List Char) (i : Nat) (record : file_record),
      record.re_selected ∈ ['y', 'n', 'u'] →
      (parse_loop P column_tracker line entry_buf i record).re_selected ∈ ['y', 'n', 'u']
  | [], _, _, _, h => by rw [parse_loop]; exact h
  | c :: line, entry_buf, i, record, h => by
    rw [parse_loop]
    split
    · exact h
    · split
      · exact parse_loop_selected P column_tracker line _ _ _
          (store_entry_selected P column_tracker i entry_buf record h)
      · exact parse_loop_selected P column_tracker line _ _ _ h

/-- C21 as stated fails: with the rule `/a/b` in the ignore list, the traversal
of the hierarchy `/`, `/a`, `/a/b`, `/a/b/c`, `/a/bc`, `/a/.svn`,
`/a/.svn/entries` adds a record for `/a/bc`, whose path starts with `/a/b`;
the records of `/a/b` and of `/a/b/c` are left out. -/
theorem longer_sibling_recorded :
    (traversal_loop (ignore_list ["/a/b".toList]) false sample_forest
        initial_scan_state).snap.master_array.map (fun r => r.re_path)
      = [some "/".toList, some "/a".toList, some "/a/bc".toList, some "/a/.svn".toList,
          some "/a/.svn/entries".toList] ∧
    "/a/bc".toList.take "/a/b".toList.length = "/a/b".toList := by
  decide

/-- C21 (amended): for every scanned hierarchy whose entries carry the lengths
of their path and name, when the ignore list contains a rule that begins
with `/`, every record that the traversal loop adds to the store has a path
different from the rule, and it is the record of an entry that is not below
an entry whose path is the rule: the rule leaves out the entry with exactly
this path and everything below it, and nothing else. -/
theorem ignored_path_not_recorded (rules : List (List Char)) (skipDirs : Bool)
    (forest : fts_forest) (rule : List Char) (hrule : rule ∈ rules)
    (hslash : (cstr rule).head? = some '/')
    (hlen : ∀ e ∈ forest.entries, fts_lengths e) :
    ∀ r ∈ (traversal_loop (ignore_list rules) skipDirs forest
        initial_scan_state).snap.master_array,
      r.re_path ≠ some (cstr rule) ∧
      ∃ above e, forest.reaches above e ∧ r = traversal_record e ∧
        cstr e.fts_path ≠ cstr rule ∧ ∀ a ∈ above, cstr a.fts_path ≠ cstr rule := by
  intro r hr
  obtain ⟨above, e, hreach, hre, habove, hrec⟩ := (mem_traversal_records _ _ _ _).mp hr
  have hmem := reaches_entries hreach
  have he : cstr e.fts_path ≠ cstr rule :=
    (not_ignored_rules (hlen e hmem.1) (entry_recorded_not_ignored hrec) rule hrule).1 hslash
  refine ⟨?_, above, e, hreach, hre, he, ?_⟩
  · rw [hre]
    intro h
    exact he (Option.some.inj h)
  · intro a ha
    exact (not_ignored_rules (hlen a (hmem.2 a ha)) (habove a ha).2 rule hrule).1 hslash

/-- C21 (amended), on the rule `/a/b` and the sample hierarchy: the record of
`/a/bc` is in the store, and it is the record of an entry that is not below
`/a/b`. -/
theorem ignored_path_not_recorded_witness :
    traversal_record (file_entry "/a/bc".toList "bc".toList)
      ∈ (traversal_loop (ignore_list ["/a/b".toList]) false sample_forest
          initial_scan_state).snap.master_array ∧
    (traversal_record (file_entry "/a/bc".toList "bc".toList)).re_path
      ≠ some (cstr "/a/b".toList) ∧
    ∃ above e, sample_forest.reaches above e ∧
      traversal_record (file_entry "/a/bc".toList "bc".toList) = traversal_record e ∧
      cstr e.fts_path ≠ cstr "/a/b".toList ∧
      ∀ a ∈ above, cstr a.fts_path ≠ cstr "/a/b".toList :=
  ⟨by decide,
    ignored_path_not_recorded ["/a/b".toList] false sample_forest "/a/b".toList
      (by decide) (by decide) (by decide) _ (by decide)⟩

/-- C22: for every entry that reaches the test (`fts_info` is not `FTS_DP`,
`FTS_ERR` or `FTS_NS`) and for which `should_be_ignored` is true, the
iteration leaves the store as it was and calls `fts_set` with `FTS_SKIP`, and
the loop goes on with the entries after it, none of the entries below it
being read; consequently, when the ignore list holds a rule that does not
begin with `/` (such as `.svn`) and every entry of the hierarchy carries the
lengths of its strings and has the last component of its path as its name,
no record in the store has a path whose last component is this rule. -/
theorem ignored_entry_pruned (rules : List (List Char)) (skipDirs : Bool) :
    (∀ (p : FTSENT) (st : scan_state),
      fts_info_passed p.fts_info = false → ignored (ignore_list rules) p →
      (traversal_step (ignore_list rules) skipDirs p st).1.snap = st.snap ∧
      (traversal_step (ignore_list rules) skipDirs p st).2 = true ∧
      ∀ children siblings : fts_forest,
        traversal_loop (ignore_list rules) skipDirs (.cons p children siblings) st
          = traversal_loop (ignore_list rules) skipDirs siblings
              (traversal_step (ignore_list rules) skipDirs p st).1) ∧
    (∀ (name : List Char) (forest : fts_forest),
      name ∈ rules → (cstr name).head? ≠ some '/' → cstr name ≠ [] →
      (∀ e ∈ forest.entries, fts_lengths e ∧ fts_name_of_path e) →
      ∀ r ∈ (traversal_loop (ignore_list rules) skipDirs forest
          initial_scan_state).snap.master_array,
        ∀ path, r.re_path = some path → base_name path ≠ cstr name) := by
  constructor
  · intro p st hpass hign
    have hskip : (traversal_step (ignore_list rules) skipDirs p st).2 = true := by
      rw [traversal_step_skip, hpass]; simp [hign]
    refine ⟨?_, hskip, ?_⟩
    · rw [traversal_step_snap, if_neg]
      intro h
      exact entry_recorded_not_ignored h hign
    · intro children siblings
      rw [traversal_loop_cons, hskip]
      simp
  · intro name forest hname hslash hne hfts r hr path hpath heq
    obtain ⟨above, e, hreach, hre, -, hrec⟩ := (mem_traversal_records _ _ _ _).mp hr
    have hmem := (reaches_entries hreach).1
    have hnot := (not_ignored_rules (hfts e hmem).1 (entry_recorded_not_ignored hrec)
      name hname).2 hslash
    rw [hre] at hpath
    have hp : path = cstr e.fts_path := (Option.some.inj hpath).symm
    rw [hp] at heq
    exact hnot (((hfts e hmem).2 (by rw [heq]; exact hne)).trans heq)

/-- C22, on the rule `.svn` and the sample hierarchy, which has the directory
`/a/.svn` and a file below it. -/
theorem ignored_entry_pruned_witness :
    (traversal_loop (ignore_list [".svn".toList]) false sample_forest
        initial_scan_state).snap.master_array.map (fun r => r.re_path)
      = [some "/".toList, some "/a".toList, some "/a/b".toList, some "/a/b/c".toList,
          some "/a/bc".toList] ∧
    ∀ r ∈ (traversal_loop (ignore_list [".svn".toList]) false sample_forest
        initial_scan_state).snap.master_array,
      ∀ path, r.re_path = some path → base_name path ≠ cstr ".svn".toList :=
  ⟨by decide,
    (ignored_entry_pruned [".svn".toList] false).2 ".svn".toList sample_forest
      (by decide) (by decide) (by decide) (by decide)⟩

/-- C23: when skip-directories is set, no record that the traversal loop adds
to the store has the type tag `D`; for a directory that is not on the
ignore list the iteration does not call `fts_set` with `FTS_SKIP`, and the
loop goes on with the entries below it before those after it; and every
entry that is reached through directories that are not on the ignore list,
and passes the three tests itself, has its record in the store. -/
theorem skip_directories_keeps_children (globals : globals_t) :
    (∀ forest : fts_forest,
      ∀ r ∈ (traversal_loop globals true forest initial_scan_state).snap.master_array,
        r.re_type ≠ 'D') ∧
    (∀ (p : FTSENT) (st : scan_state),
      p.fts_info = .FTS_D → S_ISDIR p.fts_statp.st_mode = true → ¬ ignored globals p →
      (traversal_step globals true p st).1.snap = st.snap ∧
      (traversal_step globals true p st).2 = false ∧
      ∀ children siblings : fts_forest,
        traversal_loop globals true (.cons p children siblings) st
          = traversal_loop globals true siblings
              (traversal_loop globals true children (traversal_step globals true p st).1)) ∧
    (∀ (forest : fts_forest) (above : List FTSENT) (e : FTSENT),
      forest.reaches above e →
      (∀ a ∈ above, a.fts_info = .FTS_D ∧ ¬ ignored globals a) →
      entry_recorded globals true e = true →
      traversal_record e
        ∈ (traversal_loop globals true forest initial_scan_state).snap.master_array) := by
  refine ⟨?_, ?_, ?_⟩
  · intro forest r hr htag
    obtain ⟨above, e, -, hre, -, hrec⟩ := (mem_traversal_records _ _ _ _).mp hr
    rw [hre] at htag
    have hdir : S_ISDIR e.fts_statp.st_mode = true := (type_tag_directory _).mp htag
    unfold entry_recorded at hrec
    rw [hdir] at hrec
    simp at hrec
  · intro p st hd hdir hign
    have hskip : (traversal_step globals true p st).2 = false := by
      rw [traversal_step_skip]; simp [hign]
    refine ⟨?_, hskip, ?_⟩
    · rw [traversal_step_snap, if_neg]
      unfold entry_recorded
      rw [hdir]
      simp
    · intro children siblings
      rw [traversal_loop_cons, hskip, if_pos hd]
      simp
  · intro forest above e hreach habove hrec
    exact (mem_traversal_records _ _ _ _).mpr ⟨above, e, hreach, rfl, habove, hrec⟩

/-- C23, on the sample hierarchy with an empty ignore list: the records are
those of the four files, none of the directories. -/
theorem skip_directories_keeps_children_witness :
    (traversal_loop (ignore_list []) true sample_forest
        initial_scan_state).snap.master_array.map (fun r => (r.re_path, r.re_type))
      = [(some "/a/b/c".toList, 'F'), (some "/a/bc".toList, 'F'),
          (some "/a/.svn/entries".toList, 'F')] ∧
    traversal_record (file_entry "/a/b/c".toList "c".toList)
      ∈ (traversal_loop (ignore_list []) true sample_forest
          initial_scan_state).snap.master_array :=
  ⟨by decide,
    (skip_directories_keeps_children (ignore_list [])).2.2 sample_forest
      [directory_entry "/".toList "/".toList, directory_entry "/a".toList "a".toList,
        directory_entry "/a/b".toList "b".toList]
      (file_entry "/a/b/c".toList "c".toList)
      (.under _ _ _ _ _ (.under _ _ _ _ _ (.under _ _ _ _ _ (.here _ _ _))))
      (by decide) (by decide)⟩

theorem field_text_selected_nul (P : Platform) (record : file_record)
    (h : record.re_selected = '\x00') : field_text P record 'e' = [] := by
  simp [field_text, raw_field, rprintbuf_switch, snprintf_c, cstr, h, strip_special]

theorem store_entry_selected_empty (P : Platform) (column_tracker : ColumnTracker) (i : Nat)
    (record : file_record) (hi : (i : Int) = column_tracker SELECT_COLUMN)
    (hpath : (i : Int) ≠ column_tracker PATH_COLUMN)
    (hperms : (i : Int) ≠ column_tracker PERMS_COLUMN)
    (howner : (i : Int) ≠ column_tracker OWNER_COLUMN) :
    (store_entry P column_tracker i [] record).re_selected = 'u' := by
  simp only [store_entry, if_neg hpath, if_neg hperms, if_neg howner, if_pos hi]
  rfl

/-- C30 (amended): every record of `parse_snapper_file_line` has a selection flag
that is one of `y`, `n`, `u`, whatever the line and the columns; every
record that the traversal loop adds to the store has the flag NUL, the value
that `calloc` left (the loop does not assign the flag); for such a record the
field that `rprintbuf` writes for the code `e` is empty, and the reader
stores `u` for an empty column `Selected`. -/
theorem traversal_flag_not_set (P : Platform) (globals : globals_t) (skipDirs : Bool)
    (forest : fts_forest) :
    (∀ (column_tracker : ColumnTracker) (line : List Char),
      (parse_snapper_file_line P column_tracker line).re_selected ∈ ['y', 'n', 'u']) ∧
    (∀ r ∈ (traversal_loop globals skipDirs forest initial_scan_state).snap.master_array,
      r.re_selected = '\x00' ∧ field_text P r 'e' = []) ∧
    ∀ (column_tracker : ColumnTracker) (i : Nat) (record : file_record),
      (i : Int) = column_tracker SELECT_COLUMN →
      (i : Int) ≠ column_tracker PATH_COLUMN →
      (i : Int) ≠ column_tracker PERMS_COLUMN →
      (i : Int) ≠ column_tracker OWNER_COLUMN →
      (store_entry P column_tracker i [] record).re_selected = 'u' := by
  refine ⟨?_, ?_, ?_⟩
  · intro column_tracker line
    exact parse_loop_selected P column_tracker line [] 0 (blank_record P) (by simp [blank_record])
  · intro r hr
    obtain ⟨above, e, -, hre, -, -⟩ := (mem_traversal_records _ _ _ _).mp hr
    have hflag : r.re_selected = '\x00' := by rw [hre]; rfl
    exact ⟨hflag, field_text_selected_nul P r hflag⟩
  · intro column_tracker i record hi hpath hperms howner
    exact store_entry_selected_empty P column_tracker i record hi hpath hperms howner

set_option maxRecDepth 100000 in
/-- C30 as stated fails on the code: the record that the traversal loop stores
for the single regular file `/a` has the selection flag NUL, which is none of
`y`, `n`, `u`.  With the template `%p%e` its line is the path and an empty
column, and the reader gives the record of that line the flag `u`. -/
theorem traversal_record_flag_nul :
    (traversal_loop (ignore_list []) false
        (.cons (file_entry "/a".toList "a".toList) .nil .nil)
        initial_scan_state).snap.master_array.map (fun r => (r.re_path, r.re_selected))
      = [(some "/a".toList, '\x00')] ∧
    '\x00' ∉ ['y', 'n', 'u'] ∧
    rprintbuf darwin64 (store_with "%p%e".toList [])
        (traversal_record (file_entry "/a".toList "a".toList)) 1124
      = .ok "/a\t\t\n".toList ∧
    (read_snap_record_from_file darwin64 (store_with "%p".toList [])
        (some ⟨"Path\tSelected\t\n/a\t\t\n".toList, false⟩)).store.map
      (fun s => s.master_array.map (fun r => (r.re_path, r.re_selected)))
      = some [(some "/a".toList, 'u')] := by
  refine ⟨by decide, by decide, by decide, by decide⟩


theorem copy_if_room_length {dest lb : List Char} {maxlen : Nat} (h : dest.length ≤ maxlen) :
    (copy_if_room dest lb maxlen).length ≤ maxlen := by
  unfold copy_if_room strlen
  split
  · rw [List.length_append]; omega
  · exact h

theorem copy_field_if_room_length {code : Char} {dest lb : List Char} {maxlen : Nat}
    (h : dest.length ≤ maxlen) :
    (copy_field_if_room code dest lb maxlen).length ≤ maxlen := by
  unfold copy_field_if_room strlen
  split
  · have := strip_special_length_le code (cstr lb)
    rw [List.length_append]; omega
  · exact h

theorem rprintbuf_loop_lone (P : Platform) (fd : List Char) (record : file_record)
    (maxlen : Nat) (dest : List Char) :
    rprintbuf_loop P fd record maxlen ['%'] dest
      = if ¬ dest.length < maxlen then .ok dest else .error .overrun := by
  rw [rprintbuf_loop]
  by_cases h : dest.length < maxlen
  · rw [if_neg (by simp [h]), if_neg (by simp), if_neg (by simp [h])]
    rfl
  · rw [if_pos (Or.inr h), if_pos h]

theorem hprintbuf_loop_lone (fd : List Char) (maxlen : Nat) (lb : Option (List Char))
    (dest : List Char) :
    hprintbuf_loop fd maxlen ['%'] lb dest
      = if ¬ dest.length < maxlen then .ok dest
        else match lb with
          | none => .error .uninit
          | some _ => .error .overrun := by
  rw [hprintbuf_loop]
  by_cases h : dest.length < maxlen
  · rw [if_neg (by simp [h]), if_neg (by simp), if_neg (by simp [h])]
    cases lb <;> rfl
  · rw [if_pos (Or.inr h), if_pos h]

theorem rprintbuf_loop_space (P : Platform) (fd : List Char) (record : file_record)
    (maxlen : Nat) (rest dest : List Char) :
    rprintbuf_loop P fd record maxlen (' ' :: rest) dest
      = if ¬ dest.length < maxlen then .ok dest
        else rprintbuf_loop P fd record maxlen rest dest := by
  rw [rprintbuf_loop]
  by_cases h : dest.length < maxlen
  · rw [if_neg (by simp [h]), if_pos (by decide), if_pos rfl, if_neg (by simp [h])]
  · rw [if_pos (Or.inr h), if_pos h]

theorem hprintbuf_loop_space (fd : List Char) (maxlen : Nat) (rest : List Char)
    (lb : Option (List Char)) (dest : List Char) :
    hprintbuf_loop fd maxlen (' ' :: rest) lb dest
      = if ¬ dest.length < maxlen then .ok dest
        else hprintbuf_loop fd maxlen rest lb dest := by
  rw [hprintbuf_loop]
  by_cases h : dest.length < maxlen
  · rw [if_neg (by simp [h]), if_pos (by decide), if_pos rfl, if_neg (by simp [h])]
  · rw [if_pos (Or.inr h), if_pos h]

theorem rprintbuf_loop_length (P : Platform) (fd : List Char) (record : file_record)
    (maxlen : Nat) (T : List Char) :
    ∀ (dest out : List Char), dest.length ≤ maxlen →
      rprintbuf_loop P fd record maxlen T dest = .ok out → out.length ≤ maxlen := by
  induction T using template_items.induct with
  | case1 =>
    intro dest out hd h
    rw [rprintbuf_loop] at h
    cases h; exact hd
  | case2 =>
    intro dest out hd h
    rw [rprintbuf_loop_lone] at h
    split at h
    · cases h; exact hd
    · cases h
  | case3 code rest ih =>
    intro dest out hd h
    rw [rprintbuf_loop_percent] at h
    split at h
    · cases h; exact hd
    · split at h
      · cases h
      · split at h
        · cases h
        · exact ih _ out (copy_if_room_length (copy_field_if_room_length hd)) h
  | case4 rest _ ih =>
    intro dest out hd h
    rw [rprintbuf_loop_space] at h
    split at h
    · cases h; exact hd
    · exact ih dest out hd h
  | case5 c rest h1 h2 ih =>
    intro dest out hd h
    rw [rprintbuf_loop_other _ _ _ _ h1 h2] at h
    split at h
    · cases h; exact hd
    · rename_i hc
      simp only [not_or, not_not] at hc
      exact ih _ out (by simp only [List.length_append, List.length_singleton]; omega) h

theorem hprintbuf_loop_length (fd : List Char) (maxlen : Nat) (T : List Char) :
    ∀ (lb : Option (List Char)) (dest out : List Char), dest.length ≤ maxlen →
      hprintbuf_loop fd maxlen T lb dest = .ok out → out.length ≤ maxlen := by
  induction T using template_items.induct with
  | case1 =>
    intro lb dest out hd h
    rw [hprintbuf_loop] at h
    cases h; exact hd
  | case2 =>
    intro lb dest out hd h
    rw [hprintbuf_loop_lone] at h
    split at h
    · cases h; exact hd
    · split at h <;> cases h
  | case3 code rest ih =>
    intro lb dest out hd h
    rw [hprintbuf_loop_percent] at h
    split at h
    · cases h; exact hd
    · split at h
      · cases h
      · split at h
        · cases h
        · exact ih _ _ out (copy_if_room_length (copy_if_room_length hd)) h
  | case4 rest _ ih =>
    intro lb dest out hd h
    rw [hprintbuf_loop_space] at h
    split at h
    · cases h; exact hd
    · exact ih lb dest out hd h
  | case5 c rest h1 h2 ih =>
    intro lb dest out hd h
    rw [hprintbuf_loop_other _ _ h1 h2] at h
    split at h
    · cases h; exact hd
    · rename_i hc
      simp only [not_or, not_not] at hc
      exact ih lb _ out (by simp only [List.length_append, List.length_singleton]; omega) h

theorem rprintbuf_loop_total (P : Platform) (fd : List Char) (record : file_record)
    (maxlen : Nat) (T : List Char) :
    ∀ (dest : List Char), (∀ item ∈ template_items T, record_item_ok record item) →
      ∃ out, rprintbuf_loop P fd record maxlen T dest = .ok out := by
  induction T using template_items.induct with
  | case1 => intro dest _; exact ⟨dest, by rw [rprintbuf_loop]⟩
  | case2 =>
    intro dest hok
    have := hok (.code '\x00') (by rw [template_items_lone_percent]; exact List.mem_singleton_self _)
    exact absurd rfl this.1
  | case3 code rest ih =>
    intro dest hok
    rw [template_items_percent_cons] at hok
    have hcode := hok (.code code) (List.mem_cons_self _ _)
    rw [rprintbuf_loop_percent]
    by_cases hfull : dest.length < maxlen
    · rw [if_neg (by simpa using hfull), rprintbuf_switch_item P record hcode]
      simp only []
      rw [if_neg hcode.1]
      exact ih _ (fun item hi => hok item (List.mem_cons_of_mem _ hi))
    · rw [if_pos hfull]; exact ⟨dest, rfl⟩
  | case4 rest _ ih =>
    intro dest hok
    rw [template_items_space] at hok
    rw [rprintbuf_loop_space]
    split
    · exact ⟨dest, rfl⟩
    · exact ih dest hok
  | case5 c rest h1 h2 ih =>
    intro dest hok
    rw [template_items_other h1 h2] at hok
    rw [rprintbuf_loop_other _ _ _ _ h1 h2]
    split
    · exact ⟨dest, rfl⟩
    · exact ih _ (fun item hi => hok item (List.mem_cons_of_mem _ hi))

theorem hprintbuf_loop_total (fd : List Char) (maxlen : Nat) (T : List Char) :
    ∀ (lb : Option (List Char)) (dest : List Char),
      (∀ item ∈ template_items T, header_item_ok item) →
      ∃ out, hprintbuf_loop fd maxlen T lb dest = .ok out := by
  induction T using template_items.induct with
  | case1 => intro lb dest _; exact ⟨dest, by rw [hprintbuf_loop]⟩
  | case2 =>
    intro lb dest hok
    have := hok (.code '\x00') (by rw [template_items_lone_percent]; exact List.mem_singleton_self _)
    exact absurd rfl this.2.1
  | case3 code rest ih =>
    intro lb dest hok
    rw [template_items_percent_cons] at hok
    have hcode := hok (.code code) (List.mem_cons_self _ _)
    rw [hprintbuf_loop_percent]
    by_cases hfull : dest.length < maxlen
    · rw [if_neg (by simpa using hfull), hprintbuf_switch_item lb hcode]
      simp only []
      rw [if_neg hcode.2.1]
      exact ih _ _ (fun item hi => hok item (List.mem_cons_of_mem _ hi))
    · rw [if_pos hfull]; exact ⟨dest, rfl⟩
  | case4 rest _ ih =>
    intro lb dest hok
    rw [template_items_space] at hok
    rw [hprintbuf_loop_space]
    split
    · exact ⟨dest, rfl⟩
    · exact ih lb dest hok
  | case5 c rest h1 h2 ih =>
    intro lb dest hok
    rw [template_items_other h1 h2] at hok
    rw [hprintbuf_loop_other _ _ h1 h2]
    split
    · exact ⟨dest, rfl⟩
    · exact ih lb _ (fun item hi => hok item (List.mem_cons_of_mem _ hi))

/-- C31: for every column template, record, pair of delimiters and `maxlen`,
the text that `rprintbuf` writes, and the text that `hprintbuf` writes, is at
most `maxlen` characters long (the terminator comes after it), the value
returned being the length of this text (`dest_char - save_pos`); and the
functions do return a text, whatever `maxlen` is, for every template whose
items they render (no `%` at the end of the template; for `rprintbuf` a path
that is not NULL when the template has `%p`; for `hprintbuf` no code `%` or
space): a field or a delimiter that does not fit is left out. -/
theorem written_text_within_maxlen (P : Platform) (snap : snap_t) (record : file_record)
    (maxlen : Nat) :
    (∀ text, rprintbuf P snap record maxlen = .ok text → text.length ≤ maxlen) ∧
    (∀ text, hprintbuf snap maxlen = .ok text → text.length ≤ maxlen) ∧
    ((∀ item ∈ template_items snap.column_string, record_item_ok record item) →
      ∃ text, rprintbuf P snap record maxlen = .ok text) ∧
    ((∀ item ∈ template_items snap.column_string, header_item_ok item) →
      ∃ text, hprintbuf snap maxlen = .ok text) := by
  refine ⟨?_, ?_, ?_, ?_⟩
  · intro text h
    unfold rprintbuf at h
    split at h
    · cases h
    · rename_i dest hd
      cases h
      exact copy_if_room_length
        (rprintbuf_loop_length P _ record maxlen _ [] dest (Nat.zero_le _) hd)
  · intro text h
    unfold hprintbuf at h
    split at h
    · cases h
    · rename_i dest hd
      cases h
      exact copy_if_room_length
        (hprintbuf_loop_length _ maxlen _ none [] dest (Nat.zero_le _) hd)
  · intro hok
    obtain ⟨out, hout⟩ := rprintbuf_loop_total P snap.field_delimiter record maxlen
      snap.column_string [] hok
    exact ⟨_, by unfold rprintbuf; rw [hout]⟩
  · intro hok
    obtain ⟨out, hout⟩ := hprintbuf_loop_total snap.field_delimiter maxlen
      snap.column_string none [] hok
    exact ⟨_, by unfold hprintbuf; rw [hout]⟩

/-- C31, on the template `%p%p`, the path `/a/b` and `maxlen` 6: the first
field and its tab are written, the second field, its tab and the newline are
left out. -/
theorem written_text_within_maxlen_witness :
    rprintbuf darwin64 (store_with "%p%p".toList []) sample_record 6 = .ok "/a/b\t".toList ∧
    "/a/b\t".toList.length ≤ 6 :=
  ⟨by decide,
    (written_text_within_maxlen darwin64 (store_with "%p%p".toList []) sample_record 6).1 _
      (by decide)⟩


theorem digit_value_octal {d : Nat} (h : d < 8) : digit_value 8 (digit_char d) = some d := by
  unfold digit_value
  rw [digit_char_toNat (by omega)]
  have h0 : ('0' : Char).toNat = 48 := rfl
  rw [h0, if_pos (by omega)]
  congr 1
  omega

theorem strtol_octal_digits4 (P : Platform) (hlong : 13 ≤ P.long_bits) {b : Nat}
    (hb : b < 8 ^ 4) : strtol P (octal_digits4 b) 8 = ((b : Int), []) := by
  have d3 : b / 512 % 8 < 8 := Nat.mod_lt _ (by decide)
  have d2 : b / 64 % 8 < 8 := Nat.mod_lt _ (by decide)
  have d1 : b / 8 % 8 < 8 := Nat.mod_lt _ (by decide)
  have d0 : b % 8 < 8 := Nat.mod_lt _ (by decide)
  have hdig : ∀ {d : Nat}, d < 8 → is_decimal_digit (digit_char d) = true :=
    fun h => digit_char_decimal (by omega)
  have hcs : is_cstring (octal_digits4 b) := by
    intro c hc
    simp only [octal_digits4, List.mem_cons, List.mem_singleton, List.not_mem_nil,
      or_false] at hc
    rcases hc with rfl | rfl | rfl | rfl <;>
      exact (decimal_digit_not_special (hdig (by assumption))).2.2.2.1
  have hval : 512 * (b / 512 % 8) + 64 * (b / 64 % 8) + 8 * (b / 8 % 8) + b % 8 = b := by
    have : b < 4096 := by simpa using hb
    omega
  have hmax : (4095 : Int) ≤ P.long.max := by
    have h1 : (2 : Int) ^ 12 ≤ 2 ^ (P.long_bits - 1) :=
      pow_le_pow_right₀ (by norm_num) (by omega)
    simp only [CInt.max, Platform.long, if_true]
    norm_num at h1
    omega
  have hmin : P.long.min ≤ 0 := by
    simp only [CInt.min, Platform.long, if_true]
    have : (0 : Int) < 2 ^ (P.long_bits - 1) := by positivity
    omega
  unfold strtol
  rw [cstr_of_cstring hcs]
  have hsp : isspace (digit_char (b / 512 % 8)) = false :=
    (decimal_digit_not_special (hdig d3)).1
  have hdrop : (octal_digits4 b).dropWhile isspace = octal_digits4 b := by
    unfold octal_digits4
    rw [List.dropWhile_cons_of_neg (by simp [hsp])]
  rw [hdrop]
  have hsign : strtol_sign (octal_digits4 b) = (false, octal_digits4 b) :=
    strtol_sign_digit (hdig d3) _
  rw [hsign]
  have hdigits : strtol_digits 8 (octal_digits4 b) 0 0 = (b, 4, []) := by
    simp only [octal_digits4, strtol_digits, digit_value_octal d3, digit_value_octal d2,
      digit_value_octal d1, digit_value_octal d0]
    congr 1
    omega
  simp only [hdigits]
  have hbl : (b : Int) ≤ 4095 := by
    have : b < 4096 := by simpa using hb
    omega
  rw [if_neg (by decide)]
  simp only [Bool.false_eq_true, if_false]
  rw [if_neg (by omega), if_neg (by omega)]

/-- C32: for every mode value, on a platform whose `long` has at least 13
bits and whose `mode_t` holds 07777, parsing in base 8, with the idiom of
`parse_snapper_file_line` for the Mode column, the field that `rprintbuf`
renders for the code `P` yields `mode & 07777`; so does the step of
`parse_snapper_file_line` on the column that the header binds to "Mode": the
twelve permission bits are recovered and the file type bits are dropped. -/
theorem permission_field_parsed_back (P : Platform) (record : file_record)
    (hpm : 4 < P.PATH_MAX) (hlong : 13 ≤ P.long_bits)
    (hbits : 0 < P.mode_t.bits) (hmode : P.mode_t.holds 0o7777) :
    parse_numeric P P.mode_t (field_text P record 'P') 8 = Int.land record.re_mode 0o7777 ∧
    ∀ (column_tracker : ColumnTracker) (i : Nat) (r : file_record),
      (i : Int) = column_tracker PERMS_COLUMN → (i : Int) ≠ column_tracker PATH_COLUMN →
      (store_entry P column_tracker i (field_text P record 'P') r).re_mode
        = Int.land record.re_mode 0o7777 := by
  have hb := permission_bits_lt record.re_mode
  have key : parse_numeric P P.mode_t (field_text P record 'P') 8
      = Int.land record.re_mode 0o7777 := by
    rw [field_text_permissions P record hpm]
    unfold parse_numeric
    rw [strtol_octal_digits4 P hlong hb]
    simp only [List.headD_nil, ne_eq, not_true_eq_false, if_false]
    rw [conv_of_holds _ _ hbits, permission_bits_cast]
    have h1 : (permission_bits record.re_mode : Int) < 4096 := by
      have : permission_bits record.re_mode < 4096 := by simpa using hb
      omega
    obtain ⟨hmin, hmax⟩ := hmode
    constructor
    · have : P.mode_t.min ≤ 0 := by
        unfold CInt.min
        split
        · have : (0 : Int) < 2 ^ (P.mode_t.bits - 1) := by positivity
          omega
        · exact le_refl _
      omega
    · omega
  refine ⟨key, ?_⟩
  intro column_tracker i r hi hpath
  have hstep : (store_entry P column_tracker i (field_text P record 'P') r).re_mode
      = parse_numeric P P.mode_t (field_text P record 'P') 8 := by
    simp only [store_entry, if_neg hpath, if_pos hi]
  rw [hstep]
  exact key

/-- C32, on the mode 0104755 (a regular file, setuid, rwxr-xr-x): the field
is `4755` and it is parsed back as 04755. -/
theorem permission_field_parsed_back_witness :
    field_text darwin64 sample_record 'P' = "4755".toList ∧
    parse_numeric darwin64 darwin64.mode_t (field_text darwin64 sample_record 'P') 8
      = Int.land 0o104755 0o7777 ∧
    Int.land 0o104755 0o7777 = 0o4755 :=
  ⟨by decide,
    (permission_field_parsed_back darwin64 sample_record (by decide) (by decide) (by decide)
      (by decide)).1, by decide⟩

theorem getline_loop_terminated (buflen : Nat) (rest : List Char) {terminator : Char}
    (ht : terminator = '\n' ∨ terminator = '\r') :
    ∀ (line acc : List Char), line_text line → (acc ++ line).length < buflen →
      getline_loop buflen (line ++ terminator :: rest) acc
        = (some terminator, false, acc ++ line, true, rest) := by
  have hte : terminator ≠ EOF_char := by rcases ht with rfl | rfl <;> decide
  intro line
  induction line with
  | nil =>
    intro acc _ hlen
    simp only [List.append_nil] at hlen
    rw [List.nil_append, getline_loop, if_neg hte, if_neg (by omega), if_pos ht,
      List.append_nil]
  | cons c cs ih =>
    intro acc hl hlen
    have hc := hl c (List.mem_cons_self _ _)
    have hcs : line_text cs := fun x hx => hl x (List.mem_cons_of_mem _ hx)
    simp only [List.length_append, List.length_cons] at hlen
    rw [List.cons_append, getline_loop]
    rw [if_neg hc.2.2, if_neg (by omega), if_neg (by simp [hc.1, hc.2.1])]
    rw [ih (acc ++ [c]) hcs (by simp only [List.length_append, List.length_cons, List.length_nil]; omega)]
    simp

set_option maxRecDepth 100000 in
/-- C33 fails on the code: for a line of `k` characters before its terminator
(newline or carriage return), `k` smaller than the length of the buffer,
`_getline` leaves the `k` characters in the buffer, terminated, and returns
`k + 1`, not `k`: the terminator that it writes is counted (`*curr_input++`),
so that the line `ab` gives 3 and an empty line gives 1, never 0.  The
negative values are -1 at the end of the file, -2 on a read error and -4 for a
line longer than the buffer; but a line of exactly `buflen` characters gives
`buflen` and no terminator, and the byte 0xFF gives -3. -/
theorem getline_counts_terminator :
    _getline ⟨"ab\ncd".toList, false⟩ 10 = (3, "ab".toList, ⟨"cd".toList, false⟩) ∧
    _getline ⟨"\nab".toList, false⟩ 10 = (1, [], ⟨"ab".toList, false⟩) ∧
    (∀ (line rest : List Char) (terminator : Char) (buflen : Nat) (file_error : Bool),
      line_text line → terminator = '\n' ∨ terminator = '\r' → line.length < buflen →
      _getline ⟨line ++ terminator :: rest, file_error⟩ buflen
        = ((line.length : Int) + 1, line, ⟨rest, file_error⟩)) ∧
    (∀ buflen : Nat, (_getline ⟨[], false⟩ buflen).1 = -1 ∧ (_getline ⟨[], true⟩ buflen).1 = -2) ∧
    (_getline ⟨"abcd\n".toList, false⟩ 3).1 = -4 ∧
    _getline ⟨"abc\nd".toList, false⟩ 3 = (3, "abc".toList, ⟨"d".toList, false⟩) ∧
    (_getline ⟨[EOF_char, 'a', '\n'], false⟩ 10).1 = -3 := by
  refine ⟨by decide, by decide, ?_, ?_, by decide, by decide, by decide⟩
  · intro line rest terminator buflen file_error hl ht hlen
    unfold _getline
    simp only []
    rw [getline_loop_terminated buflen rest ht line [] hl (by simpa using hlen)]
    rcases ht with rfl | rfl <;> simp
  · intro buflen
    constructor <;> simp [_getline, getline_loop]


theorem grow_request_le (P : Platform) (array_capacity : Nat) :
    grow_request P array_capacity ≤ array_capacity + sizeof_key_value_record P * 10 :=
  Nat.mod_le _ _

theorem sizeof_key_value_record_ge (P : Platform) (hptr : 8 ≤ P.long_bits) :
    2 ≤ sizeof_key_value_record P := by
  unfold sizeof_key_value_record
  have : 1 ≤ P.long_bits / 8 := (Nat.one_le_div_iff (by decide)).mpr hptr
  omega

/-- C34: on a platform whose pointers have at least one byte, when the array
of a configuration record is full (`array_size` is not below
`array_capacity`), `add_key_value_record_to_config_file` asks `realloc` for
`array_capacity + sizeof(struct key_value_record) * 10` bytes, the sum of an
element count and a byte count, and sets the capacity to `array_capacity +
10`; for every capacity of at least 1 the request is smaller than the
`(array_capacity + 10) * sizeof(struct key_value_record)` bytes that this
number of records takes, and the call stores its entry past the end of the
block whenever the request is below `(array_size + 1) * sizeof(struct
key_value_record)`. -/
theorem grow_request_too_small (P : Platform) (hptr : 8 ≤ P.long_bits)
    (array_capacity : Nat) (hcap : 1 ≤ array_capacity) :
    (array_capacity + sizeof_key_value_record P * 10 < 2 ^ P.long_bits →
      grow_request P array_capacity = array_capacity + sizeof_key_value_record P * 10) ∧
    grow_request P array_capacity < (array_capacity + 10) * sizeof_key_value_record P ∧
    ∀ (key_rec : key_value_record) (file_record : config_file_t),
      file_record.read = 0 → file_record.valid = 1 →
      file_record.array_capacity = array_capacity →
      ¬ file_record.array_size < file_record.array_capacity →
      0 < grow_request P array_capacity →
      (∀ result, add_key_value_record_to_config_file P key_rec file_record = .ok result →
        result.allocated = grow_request P array_capacity ∧
        result.array_capacity = (array_capacity + 10) % 2 ^ P.int_bits ∧
        result.allocated < (array_capacity + 10) * sizeof_key_value_record P) ∧
      (grow_request P array_capacity < (file_record.array_size + 1) * sizeof_key_value_record P →
        add_key_value_record_to_config_file P key_rec file_record = .error .heap_overflow) := by
  have hs := sizeof_key_value_record_ge P hptr
  have hlt : grow_request P array_capacity
      < (array_capacity + 10) * sizeof_key_value_record P := by
    have h1 := grow_request_le P array_capacity
    have h2 : array_capacity * 2 ≤ array_capacity * sizeof_key_value_record P :=
      Nat.mul_le_mul_left _ hs
    rw [Nat.add_mul]
    omega
  refine ⟨fun h => Nat.mod_eq_of_lt h, hlt, ?_⟩
  intro key_rec file_record hread hvalid hc hfull hpos
  have hadd : add_key_value_record_to_config_file P key_rec file_record
      = if (file_record.array_size + 1) * sizeof_key_value_record P
            ≤ grow_request P array_capacity then
          .ok { file_record with
            allocated := grow_request P array_capacity
            array_capacity := (array_capacity + 10) % 2 ^ P.int_bits
            key_value_array := file_record.key_value_array.take file_record.array_size
              ++ [{ key := cstr key_rec.key, value := cstr key_rec.value }]
            array_size := (file_record.array_size + 1) % 2 ^ P.int_bits }
        else .error .heap_overflow := by
    unfold add_key_value_record_to_config_file
    rw [if_neg (by simp [hread, hvalid])]
    rw [hc] at hfull
    simp only [hc, if_pos hfull, if_pos hpos]
  constructor
  · intro result h
    rw [hadd] at h
    split at h
    · cases h
      exact ⟨rfl, rfl, hlt⟩
    · cases h
  · intro h
    rw [hadd, if_neg (by omega)]

set_option maxRecDepth 100000 in
/-- C34, on the record that `init_config_file` makes and thirty entries fill,
with pointers of 8 bytes: the request is 30 + 160 = 190 bytes for 40 records
of 16 bytes, and the thirty-first entry is stored past the end of the block. -/
theorem grow_request_too_small_witness :
    grow_request darwin64 30 = 190 ∧ 190 < (30 + 10) * sizeof_key_value_record darwin64 ∧
    (full_config_file darwin64).map (fun f => (f.array_size, f.array_capacity, f.allocated))
      = .ok (30, 30, 480) ∧
    add_key_value_records darwin64
        (List.replicate 31 { key := "k".toList, value := "v".toList })
        (init_config_file darwin64)
      = .error .heap_overflow :=
  ⟨((grow_request_too_small darwin64 (by decide) 30 (by decide)).1 (by decide)).trans
      (by decide),
    by decide, by decide, by decide⟩


theorem trim_leading_spaces (core : List Char) (hcore : core.head? ≠ some ' ') :
    ∀ (lead n : Nat), trim_leading (List.replicate lead ' ' ++ core) (lead + n) = lead := by
  intro lead
  induction lead with
  | zero =>
    intro n
    rw [List.replicate_zero, List.nil_append, Nat.zero_add]
    cases core with
    | nil => cases n <;> rfl
    | cons c cs =>
      have hc : c ≠ ' ' := fun h => hcore (by rw [h]; rfl)
      cases n with
      | zero => rfl
      | succ n => rw [trim_leading, if_neg hc]
  | succ lead ih =>
    intro n
    rw [List.replicate_succ, List.cons_append, show lead + 1 + n = (lead + n) + 1 by omega,
      trim_leading, if_pos rfl, ih]

theorem trim_trailing_spaces (init : List Char) {z : Char} (hz : z ≠ ' ') (n : Nat) :
    ∀ t, t ≤ n →
      trim_trailing (init ++ z :: List.replicate n ' ') (init.length + t) = init.length := by
  intro t
  induction t with
  | zero =>
    intro _
    rw [Nat.add_zero]
    cases h : init.length with
    | zero => rfl
    | succ j =>
      rw [trim_trailing, ← h, List.getD_eq_getElem?_getD,
        List.getElem?_append_right (le_refl _), Nat.sub_self]
      simp only [List.getElem?_cons_zero, Option.getD_some]
      rw [if_neg hz]
  | succ t ih =>
    intro ht
    rw [show init.length + (t + 1) = (init.length + t) + 1 by omega, trim_trailing,
      List.getD_eq_getElem?_getD, List.getElem?_append_right (by omega),
      show init.length + t + 1 - init.length = t + 1 by omega, List.getElem?_cons_succ,
      List.getElem?_replicate]
    rw [if_pos (show t < n by omega)]
    simp only [Option.getD_some, if_true]
    exact ih (by omega)

theorem takeWhile_space_replicate (s : List Char) :
    s.takeWhile (fun c => c = ' ')
      = List.replicate (s.takeWhile (fun c => c = ' ')).length ' ' := by
  rw [List.eq_replicate_iff]
  refine ⟨rfl, ?_⟩
  intro c hc
  simpa using List.mem_takeWhile_imp hc

theorem trim_decomposed (lead trail : Nat) (core : List Char) (hcs : is_cstring core)
    (hhead : core.head? ≠ some ' ') (hlast : core.getLast? ≠ some ' ') :
    trim (List.replicate lead ' ' ++ core ++ List.replicate trail ' ')
        (lead + core.length + trail)
      = (core, 0) := by
  rcases List.eq_nil_or_concat core with rfl | ⟨init, z, hconcat⟩
  · rw [List.append_nil, ← List.replicate_add, List.length_nil, Nat.add_zero]
    unfold trim
    by_cases hm : lead + trail < 1
    · rw [if_pos hm]
      have : lead + trail = 0 := by omega
      rw [this]
      rfl
    · rw [if_neg hm]
      have hfound : trim_leading (List.replicate (lead + trail) ' ') (lead + trail)
          = lead + trail := by
        have := trim_leading_spaces [] (by simp) (lead + trail) 0
        simpa using this
      have hpos : lead + trail > 0 := by omega
      simp only [hfound, Nat.sub_self, List.take_zero, if_pos hpos]
      simp [trim_trailing, cstr]
  · rw [List.concat_eq_append] at hconcat
    subst hconcat
    have hz : z ≠ ' ' := by
      intro h
      apply hlast
      rw [h, List.getLast?_concat]
    have hcs' : is_cstring (init ++ [z]) := hcs
    have hm : init ++ [z] ++ List.replicate trail ' ' = init ++ z :: List.replicate trail ' ' := by
      simp
    have hfound : trim_leading
        (List.replicate lead ' ' ++ (init ++ [z]) ++ List.replicate trail ' ')
        (lead + (init ++ [z]).length + trail) = lead := by
      rw [List.append_assoc, Nat.add_assoc]
      apply trim_leading_spaces
      cases init with
      | nil => simpa using hz
      | cons c cs => simpa using hhead
    have hlen : (init ++ [z]).length = init.length + 1 := by simp
    unfold trim
    rw [if_neg (by rw [hlen]; omega)]
    simp only [hfound]
    have hmoved : (if lead > 0 then
          ((List.replicate lead ' ' ++ (init ++ [z]) ++ List.replicate trail ' ').drop lead).take
            (lead + (init ++ [z]).length + trail - lead)
        else List.replicate lead ' ' ++ (init ++ [z]) ++ List.replicate trail ' ')
        = init ++ z :: List.replicate trail ' ' := by
      split
      · rw [List.append_assoc, List.drop_left' (List.length_replicate _ _), hm,
          List.take_of_length_le]
        simp only [List.length_append, List.length_cons, List.length_replicate, hlen]
        omega
      · have : lead = 0 := by omega
        rw [this, List.replicate_zero, List.nil_append, hm]
    rw [hmoved, hlen,
      show lead + (init.length + 1) + trail - lead - 1 = init.length + trail by omega,
      trim_trailing_spaces init hz trail trail (le_refl _),
      show init.length + trail - init.length = trail by omega]
    have htake : (init ++ z :: List.replicate trail ' ').take (init.length + 1) = init ++ [z] := by
      rw [show init ++ z :: List.replicate trail ' ' = (init ++ [z]) ++ List.replicate trail ' ' by
        simp]
      exact List.take_left' hlen
    split
    · rw [htake, cstr_of_cstring hcs']
    · have : trail = 0 := by omega
      rw [this, List.replicate_zero, cstr_of_cstring hcs']

theorem space_decomposition (s : List Char) :
    ∃ (lead trail : Nat) (core : List Char),
      s = List.replicate lead ' ' ++ core ++ List.replicate trail ' ' ∧
      core.head? ≠ some ' ' ∧ core.getLast? ≠ some ' ' := by
  have h1 := List.takeWhile_append_dropWhile (fun c => decide (c = ' ')) s
  have h2 := List.takeWhile_append_dropWhile (fun c => decide (c = ' '))
    (s.dropWhile (fun c => decide (c = ' '))).reverse
  generalize hrest : s.dropWhile (fun c => decide (c = ' ')) = rest at h1 h2
  generalize hcore : rest.reverse.dropWhile (fun c => decide (c = ' ')) = core at h2
  have hlead := takeWhile_space_replicate s
  have htrail := takeWhile_space_replicate rest.reverse
  generalize (s.takeWhile (fun c => decide (c = ' '))).length = lead at hlead
  generalize (rest.reverse.takeWhile (fun c => decide (c = ' '))).length = trail at htrail
  rw [hlead] at h1
  rw [htrail] at h2
  have hr : rest = core.reverse ++ List.replicate trail ' ' := by
    have := congrArg List.reverse h2
    rw [List.reverse_reverse, List.reverse_append, List.reverse_replicate] at this
    exact this.symm
  refine ⟨lead, trail, core.reverse, ?_, ?_, ?_⟩
  · rw [List.append_assoc, ← hr, h1]
  · intro h
    have h3 : rest.head? = some ' ' := by
      rw [hr, List.head?_append, h]
      rfl
    rw [← hrest] at h3
    have := dropWhile_head s ' ' h3
    simp at this
  · rw [List.getLast?_reverse, ← hcore]
    intro h
    have := dropWhile_head rest.reverse ' ' h
    simp at this

/-- What `trim(s, strlen(s))` removes: `s` is a run of spaces, a middle part
that neither begins nor ends with a space, and a run of spaces; the call
returns 0 and the middle part is what is left (the empty string when `s`
holds only spaces). -/
theorem trim_spaces_removed (s : List Char) (hs : is_cstring s) :
    ∃ (lead trail : Nat) (core : List Char),
      s = List.replicate lead ' ' ++ core ++ List.replicate trail ' ' ∧
      core.head? ≠ some ' ' ∧ core.getLast? ≠ some ' ' ∧
      trim s (strlen s) = (core, 0) := by
  obtain ⟨lead, trail, core, hdecomp, hhead, hlast⟩ := space_decomposition s
  refine ⟨lead, trail, core, hdecomp, hhead, hlast, ?_⟩
  have hcore : is_cstring core := by
    intro c hc
    apply hs c
    rw [hdecomp]
    simp only [List.mem_append]
    exact Or.inl (Or.inr hc)
  have hlen : strlen s = lead + core.length + trail := by
    rw [strlen_of_cstring hs, hdecomp]
    simp only [List.length_append, List.length_replicate]
  rw [hlen, hdecomp]
  exact trim_decomposed lead trail core hcore hhead hlast

/-- C36 fails on the code: the documentation of `trim` says that white space
is stripped at both ends, and the two loops of `trim` test for the space
character only.  A tab at the beginning or at the end of the string stays
(and so does a space next to it), as does a carriage return or a newline;
the runs of spaces at the two ends are removed, for every string. -/
theorem trim_keeps_tabs :
    trim "\tkey \t".toList 6 = ("\tkey \t".toList, 0) ∧
    trim " \tkey\t ".toList 7 = ("\tkey\t".toList, 0) ∧
    trim "key\r".toList 4 = ("key\r".toList, 0) ∧
    trim "  key value  ".toList 13 = ("key value".toList, 0) ∧
    trim "   ".toList 3 = ([], 0) ∧
    ∀ s : List Char, is_cstring s →
      ∃ (lead trail : Nat) (core : List Char),
        s = List.replicate lead ' ' ++ core ++ List.replicate trail ' ' ∧
        core.head? ≠ some ' ' ∧ core.getLast? ≠ some ' ' ∧
        trim s (strlen s) = (core, 0) :=
  ⟨by decide, by decide, by decide, by decide, by decide, trim_spaces_removed⟩


theorem create_new_path_loop_succ (source_path : List Char) (level : Int) (pointer : Nat)
    (i : Int) (h : is_cstring source_path) (hlen : pointer + 1 < source_path.length)
    (c : Char) (hc : source_path[pointer + 1]? = some c) (hnul : c ≠ '\x00')
    (hi : i < level) :
    create_new_path_loop source_path level (pointer + 1) i
      = create_new_path_loop source_path level pointer (if c = '/' then i + 1 else i) := by
  have hget : (cstr source_path).getD (pointer + 1) '\x00' = c := by
    rw [cstr_of_cstring h, List.getD_eq_getElem?_getD, hc]
    rfl
  rw [create_new_path_loop, strlen_of_cstring h, if_neg (by omega), hget,
    if_neg (by simp [hnul, hi])]

theorem create_new_path_loop_word (level : Int) (front : List Char) (hfront : 1 ≤ front.length)
    (i : Int) (hi : i < level) :
    ∀ (word back : List Char), is_cstring (front ++ word ++ back) →
      (∀ c ∈ word, c ≠ '/') →
      create_new_path_loop (front ++ word ++ back) level (front.length + word.length - 1) i
        = create_new_path_loop (front ++ word ++ back) level (front.length - 1) i := by
  intro word
  induction word using List.reverseRecOn with
  | nil => intro back _ _; simp
  | append_singleton w c ih =>
    intro back hs hw
    have hc : c ≠ '/' := hw c (by simp)
    have hnul : c ≠ '\x00' := hs c (by simp)
    have hidx : front.length + (w ++ [c]).length - 1 = (front.length + w.length - 1) + 1 := by
      simp only [List.length_append, List.length_singleton]; omega
    have hS : front ++ (w ++ [c]) ++ back = front ++ w ++ ([c] ++ back) := by simp
    rw [hidx, create_new_path_loop_succ _ level _ i hs
      (by simp only [List.length_append, List.length_singleton]; omega) c ?_ hnul hi,
      if_neg hc, hS]
    · exact ih ([c] ++ back) (by rw [← hS]; exact hs) (fun x hx => hw x (by simp [hx]))
    · rw [hS, List.getElem?_append_right (by simp only [List.length_append]; omega)]
      simp only [List.length_append]
      rw [show front.length + w.length - 1 + 1 - (front.length + w.length) = 0 by omega]
      simp

theorem create_new_path_loop_slash (level : Int) (front back : List Char)
    (hfront : 1 ≤ front.length) (i : Int) (hi : i < level)
    (hs : is_cstring (front ++ '/' :: back)) :
    create_new_path_loop (front ++ '/' :: back) level front.length i
      = create_new_path_loop (front ++ '/' :: back) level (front.length - 1) (i + 1) := by
  have hidx : front.length = (front.length - 1) + 1 := by omega
  have hget : (front ++ '/' :: back)[front.length - 1 + 1]? = some '/' := by
    rw [← hidx, List.getElem?_append_right (le_refl _), Nat.sub_self]
    simp
  conv_lhs => rw [hidx]
  rw [create_new_path_loop_succ _ level _ i hs
    (by simp only [List.length_append, List.length_cons]; omega) '/' hget (by decide) hi,
    if_pos rfl]

theorem flatMap_concat_component (cs : List (List Char)) (c : List Char) :
    (cs ++ [c]).flatMap (fun component => '/' :: component)
      = cs.flatMap (fun component => '/' :: component) ++ '/' :: c := by
  simp [List.flatMap_append]

theorem create_new_path_loop_components (level : Int) (root : List Char)
    (hroot : 1 ≤ root.length) :
    ∀ (components : List (List Char)) (back : List Char) (i : Int),
      i + (components.length : Int) = level →
      is_cstring (path_below root components ++ back) →
      (∀ component ∈ components, ∀ c ∈ component, c ≠ '/') →
      create_new_path_loop (path_below root components ++ back) level
          ((path_below root components).length - 1) i
        = .ok (root.length - 1) := by
  intro components
  induction components using List.reverseRecOn with
  | nil =>
    intro back i hi hs _
    simp only [List.length_nil, Nat.cast_zero, add_zero] at hi
    simp only [path_below, List.flatMap_nil, List.append_nil] at hs ⊢
    cases hr : root.length - 1 with
    | zero => rfl
    | succ p =>
      rw [create_new_path_loop, strlen_of_cstring hs, if_neg, if_pos (Or.inr (by omega))]
      simp only [List.length_append]
      omega
  | append_singleton cs c ih =>
    intro back i hi hs hcomp
    simp only [List.length_append, List.length_singleton, Nat.cast_add, Nat.cast_one] at hi
    have hlt : i < level := by omega
    have hpath : path_below root (cs ++ [c]) ++ back
        = (path_below root cs ++ ['/']) ++ c ++ back := by
      simp [path_below, List.flatMap_append]
    have hpath2 : path_below root (cs ++ [c]) ++ back
        = path_below root cs ++ '/' :: (c ++ back) := by
      simp [path_below, List.flatMap_append]
    have hlen : (path_below root (cs ++ [c])).length
        = (path_below root cs ++ ['/']).length + c.length := by
      simp [path_below, List.flatMap_append]
      omega
    have hpl : 1 ≤ (path_below root cs).length := by
      simp only [path_below, List.length_append]; omega
    rw [hlen]
    conv_lhs => rw [hpath]
    rw [create_new_path_loop_word level (path_below root cs ++ ['/'])
      (by simp) i hlt c back (by rw [← hpath]; exact hs)
      (hcomp c (by simp))]
    rw [show (path_below root cs ++ ['/']).length - 1 = (path_below root cs).length by simp,
      List.append_assoc, List.append_assoc, List.singleton_append,
      create_new_path_loop_slash level _ _ hpl i hlt (by rw [← hpath2]; exact hs)]
    exact ih ('/' :: (c ++ back)) (i + 1) (by omega) (by rw [← hpath2]; exact hs)
      (fun component hmem => hcomp component (by simp [hmem]))

/-- C35 fails on the code: for a source path whose first character is the `/`
before its last `level` components, as the paths below the scan root `/` are,
`create_new_path` leaves this `/` out: with the source `/a`, level 1 and the
prefix `/mnt` it writes `/mnta`, and with `/a/b`, level 2, `/mnta/b`.  The
loop stops at `pointer > source_path` before it looks at the first character.
For every scan root that is not empty, followed by `level` components, each
after a `/`, and every prefix such that the result fits the buffer,
`create_new_path` writes the prefix followed by the components, each with
its `/` (the prefix alone when `level` is 0). -/
theorem create_new_path_root_slash :
    create_new_path "/a".toList 2 "/mnt".toList 1 1024 = .ok "/mnta".toList ∧
    create_new_path "/a/b".toList 4 "/mnt".toList 2 1024 = .ok "/mnta/b".toList ∧
    create_new_path "/r/a/b".toList 6 "/mnt".toList 2 1024 = .ok "/mnt/a/b".toList ∧
    create_new_path "/r/a".toList 4 "/mnt".toList 1 8 = .ok "/mnt/a".toList ∧
    create_new_path "/r/abc".toList 6 "/mnt".toList 1 8 = .ok "/mnt/ab".toList ∧
    ∀ (root destination_path_prefix : List Char) (components : List (List Char))
      (buffer_size : Nat),
      root ≠ [] → is_cstring root → is_cstring destination_path_prefix →
      (∀ component ∈ components, is_cstring component ∧ ∀ c ∈ component, c ≠ '/') →
      ( destination_path_prefix
        ++ components.flatMap (fun component => '/' :: component)).length < buffer_size →
      create_new_path (path_below root components) (strlen (path_below root components))
          destination_path_prefix (components.length : Int) buffer_size
        = .ok ( destination_path_prefix
            ++ components.flatMap (fun component => '/' :: component)) := by
  refine ⟨by decide, by decide, by decide, by decide, by decide, ?_⟩
  intro root dest components buffer_size hroot hcr hcd hcomp hfit
  have hrl : 1 ≤ root.length := by
    cases root with
    | nil => exact absurd rfl hroot
    | cons c cs => simp
  have hs : is_cstring (path_below root components) := by
    intro c hc
    simp only [path_below, List.mem_append, List.mem_flatMap, List.mem_cons] at hc
    rcases hc with hc | ⟨component, hmem, rfl | hc⟩
    · exact hcr c hc
    · decide
    · exact (hcomp component hmem).1 c hc
  have hlen : 1 ≤ (path_below root components).length := by
    simp only [path_below, List.length_append]; omega
  have hloop := create_new_path_loop_components (components.length : Int) root hrl components []
    0 (by simp) (by rw [List.append_nil]; exact hs) (fun component hmem => (hcomp component hmem).2)
  rw [List.append_nil] at hloop
  unfold create_new_path
  rw [strlen_of_cstring hs, if_neg (by omega), hloop]
  simp only []
  rw [show root.length - 1 + 1 = root.length by omega, if_neg, cstr_of_cstring hcd,
    cstr_of_cstring hs]
  · congr 1
    have hdrop : (path_below root components).drop root.length
        = components.flatMap (fun component => '/' :: component) := by
      unfold path_below
      exact List.drop_left' rfl
    rw [hdrop]
    exact List.take_of_length_le (by omega)
  · simp only [path_below, List.length_append]; omega


theorem rprintbuf_loop_pieces (P : Platform) (record : file_record) (maxlen : Nat)
    (hpm : 1 < P.PATH_MAX) :
    ∀ (codes : List Char) (dest : List Char),
      (∀ c ∈ codes, c ∈ recognized_codes) →
      ('p' ∈ codes → record.re_path ≠ none) →
      dest.length + (delimited ['\t'] (codes.map (field_text P record))).length + 1 < maxlen →
      ∃ pieces : List (List Char),
        rprintbuf_loop P ['\t'] record maxlen (template_of_codes codes) dest
          = .ok (dest ++ delimited ['\t'] pieces) ∧
        List.Forall₂ (fun code piece => piece = field_text P record code ∨ piece = [])
          codes pieces := by
  have hdelim : snprintf_s P.PATH_MAX ['\t'] = ['\t'] :=
    snprintf_s_of_cstring (by decide) (by simpa using hpm)
  intro codes
  induction codes with
  | nil =>
    intro dest _ _ _
    exact ⟨[], by simp [template_of_codes, rprintbuf_loop, delimited], List.Forall₂.nil⟩
  | cons c cs ih =>
    intro dest hrec hpath hroom
    have hc : c ∈ recognized_codes := hrec c (List.mem_cons_self _ _)
    have hcs : ∀ x ∈ cs, x ∈ recognized_codes := fun x hx => hrec x (List.mem_cons_of_mem _ hx)
    have hpc : c = 'p' → record.re_path ≠ none := fun e => hpath (e ▸ List.mem_cons_self _ _)
    have hpcs : 'p' ∈ cs → record.re_path ≠ none := fun e => hpath (List.mem_cons_of_mem _ e)
    have htpl : template_of_codes (c :: cs) = '%' :: c :: template_of_codes cs := by
      simp [template_of_codes]
    rw [List.map_cons, delimited_cons] at hroom
    simp only [List.length_append, List.length_singleton] at hroom
    have hraw := raw_field_cstring P record hc
    rw [htpl, rprintbuf_loop_percent, if_neg (by omega), rprintbuf_switch_ok P record hc hpc]
    simp only [hdelim]
    rw [if_neg (recognized_ne_nul hc)]
    have hpiece : ∃ piece, copy_field_if_room c dest (raw_field P record c) maxlen
        = dest ++ piece ∧ (piece = field_text P record c ∨ piece = []) := by
      unfold copy_field_if_room
      split
      · exact ⟨field_text P record c, by rw [cstr_of_cstring hraw]; rfl, Or.inl rfl⟩
      · exact ⟨[], by simp, Or.inr rfl⟩
    obtain ⟨piece, hcopy, hp⟩ := hpiece
    have hplen : piece.length ≤ (field_text P record c).length := by
      rcases hp with rfl | rfl
      · exact le_refl _
      · exact Nat.zero_le _
    rw [hcopy, copy_if_room_of_room (by decide)
      (by simp only [List.length_append, List.length_singleton]; omega)]
    obtain ⟨pieces, hloop, hall⟩ := ih (dest ++ piece ++ ['\t']) hcs hpcs
      (by simp only [List.length_append, List.length_singleton]; omega)
    refine ⟨piece :: pieces, ?_, List.Forall₂.cons hp hall⟩
    rw [hloop, delimited_cons]
    simp [List.append_assoc]

theorem delimited_count {x : Char} (hx : x ≠ '\t') :
    ∀ pieces : List (List Char), (∀ piece ∈ pieces, ∀ c ∈ piece, c ≠ x) →
      (delimited ['\t'] pieces).count x = 0 := by
  intro pieces
  induction pieces with
  | nil => intro _; rfl
  | cons piece pieces ih =>
    intro h
    rw [delimited_cons, List.count_append, List.count_append,
      ih (fun q hq => h q (List.mem_cons_of_mem _ hq))]
    have h1 : piece.count x = 0 :=
      List.count_eq_zero.mpr (fun hm => h piece (List.mem_cons_self _ _) x hm rfl)
    have h2 : ['\t'].count x = 0 := List.count_eq_zero.mpr (by simpa using hx)
    omega

theorem delimited_count_tab :
    ∀ pieces : List (List Char), (∀ piece ∈ pieces, ∀ c ∈ piece, c ≠ '\t') →
      (delimited ['\t'] pieces).count '\t' = pieces.length := by
  intro pieces
  induction pieces with
  | nil => intro _; rfl
  | cons piece pieces ih =>
    intro h
    rw [delimited_cons, List.count_append, List.count_append,
      ih (fun q hq => h q (List.mem_cons_of_mem _ hq))]
    have h1 : piece.count '\t' = 0 :=
      List.count_eq_zero.mpr (fun hm => h piece (List.mem_cons_self _ _) _ hm rfl)
    simp only [List.length_cons, h1]
    rw [show ['\t'].count '\t' = 1 from rfl]
    omega

theorem field_text_no_special (P : Platform) (record : file_record) {code : Char}
    (hc : code ∈ recognized_codes) (ht : code ≠ 't') :
    ∀ x ∈ field_text P record code, x ≠ '\t' ∧ x ≠ '\r' ∧ x ≠ '\n' := by
  intro x hx
  have hn : code ≠ 'n' := by rintro rfl; revert hc; decide
  have hr : code ≠ 'r' := by rintro rfl; revert hc; decide
  exact ⟨strip_special_no_tab ht _ x hx, strip_special_no_return hr _ x hx,
    strip_special_no_newline hn _ x hx⟩

theorem pieces_of_fields (P : Platform) (record : file_record) (Q : Char → Prop)
    {codes : List Char} {pieces : List (List Char)}
    (hall : List.Forall₂ (fun code piece => piece = field_text P record code ∨ piece = [])
      codes pieces) :
    (∀ c ∈ codes, ∀ x ∈ field_text P record c, Q x) → ∀ piece ∈ pieces, ∀ x ∈ piece, Q x := by
  induction hall with
  | nil => intro _ piece hp; simp at hp
  | cons hp _ ih =>
    intro hfields q hq x hx
    rcases List.mem_cons.mp hq with rfl | hq
    · rcases hp with rfl | rfl
      · exact hfields _ (List.mem_cons_self _ _) x hx
      · simp at hx
    · exact ih (fun c hc => hfields c (List.mem_cons_of_mem _ hc)) q hq x hx

theorem pieces_length_le (P : Platform) (record : file_record)
    {codes : List Char} {pieces : List (List Char)}
    (hall : List.Forall₂ (fun code piece => piece = field_text P record code ∨ piece = [])
      codes pieces) :
    (delimited ['\t'] pieces).length
      ≤ (delimited ['\t'] (codes.map (field_text P record))).length := by
  induction hall with
  | nil => exact le_refl _
  | cons hp _ ih =>
    rw [List.map_cons, delimited_cons, delimited_cons]
    simp only [List.length_append]
    rcases hp with rfl | rfl
    · omega
    · simp only [List.length_nil]; omega

/-- C38: for every record and every template of `k` recognized codes other
than `t` (spaces between the codes apart), the field that `rprintbuf` renders
for each code holds no tab, carriage return or newline; so, with the default
delimiters, when the line of these fields, each followed by a tab, and the
newline fit the buffer, the line that `rprintbuf` writes holds exactly `k`
tabs and exactly one newline, its last character.  (A field that the guard
leaves out, because it was measured before the three characters were
dropped, does not change the counts.) -/
theorem record_line_tab_count (P : Platform) (snap : snap_t) (record : file_record)
    (codes : List Char) (maxlen : Nat)
    (hcodes : ∀ c ∈ codes, c ∈ recognized_codes ∧ c ≠ 't')
    (htemplate : unspaced snap.column_string = template_of_codes codes)
    (hpath : 'p' ∈ codes → record.re_path ≠ none)
    (hfd : snap.field_delimiter = ['\t']) (hrd : snap.record_delimiter = ['\n'])
    (hpm : 1 < P.PATH_MAX)
    (hroom : (delimited ['\t'] (codes.map (field_text P record)) ++ ['\n']).length < maxlen) :
    (∀ c ∈ codes, ∀ x ∈ field_text P record c, x ≠ '\t' ∧ x ≠ '\r' ∧ x ≠ '\n') ∧
    ∃ line, rprintbuf P snap record maxlen = .ok line ∧
      line.count '\t' = codes.length ∧ line.count '\n' = 1 ∧ line.getLast? = some '\n' := by
  have hfields : ∀ c ∈ codes, ∀ x ∈ field_text P record c, x ≠ '\t' ∧ x ≠ '\r' ∧ x ≠ '\n' :=
    fun c hc => field_text_no_special P record (hcodes c hc).1 (hcodes c hc).2
  refine ⟨hfields, ?_⟩
  simp only [List.length_append, List.length_singleton] at hroom
  obtain ⟨pieces, hloop, hall⟩ := rprintbuf_loop_pieces P record maxlen hpm codes []
    (fun c hc => (hcodes c hc).1) hpath (by simp only [List.length_nil]; omega)
  have hlen : pieces.length = codes.length := hall.length_eq.symm
  have hpieces := pieces_of_fields P record (fun x => x ≠ '\t' ∧ x ≠ '\r' ∧ x ≠ '\n') hall hfields
  have hplen := pieces_length_le P record hall
  refine ⟨delimited ['\t'] pieces ++ ['\n'], ?_, ?_, ?_, ?_⟩
  · unfold rprintbuf
    rw [← rprintbuf_loop_unspaced, htemplate, hfd, hrd, hloop]
    simp only [List.nil_append]
    rw [snprintf_s_of_cstring (by decide) (by simpa using hpm),
      copy_if_room_of_room (by decide) (by simp only [List.length_singleton]; omega)]
  · rw [List.count_append, delimited_count_tab pieces (fun q hq x hx => (hpieces q hq x hx).1),
      hlen]
    rfl
  · rw [List.count_append, delimited_count (by decide) pieces
      (fun q hq x hx => (hpieces q hq x hx).2.2)]
    rfl
  · simp

set_option maxRecDepth 100000 in
/-- C38, on the template `%p%p` and a path of 200 letters and 823 newlines:
the second field is left out (1023 characters were measured), and the line
holds 2 tabs and one newline. -/
theorem record_line_tab_count_witness :
    rprintbuf darwin64 (store_with "%p%p".toList []) newline_path_record 1124
      = .ok (List.replicate 200 'a' ++ "\t\t\n".toList) ∧
    ∃ line, rprintbuf darwin64 (store_with "%p%p".toList []) newline_path_record 1124
        = .ok line ∧
      line.count '\t' = 2 ∧ line.count '\n' = 1 ∧ line.getLast? = some '\n' :=
  ⟨by decide!,
    (record_line_tab_count darwin64 (store_with "%p%p".toList []) newline_path_record
      "pp".toList 1124 (by decide) (by decide) (by decide) rfl rfl (by decide)
      (by decide!)).2⟩


theorem field_text_path_kept (P : Platform) (r : file_record) (path : List Char)
    (hr : r.re_path = some path) (hcs : is_cstring path)
    (hplain : ∀ c ∈ path, c ≠ '\t' ∧ c ≠ '\r' ∧ c ≠ '\n') (hlen : path.length < P.PATH_MAX) :
    field_text P r 'p' = path := by
  unfold field_text raw_field
  rw [rprintbuf_switch_path, hr]
  simp only []
  rw [snprintf_s_of_cstring hcs hlen]
  unfold strip_special
  rw [List.filter_eq_self]
  intro c hc
  obtain ⟨h1, h2, h3⟩ := hplain c hc
  simp [h1, h2, h3]

theorem parse_loop_columns_then (P : Platform) (ct : ColumnTracker) (tail : List Char) :
    ∀ (columns : List (List Char)) (i : Nat) (record : file_record),
      (∀ l ∈ columns, is_cstring l ∧ (∀ c ∈ l, c ≠ '\t') ∧ l.length < P.PATH_MAX) →
      parse_loop P ct (delimited ['\t'] columns ++ tail) [] i record
        = parse_loop P ct tail [] (i + columns.length) (store_entries P ct columns i record) := by
  intro columns
  induction columns with
  | nil => intro i record _; simp [delimited, store_entries]
  | cons l ls ih =>
    intro i record h
    obtain ⟨h1, h2, h3⟩ := h l (List.mem_cons_self _ _)
    rw [delimited_cons, List.append_assoc, List.append_assoc, List.singleton_append,
      parse_loop_column P ct _ i record l [] h1 h2 (by simpa using h3), List.nil_append,
      ih (i + 1) _ (fun x hx => h x (List.mem_cons_of_mem _ hx)), store_entries,
      List.length_cons]
    congr 1
    omega

theorem parse_line_with_newline (P : Platform) (ct : ColumnTracker) (hpm : 0 < P.PATH_MAX)
    (columns : List (List Char))
    (h : ∀ l ∈ columns, is_cstring l ∧ (∀ c ∈ l, c ≠ '\t') ∧ l.length < P.PATH_MAX) :
    parse_snapper_file_line P ct (delimited ['\t'] columns ++ ['\n'])
      = store_entries P ct columns 0 (blank_record P) := by
  unfold parse_snapper_file_line
  rw [parse_loop_columns_then P ct ['\n'] columns 0 _ h, parse_loop,
    if_neg (by simp; omega), if_neg (by decide), parse_loop]

theorem raw_columns_recovered (P : Platform) (hP : P.sound) (codes : List Char)
    (hrec : ∀ c ∈ codes, c ∈ recognized_codes) (hp : 'p' ∈ codes) (ht : 't' ∉ codes)
    (r : file_record) (path : List Char)
    (hpath : r.re_path = some path) (hcs : is_cstring path)
    (hplain : ∀ c ∈ path, c ≠ '\t' ∧ c ≠ '\r' ∧ c ≠ '\n') (hlen : path.length < P.PATH_MAX)
    (hnum : numeric_in_range P r) :
    recovers codes r
      (parse_snapper_file_line P
        (header_entries (codes.map label_of) 0 (initial_column_tracker, [])).1
        (delimited ['\t'] (codes.map (field_text P r)) ++ ['\n'])) := by
  have hpm : 0 < P.PATH_MAX := by have := hP.2.2.1; omega
  have hcols : ∀ l ∈ codes.map (field_text P r),
      is_cstring l ∧ (∀ c ∈ l, c ≠ '\t') ∧ l.length < P.PATH_MAX := by
    intro l hl
    obtain ⟨c, hc, rfl⟩ := List.mem_map.mp hl
    refine ⟨?_, ?_, ?_⟩
    · intro x hx
      exact raw_field_cstring P r (hrec c hc) x (strip_special_subset _ _ x hx)
    · exact field_text_no_tab P r c (fun e => absurd (e ▸ hc) ht)
    · have h1 := strip_special_length_le c (raw_field P r c)
      have h2 := raw_field_length P r (hrec c hc)
      unfold field_text
      omega
  rw [parse_line_with_newline P _ hpm _ hcols]
  have hcol : ∀ {c : Char} {j : Nat}, codes[j]? = some c →
      (codes.map (field_text P r))[j]? = some (field_text P r c) := by
    intro c j h
    rw [List.getElem?_map, h]
    rfl
  obtain ⟨⟨ha1, ha2⟩, ⟨hm1, hm2⟩, ⟨hc1, hc2⟩, ⟨hi0, hi1, hi2⟩, ⟨ho0, ho1, ho2⟩,
    ⟨hg0, hg1, hg2⟩⟩ := hnum
  refine ⟨?_, ?_, ?_, ?_, ?_, ?_, ?_, fun h => absurd h ht⟩
  · obtain ⟨j, hj, hcj, _⟩ := tracker_code hrec hp
    rw [store_entries_at P _ (fun r => r.re_path) (fun e => some (cstr e)) j
      (path_step P _ j hj) _ _ (hcol hcj), field_text_path_kept P r path hpath hcs hplain hlen,
      cstr_of_cstring hcs, hpath]
  · intro hc
    obtain ⟨j, hj, hcj, hex⟩ := tracker_code hrec hc
    have := store_entries_at P _ (numeric_field ATIME_COLUMN) _ j
      (numeric_step P _ (by decide) j hj hex) _ _ (hcol hcj) (blank_record P)
    rw [field_text_atime P hP r ha2] at this
    exact this.trans (parse_numeric_itoa P _ _ hP.2.2.2.1 ha1 ha2)
  · intro hc
    obtain ⟨j, hj, hcj, hex⟩ := tracker_code hrec hc
    have := store_entries_at P _ (numeric_field MTIME_COLUMN) _ j
      (numeric_step P _ (by decide) j hj hex) _ _ (hcol hcj) (blank_record P)
    rw [field_text_mtime P hP r hm2] at this
    exact this.trans (parse_numeric_itoa P _ _ hP.2.2.2.1 hm1 hm2)
  · intro hc
    obtain ⟨j, hj, hcj, hex⟩ := tracker_code hrec hc
    have := store_entries_at P _ (numeric_field CTIME_COLUMN) _ j
      (numeric_step P _ (by decide) j hj hex) _ _ (hcol hcj) (blank_record P)
    rw [field_text_ctime P hP r hc2] at this
    exact this.trans (parse_numeric_itoa P _ _ hP.2.2.2.1 hc1 hc2)
  · intro hc
    obtain ⟨j, hj, hcj, hex⟩ := tracker_code hrec hc
    have := store_entries_at P _ (numeric_field INODE_COLUMN) _ j
      (numeric_step P _ (by decide) j hj hex) _ _ (hcol hcj) (blank_record P)
    rw [field_text_ino P hP r hi0 hi2] at this
    exact this.trans (parse_numeric_itoa P _ _ hP.2.2.2.2.1 hi1 hi2)
  · intro hc
    obtain ⟨j, hj, hcj, hex⟩ := tracker_code hrec hc
    have := store_entries_at P _ (numeric_field OWNER_COLUMN) _ j
      (numeric_step P _ (by decide) j hj hex) _ _ (hcol hcj) (blank_record P)
    rw [field_text_uid P hP r ho0 ho2] at this
    exact this.trans (parse_numeric_itoa P _ _ hP.2.2.2.2.2.1 ho1 ho2)
  · intro hc
    obtain ⟨j, hj, hcj, hex⟩ := tracker_code hrec hc
    have := store_entries_at P _ (numeric_field GROUP_COLUMN) _ j
      (numeric_step P _ (by decide) j hj hex) _ _ (hcol hcj) (blank_record P)
    rw [field_text_gid P hP r hg0 hg2] at this
    exact this.trans (parse_numeric_itoa P _ _ hP.2.2.2.2.2.2 hg1 hg2)

/-- C37: with the default delimiters and the template `%p%A%M%C%i%o%g`, for
every record whose path is not NULL, holds no tab, carriage return or
newline and is shorter than `PATH_MAX`, whose times, inode, owner and group
are values of their types within the range of `long`, and for every `maxlen`
that leaves room for the header line and for the record line: `hprintbuf` and
`rprintbuf` write the two lines, `read_snap_record_from_file` reads its column
map from the header line, and `parse_snapper_file_line`, applied with this
map to the record line, gives a record with the same path, access, modify
and change time, inode, owner and group. -/
theorem raw_columns_parse_back (P : Platform) (hP : P.sound) (record : file_record)
    (path rest : List Char) (file_error : Bool) (maxlen : Nat)
    (hpath : record.re_path = some path) (hcs : is_cstring path)
    (hplain : ∀ c ∈ path, c ≠ '\t' ∧ c ≠ '\r' ∧ c ≠ '\n') (hlen : path.length < P.PATH_MAX)
    (hnum : numeric_in_range P record)
    (hroomh : (delimited ['\t'] ("pAMCiog".toList.map label_of) ++ ['\n']).length < maxlen)
    (hroom : line_room P record ['\t'] ['\n'] "pAMCiog".toList < maxlen) :
    ∃ (header line : List Char) (column_tracker : ColumnTracker) (column_string : List Char),
      hprintbuf (store_with "%p%A%M%C%i%o%g".toList []) maxlen = .ok header ∧
      rprintbuf P (store_with "%p%A%M%C%i%o%g".toList []) record maxlen = .ok line ∧
      read_header P ⟨header ++ rest, file_error⟩
        = some ((column_tracker, column_string), ⟨rest, file_error⟩) ∧
      (parse_snapper_file_line P column_tracker line).re_path = some path ∧
      (parse_snapper_file_line P column_tracker line).re_atime = record.re_atime ∧
      (parse_snapper_file_line P column_tracker line).re_mtime = record.re_mtime ∧
      (parse_snapper_file_line P column_tracker line).re_ctime = record.re_ctime ∧
      (parse_snapper_file_line P column_tracker line).re_ino = record.re_ino ∧
      (parse_snapper_file_line P column_tracker line).re_uid = record.re_uid ∧
      (parse_snapper_file_line P column_tracker line).re_gid = record.re_gid := by
  have hrec : ∀ c ∈ "pAMCiog".toList, c ∈ recognized_codes := by decide
  have hpm : 64 ≤ P.PATH_MAX := hP.2.2.1
  have hh := hprintbuf_codes (store_with "%p%A%M%C%i%o%g".toList []) "pAMCiog".toList
    maxlen hrec (by decide) (by decide) (by decide) (by decide) (by decide) hroomh
  have hr := rprintbuf_codes P (store_with "%p%A%M%C%i%o%g".toList []) record
    "pAMCiog".toList maxlen hrec (by decide) (fun _ => by rw [hpath]; simp) (by decide)
    (by decide) (by simp [store_with]; omega) (by simp [store_with]; omega) hroom
  have hhead := read_header_labels P ("pAMCiog".toList.map label_of) rest file_error
    (fun l hl => codes_labels_ok l hl)
    (by
      have : (delimited ['\t'] ("pAMCiog".toList.map label_of)).length = 41 := by decide
      omega)
  have hrecov := raw_columns_recovered P hP "pAMCiog".toList hrec (by decide) (by decide)
    record path hpath hcs hplain hlen hnum
  have hfd : (store_with "%p%A%M%C%i%o%g".toList []).field_delimiter = ['\t'] := rfl
  have hrd : (store_with "%p%A%M%C%i%o%g".toList []).record_delimiter = ['\n'] := rfl
  rw [hfd, hrd] at hh hr
  refine ⟨delimited ['\t'] ("pAMCiog".toList.map label_of) ++ ['\n'],
    delimited ['\t'] ("pAMCiog".toList.map (field_text P record)) ++ ['\n'],
    (header_entries ("pAMCiog".toList.map label_of) 0 (initial_column_tracker, [])).1,
    (header_entries ("pAMCiog".toList.map label_of) 0 (initial_column_tracker, [])).2,
    hh, hr, ?_, hrecov.1.trans hpath, hrecov.2.1 (by decide), hrecov.2.2.1 (by decide),
    hrecov.2.2.2.1 (by decide), hrecov.2.2.2.2.1 (by decide), hrecov.2.2.2.2.2.1 (by decide),
    hrecov.2.2.2.2.2.2.1 (by decide)⟩
  rw [List.append_assoc, List.singleton_append]
  exact hhead

set_option maxRecDepth 100000 in
/-- C37, on the record of `/a/b` (times 5, 6, 7, inode 42, owner 501, group
20) and the buffer of `write_snap_record_to_file`. -/
theorem raw_columns_parse_back_witness :
    rprintbuf darwin64 (store_with "%p%A%M%C%i%o%g".toList []) sample_record 1124
      = .ok "/a/b\t5\t6\t7\t42\t501\t20\t\n".toList ∧
    ∃ (header line : List Char) (column_tracker : ColumnTracker) (column_string : List Char),
      hprintbuf (store_with "%p%A%M%C%i%o%g".toList []) 1124 = .ok header ∧
      rprintbuf darwin64 (store_with "%p%A%M%C%i%o%g".toList []) sample_record 1124
        = .ok line ∧
      read_header darwin64 ⟨header ++ [], false⟩
        = some ((column_tracker, column_string), ⟨[], false⟩) ∧
      (parse_snapper_file_line darwin64 column_tracker line).re_path = some "/a/b".toList ∧
      (parse_snapper_file_line darwin64 column_tracker line).re_atime = sample_record.re_atime ∧
      (parse_snapper_file_line darwin64 column_tracker line).re_mtime = sample_record.re_mtime ∧
      (parse_snapper_file_line darwin64 column_tracker line).re_ctime = sample_record.re_ctime ∧
      (parse_snapper_file_line darwin64 column_tracker line).re_ino = sample_record.re_ino ∧
      (parse_snapper_file_line darwin64 column_tracker line).re_uid = sample_record.re_uid ∧
      (parse_snapper_file_line darwin64 column_tracker line).re_gid = sample_record.re_gid :=
  ⟨by decide,
    raw_columns_parse_back darwin64 (by decide) sample_record "/a/b".toList [] false 1124
      rfl (by decide) (by decide) (by decide) (by decide) (by decide) (by decide)⟩


theorem escapes_complete_percent_cons (code : Char) (rest : List Char) :
    escapes_complete ('%' :: code :: rest) = escapes_complete rest := by
  rw [escapes_complete.eq_def]
  simp

theorem escapes_complete_plain {c : Char} (h : c ≠ '%') (rest : List Char) :
    escapes_complete (c :: rest) = escapes_complete rest := by
  rw [escapes_complete.eq_def]
  simp [h]

theorem replace_escapes_percent_cons (code : Char) (rest : List Char) :
    replace_escapes ('%' :: code :: rest)
      = delimiter_char (.escape code) :: replace_escapes rest := by
  rw [replace_escapes.eq_def]
  simp [delimiter_char]

theorem replace_escapes_plain {c : Char} (h : c ≠ '%') (rest : List Char) :
    replace_escapes (c :: rest) = c :: replace_escapes rest := by
  rw [replace_escapes.eq_def]
  simp [h]

theorem escapes_complete_items (string : List Char) :
    is_cstring string → escapes_complete string = true →
      (∀ item ∈ delimiter_items string, delimiter_item_ok item) ∧
      (delimiter_items string).map delimiter_char = replace_escapes string ∧
      (replace_escapes string).length ≤ string.length := by
  induction string using delimiter_items.induct with
  | case1 => intro _ _; exact ⟨by simp [delimiter_items], rfl, le_refl _⟩
  | case2 => intro _ h; revert h; decide
  | case3 code rest ih =>
    intro hcs hp
    rw [escapes_complete_percent_cons] at hp
    have hcode : code ≠ '\x00' := hcs code (by simp)
    obtain ⟨h1, h2, h3⟩ := ih (fun c hc => hcs c (by simp [hc])) hp
    rw [delimiter_items_percent_cons, replace_escapes_percent_cons]
    refine ⟨?_, by rw [List.map_cons, h2], by simp only [List.length_cons]; omega⟩
    intro item hi
    rcases List.mem_cons.mp hi with rfl | hi
    · exact hcode
    · exact h1 item hi
  | case4 c rest hc ih =>
    intro hcs hp
    rw [escapes_complete_plain hc] at hp
    have hnul : c ≠ '\x00' := hcs c (by simp)
    obtain ⟨h1, h2, h3⟩ := ih (fun x hx => hcs x (by simp [hx])) hp
    rw [delimiter_items_plain hc, replace_escapes_plain hc]
    refine ⟨?_, by rw [List.map_cons, h2]; rfl, by simp only [List.length_cons]; omega⟩
    intro item hi
    rcases List.mem_cons.mp hi with rfl | hi
    · exact hnul
    · exact h1 item hi

/-- C39: for every string in which every `%`, read from the left, is
followed by a character that it takes as its escape, `parse_delimiter_string`
returns the string with `%t`, `%r`, `%n` replaced by tab, carriage return and
newline, `%` followed by any other character (`%%` included) replaced by
that character, and every other character, a space included, copied
unchanged; the result is never longer than the string. -/
theorem delimiter_escapes_replaced (string : List Char) (hcs : is_cstring string)
    (hp : escapes_complete string = true) :
    parse_delimiter_string string = .ok (replace_escapes string) ∧
    (replace_escapes string).length ≤ string.length := by
  obtain ⟨h1, h2, h3⟩ := escapes_complete_items string hcs hp
  refine ⟨?_, h3⟩
  unfold parse_delimiter_string
  rw [strlen_of_cstring hcs, parse_delimiter_loop_items _ string [] h1 (by simp), h2]
  simp

/-- C39, on the string `a %t%%b%x%n`. -/
theorem delimiter_escapes_replaced_witness :
    parse_delimiter_string "a %t%%b%x%n".toList = .ok "a \t%bx\n".toList ∧
    "a \t%bx\n".toList.length ≤ "a %t%%b%x%n".toList.length :=
  ⟨(delimiter_escapes_replaced "a %t%%b%x%n".toList (by decide) (by decide)).1.trans
      (by decide),
    by decide⟩

theorem parse_delimiter_loop_trailing (maxlen : Nat) (string : List Char) :
    ∀ (dest : List Char),
      (∀ item ∈ delimiter_items string, delimiter_item_ok item) →
      dest.length + string.length < maxlen - 1 →
      parse_delimiter_loop maxlen (string ++ ['%']) dest = .error .overrun := by
  induction string using delimiter_items.induct with
  | case1 =>
    intro dest _ hroom
    simp only [List.length_nil, Nat.add_zero] at hroom
    rw [List.nil_append, parse_delimiter_loop, if_neg (by simp; omega), if_neg (by simp)]
  | case2 =>
    intro dest hok _
    exact absurd rfl (hok (.escape '\x00') (by simp [delimiter_items]))
  | case3 code rest ih =>
    intro dest hok hroom
    rw [delimiter_items_percent_cons] at hok
    have hcode : code ≠ '\x00' := hok (.escape code) (List.mem_cons_self _ _)
    simp only [List.length_cons] at hroom
    rw [List.cons_append, List.cons_append, parse_delimiter_loop_percent,
      if_neg (by omega), if_neg hcode]
    exact ih _ (fun item hi => hok item (List.mem_cons_of_mem _ hi))
      (by simp only [List.length_append, List.length_singleton]; omega)
  | case4 c rest hc ih =>
    intro dest hok hroom
    rw [delimiter_items_plain hc] at hok
    have hnul : c ≠ '\x00' := hok (.plain c) (List.mem_cons_self _ _)
    simp only [List.length_cons] at hroom
    rw [List.cons_append, parse_delimiter_loop_plain _ hc, if_neg (by simp [hnul]; omega)]
    exact ih _ (fun item hi => hok item (List.mem_cons_of_mem _ hi))
      (by simp only [List.length_append, List.length_singleton]; omega)

theorem template_append_percent_cons (code : Char) (rest : List Char) :
    ('%' :: code :: rest) ++ ['%'] = '%' :: code :: (rest ++ ['%']) := rfl

theorem rprintbuf_loop_trailing (P : Platform) (record : file_record) (fd : List Char)
    (maxlen : Nat) (hfd : is_cstring fd) (hfdlen : fd.length < P.PATH_MAX) (T : List Char) :
    ∀ (dest : List Char),
      (∀ item ∈ template_items T, record_item_ok record item) →
      dest.length + items_room P record fd [] (template_items T) < maxlen →
      rprintbuf_loop P fd record maxlen (T ++ ['%']) dest = .error .overrun := by
  have hdelim : snprintf_s P.PATH_MAX fd = fd := snprintf_s_of_cstring hfd hfdlen
  induction T using template_items.induct with
  | case1 =>
    intro dest _ hroom
    rw [List.nil_append, rprintbuf_loop_lone, if_neg (by omega)]
  | case2 =>
    intro dest hok _
    have := hok (.code '\x00') (by rw [template_items_lone_percent]; exact List.mem_singleton_self _)
    exact absurd rfl this.1
  | case3 code rest ih =>
    intro dest hok hroom
    rw [template_items_percent_cons] at hok hroom
    have hcode := hok (.code code) (List.mem_cons_self _ _)
    have hrest : ∀ item ∈ template_items rest, record_item_ok record item :=
      fun item hi => hok item (List.mem_cons_of_mem _ hi)
    rw [items_room_cons] at hroom
    simp only [item_room] at hroom
    have hstrip := strip_special_length_le code (raw_field P record code)
    rw [template_append_percent_cons, rprintbuf_loop_percent, if_neg (by omega),
      rprintbuf_switch_item P record hcode]
    simp only [hdelim]
    rw [if_neg hcode.1,
      copy_field_if_room_of_room code (raw_field_is_cstring P record code) (by omega),
      copy_if_room_of_room hfd (by simp only [List.length_append]; omega)]
    exact ih _ hrest (by simp only [List.length_append]; omega)
  | case4 rest _ ih =>
    intro dest hok hroom
    rw [template_items_space] at hok hroom
    rw [List.cons_append, rprintbuf_loop_space]
    have : 0 ≤ items_room P record fd [] (template_items rest) := Nat.zero_le _
    rw [if_neg (by omega)]
    exact ih dest hok hroom
  | case5 c rest h1 h2 ih =>
    intro dest hok hroom
    rw [template_items_other h1 h2] at hok hroom
    have hc : c ≠ '\x00' := hok (.literal c) (List.mem_cons_self _ _)
    have hrest : ∀ item ∈ template_items rest, record_item_ok record item :=
      fun item hi => hok item (List.mem_cons_of_mem _ hi)
    rw [items_room_cons] at hroom
    simp only [item_room] at hroom
    rw [List.cons_append, rprintbuf_loop_other _ _ _ _ h1 h2, if_neg (by simp [hc]; omega)]
    exact ih _ hrest (by simp only [List.length_append, List.length_singleton]; omega)

theorem hprintbuf_loop_trailing (fd : List Char) (maxlen : Nat) (hfd : is_cstring fd)
    (hfdlen : fd.length < MAX_HEADER) (T : List Char) :
    ∀ (lb : Option (List Char)) (dest : List Char),
      (∀ item ∈ template_items T, header_item_ok item) →
      dest.length + ((template_items T).flatMap (header_item fd)).length < maxlen →
      hprintbuf_loop fd maxlen (T ++ ['%']) lb dest = .error .uninit ∨
      hprintbuf_loop fd maxlen (T ++ ['%']) lb dest = .error .overrun := by
  have hdelim : snprintf_s MAX_HEADER fd = fd := snprintf_s_of_cstring hfd hfdlen
  induction T using template_items.induct with
  | case1 =>
    intro lb dest _ hroom
    rw [List.nil_append, hprintbuf_loop_lone, if_neg (by omega)]
    cases lb
    · exact Or.inl rfl
    · exact Or.inr rfl
  | case2 =>
    intro lb dest hok _
    have := hok (.code '\x00') (by rw [template_items_lone_percent]; exact List.mem_singleton_self _)
    exact absurd rfl this.2.1
  | case3 code rest ih =>
    intro lb dest hok hroom
    rw [template_items_percent_cons] at hok hroom
    have hcode := hok (.code code) (List.mem_cons_self _ _)
    have hrest : ∀ item ∈ template_items rest, header_item_ok item :=
      fun item hi => hok item (List.mem_cons_of_mem _ hi)
    rw [List.flatMap_cons] at hroom
    simp only [header_item, List.length_append] at hroom
    rw [template_append_percent_cons, hprintbuf_loop_percent, if_neg (by omega),
      hprintbuf_switch_item lb hcode]
    simp only [hdelim]
    rw [if_neg hcode.2.1, copy_if_room_of_room (header_text_cstring hcode.2.1) (by omega),
      copy_if_room_of_room hfd (by simp only [List.length_append]; omega)]
    exact ih _ _ hrest (by simp only [List.length_append]; omega)
  | case4 rest _ ih =>
    intro lb dest hok hroom
    rw [template_items_space] at hok hroom
    rw [List.cons_append, hprintbuf_loop_space, if_neg (by omega)]
    exact ih lb dest hok hroom
  | case5 c rest h1 h2 ih =>
    intro lb dest hok hroom
    rw [template_items_other h1 h2] at hok hroom
    have hc : c ≠ '\x00' := hok (.literal c) (List.mem_cons_self _ _)
    have hrest : ∀ item ∈ template_items rest, header_item_ok item :=
      fun item hi => hok item (List.mem_cons_of_mem _ hi)
    rw [List.flatMap_cons] at hroom
    simp only [header_item, List.length_append, List.length_singleton] at hroom
    rw [List.cons_append, hprintbuf_loop_other _ _ h1 h2, if_neg (by simp [hc]; omega)]
    exact ih lb _ hrest (by simp only [List.length_append, List.length_singleton]; omega)

theorem rprintbuf_switch_fault (P : Platform) (record : file_record) (c : Char) {f : Fault}
    (h : rprintbuf_switch P record c = .error f) : f = .nullstr := by
  obtain ⟨rfl, hp⟩ := rprintbuf_switch_error P record c h
  rw [rprintbuf_switch_path, hp] at h
  cases h
  rfl

theorem rprintbuf_loop_no_overrun (P : Platform) (fd : List Char) (record : file_record)
    (maxlen : Nat) (T : List Char) :
    ∀ (dest : List Char), (∀ item ∈ template_items T, item ≠ .code '\x00') →
      rprintbuf_loop P fd record maxlen T dest ≠ .error .overrun := by
  induction T using template_items.induct with
  | case1 => intro dest _; rw [rprintbuf_loop]; simp
  | case2 =>
    intro dest hok
    exact absurd rfl
      (hok (.code '\x00') (by rw [template_items_lone_percent]; exact List.mem_singleton_self _))
  | case3 code rest ih =>
    intro dest hok
    rw [template_items_percent_cons] at hok
    have hcode : code ≠ '\x00' := fun h => hok (.code code) (List.mem_cons_self _ _) (by rw [h])
    rw [rprintbuf_loop_percent]
    split
    · simp
    · split
      · rename_i f hf
        rw [rprintbuf_switch_fault P record code hf]
        simp
      · exact ih _ (fun item hi => hok item (List.mem_cons_of_mem _ hi))
  | case4 rest _ ih =>
    intro dest hok
    rw [template_items_space] at hok
    rw [rprintbuf_loop_space]
    split
    · simp
    · exact ih dest hok
  | case5 c rest h1 h2 ih =>
    intro dest hok
    rw [template_items_other h1 h2] at hok
    rw [rprintbuf_loop_other _ _ _ _ h1 h2]
    split
    · simp
    · exact ih _ (fun item hi => hok item (List.mem_cons_of_mem _ hi))

theorem hprintbuf_loop_no_overrun (fd : List Char) (maxlen : Nat) (T : List Char) :
    ∀ (lb : Option (List Char)) (dest : List Char),
      (∀ item ∈ template_items T, item ≠ .code '\x00') →
      hprintbuf_loop fd maxlen T lb dest ≠ .error .overrun := by
  induction T using template_items.induct with
  | case1 => intro lb dest _; rw [hprintbuf_loop]; simp
  | case2 =>
    intro lb dest hok
    exact absurd rfl
      (hok (.code '\x00') (by rw [template_items_lone_percent]; exact List.mem_singleton_self _))
  | case3 code rest ih =>
    intro lb dest hok
    rw [template_items_percent_cons] at hok
    have hcode : code ≠ '\x00' := fun h => hok (.code code) (List.mem_cons_self _ _) (by rw [h])
    rw [hprintbuf_loop_percent]
    split
    · simp
    · split
      · simp
      · exact ih _ _ (fun item hi => hok item (List.mem_cons_of_mem _ hi))
  | case4 rest _ ih =>
    intro lb dest hok
    rw [template_items_space] at hok
    rw [hprintbuf_loop_space]
    split
    · simp
    · exact ih lb dest hok
  | case5 c rest h1 h2 ih =>
    intro lb dest hok
    rw [template_items_other h1 h2] at hok
    rw [hprintbuf_loop_other _ _ h1 h2]
    split
    · simp
    · exact ih lb _ (fun item hi => hok item (List.mem_cons_of_mem _ hi))

set_option maxRecDepth 100000 in
/-- C40 fails on the code: on a string that ends with a lone `%`, the three
scanning loops step past the terminator.  After the `%` the scan pointer is
on the terminator, the `switch` takes it as a code, and the `source_char++`
at the end of the iteration moves the pointer one past the terminator, where
the test of the loop reads it.  This holds for `parse_delimiter_string` on
every string with complete escapes followed by `%`, and for `rprintbuf` and
`hprintbuf` on every template followed by `%` whose line has room in the
buffer (`hprintbuf` may read its uninitialised `local_buffer` first).  On a
string or a template without a lone `%` the loops stop at the terminator. -/
theorem lone_percent_overruns :
    parse_delimiter_string "%".toList = .error .overrun ∧
    hprintbuf (store_with "%p%".toList []) 1124 = .error .overrun ∧
    rprintbuf darwin64 (store_with "%p%".toList []) sample_record 1124 = .error .overrun ∧
    (∀ string : List Char, is_cstring string → escapes_complete string = true →
      parse_delimiter_string (string ++ ['%']) = .error .overrun) ∧
    (∀ (P : Platform) (snap : snap_t) (record : file_record) (maxlen : Nat),
      (∀ item ∈ template_items snap.column_string, record_item_ok record item) →
      is_cstring snap.field_delimiter → snap.field_delimiter.length < P.PATH_MAX →
      items_room P record snap.field_delimiter [] (template_items snap.column_string) < maxlen →
      rprintbuf P { snap with column_string := snap.column_string ++ ['%'] } record maxlen
        = .error .overrun) ∧
    (∀ (snap : snap_t) (maxlen : Nat),
      (∀ item ∈ template_items snap.column_string, header_item_ok item) →
      is_cstring snap.field_delimiter → snap.field_delimiter.length < MAX_HEADER →
      ((template_items snap.column_string).flatMap
        (header_item snap.field_delimiter)).length < maxlen →
      hprintbuf { snap with column_string := snap.column_string ++ ['%'] } maxlen
          = .error .uninit ∨
        hprintbuf { snap with column_string := snap.column_string ++ ['%'] } maxlen
          = .error .overrun) ∧
    (∀ (P : Platform) (snap : snap_t) (record : file_record) (maxlen : Nat),
      (∀ item ∈ template_items snap.column_string, item ≠ .code '\x00') →
      rprintbuf P snap record maxlen ≠ .error .overrun ∧
      hprintbuf snap maxlen ≠ .error .overrun) ∧
    (∀ string : List Char, is_cstring string → escapes_complete string = true →
      ∃ out, parse_delimiter_string string = .ok out) := by
  refine ⟨by decide, by decide, by decide, ?_, ?_, ?_, ?_, ?_⟩
  · intro string hcs hp
    obtain ⟨h1, _, _⟩ := escapes_complete_items string hcs hp
    unfold parse_delimiter_string
    have hcs' : is_cstring (string ++ ['%']) := is_cstring_append hcs (by decide)
    rw [strlen_of_cstring hcs']
    exact parse_delimiter_loop_trailing _ string [] h1
      (by simp only [List.length_nil, List.length_append, List.length_singleton]; omega)
  · intro P snap record maxlen hok hfd hfdlen hroom
    unfold rprintbuf
    simp only []
    rw [rprintbuf_loop_trailing P record _ maxlen hfd hfdlen snap.column_string [] hok
      (by simpa using hroom)]
  · intro snap maxlen hok hfd hfdlen hroom
    unfold hprintbuf
    simp only []
    rcases hprintbuf_loop_trailing _ maxlen hfd hfdlen snap.column_string none [] hok
      (by simpa using hroom) with h | h
    · left; rw [h]
    · right; rw [h]
  · intro P snap record maxlen hok
    constructor
    · intro h
      unfold rprintbuf at h
      split at h
      · rename_i f hf
        cases h
        exact rprintbuf_loop_no_overrun P _ record maxlen _ [] hok hf
      · cases h
    · intro h
      unfold hprintbuf at h
      split at h
      · rename_i f hf
        cases h
        exact hprintbuf_loop_no_overrun _ maxlen _ none [] hok hf
      · cases h
  · intro string hcs hp
    obtain ⟨h1, h2, _⟩ := escapes_complete_items string hcs hp
    refine ⟨replace_escapes string, ?_⟩
    unfold parse_delimiter_string
    rw [strlen_of_cstring hcs, parse_delimiter_loop_items _ string [] h1 (by simp), h2]
    simp


/-! ## A header line that is not read -/

theorem getline_loop_full (buflen : Nat) (c : Char) (rest : List Char) (hc : c ≠ EOF_char) :
    ∀ (line acc : List Char), line_text line → (acc ++ line).length = buflen →
      getline_loop buflen (line ++ c :: rest) acc
        = (some c, false, acc ++ line, false, rest) := by
  intro line
  induction line with
  | nil =>
    intro acc _ hlen
    simp only [List.append_nil] at hlen
    simp only [List.nil_append, List.append_nil, getline_loop]
    rw [if_neg hc, if_pos (by omega)]
  | cons d ds ih =>
    intro acc hl hlen
    have hd := hl d (List.mem_cons_self _ _)
    have hds : line_text ds := fun x hx => hl x (List.mem_cons_of_mem _ hx)
    simp only [List.length_append, List.length_cons] at hlen
    rw [List.cons_append, getline_loop]
    rw [if_neg hd.2.2, if_neg (show ¬ ¬ acc.length < buflen by omega),
      if_neg (by simp [hd.1, hd.2.1])]
    rw [ih (acc ++ [d]) hds (by
      simp only [List.length_append, List.length_cons, List.length_nil]; omega)]
    simp

/-- A header line of `PATH_MAX + 64` characters or more: `_getline` gives -4. -/
theorem long_header_code (P : Platform) (snap : snap_t) (line rest : List Char) (c : Char)
    (file_error : Bool) (hl : line_text line) (hlen : line.length = P.PATH_MAX + 64)
    (hc : c ≠ EOF_char ∧ c ≠ '\n' ∧ c ≠ '\r') :
    (_getline ⟨line ++ c :: rest, file_error⟩ (P.PATH_MAX + 64)).1 = -4 ∧
    read_snap_record_from_file P snap (some ⟨line ++ c :: rest, file_error⟩)
      = .returned (-1) snap := by
  have hcode : (_getline ⟨line ++ c :: rest, file_error⟩ (P.PATH_MAX + 64)).1 = -4 := by
    unfold _getline
    simp only []
    rw [getline_loop_full (P.PATH_MAX + 64) c rest hc.1 line [] hl (by simpa using hlen)]
    simp only [List.nil_append, Bool.false_eq_true, if_false]
    rw [if_pos]
    refine ⟨hlen, by simp, ?_, ?_⟩
    · intro h; exact hc.2.1 (Option.some.inj h)
    · intro h; exact hc.2.2 (Option.some.inj h)
  exact ⟨hcode, unread_header_code P snap _ (by rw [hcode]; decide)⟩

theorem line_text_replicate (n : Nat) : line_text (List.replicate n 'x') := by
  intro c hc
  rw [List.eq_of_mem_replicate hc]
  decide

/-- C4 as stated fails on the code: a header line without the label "Path"
that `_getline` does not read, because it holds the byte 0xFF or has
`PATH_MAX + 64` characters or more, makes `read_snap_record_from_file` return -1
("Couldn't get header line") with the store as it was; the assertion on the
path column is not reached.  The same holds whenever `_getline` gives no
positive value for the header line. -/
theorem unread_header_returns :
    "Path".toList ∉ tab_columns ("Size\tOwner".toList ++ [EOF_char] ++ "\t".toList) ∧
    read_snap_record_from_file darwin64 (store_with "%p".toList [])
        (some ⟨"Size\tOwner".toList ++ [EOF_char] ++ "\t\n/a\t12\t\n".toList, false⟩)
      = .returned (-1) (store_with "%p".toList []) ∧
    tab_columns (List.replicate 1088 'x' ++ '\t' :: []) = [List.replicate 1088 'x'] ∧
    darwin64.PATH_MAX + 64 = 1088 ∧
    read_snap_record_from_file darwin64 (store_with "%p".toList [])
        (some ⟨List.replicate 1088 'x' ++ '\t' :: "\n/a\t12\t\n".toList, false⟩)
      = .returned (-1) (store_with "%p".toList []) ∧
    ∀ (P : Platform) (snap : snap_t) (snapper_file : FILE),
      (_getline snapper_file (P.PATH_MAX + 64)).1 ≤ 0 →
      read_snap_record_from_file P snap (some snapper_file) = .returned (-1) snap := by
  refine ⟨by decide, by decide, ?_, rfl, ?_, unread_header_code⟩
  · have h := tab_columns_from_column [] (List.replicate 1088 'x') [] (by
      intro c hc
      rw [List.eq_of_mem_replicate hc]
      decide)
    rw [tab_columns, h]
    rfl
  · exact (long_header_code darwin64 (store_with "%p".toList []) (List.replicate 1088 'x')
      "\n/a\t12\t\n".toList '\t' false (line_text_replicate 1088)
      (List.length_replicate _ _) (by decide)).2


end Snapper
